import Mathlib

/-!
# Augmented B-tree with lazy subtree shifts (`md::B_tree`, `md::B_tree_node`)

Shallow embedding of `src/B_tree_node.hh` and `src/B-tree.hh`.

* The key type `K` is `Int`; the satellite type `S` is a parameter.
* The template parameters `B` (number of pivots) and `T` (minimum degree) are
  explicit arguments.
* A node owns the C array `key_t keys[B]` (a list of length `B`, dead slots
  included) and the pointer `children`, which is `nullptr` for a leaf and
  otherwise an array of `B+1` possibly null child pointers.
* Every method that mutates `*this` returns the new node.  Undefined behaviour
  of the C++ code (null dereference, array index out of range, failed
  `assert`) is an explicit `Fault`.
* Recursive methods take a `fuel` argument that bounds the recursion depth.
-/

namespace md

/-- Ways in which the C++ code leaves defined behaviour, plus fuel exhaustion of the model;
`out_of_fuel` also stands for a loop of the code that does not end. -/
inductive Fault where
  | null_deref
  | out_of_bounds
  | assert_fail
  | out_of_fuel
deriving DecidableEq, Repr

/-- Struct `t_key`: a stored value and the pointer to the satellite vector (`none` is `nullptr`). -/
structure key_t (S : Type) where
  value : Int
  satellites : Option (List S)
deriving DecidableEq, Repr

/-- Constructor `t_key()`: value 0 and null satellites. -/
def key_t.empty {S : Type} : key_t S := ⟨0, none⟩

/-- Pointer `key_t*` into a tree: the path of child indices from the node the call was made on,
the index in the `keys` array of the node reached, and the pointee at the time of the call. -/
structure key_ptr (S : Type) where
  path : List Nat
  idx : Nat
  key : key_t S
deriving DecidableEq, Repr

/-- Struct `t_shifted_key_ptr`: an accumulated shift and a possibly null key pointer. -/
structure shifted_key_ptr_t (S : Type) where
  shift : Int
  key : Option (key_ptr S)
deriving DecidableEq, Repr

/-- Class `B_tree_node`: `keys[B]`, `children` (`none` is `nullptr`, i.e. a leaf), `n`, `_shift`. -/
structure B_tree_node (S : Type) where
  keys : List (key_t S)
  children : Option (List (Option (B_tree_node S)))
  n : Nat
  _shift : Int

/-- Class `B_tree`: the head pointer. -/
structure B_tree (S : Type) where
  _head : Option (B_tree_node S)

/-- Class `B_tree::tt_key`: the value type returned by `B_tree::remove`. -/
structure key_tt (S : Type) where
  value : Int
  satellites : List S
deriving DecidableEq, Repr

section arrays

variable {α : Type}

/-- Read `a[i]` of a C array. -/
def rd (a : List α) (i : Nat) : Except Fault α :=
  match a[i]? with
  | some x => .ok x
  | none => .error .out_of_bounds

/-- Write `a[i] = x` of a C array. -/
def wr (a : List α) (i : Nat) (x : α) : Except Fault (List α) :=
  if i < a.length then .ok (a.set i x) else .error .out_of_bounds

/-- Dereference a possibly null pointer. -/
def deref (p : Option α) : Except Fault α :=
  match p with
  | some x => .ok x
  | none => .error .null_deref

/-- The C `assert`. -/
def c_assert (b : Bool) : Except Fault Unit :=
  if b then .ok () else .error .assert_fail

/-- Unsigned `a - b` on an index; a wrap-around (which would index far out of range) is a fault. -/
def usub (a b : Nat) : Except Fault Nat :=
  if b ≤ a then .ok (a - b) else .error .out_of_bounds

/-- The statement `std::swap(a[i], a[j])`. -/
def swap_at (a : List α) (i j : Nat) : Except Fault (List α) := do
  let x ← rd a i
  let y ← rd a j
  let a ← wr a i y
  wr a j x

/-- The width in bits of the type `B_t`, the smallest of `uint8_t`, `uint16_t`, `uint32_t`,
`uint64_t` that holds the template parameter `B` (a `size_t` below 2^63). -/
def B_t_bits (B : Nat) : Nat :=
  if B ≤ 255 then 8 else if B ≤ 65535 then 16 else if B ≤ 4294967295 then 32 else 64

/-- The conversion `(B_t)(v)` of a non-negative value: `v` modulo 2 to the width of `B_t`. -/
def B_t (B v : Nat) : Nat := v % 2 ^ B_t_bits B

end arrays

section node

variable {S : Type}

/-- The node that the constructor `B_tree_node(bool _is_leaf)` leaves behind when it returns:
`B` empty keys, `n = 0`, `_shift = 0`, and for an internal node an array of `B + 1` null children. -/
def B_tree_node.blank (B : Nat) (leaf : Bool) : B_tree_node S :=
  { keys := List.replicate B key_t.empty
    children := if leaf then none else some (List.replicate (B + 1) none)
    n := 0
    _shift := 0 }

/-- Constructor `B_tree_node(bool _is_leaf)`.  For an internal node it clears the new child array
with `for(B_t i = 0; i < B+1; ++i) children[i] = nullptr;`.  The counter `i` is a `B_t` and wraps
around, while `B+1` is a `size_t`: when `B + 1` is not a value of `B_t` (B = 255, 65535,
4294967295) the test `i < B+1` never fails and the loop does not end, which the model reports as
`out_of_fuel`. -/
def B_tree_node.create (B : Nat) (leaf : Bool) : Except Fault (B_tree_node S) :=
  if leaf then pure (B_tree_node.blank B true)
  else if B + 1 < 2 ^ B_t_bits B then pure (B_tree_node.blank B false)
  else .error .out_of_fuel

/-- Method `is_leaf`. -/
def B_tree_node.is_leaf (x : B_tree_node S) : Bool := x.children.isNone

/-- Method `is_full`. -/
def B_tree_node.is_full (B : Nat) (x : B_tree_node S) : Bool := x.n == B

/-- Method `get_n_keys`. -/
def B_tree_node.get_n_keys (x : B_tree_node S) : Nat := x.n

/-- Method `get_shift`. -/
def B_tree_node.get_shift (x : B_tree_node S) : Int := x._shift

/-- Method `shift`. -/
def B_tree_node.shift (x : B_tree_node S) (shift_ : Int) : B_tree_node S :=
  { x with _shift := x._shift + shift_ }

/-- The expression `children[i]` on a node: the array pointer is dereferenced, then indexed. -/
def B_tree_node.child_at (x : B_tree_node S) (i : Nat) : Except Fault (Option (B_tree_node S)) := do
  let ch ← deref x.children
  rd ch i

/-- The statement `children[i] = c` on a node. -/
def B_tree_node.set_child_at (x : B_tree_node S) (i : Nat) (c : Option (B_tree_node S)) :
    Except Fault (B_tree_node S) := do
  let ch ← deref x.children
  let ch ← wr ch i c
  pure { x with children := some ch }

/-- The statement `keys[i] = k` on a node. -/
def B_tree_node.set_key_at (x : B_tree_node S) (i : Nat) (k : key_t S) :
    Except Fault (B_tree_node S) := do
  let ks ← wr x.keys i k
  pure { x with keys := ks }

/-- Method `get_child`. -/
def B_tree_node.get_child (x : B_tree_node S) (i : Nat) : Except Fault (Option (B_tree_node S)) :=
  if i < x.n + 1 ∧ !x.is_leaf then x.child_at i else pure none

/-- Method `get_key`. -/
def B_tree_node.get_key (x : B_tree_node S) (i : Nat) : Except Fault (shifted_key_ptr_t S) :=
  if i < x.n then do
    let k ← rd x.keys i
    pure ⟨x._shift, some ⟨[], i, k⟩⟩
  else pure ⟨x._shift, none⟩

/-- Method `set_child`; a freshly allocated pointer array is taken to hold null pointers. -/
def B_tree_node.set_child (B : Nat) (x : B_tree_node S) (i : Nat) (c : Option (B_tree_node S)) :
    Except Fault (B_tree_node S) :=
  let x := match x.children with
    | none => { x with children := some (List.replicate (B + 1) none) }
    | some _ => x
  x.set_child_at i c

/-- The statement `k.satellites->push_back(s)`. -/
def key_t.push_back (k : key_t S) (s : S) : Except Fault (key_t S) := do
  let sats ← deref k.satellites
  pure { k with satellites := some (sats ++ [s]) }

/-- Method `shifted_key_ptr_t::do_shift`. -/
def shifted_key_ptr_t.do_shift (p : shifted_key_ptr_t S) (shift_ : Int) : shifted_key_ptr_t S :=
  { p with shift := p.shift + shift_ }

/-- Method `shifted_key_ptr_t::shift_key`: the pointee with the shift folded into its value. -/
def shifted_key_ptr_t.shift_key (p : shifted_key_ptr_t S) : Except Fault (key_t S) := do
  let k ← deref p.key
  pure { k.key with value := k.key.value + p.shift }

/-- A pointer returned by a child at index `l` seen from the parent: `do_shift` plus the path. -/
def shifted_key_ptr_t.lift (p : shifted_key_ptr_t S) (l : Nat) (shift_ : Int) :
    shifted_key_ptr_t S :=
  { shift := p.shift + shift_
    key := p.key.map fun q => { q with path := l :: q.path } }

/-- The loop `while(r > l + 1) { mid = (l+r)/2; if(keys[mid].value <= value) l = mid; else r = mid; }`
shared by every descent.  The first argument bounds the number of iterations. -/
def bsearch (keys : List (key_t S)) (value : Int) : Nat → Nat → Nat → Except Fault (Nat × Nat)
  | 0, l, r => if r > l + 1 then .error .out_of_fuel else .ok (l, r)
  | it + 1, l, r =>
    if r > l + 1 then do
      let mid := (l + r) / 2
      let k ← rd keys mid
      if k.value ≤ value then bsearch keys value it mid r
      else bsearch keys value it l mid
    else .ok (l, r)

/-- Method `height`. -/
def B_tree_node.height : Nat → B_tree_node S → Except Fault Int
  | 0, _ => .error .out_of_fuel
  | fuel + 1, x =>
    match x.children with
    | none => pure 1
    | some ch => do
      let c ← deref (← rd ch 0)
      let h ← B_tree_node.height fuel c
      pure (h + 1)

/-- Method `get_max`. -/
def B_tree_node.get_max : Nat → B_tree_node S → Except Fault Int
  | 0, _ => .error .out_of_fuel
  | fuel + 1, x =>
    match x.children with
    | none => do
      let i ← usub x.n 1
      let k ← rd x.keys i
      pure (k.value + x._shift)
    | some ch => do
      let c ← deref (← rd ch x.n)
      let m ← B_tree_node.get_max fuel c
      pure (m + x._shift)

/-- Method `get_min`. -/
def B_tree_node.get_min : Nat → B_tree_node S → Except Fault Int
  | 0, _ => .error .out_of_fuel
  | fuel + 1, x =>
    match x.children with
    | none => do
      let k ← rd x.keys 0
      pure (k.value + x._shift)
    | some ch => do
      let c ← deref (← rd ch 0)
      let m ← B_tree_node.get_min fuel c
      pure (m + x._shift)

/-- Method `check_integrity`; a failing `assert` is a fault, and the only value returned is
`true`.  In an internal node the loop over the unused slots starts at `B_t i = n+1`, the value
`n + 1` truncated to `B_t`, and the loop over the children is `for(B_t i = 0; i < n+1; ++i)`:
when `n + 1` is not a value of `B_t` the counter cannot end that loop, which the model reports
as `out_of_fuel` (the loop over the unused slots then started at 0 and has failed at the
first live key). -/
def B_tree_node.check_integrity (B : Nat) : Nat → B_tree_node S → Except Fault Bool
  | 0, _ => .error .out_of_fuel
  | fuel + 1, x =>
    if x.is_leaf then do
      (List.range x.n).forM fun i => do
        let k ← rd x.keys i
        c_assert k.satellites.isSome
      ((List.range B).drop x.n).forM fun i => do
        let k ← rd x.keys i
        c_assert k.satellites.isNone
      pure true
    else do
      (List.range x.n).forM fun i => do
        let k ← rd x.keys i
        c_assert k.satellites.isSome
        let c ← x.child_at i
        c_assert c.isSome
      let c ← x.child_at x.n
      c_assert c.isSome
      (if x.n < B then do
        let k ← rd x.keys x.n
        c_assert k.satellites.isNone
      else pure () : Except Fault Unit)
      ((List.range B).drop (B_t B (x.n + 1))).forM fun i => do
        let k ← rd x.keys i
        c_assert k.satellites.isNone
        let c ← x.child_at i
        c_assert c.isNone
      (if x.n + 1 < 2 ^ B_t_bits B then
        (List.range (x.n + 1)).forM fun i => do
          let c ← deref (← x.child_at i)
          let b ← B_tree_node.check_integrity B fuel c
          c_assert b
      else .error .out_of_fuel : Except Fault Unit)
      pure true

/-- Method `search`. -/
def B_tree_node.search : Nat → B_tree_node S → Int → Except Fault (shifted_key_ptr_t S)
  | 0, _, _ => .error .out_of_fuel
  | fuel + 1, x, value => do
    let value := value - x._shift
    let (l, _) ← bsearch x.keys value x.n 0 x.n
    let kl ← rd x.keys l
    if kl.value = value ∧ kl.satellites.isSome then
      pure ⟨x._shift, some ⟨[], l, kl⟩⟩
    else
      let l := if kl.value < value then l + 1 else l
      match x.children with
      | none => pure ⟨x._shift, none⟩
      | some ch =>
        match ← rd ch l with
        | none => pure ⟨x._shift, none⟩
        | some c => do
          let tmp_ptr ← B_tree_node.search fuel c value
          pure (tmp_ptr.lift l x._shift)

/-- The loop `while(i < n && keys[n-i-1].value > value) { std::swap(keys[n-i-1],keys[n-i]); i++; }`
of the leaf case of `insert`; returns the keys and the final `i`. -/
def insert_bubble (value : Int) (n : Nat) : Nat → List (key_t S) → Nat → Except Fault (List (key_t S) × Nat)
  | 0, keys, i => if i < n then .error .out_of_fuel else .ok (keys, i)
  | it + 1, keys, i =>
    if i < n then do
      let k ← rd keys (n - i - 1)
      if k.value > value then do
        let keys ← swap_at keys (n - i - 1) (n - i)
        insert_bubble value n it keys (i + 1)
      else .ok (keys, i)
    else .ok (keys, i)

/-- The loops of `split_child` that move the keys (and, in an internal node, the children) at
positions `median_pos + 1 .. lhs->n - 1` of `lhs` to the front of `rhs` by `std::swap`. -/
def split_child_move (median_pos : Nat) : Nat → Nat → B_tree_node S → B_tree_node S →
    Except Fault (B_tree_node S × B_tree_node S)
  | 0, _, lhs, rhs => .ok (lhs, rhs)
  | cnt + 1, i, lhs, rhs => do
    let j := i - median_pos - 1
    let (lhs, rhs) ← (if lhs.is_leaf then pure (lhs, rhs) else do
      let a ← lhs.child_at i
      let b ← rhs.child_at j
      let lhs ← lhs.set_child_at i b
      let rhs ← rhs.set_child_at j a
      pure (lhs, rhs) : Except Fault (B_tree_node S × B_tree_node S))
    let a ← rd lhs.keys i
    let b ← rd rhs.keys j
    let lhs ← lhs.set_key_at i b
    let rhs ← rhs.set_key_at j a
    split_child_move median_pos cnt (i + 1) lhs rhs

/-- The loop `while(i > 0 && keys[i-1].value > keys[i].value)` of `split_child` that bubbles the
promoted median (and the new right sibling) into place. -/
def split_child_bubble : Nat → B_tree_node S → Except Fault (B_tree_node S)
  | 0, x => .ok x
  | i + 1, x => do
    let a ← rd x.keys i
    let b ← rd x.keys (i + 1)
    if a.value > b.value then do
      let ca ← x.child_at (i + 1)
      let cb ← x.child_at (i + 2)
      let x ← x.set_child_at (i + 1) cb
      let x ← x.set_child_at (i + 2) ca
      let x ← x.set_key_at i b
      let x ← x.set_key_at (i + 1) a
      split_child_bubble i x
    else .ok x

/-- The second half of `split_child`: the median is swapped into `keys[n]` and re-based, `rhs`
becomes `children[n+1]`, the key counts of the two halves are set, and the median and `rhs` are
bubbled into place.  The fields of `lhs` and `rhs` are completed before the two nodes are stored
back in the pointer array; the bubbling loop only permutes the pointers. -/
def split_child_link (x : B_tree_node S) (index median_pos : Nat) (lhs rhs : B_tree_node S) :
    Except Fault (B_tree_node S) := do
  -- std::swap(lhs->keys[median_pos], keys[n]); keys[n].value += lhs->_shift;
  let med ← rd lhs.keys median_pos
  let old ← rd x.keys x.n
  let lhs ← lhs.set_key_at median_pos old
  let x ← x.set_key_at x.n { med with value := med.value + lhs._shift }
  -- rhs->n = lhs->n - (median_pos + 1); lhs->n = median_pos;
  let rn ← usub lhs.n (median_pos + 1)
  let rhs := { rhs with n := rn }
  let lhs := { lhs with n := median_pos }
  let x ← x.set_child_at index (some lhs)
  let x ← x.set_child_at (x.n + 1) (some rhs)
  let x ← split_child_bubble x.n x
  pure { x with n := x.n + 1 }

/-- The first half of `split_child`: a fresh node `rhs` is created with the shift of `lhs`, and
the keys (and children) of `lhs` above the median are swapped into it. -/
def split_child_halves (B : Nat) (lhs : B_tree_node S) :
    Except Fault (B_tree_node S × B_tree_node S) := do
  let rhs ← B_tree_node.create B lhs.is_leaf
  let rhs : B_tree_node S := { rhs with _shift := lhs._shift }
  let median_pos := lhs.n / 2
  let (lhs, rhs) ← split_child_move median_pos (lhs.n - (median_pos + 1)) (median_pos + 1) lhs rhs
  if lhs.is_leaf then pure (lhs, rhs) else do
    let j ← usub lhs.n (median_pos + 1)
    let a ← lhs.child_at lhs.n
    let b ← rhs.child_at j
    let lhs ← lhs.set_child_at lhs.n b
    let rhs ← rhs.set_child_at j a
    pure (lhs, rhs)

/-- Method `split_child`. -/
def B_tree_node.split_child (B : Nat) (x : B_tree_node S) (index : Nat) :
    Except Fault (B_tree_node S) := do
  let lhs ← deref (← x.child_at index)
  let median_pos := lhs.n / 2
  let (lhs, rhs) ← split_child_halves B lhs
  split_child_link x index median_pos lhs rhs

/-- Method `insert`. -/
def B_tree_node.insert (B : Nat) : Nat → B_tree_node S → Int → S →
    Except Fault (B_tree_node S × shifted_key_ptr_t S)
  | 0, _, _, _ => .error .out_of_fuel
  | fuel + 1, x, value, satellite => do
    let value := value - x._shift
    if x.is_leaf then
      let elem ← B_tree_node.search 1 x (value + x._shift)
      match elem.key with
      | some p => do
        let k ← rd x.keys p.idx
        let k ← k.push_back satellite
        let x ← x.set_key_at p.idx k
        pure (x, { elem with key := some { p with key := k } })
      | none => do
        let x ← x.set_key_at x.n ⟨value, some [satellite]⟩
        let (keys, i) ← insert_bubble value x.n x.n x.keys 0
        let x := { x with keys := keys, n := x.n + 1 }
        let j ← usub x.n (i + 1)
        let k ← rd x.keys j
        pure (x, ⟨x._shift, some ⟨[], j, k⟩⟩)
    else
      let (l, _) ← bsearch x.keys value x.n 0 x.n
      let kl ← rd x.keys l
      if kl.value = value then do
        let k ← kl.push_back satellite
        let x ← x.set_key_at l k
        pure (x, ⟨x._shift, some ⟨[], l, k⟩⟩)
      else
        let l := if kl.value < value then l + 1 else l
        let c ← x.child_at l
        match c with
        | some c =>
          if c.is_full B then do
            let x ← x.split_child B l
            let kl ← rd x.keys l
            if kl.value = value then do
              let k ← kl.push_back satellite
              let x ← x.set_key_at l k
              pure (x, ⟨x._shift, some ⟨[], l, k⟩⟩)
            else
              let l := if kl.value < value then l + 1 else l
              let c ← deref (← x.child_at l)
              let (c, ans) ← B_tree_node.insert B fuel c value satellite
              let x ← x.set_child_at l (some c)
              pure (x, ans.lift l x._shift)
          else do
            let (c, ans) ← B_tree_node.insert B fuel c value satellite
            let x ← x.set_child_at l (some c)
            pure (x, ans.lift l x._shift)
        | none => do
          let c ← B_tree_node.create B true
          let (c, ans) ← B_tree_node.insert B fuel c value satellite
          let x ← x.set_child_at l (some c)
          pure (x, ans.lift l x._shift)

/-- Method `predecessor`. -/
def B_tree_node.predecessor : Nat → B_tree_node S → Int → Except Fault (shifted_key_ptr_t S)
  | 0, _, _ => .error .out_of_fuel
  | fuel + 1, x, value => do
    let value := value - x._shift
    let (l, _) ← bsearch x.keys value x.n 0 x.n
    let kl ← rd x.keys l
    if x.is_leaf ∧ kl.value ≤ value ∧ kl.satellites.isSome then
      pure ⟨x._shift, some ⟨[], l, kl⟩⟩
    else
      let l := if kl.value < value then l + 1 else l
      let ans : shifted_key_ptr_t S ← (match x.children with
        | none => pure ⟨x._shift, none⟩
        | some ch => do
          match ← rd ch l with
          | none => pure ⟨x._shift, none⟩
          | some c => do
            let a ← B_tree_node.predecessor fuel c value
            pure (a.lift l x._shift) : Except Fault (shifted_key_ptr_t S))
      if ans.key.isNone ∧ l > 0 then do
        let k ← rd x.keys (l - 1)
        if k.value ≤ value then pure { ans with key := some ⟨[], l - 1, k⟩ } else pure ans
      else pure ans

/-- Method `successor`.  The `size_t` index `r` wraps below zero when `r--` is executed at
`r = 0`; it then fails `r < n`, and indexing `children[r]` is out of range. -/
def B_tree_node.successor : Nat → B_tree_node S → Int → Except Fault (shifted_key_ptr_t S)
  | 0, _, _ => .error .out_of_fuel
  | fuel + 1, x, value => do
    let value := value - x._shift
    let (l, r) ← bsearch x.keys value x.n 0 x.n
    let kl ← rd x.keys l
    if kl.value > value ∧ r = 0 then
      if x.is_leaf then pure ⟨x._shift, none⟩ else .error .out_of_bounds
    else
      let r := if kl.value > value then r - 1 else r
      let hit ← (if x.is_leaf ∧ r < x.n then do
          let k ← rd x.keys r
          pure (if k.value > value ∧ k.satellites.isSome then some k else none)
        else pure none : Except Fault (Option (key_t S)))
      match hit with
      | some k => pure ⟨x._shift, some ⟨[], r, k⟩⟩
      | none => do
        let ans : shifted_key_ptr_t S ← (match x.children with
          | none => pure ⟨x._shift, none⟩
          | some ch => do
            match ← rd ch r with
            | none => pure ⟨x._shift, none⟩
            | some c => do
              let a ← B_tree_node.successor fuel c value
              pure (a.lift r x._shift) : Except Fault (shifted_key_ptr_t S))
        if ans.key.isNone ∧ r < x.n then do
          let k ← rd x.keys r
          if k.value > value then pure { ans with key := some ⟨[], r, k⟩ } else pure ans
        else pure ans

/-- The loop `for(j = pos; j < n-1; ++j) { keys[j] = keys[j+1]; children[j] = children[j+1]; }`
of `shift_left` (the child assignment only in an internal node). -/
def shift_left_loop : Nat → Nat → B_tree_node S → Except Fault (B_tree_node S)
  | 0, _, x => .ok x
  | cnt + 1, j, x => do
    let k ← rd x.keys (j + 1)
    let x ← x.set_key_at j k
    let x ← (if x.is_leaf then pure x else do
      let c ← x.child_at (j + 1)
      x.set_child_at j c : Except Fault (B_tree_node S))
    shift_left_loop cnt (j + 1) x

/-- Method `shift_left`. -/
def B_tree_node.shift_left (x : B_tree_node S) (pos : Nat) : Except Fault (B_tree_node S) := do
  let x ← shift_left_loop (x.n - 1 - pos) pos x
  let x ← (if x.is_leaf then pure x else do
    let m ← usub x.n 1
    let c ← x.child_at x.n
    let x ← x.set_child_at m c
    x.set_child_at x.n none : Except Fault (B_tree_node S))
  let m ← usub x.n 1
  let x ← x.set_key_at m key_t.empty
  pure { x with n := m }

/-- The loop `for(j = 0; j < n-pos; ++j) { keys[n-1-j+offset] = keys[n-1-j];
children[n-1-j+offset] = children[n-1-j]; }` of `shift_right`. -/
def shift_right_loop (offset : Nat) : Nat → Nat → B_tree_node S → Except Fault (B_tree_node S)
  | 0, _, x => .ok x
  | cnt + 1, j, x => do
    let src ← usub x.n (1 + j)
    let k ← rd x.keys src
    let x ← x.set_key_at (src + offset) k
    let x ← (if x.is_leaf then pure x else do
      let c ← x.child_at src
      x.set_child_at (src + offset) c : Except Fault (B_tree_node S))
    shift_right_loop offset cnt (j + 1) x

/-- The loop `for(j = pos; j < pos + offset; ++j)` of `shift_right` that clears the gap. -/
def shift_right_clear : Nat → Nat → B_tree_node S → Except Fault (B_tree_node S)
  | 0, _, x => .ok x
  | cnt + 1, j, x => do
    let x ← x.set_key_at j key_t.empty
    let x ← (if x.is_leaf then pure x else x.set_child_at j none : Except Fault (B_tree_node S))
    shift_right_clear cnt (j + 1) x

/-- Method `shift_right`. -/
def B_tree_node.shift_right (x : B_tree_node S) (pos : Nat) (offset : Nat) :
    Except Fault (B_tree_node S) := do
  let x ← (if x.is_leaf then pure x else do
    let c ← x.child_at x.n
    x.set_child_at (x.n + offset) c : Except Fault (B_tree_node S))
  let x ← shift_right_loop offset (x.n - pos) 0 x
  let x ← shift_right_clear offset pos x
  pure { x with n := x.n + offset }

/-- Re-base a child pointer: `p->_shift += a; p->_shift -= b;`. -/
def rebase_child (p : Option (B_tree_node S)) (a b : Int) : Except Fault (Option (B_tree_node S)) := do
  let c ← deref p
  pure (some { c with _shift := c._shift + a - b })

/-- The loops of `merge_children` that move the keys (and children) of `rhs` behind the
separator in `lhs`, re-basing them from the frame of `rhs` to the frame of `lhs`. -/
def merge_children_move (median_pos : Nat) : Nat → Nat → B_tree_node S → B_tree_node S →
    Except Fault (B_tree_node S × B_tree_node S)
  | 0, _, lhs, rhs => .ok (lhs, rhs)
  | cnt + 1, i, lhs, rhs => do
    let d := median_pos + i + 1
    let (lhs, rhs) ← (if lhs.is_leaf then pure (lhs, rhs) else do
      let a ← lhs.child_at d
      let b ← rhs.child_at i
      let lhs ← lhs.set_child_at d b
      let rhs ← rhs.set_child_at i a
      pure (lhs, rhs) : Except Fault (B_tree_node S × B_tree_node S))
    let a ← rd lhs.keys d
    let b ← rd rhs.keys i
    let lhs ← lhs.set_key_at d { b with value := b.value + rhs._shift - lhs._shift }
    let rhs ← rhs.set_key_at i a
    let lhs ← (if lhs.is_leaf then pure lhs else do
      let c ← rebase_child (← lhs.child_at d) rhs._shift lhs._shift
      lhs.set_child_at d c : Except Fault (B_tree_node S))
    merge_children_move median_pos cnt (i + 1) lhs rhs

/-- Method `merge_children`; `h_this` is the pointee of the optional height pointer.  The
assertion compares `(B_t)(children[i]->n + children[i+1]->n + 1)`, the sum truncated to `B_t`,
with `B`. -/
def B_tree_node.merge_children (B : Nat) (x : B_tree_node S) (i : Nat) (h_this : Option Int) :
    Except Fault (B_tree_node S × Option Int) := do
  c_assert (i < x.n)
  let lhs ← deref (← x.child_at i)
  let rhs ← deref (← x.child_at (i + 1))
  c_assert (B_t B (lhs.n + rhs.n + 1) ≤ B)
  let median_pos := lhs.n
  -- std::swap(lhs->keys[lhs->n], keys[i]); lhs->keys[lhs->n].value -= lhs->_shift;
  let a ← rd lhs.keys lhs.n
  let b ← rd x.keys i
  let lhs ← lhs.set_key_at lhs.n { b with value := b.value - lhs._shift }
  let x ← x.set_key_at i a
  let (lhs, rhs) ← merge_children_move median_pos rhs.n 0 lhs rhs
  let (lhs, _) ← (if lhs.is_leaf then pure (lhs, rhs) else do
    let d := median_pos + rhs.n + 1
    let a ← lhs.child_at d
    let b ← rhs.child_at rhs.n
    let lhs ← lhs.set_child_at d b
    let rhs ← rhs.set_child_at rhs.n a
    let c ← rebase_child (← lhs.child_at d) rhs._shift lhs._shift
    let lhs ← lhs.set_child_at d c
    pure (lhs, rhs) : Except Fault (B_tree_node S × B_tree_node S))
  let lhs := { lhs with n := median_pos + rhs.n + 1 }
  -- std::swap(children[i],children[i+1]); shift_left(i); delete rhs;
  let x ← x.set_child_at i (some rhs)
  let x ← x.set_child_at (i + 1) (some lhs)
  let x ← x.shift_left i
  if x.n = 0 then
    -- the contents of lhs move into this node; its shift is added
    let x : B_tree_node S :=
      { keys := lhs.keys, children := lhs.children, n := lhs.n, _shift := x._shift + lhs._shift }
    pure (x, h_this.map (· - 1))
  else pure (x, h_this)

/-- The loop `while(l < n) { keys[l] = keys[l+1]; l++; }` of the leaf case of `remove`. -/
def remove_leaf_loop : Nat → Nat → List (key_t S) → Except Fault (List (key_t S))
  | 0, _, keys => .ok keys
  | cnt + 1, l, keys => do
    let k ← rd keys (l + 1)
    let keys ← wr keys l k
    remove_leaf_loop cnt (l + 1) keys

/-- Method `remove`.  The children `y`, `z`, `c`, `lhs`, `rhs` that the C++ code updates through
pointers are stored back at their index after the update. -/
def B_tree_node.remove (B T : Nat) : Nat → B_tree_node S → Int →
    Except Fault (B_tree_node S × key_t S)
  | 0, _, _ => .error .out_of_fuel
  | fuel + 1, x, value => do
    let value := value - x._shift
    let (l, _) ← bsearch x.keys value x.n 0 x.n
    let kl ← rd x.keys l
    if x.is_leaf then
      if kl.value = value then do
        -- Case 1
        let n ← usub x.n 1
        let keys ← remove_leaf_loop (n - l) l x.keys
        let keys ← wr keys n key_t.empty
        c_assert kl.satellites.isSome
        pure ({ x with keys := keys, n := n }, { kl with value := kl.value + x._shift })
      else pure (x, { (key_t.empty : key_t S) with value := 0 + x._shift })
    else if kl.value = value then do
      -- Case 2
      let y ← deref (← x.child_at l)
      let zp ← x.child_at (l + 1)
      if y.n ≥ T then do
        -- Case 2.a
        let pred ← B_tree_node.predecessor fuel y value
        let k ← pred.shift_key
        let x ← x.set_key_at l k
        let (y, _) ← B_tree_node.remove B T fuel y k.value
        let x ← x.set_child_at l (some y)
        pure (x, { kl with value := kl.value + x._shift })
      else
        let z ← deref zp
        if z.n ≥ T then do
          -- Case 2.b
          let succ ← B_tree_node.successor fuel z value
          let k ← succ.shift_key
          let x ← x.set_key_at l k
          let (z, _) ← B_tree_node.remove B T fuel z k.value
          let x ← x.set_child_at (l + 1) (some z)
          pure (x, { kl with value := kl.value + x._shift })
        else do
          -- Case 2.c
          let (x, _) ← x.merge_children B l none
          let (x, res) ← B_tree_node.remove B T fuel x value
          pure (x, { res with value := res.value + x._shift })
    else do
      -- Case 3
      let l := if kl.value < value then l + 1 else l
      let cp ← x.child_at l
      let lhsp ← (if l > 0 then x.child_at (l - 1) else pure none :
        Except Fault (Option (B_tree_node S)))
      let rhsp ← (if l < x.n then x.child_at (l + 1) else pure none :
        Except Fault (Option (B_tree_node S)))
      let c ← deref cp
      if c.n < T then
        let lhs_ok := match lhsp with
          | some lhs => decide (lhs.n ≥ T)
          | none => false
        let rhs_ok := match rhsp with
          | some rhs => decide (rhs.n ≥ T)
          | none => false
        if lhs_ok then do
          -- Case 3.a, left sibling
          let lhs ← deref lhsp
          let c ← c.shift_right 0 1
          let sep ← rd x.keys (l - 1)
          let c ← c.set_key_at 0 { sep with value := sep.value - c._shift }
          let m ← usub lhs.n 1
          let up ← rd lhs.keys m
          let x ← x.set_key_at (l - 1) { up with value := up.value + lhs._shift }
          let lhs ← lhs.set_key_at m key_t.empty
          let c ← (if c.is_leaf then pure c else do
            let g ← lhs.child_at lhs.n
            let c ← c.set_child_at 0 g
            let g ← rebase_child (← c.child_at 0) lhs._shift c._shift
            c.set_child_at 0 g : Except Fault (B_tree_node S))
          let lhs ← (if lhs.is_leaf then pure lhs else lhs.set_child_at lhs.n none :
            Except Fault (B_tree_node S))
          let lhs := { lhs with n := m }
          let (c, res) ← B_tree_node.remove B T fuel c value
          let x ← x.set_child_at (l - 1) (some lhs)
          let x ← x.set_child_at l (some c)
          pure (x, { res with value := res.value + x._shift })
        else if rhs_ok then do
          -- Case 3.a, right sibling
          let rhs ← deref rhsp
          let sep ← rd x.keys l
          let c ← c.set_key_at c.n { sep with value := sep.value - c._shift }
          let c := { c with n := c.n + 1 }
          let up ← rd rhs.keys 0
          let x ← x.set_key_at l { up with value := up.value + rhs._shift }
          let rhs ← rhs.set_key_at 0 key_t.empty
          let c ← (if c.is_leaf then pure c else do
            let g ← rhs.child_at 0
            let c ← c.set_child_at c.n g
            let g ← rebase_child (← c.child_at c.n) rhs._shift c._shift
            c.set_child_at c.n g : Except Fault (B_tree_node S))
          let rhs ← rhs.shift_left 0
          let (c, res) ← B_tree_node.remove B T fuel c value
          let x ← x.set_child_at (l + 1) (some rhs)
          let x ← x.set_child_at l (some c)
          pure (x, { res with value := res.value + x._shift })
        else do
          -- Case 3.b
          let (x, _) ← (if l > 0 then x.merge_children B (l - 1) none
            else x.merge_children B l none)
          let value := value + x._shift
          let (x, res) ← B_tree_node.remove B T fuel x value
          let res := { res with value := res.value - x._shift }
          pure (x, { res with value := res.value + x._shift })
      else do
        let (c, res) ← B_tree_node.remove B T fuel c value
        let x ← x.set_child_at l (some c)
        pure (x, { res with value := res.value + x._shift })

/-- The loops `for(B_t s=l; s<=n; s++)` of `shift_greater`: `keys[s].value += shift`, and for
`s > l` the child `children[s]` is shifted.  With `guarded` the child is tested against
`nullptr` first (the loop of the branch where the key is found in this node). -/
def shift_greater_loop (guarded : Bool) (l : Nat) (shift : Int) :
    Nat → Nat → B_tree_node S → Except Fault (B_tree_node S)
  | 0, _, x => .ok x
  | cnt + 1, s, x => do
    let k ← rd x.keys s
    let x ← x.set_key_at s { k with value := k.value + shift }
    let x ← (if s > l ∧ !x.is_leaf then do
        match ← x.child_at s with
        | some c => x.set_child_at s (some (c.shift shift))
        | none => if guarded then pure x else .error .null_deref
      else pure x : Except Fault (B_tree_node S))
    shift_greater_loop guarded l shift cnt (s + 1) x

/-- Method `shift_greater` (the console output is not modelled). -/
def B_tree_node.shift_greater : Nat → B_tree_node S → Int → Int →
    Except Fault (B_tree_node S × shifted_key_ptr_t S)
  | 0, _, _, _ => .error .out_of_fuel
  | fuel + 1, x, value, shift => do
    let value := value - x._shift
    let (l, _) ← bsearch x.keys value x.n 0 x.n
    let kl ← rd x.keys l
    if kl.value = value ∧ kl.satellites.isSome then do
      let x ← shift_greater_loop true l shift (x.n + 1 - l) l x
      let k ← rd x.keys l
      pure (x, ⟨x._shift, some ⟨[], l, k⟩⟩)
    else
      let l := if kl.value < value then l + 1 else l
      let x ← shift_greater_loop false l shift (x.n + 1 - l) l x
      match x.children with
      | none => pure (x, ⟨x._shift, none⟩)
      | some ch =>
        match ← rd ch l with
        | none => pure (x, ⟨x._shift, none⟩)
        | some c => do
          let (c, tmp_ptr) ← B_tree_node.shift_greater fuel c value shift
          let x ← x.set_child_at l (some c)
          pure (x, tmp_ptr.lift l x._shift)

/-- Copy loop `for(i = 0; i < cnt; ++i) { dst->keys[d+i] = src->keys[s+i] (re-based by
`a - b`); dst->children[d+i] = src->children[s+i] (re-based); }` used by `fuse_children` when
keys move between the two siblings; `leaf` is the outcome of the test `rhs->is_leaf()` that
selects the loop without the child statements; with `clear` the source slots are reset afterwards
(`src->keys[s+i] = key_t(); src->children[s+i] = nullptr`). -/
def fuse_copy (leaf clear : Bool) (a b : Int) : Nat → Nat → Nat → B_tree_node S → B_tree_node S →
    Except Fault (B_tree_node S × B_tree_node S)
  | 0, _, _, src, dst => .ok (src, dst)
  | cnt + 1, s, d, src, dst => do
    let k ← rd src.keys s
    let dst ← dst.set_key_at d { k with value := k.value + a - b }
    let dst ← (if leaf then pure dst else do
      let c ← src.child_at s
      let dst ← dst.set_child_at d c
      let c ← rebase_child (← dst.child_at d) a b
      dst.set_child_at d c : Except Fault (B_tree_node S))
    let src ← (if clear then do
        let src ← src.set_key_at s key_t.empty
        if leaf then pure src else src.set_child_at s none
      else pure src : Except Fault (B_tree_node S))
    fuse_copy leaf clear a b cnt (s + 1) (d + 1) src dst

/-- Loop `for(i = 0; i < cnt; ++i) { rhs->keys[i] = rhs->keys[i+k]; rhs->children[i] =
rhs->children[i+k]; rhs->keys[i+k] = key_t(); rhs->children[i+k] = nullptr; }` of
`fuse_children` (closing the gap at the front of the right sibling). -/
def fuse_close (k : Nat) : Nat → Nat → B_tree_node S → Except Fault (B_tree_node S)
  | 0, _, x => .ok x
  | cnt + 1, i, x => do
    let key ← rd x.keys (i + k)
    let x ← x.set_key_at i key
    let x ← (if x.is_leaf then pure x else do
      let c ← x.child_at (i + k)
      x.set_child_at i c : Except Fault (B_tree_node S))
    let x ← x.set_key_at (i + k) key_t.empty
    let x ← (if x.is_leaf then pure x else x.set_child_at (i + k) none :
      Except Fault (B_tree_node S))
    fuse_close k cnt (i + 1) x

/-- The loop `for(i = 0; i < rhs->n; ++i) { rhs->keys[rhs->n-1-i+offset] = rhs->keys[rhs->n-1-i];
rhs->children[...] = ...; }` of `fuse_children` (same shape as the loop of `shift_right`). -/
def fuse_open (offset : Nat) (x : B_tree_node S) : Except Fault (B_tree_node S) := do
  let x ← (if x.is_leaf then pure x else do
    let c ← x.child_at x.n
    x.set_child_at (x.n + offset) c : Except Fault (B_tree_node S))
  shift_right_loop offset x.n 0 x

/-- Method `fuse_children`.  The test for merging compares `(B_t)(lhs->n + rhs->n + 1)`, the
sum truncated to `B_t`, with `B`. -/
def B_tree_node.fuse_children (B : Nat) (x : B_tree_node S) (i : Nat) (h_this : Option Int) :
    Except Fault (B_tree_node S × Option Int) := do
  c_assert (i < x.n)
  let lhs ← deref (← x.child_at i)
  let rhs ← deref (← x.child_at (i + 1))
  if B_t B (lhs.n + rhs.n + 1) ≤ B then x.merge_children B i h_this
  else
    let median_pos := (lhs.n + rhs.n + 1) / 2
    if median_pos = lhs.n ∨ median_pos = rhs.n then pure (x, h_this)
    else if median_pos < lhs.n then do
      -- the median key is in the left child
      let offset := lhs.n - median_pos
      let rhs ← fuse_open offset rhs
      let sep ← rd x.keys i
      let rhs ← rhs.set_key_at (offset - 1) { sep with value := sep.value - rhs._shift }
      let (lhs, rhs) ←
        fuse_copy rhs.is_leaf true lhs._shift rhs._shift (offset - 1) (median_pos + 1) 0 lhs rhs
      let (lhs, rhs) ← (if rhs.is_leaf then pure (lhs, rhs) else do
        let c ← lhs.child_at lhs.n
        let rhs ← rhs.set_child_at (offset - 1) c
        let c ← rebase_child (← rhs.child_at (offset - 1)) lhs._shift rhs._shift
        let rhs ← rhs.set_child_at (offset - 1) c
        let lhs ← lhs.set_child_at lhs.n none
        pure (lhs, rhs) : Except Fault (B_tree_node S × B_tree_node S))
      let med ← rd lhs.keys median_pos
      let x ← x.set_key_at i { med with value := med.value + lhs._shift }
      let lhs ← lhs.set_key_at median_pos key_t.empty
      let lhs := { lhs with n := median_pos }
      let rhs := { rhs with n := rhs.n + offset }
      let x ← x.set_child_at i (some lhs)
      let x ← x.set_child_at (i + 1) (some rhs)
      pure (x, h_this)
    else do
      -- the median key is in the right child
      let offset ← usub median_pos (lhs.n + 1)
      let median_pos := median_pos - (lhs.n + 1)
      let sep ← rd x.keys i
      let lhs ← lhs.set_key_at lhs.n { sep with value := sep.value - lhs._shift }
      let (rhs, lhs) ←
        fuse_copy rhs.is_leaf false rhs._shift lhs._shift offset 0 (lhs.n + 1) rhs lhs
      let lhs ← (if rhs.is_leaf then pure lhs else do
        let c ← rhs.child_at offset
        let lhs ← lhs.set_child_at (lhs.n + 1 + offset) c
        let c ← rebase_child (← lhs.child_at (lhs.n + 1 + offset)) rhs._shift lhs._shift
        lhs.set_child_at (lhs.n + 1 + offset) c : Except Fault (B_tree_node S))
      let med ← rd rhs.keys median_pos
      let x ← x.set_key_at i { med with value := med.value + rhs._shift }
      let rhs ← rhs.set_key_at median_pos key_t.empty
      let cnt := rhs.n - offset - 1
      let rhs ← fuse_close (offset + 1) cnt 0 rhs
      let rhs ← (if rhs.is_leaf then pure rhs else do
        let d ← usub rhs.n (offset + 1)
        let c ← rhs.child_at rhs.n
        let rhs ← rhs.set_child_at d c
        rhs.set_child_at rhs.n none : Except Fault (B_tree_node S))
      let rn ← usub rhs.n (offset + 1)
      let lhs := { lhs with n := lhs.n + offset + 1 }
      let rhs := { rhs with n := rn }
      let x ← x.set_child_at i (some lhs)
      let x ← x.set_child_at (i + 1) (some rhs)
      pure (x, h_this)

/-- The statement block of `join_left` / `join_right` that grows a new level above a full root:
the contents of `this` (keys, children, `n`, but not `_shift`) move to a fresh node `tmp`, which
becomes child 0, and `split_child(0)` is applied. -/
def B_tree_node.grow_full (B : Nat) (x : B_tree_node S) : Except Fault (B_tree_node S) := do
  let fresh ← B_tree_node.create B false
  let tmp : B_tree_node S := { keys := x.keys, children := x.children, n := x.n, _shift := 0 }
  let x : B_tree_node S := { keys := fresh.keys, children := fresh.children, n := 0, _shift := x._shift }
  let x ← x.set_child_at 0 (some tmp)
  x.split_child B 0

/-- The descent `while(h1 > h2 + 1)` of `join_left` along the left spine, followed by the
insertion of the pivot and of `t2` at the node reached. -/
def join_left_walk (B : Nat) : Nat → B_tree_node S → B_tree_node S → key_t S → Int → Int →
    Except Fault (B_tree_node S)
  | 0, _, _, _, _, _ => .error .out_of_fuel
  | fuel + 1, t1, t2, max_key, h1, h2 =>
    if h1 > h2 + 1 then do
      let t1_child ← deref (← t1.child_at 0)
      let t1 ← (if t1_child.is_full B then t1.split_child B 0 else pure t1 :
        Except Fault (B_tree_node S))
      let t2 := { t2 with _shift := t2._shift - t1._shift }
      let max_key := { max_key with value := max_key.value - t1._shift }
      let c ← deref (← t1.child_at 0)
      let c ← join_left_walk B fuel c t2 max_key (h1 - 1) h2
      t1.set_child_at 0 (some c)
    else do
      let t1 ← t1.shift_right 0 1
      let t1 ← t1.set_key_at 0 { max_key with value := max_key.value - t1._shift }
      let t2 := { t2 with _shift := t2._shift - t1._shift }
      let t1 ← t1.set_child_at 0 (some t2)
      let (t1, _) ← t1.fuse_children B 0 none
      pure t1

/-- Method `join_left`; returns the new `this` and the new pointee of `h_this`. -/
def B_tree_node.join_left (B : Nat) (fuel : Nat) (x : B_tree_node S) (lhs : Option (B_tree_node S))
    (max_key : key_t S) (h_this h_lhs : Option Int) :
    Except Fault (B_tree_node S × Option Int) :=
  match lhs with
  | none => pure (x, h_this)
  | some t2 => do
    let h1 ← (match h_this with
      | some h => pure h
      | none => x.height fuel : Except Fault Int)
    let h2 ← (match h_lhs with
      | some h => pure h
      | none => t2.height fuel : Except Fault Int)
    c_assert (h2 < h1)
    let (x, h1, h_this) ← (if x.is_full B then do
        let x ← x.grow_full B
        let h ← deref h_this
        pure (x, h1 + 1, some (h + 1))
      else pure (x, h1, h_this) : Except Fault (B_tree_node S × Int × Option Int))
    let x ← join_left_walk B fuel x t2 max_key h1 h2
    pure (x, h_this)

/-- The descent `while(h1 > h2 + 1)` of `join_right` along the right spine, followed by the
insertion of the pivot and of `t2` at the node reached; the height pointer is handed to the
final `fuse_children`. -/
def join_right_walk (B : Nat) : Nat → B_tree_node S → B_tree_node S → key_t S → Int → Int →
    Option Int → Except Fault (B_tree_node S × Option Int)
  | 0, _, _, _, _, _, _ => .error .out_of_fuel
  | fuel + 1, t1, t2, min_key, h1, h2, h_this =>
    if h1 > h2 + 1 then do
      let t1_child ← deref (← t1.child_at t1.n)
      let t1 ← (if t1_child.is_full B then t1.split_child B t1.n else pure t1 :
        Except Fault (B_tree_node S))
      let t2 := { t2 with _shift := t2._shift - t1._shift }
      let min_key := { min_key with value := min_key.value - t1._shift }
      let c ← deref (← t1.child_at t1.n)
      let (c, h_this) ← join_right_walk B fuel c t2 min_key (h1 - 1) h2 h_this
      let t1 ← t1.set_child_at t1.n (some c)
      pure (t1, h_this)
    else do
      let t1 ← t1.set_key_at t1.n { min_key with value := min_key.value - t1._shift }
      let t1 := { t1 with n := t1.n + 1 }
      let t2 := { t2 with _shift := t2._shift - t1._shift }
      let t1 ← t1.set_child_at t1.n (some t2)
      let i ← usub t1.n 1
      t1.fuse_children B i h_this

/-- Method `join_right`; returns the new `this` and the new pointee of `h_this`. -/
def B_tree_node.join_right (B : Nat) (fuel : Nat) (x : B_tree_node S) (rhs : Option (B_tree_node S))
    (min_key : key_t S) (h_this h_rhs : Option Int) :
    Except Fault (B_tree_node S × Option Int) :=
  match rhs with
  | none => pure (x, h_this)
  | some t2 => do
    let h1 ← (match h_this with
      | some h => pure h
      | none => x.height fuel : Except Fault Int)
    let h2 ← (match h_rhs with
      | some h => pure h
      | none => t2.height fuel : Except Fault Int)
    c_assert (h1 ≥ h2)
    let (x, h1, h_this) ← (if x.is_full B then do
        let x ← x.grow_full B
        let h ← deref h_this
        pure (x, h1 + 1, some (h + 1))
      else pure (x, h1, h_this) : Except Fault (B_tree_node S × Int × Option Int))
    if h1 = h2 then do
      -- a new root above `this` (now `tmp`, which takes the shift too) and `t2`
      let fresh ← B_tree_node.create B false
      let tmp : B_tree_node S := x
      let x : B_tree_node S := fresh
      let x ← x.set_key_at 0 { min_key with value := min_key.value - x._shift }
      let x ← x.set_child_at 0 (some tmp)
      let x ← x.set_child_at 1 (some t2)
      let x := { x with n := 1 }
      let h ← deref h_this
      x.fuse_children B 0 (some (h + 1))
    else join_right_walk B fuel x t2 min_key h1 h2 h_this

/-- The statements of `B_tree_node::join` behind its assertion: the maximum of `t1` is removed and
used as the pivot of `join_right` or `join_left`. -/
def B_tree_node.join_proceed (B T : Nat) (fuel : Nat) (x t2 : B_tree_node S) (t1_max : Int) :
    Except Fault (B_tree_node S) := do
  let (t1, t1_max_key) ← B_tree_node.remove B T fuel x t1_max
  let h1 ← t1.height fuel
  let h2 ← t2.height fuel
  if h1 ≥ h2 then do
    let (t1, _) ← t1.join_right B fuel (some t2) t1_max_key (some h1) (some h2)
    pure t1
  else do
    -- the contents of the two nodes are exchanged, so that the result is in `*this`
    let (t1, _) ← t2.join_left B fuel (some t1) t1_max_key (some h2) (some h1)
    pure t1

/-- Method `B_tree_node::join`. -/
def B_tree_node.join (B T : Nat) (fuel : Nat) (x : B_tree_node S) (other : Option (B_tree_node S)) :
    Except Fault (B_tree_node S) :=
  match other with
  | none => pure x
  | some t2 => do
    let t1_max ← x.get_max fuel
    let t2_min ← t2.get_min fuel
    c_assert (t1_max < t2_min)
    x.join_proceed B T fuel t2 t1_max

/-- The loop `for(i = l; i < n; ++i) { rhs->keys[i-l] = keys[i]; keys[i] = key_t(); }` of the leaf
case of `split`. -/
def split_leaf_loop (l : Nat) : Nat → Nat → B_tree_node S → B_tree_node S →
    Except Fault (B_tree_node S × B_tree_node S)
  | 0, _, x, rhs => .ok (x, rhs)
  | cnt + 1, i, x, rhs => do
    let k ← rd x.keys i
    let rhs ← rhs.set_key_at (i - l) k
    let x ← x.set_key_at i key_t.empty
    split_leaf_loop l cnt (i + 1) x rhs

/-- The loops `for(i = from; i < n; ++i) { rhs->keys[i-from] = keys[i];
rhs->children[i-from+1] = children[i+1]; keys[i] = key_t(); children[i+1] = nullptr; }` of the
internal case of `split`. -/
def split_inner_loop (start : Nat) : Nat → Nat → B_tree_node S → B_tree_node S →
    Except Fault (B_tree_node S × B_tree_node S)
  | 0, _, x, rhs => .ok (x, rhs)
  | cnt + 1, i, x, rhs => do
    let k ← rd x.keys i
    let rhs ← rhs.set_key_at (i - start) k
    let c ← x.child_at (i + 1)
    let rhs ← rhs.set_child_at (i - start + 1) c
    let x ← x.set_key_at i key_t.empty
    let x ← x.set_child_at (i + 1) none
    split_inner_loop start cnt (i + 1) x rhs

/-- Method `B_tree_node::split`.  Returns the new `this`, the right tree, and the pointees of
`h_this` and `h_rhs` after the call. -/
def B_tree_node.split (B : Nat) : Nat → B_tree_node S → Int → Option Int →
    Except Fault (B_tree_node S × B_tree_node S × Int × Int)
  | 0, _, _, _ => .error .out_of_fuel
  | fuel + 1, x, value_, h_this => do
    let value := value_ - x._shift
    let h_this ← (match h_this with
      | some h => pure h
      | none => x.height (fuel + 1) : Except Fault Int)
    let h_rhs := h_this
    let (l, _) ← bsearch x.keys value x.n 0 x.n
    let kl ← rd x.keys l
    let l := if kl.value ≤ value then l + 1 else l
    let rhs ← B_tree_node.create B x.is_leaf
    let rhs : B_tree_node S := { rhs with _shift := x._shift }
    if x.is_leaf then do
      let (x, rhs) ← split_leaf_loop l (x.n - l) l x rhs
      let rn ← usub x.n l
      pure ({ x with n := l }, { rhs with n := rn }, h_this, h_rhs)
    else do
      let lhs_child ← deref (← x.child_at l)
      let x ← x.set_child_at l none
      let (lhs_child, rhs_child, h_sub_tree, h_rhs_sub_tree) ←
        B_tree_node.split B fuel lhs_child value (some (h_this - 1))
      let rhs_child := { rhs_child with _shift := rhs_child._shift + x._shift }
      let lhs_child := { lhs_child with _shift := lhs_child._shift + x._shift }
      -- populate the rhs node
      let (x, rhs, h_rhs) ← (if l = x.n then
          pure (x, rhs_child, h_rhs_sub_tree)
        else if h_rhs_sub_tree = h_rhs - 1 then do
          let (x, rhs) ← split_inner_loop l (x.n - l) l x rhs
          let rhs := { rhs with n := x.n - l }
          let rhs ← rhs.set_child_at 0 (some { rhs_child with _shift := rhs_child._shift - x._shift })
          let (rhs, h) ← rhs.fuse_children B 0 (some h_rhs)
          let h ← deref h
          pure (x, rhs, h)
        else do
          let kl ← rd x.keys l
          let min_rhs : key_t S := { kl with value := kl.value + x._shift }
          let x ← x.set_key_at l key_t.empty
          if l + 1 = x.n then do
            let r ← deref (← x.child_at (l + 1))
            let x ← x.set_child_at (l + 1) none
            let r := { r with _shift := r._shift + x._shift }
            let h_rhs := h_rhs - 1
            if h_rhs = h_rhs_sub_tree then do
              let (r, h) ← rhs_child.join_right B fuel (some r) min_rhs (some h_rhs) (some h_rhs)
              let h ← deref h
              pure (x, r, h)
            else do
              c_assert (h_rhs > h_rhs_sub_tree)
              let (r, h) ← r.join_left B fuel (some rhs_child) min_rhs (some h_rhs) (some h_rhs_sub_tree)
              let h ← deref h
              pure (x, r, h)
          else do
            let rn ← usub x.n (l + 1)
            let rhs := { rhs with n := rn }
            let c ← x.child_at (l + 1)
            let rhs ← rhs.set_child_at 0 c
            let x ← x.set_child_at (l + 1) none
            let (x, rhs) ← split_inner_loop (l + 1) (x.n - (l + 1)) (l + 1) x rhs
            let (rhs, h) ← rhs.join_left B fuel (some rhs_child) min_rhs (some h_rhs) (some h_rhs_sub_tree)
            let h ← deref h
            pure (x, rhs, h) : Except Fault (B_tree_node S × B_tree_node S × Int))
      -- populate the lhs (this) node
      let x := { x with n := l }
      if l = 0 then
        -- this node takes over the contents and the shift of lhs_child
        pure (lhs_child, rhs, h_sub_tree, h_rhs)
      else do
        let k ← rd x.keys (l - 1)
        let max_lhs : key_t S := { k with value := k.value + x._shift }
        let x ← x.set_key_at (l - 1) key_t.empty
        let x := { x with n := l - 1 }
        let (x, h_this) ← (if l = 1 then do
            let other ← deref (← x.child_at 0)
            let x : B_tree_node S :=
              { keys := other.keys, children := other.children, n := other.n,
                _shift := x._shift + other._shift }
            pure (x, h_this - 1)
          else pure (x, h_this) : Except Fault (B_tree_node S × Int))
        let (x, h) ← x.join_right B fuel (some lhs_child) max_lhs (some h_this) (some h_sub_tree)
        let h ← deref h
        pure (x, rhs, h, h_rhs)

end node

section tree

variable {S : Type}

/-- Constructor `B_tree()`. -/
def B_tree.create : B_tree S := ⟨none⟩

/-- Method `B_tree::is_empty`. -/
def B_tree.is_empty (t : B_tree S) : Bool := t._head.isNone

/-- Method `B_tree::get_max`. -/
def B_tree.get_max (fuel : Nat) (t : B_tree S) : Except Fault Int := do
  let head ← deref t._head
  head.get_max fuel

/-- Method `B_tree::get_min`. -/
def B_tree.get_min (fuel : Nat) (t : B_tree S) : Except Fault Int := do
  let head ← deref t._head
  head.get_min fuel

/-- Method `B_tree::check_integrity`. -/
def B_tree.check_integrity (B : Nat) (fuel : Nat) (t : B_tree S) : Except Fault Bool := do
  let head ← deref t._head
  head.check_integrity B fuel

/-- Method `B_tree::make_set`. -/
def B_tree.make_set (B : Nat) (fuel : Nat) (_t : B_tree S) (value_ : Int) (satellite_ : S) :
    Except Fault (B_tree S × shifted_key_ptr_t S) := do
  let head ← B_tree_node.create B true
  let (h, r) ← B_tree_node.insert B fuel head value_ satellite_
  pure (⟨some h⟩, r)

/-- Method `B_tree::insert`. -/
def B_tree.insert (B : Nat) (fuel : Nat) (t : B_tree S) (value_ : Int) (satellite_ : S) :
    Except Fault (B_tree S × shifted_key_ptr_t S) :=
  match t._head with
  | none => t.make_set B fuel value_ satellite_
  | some head =>
    if head.is_full B then do
      let tmp ← B_tree_node.create B false
      let tmp ← tmp.set_child B 0 (some head)
      let tmp ← tmp.split_child B 0
      let (h, r) ← B_tree_node.insert B fuel tmp value_ satellite_
      pure (⟨some h⟩, r)
    else do
      let (h, r) ← B_tree_node.insert B fuel head value_ satellite_
      pure (⟨some h⟩, r)

/-- Method `B_tree::search`. -/
def B_tree.search (fuel : Nat) (t : B_tree S) (value_ : Int) : Except Fault (shifted_key_ptr_t S) :=
  match t._head with
  | some head => B_tree_node.search fuel head value_
  | none => pure ⟨0, none⟩

/-- Method `B_tree::shift`. -/
def B_tree.shift (t : B_tree S) (shift_ : Int) : B_tree S :=
  match t._head with
  | some head => ⟨some (head.shift shift_)⟩
  | none => t

/-- Method `B_tree::remove`. -/
def B_tree.remove (B T : Nat) (fuel : Nat) (t : B_tree S) (value_ : Int) :
    Except Fault (B_tree S × key_tt S) := do
  let head ← deref t._head
  let (head, res) ← B_tree_node.remove B T fuel head value_
  let t : B_tree S := if head.get_n_keys = 0 then ⟨none⟩ else ⟨some head⟩
  match res.satellites with
  | some sats => pure (t, ⟨res.value, sats⟩)
  | none => pure (t, ⟨0, []⟩)

/-- Method `B_tree::shift_greater`. -/
def B_tree.shift_greater (fuel : Nat) (t : B_tree S) (value_ : Int) (shift_ : Int) :
    Except Fault (B_tree S × shifted_key_ptr_t S) :=
  match t._head with
  | some head => do
    let (head, r) ← B_tree_node.shift_greater fuel head value_ shift_
    pure (⟨some head⟩, r)
  | none => pure (t, ⟨0, none⟩)

/-- Method `B_tree::predecessor`. -/
def B_tree.predecessor (fuel : Nat) (t : B_tree S) (value_ : Int) :
    Except Fault (shifted_key_ptr_t S) :=
  match t._head with
  | some head => B_tree_node.predecessor fuel head value_
  | none => pure ⟨0, none⟩

/-- Method `B_tree::successor`. -/
def B_tree.successor (fuel : Nat) (t : B_tree S) (value_ : Int) :
    Except Fault (shifted_key_ptr_t S) :=
  match t._head with
  | some head => B_tree_node.successor fuel head value_
  | none => pure ⟨0, none⟩

/-- Method `B_tree::join`; the result is the new `*this` (`rhs` is destroyed). -/
def B_tree.join (B T : Nat) (fuel : Nat) (t : B_tree S) (rhs : B_tree S) :
    Except Fault (B_tree S) :=
  match t._head with
  | none => pure ⟨rhs._head⟩
  | some head =>
    match rhs._head with
    | none => pure t
    | some r => do
      let head ← head.join B T fuel (some r)
      pure ⟨some head⟩

/-- Method `B_tree::split`; the result is the new `*this` and the returned tree. -/
def B_tree.split (B : Nat) (fuel : Nat) (t : B_tree S) (value_ : Int) :
    Except Fault (B_tree S × B_tree S) :=
  match t._head with
  | none => pure (t, ⟨none⟩)
  | some head => do
    let (head, r, _, _) ← head.split B fuel value_ none
    let rhs : B_tree S := if r.get_n_keys = 0 then ⟨none⟩ else ⟨some r⟩
    let t : B_tree S := if head.get_n_keys = 0 then ⟨none⟩ else ⟨some head⟩
    pure (t, rhs)

/-- The loop `for(auto sat: *src) p.key->satellites->push_back(sat)` through a key pointer `p`
into the subtree of `x`: the pointee is reached along the path of child indices. -/
def B_tree_node.push_back_at (x : B_tree_node S) : List Nat → Nat → List S →
    Except Fault (B_tree_node S)
  | [], idx, sats => do
    let k ← rd x.keys idx
    let old ← deref k.satellites
    x.set_key_at idx { k with satellites := some (old ++ sats) }
  | i :: path, idx, sats => do
    let ch ← deref x.children
    let c ← deref (← rd ch i)
    let c ← B_tree_node.push_back_at c path idx sats
    x.set_child_at i (some c)

/-- The `do { ... } while(A->_head != nullptr && D->_head != nullptr)` loop of `B_tree::merge`
on the trees `A`, `D` and `C`; the first argument bounds the number of rounds. -/
def B_tree.merge_loop (B T fuel : Nat) : Nat → B_tree S → B_tree S → B_tree S →
    Except Fault (B_tree S × B_tree S × B_tree S)
  | 0, _, _, _ => .error .out_of_fuel
  | rounds + 1, A, D, C => do
    let min_A ← (← deref A._head).get_min fuel
    let min_D ← (← deref D._head).get_min fuel
    let (A, D, min_D) := if min_D < min_A then (D, A, min_A) else (A, D, min_D)
    let (A_I, A) ← A.split B fuel min_D
    -- perform the pruning
    let (A_I, eq_elem) ← A_I.split B fuel (min_D - 1)
    let D ← (match eq_elem._head with
      | some e => do
        let hd ← deref D._head
        let min_elem ← hd.predecessor fuel min_D
        let src ← deref (← e.get_key 0).key
        let sats ← deref src.key.satellites
        let p ← deref min_elem.key
        let hd ← hd.push_back_at p.path p.idx sats
        pure ⟨some hd⟩
      | none => pure D : Except Fault (B_tree S))
    let C ← C.join B T fuel A_I
    if A._head.isSome ∧ D._head.isSome then B_tree.merge_loop B T fuel rounds A D C
    else pure (A, D, C)

/-- Method `B_tree::merge` (the Farach and Thorup algorithm); the result is the new `*this`
(`rhs` is destroyed). -/
def B_tree.merge (B T fuel rounds : Nat) (t : B_tree S) (rhs : B_tree S) :
    Except Fault (B_tree S) :=
  let (t, rhs) : B_tree S × B_tree S :=
    match t._head with
    | none => (⟨rhs._head⟩, ⟨none⟩)
    | some _ => (t, rhs)
  match rhs._head with
  | none => pure t
  | some _ => do
    let (A, D, C) ← B_tree.merge_loop B T fuel rounds t rhs B_tree.create
    let C ← C.join B T fuel A
    let C ← C.join B T fuel D
    pure ⟨C._head⟩

/-- Class `B_tree::iterator`: the stack of (node, (index, shift)), `_current`, `_current_index`
and `_shift`.  Node pointers are the nodes themselves (the tree is not mutated while iterating). -/
structure iterator (S : Type) where
  stack : List (Option (B_tree_node S) × Nat × Int)
  _current : Option (B_tree_node S)
  _current_index : Nat
  _shift : Int

/-- The loop `while(!_current->is_leaf() && _current->get_child(0) != nullptr)` that walks to
the leftmost leaf, pushing the nodes passed. -/
def iterator.leftmost : Nat → List (Option (B_tree_node S) × Nat × Int) → B_tree_node S → Int →
    Except Fault (List (Option (B_tree_node S) × Nat × Int) × B_tree_node S × Int)
  | 0, _, _, _ => .error .out_of_fuel
  | fuel + 1, stack, cur, sh => do
    if cur.is_leaf then pure (stack, cur, sh)
    else
      match ← cur.get_child 0 with
      | none => pure (stack, cur, sh)
      | some c => iterator.leftmost fuel ((some cur, 0, sh) :: stack) c (sh + cur.get_shift)

/-- Constructor `iterator(pointer current_)`. -/
def iterator.create (fuel : Nat) (current_ : Option (B_tree_node S)) : Except Fault (iterator S) :=
  match current_ with
  | none => pure ⟨[], none, 0, 0⟩
  | some cur => do
    let (stack, cur, sh) ← iterator.leftmost fuel [(none, 0, 0)] cur 0
    pure ⟨(some cur, 0, sh) :: stack, some cur, 0, sh⟩

/-- The loop `while(_current != nullptr && _current_index >= _current->get_n_keys())` of
`internal_inc` that pops the exhausted nodes. -/
def iterator.unwind : Nat → iterator S → Except Fault (iterator S)
  | 0, _ => .error .out_of_fuel
  | fuel + 1, it =>
    match it._current with
    | none => pure it
    | some cur =>
      if it._current_index ≥ cur.get_n_keys then
        match it.stack with
        | [] => .error .out_of_bounds
        | (c, i, sh) :: rest => iterator.unwind fuel ⟨rest, c, i, sh⟩
      else pure it

/-- Method `iterator::internal_inc`. -/
def iterator.internal_inc (fuel : Nat) (it : iterator S) : Except Fault (iterator S) :=
  match it.stack with
  | [] => .error .out_of_bounds
  | (c, i, sh) :: stack =>
    match c with
    | none => pure ⟨stack, none, i, sh⟩
    | some cur => do
      let i := i + 1
      let last := !(i < cur.get_n_keys)
      let stack := if last then stack else (some cur, i, sh) :: stack
      let child ← (if cur.is_leaf then pure none else cur.get_child i :
        Except Fault (Option (B_tree_node S)))
      match child with
      | some c => do
        let (stack, c, sh) ← iterator.leftmost fuel stack c (sh + cur.get_shift)
        pure ⟨(some c, 0, sh) :: stack, some c, 0, sh⟩
      | none =>
        if last then do
          let it ← iterator.unwind fuel ⟨stack, some cur, i, sh⟩
          pure { it with stack := (it._current, it._current_index, it._shift) :: it.stack }
        else pure ⟨stack, some cur, i, sh⟩

/-- Method `iterator::operator*`. -/
def iterator.star (it : iterator S) : Except Fault (Int × List S) := do
  let cur ← deref it._current
  let key_ptr ← cur.get_key it._current_index
  let k ← deref key_ptr.key
  let sats ← deref k.key.satellites
  pure (k.key.value + key_ptr.shift + it._shift, sats)

/-- The loop `for(auto it = begin(); it != end(); ++it)` collecting `*it`; `steps` bounds the
number of increments. -/
def iterator.collect (fuel : Nat) : Nat → iterator S → Except Fault (List (Int × List S))
  | 0, it => if it._current.isNone then pure [] else .error .out_of_fuel
  | steps + 1, it =>
    if it._current.isNone then pure []
    else do
      let e ← it.star
      let it ← it.internal_inc fuel
      let rest ← iterator.collect fuel steps it
      pure (e :: rest)

/-- The range-for loop over a tree: `begin()`, then dereference and increment up to `end()`. -/
def B_tree.iterate (fuel steps : Nat) (t : B_tree S) : Except Fault (List (Int × List S)) := do
  let it ← iterator.create fuel t._head
  iterator.collect fuel steps it

end tree

section observation

variable {S : Type}

/-- A key with `d` added to its value (the key seen through a lazy shift `d`). -/
def key_t.add (d : Int) (k : key_t S) : key_t S := { k with value := k.value + d }

/-- The pair (value, satellite list) of a key; a null satellite pointer shows as the empty list. -/
def key_t.entry (k : key_t S) : Int × List S := (k.value, k.satellites.getD [])

/-- In-order walk over the live children and keys of an internal node, given the walk `sub` of a
child: child 0, key 0, child 1, key 1, ... -/
def inorder (sub : B_tree_node S → List (key_t S)) :
    List (Option (B_tree_node S)) → List (key_t S) → List (key_t S)
  | [], _ => []
  | c :: _, [] => (c.map sub).getD []
  | c :: cs, k :: ks => (c.map sub).getD [] ++ k :: inorder sub cs ks

/-- The in-order list of the live keys of the subtree of `x`, with values in the frame of the
parent of `x` (the shift of `x` and of the nodes below it folded in). -/
def B_tree_node.flat : Nat → B_tree_node S → List (key_t S)
  | 0, _ => []
  | fuel + 1, x =>
    (match x.children with
      | none => x.keys.take x.n
      | some ch => inorder (B_tree_node.flat fuel) (ch.take (x.n + 1)) (x.keys.take x.n)).map
      (key_t.add x._shift)

/-- The in-order list of (effective key, satellite list) of the subtree of `x`. -/
def B_tree_node.entries (fuel : Nat) (x : B_tree_node S) : List (Int × List S) :=
  (x.flat fuel).map key_t.entry

/-- The in-order list of the live keys of a tree, with effective values. -/
def B_tree.flat (fuel : Nat) (t : B_tree S) : List (key_t S) :=
  match t._head with
  | none => []
  | some head => head.flat fuel

/-- The entry list `E(T)` of a tree. -/
def B_tree.entries (fuel : Nat) (t : B_tree S) : List (Int × List S) :=
  match t._head with
  | none => []
  | some head => head.entries fuel

/-- Structure of a subtree of height `h`: the arrays have their declared sizes, the node holds
between `lo` and `B` keys and every node below it between `lo'` and `B`, a node of height 1 is a
leaf, and a node of height `h + 1` has `n + 1` non-null children of height `h`. -/
def B_tree_node.shape (B : Nat) : Nat → Nat → Nat → B_tree_node S → Bool
  | _, _, 0, _ => false
  | lo, lo', h + 1, x =>
    x.keys.length == B && decide (lo ≤ x.n) && decide (x.n ≤ B) &&
    match x.children with
    | none => h == 0
    | some ch =>
      h != 0 && ch.length == B + 1 &&
      (ch.take (x.n + 1)).all fun c =>
        match c with
        | none => false
        | some c => B_tree_node.shape B lo' lo' h c

/-- The key part of the transformation of shift transparency: `d` subtracted from every stored
(live) key of the subtree of `x`; `fuel` bounds the depth that is walked. -/
def B_tree_node.sub_keys (d : Int) : Nat → B_tree_node S → B_tree_node S
  | 0, x => x
  | fuel + 1, x =>
    { x with
      keys := (x.keys.take x.n).map (key_t.add (-d)) ++ x.keys.drop x.n
      children := x.children.map fun ch =>
        (ch.take (x.n + 1)).map (Option.map (B_tree_node.sub_keys d fuel)) ++ ch.drop (x.n + 1) }

/-- The transformation of shift transparency at the node `x`: `d` is added to the lazy shift of
`x` and subtracted from every stored key of its subtree. -/
def B_tree_node.retarget (d : Int) (fuel : Nat) (x : B_tree_node S) : B_tree_node S :=
  (x.sub_keys d fuel).shift d

/-- The node reached from `x` along the child indices `path` is replaced by its image under `f`
(nothing changes if the path leaves the tree). -/
def B_tree_node.at_path (f : B_tree_node S → B_tree_node S) : List Nat → B_tree_node S →
    B_tree_node S
  | [], x => f x
  | i :: path, x =>
    match x.children with
    | none => x
    | some ch =>
      match ch[i]? with
      | some (some c) => { x with children := some (ch.set i (some (B_tree_node.at_path f path c))) }
      | _ => x

/-- The transformation of shift transparency at the node of a tree reached along `path`. -/
def B_tree.retarget_at (d : Int) (fuel : Nat) (path : List Nat) (t : B_tree S) : B_tree S :=
  ⟨t._head.map (B_tree_node.at_path (B_tree_node.retarget d fuel) path)⟩

/-- Well-formed subtree of depth at most `d`: the arrays have their declared sizes, every node
holds at most `B` keys, and an internal node with `n` keys has `n + 1` non-null children that are
well formed (no condition on the balance or on a minimal number of keys). -/
def B_tree_node.wf (B : Nat) : Nat → B_tree_node S → Bool
  | 0, _ => false
  | d + 1, x =>
    x.keys.length == B && decide (x.n ≤ B) &&
    match x.children with
    | none => true
    | some ch =>
      ch.length == B + 1 &&
      (ch.take (x.n + 1)).all fun c =>
        match c with
        | none => false
        | some c => B_tree_node.wf B d c

/-- Unused slots are empty, to the depth `fuel`: in every node the keys at the positions
`n .. B-1` have a null satellite pointer, and in an internal node the child pointers at the
positions `n+1 .. B-1` are null. -/
def B_tree_node.spare_empty (B : Nat) : Nat → B_tree_node S → Bool
  | 0, _ => false
  | fuel + 1, x =>
    ((x.keys.take B).drop x.n).all (fun k => k.satellites.isNone) &&
    match x.children with
    | none => true
    | some ch =>
      ((ch.take B).drop (x.n + 1)).all Option.isNone &&
      (ch.take (x.n + 1)).all fun c =>
        match c with
        | none => false
        | some c => B_tree_node.spare_empty B fuel c

/-- Strictly ascending values and non-null satellite pointers along an in-order key list. -/
def keys_ok (l : List (key_t S)) : Bool :=
  decide ((l.map key_t.value).Pairwise (· < ·)) && l.all fun k => k.satellites.isSome

/-- Validity of a subtree of height `h` that is the root of a tree: occupancy (the root holds
between 1 and `B` keys, every other node between `T - 1` and `B`), balance, leaf predicate,
search order and non-null satellites of the live keys. -/
def B_tree_node.valid (B T h : Nat) (x : B_tree_node S) : Bool :=
  x.shape B 1 (T - 1) h && keys_ok (x.flat h)

/-- Validity of a tree of height `h`; the empty tree has height 0. -/
def B_tree.valid (B T h : Nat) (t : B_tree S) : Bool :=
  match t._head with
  | none => h == 0
  | some head => head.valid B T h

/-- The entry list after `insert(v, s)`: `s` is appended to the satellite list of `v` if `v` is
present, otherwise `(v, [s])` is placed in key order. -/
def entries_insert (v : Int) (s : S) : List (Int × List S) → List (Int × List S)
  | [] => [(v, [s])]
  | e :: es =>
    if v < e.1 then (v, [s]) :: e :: es
    else if v = e.1 then (e.1, e.2 ++ [s]) :: es
    else e :: entries_insert v s es

/-- The key list after `insert(v, s)`: the counterpart of `entries_insert` on keys. -/
def keys_insert (v : Int) (s : S) : List (key_t S) → List (key_t S)
  | [] => [⟨v, some [s]⟩]
  | k :: ks =>
    if v < k.value then ⟨v, some [s]⟩ :: k :: ks
    else if v = k.value then { k with satellites := k.satellites.map (· ++ [s]) } :: ks
    else k :: keys_insert v s ks

/-- The pointee of a `key_ptr` in the subtree of `x`: follow the child indices of the path, then
take the live key at the index. -/
def B_tree_node.key_at : B_tree_node S → List Nat → Nat → Option (key_t S)
  | x, [], idx => if idx < x.n then x.keys[idx]? else none
  | x, i :: path, idx =>
    match x.children with
    | none => none
    | some ch =>
      match ch[i]? with
      | some (some c) => B_tree_node.key_at c path idx
      | _ => none

/-- The live contents of a node: `x` holds the keys `ks` in its first `n` slots, has shift `s`,
and is a leaf (`cs = none`) or has the nodes `cl` as its first `n + 1` children (`cs = some cl`);
the arrays have their declared sizes `B` and `B + 1`. -/
structure B_tree_node.Rep (B : Nat) (x : B_tree_node S) (ks : List (key_t S))
    (cs : Option (List (B_tree_node S))) (s : Int) : Prop where
  keys_len : x.keys.length = B
  n_eq : x.n = ks.length
  n_le : ks.length ≤ B
  keys_eq : x.keys.take x.n = ks
  shift_eq : x._shift = s
  ch : match cs with
    | none => x.children = none
    | some cl => ∃ ch, x.children = some ch ∧ ch.length = B + 1 ∧
        ch.take (x.n + 1) = cl.map some ∧ cl.length = ks.length + 1

/-- Scenario driver: `insert(v, s)` for each pair of a list in turn. -/
def B_tree.insert_all (B fuel : Nat) (t : B_tree S) (l : List (Int × S)) : Except Fault (B_tree S) :=
  l.foldlM (fun t p => do
    let (t, _) ← t.insert B fuel p.1 p.2
    pure t) t

/-- Scenario driver: `remove(v)` for each value of a list in turn. -/
def B_tree.remove_all (B T fuel : Nat) (t : B_tree S) (l : List Int) : Except Fault (B_tree S) :=
  l.foldlM (fun t v => do
    let (t, _) ← t.remove B T fuel v
    pure t) t

/-- Scenario driver: `remove(v)` for each value of a list in turn; for each call it records the
entry returned, the outcome of `check_integrity()` after the call and what the loop from
`begin()` to `end()` yields after the call. -/
def B_tree.remove_trace (B T fuel steps : Nat) : B_tree S → List Int →
    Except Fault (List (key_tt S × Except Fault Bool × Except Fault (List (Int × List S))))
  | _, [] => pure []
  | t, v :: vs => do
    let (t, r) ← t.remove B T fuel v
    let rest ← B_tree.remove_trace B T fuel steps t vs
    pure ((r, t.check_integrity B fuel, t.iterate fuel steps) :: rest)

/-- The depths of the leaves below `x`, from left to right (a leaf that is the root has depth 1;
a null pointer among the live children counts as depth 0 below its node). -/
def B_tree_node.leaf_depths : Nat → B_tree_node S → List Nat
  | 0, _ => []
  | fuel + 1, x =>
    match x.children with
    | none => [1]
    | some ch =>
      ((ch.take (x.n + 1)).map fun c =>
        match c with
        | none => [1]
        | some c => (B_tree_node.leaf_depths fuel c).map (· + 1)).flatten

/-- The keys `a, a+1, ..., a+cnt-1`, each with itself as satellite. -/
def key_run (a : Int) (cnt : Nat) : List (Int × Int) :=
  (List.range cnt).map fun i => (a + i, a + i)

/-- The effective key behind a key pointer into the subtree of `x`: the pointee with the shifts
of the nodes on the path (the node that holds the key included) folded into its value. -/
def B_tree_node.effective_at : B_tree_node S → List Nat → Nat → Option (key_t S)
  | x, [], idx => if idx < x.n then (x.keys[idx]?).map (key_t.add x._shift) else none
  | x, i :: path, idx =>
    match x.children with
    | none => none
    | some ch =>
      match ch[i]? with
      | some (some c) => (B_tree_node.effective_at c path idx).map (key_t.add x._shift)
      | _ => none

/-- A node with the live keys `ks`, the live children `cs` and the shift `s`; the rest of the
arrays holds empty keys and null pointers. -/
def B_tree_node.of_lists (B : Nat) (ks : List (key_t S)) (cs : Option (List (B_tree_node S)))
    (s : Int) : B_tree_node S :=
  { keys := ks ++ List.replicate (B - ks.length) key_t.empty
    children := cs.map fun cl => cl.map some ++ List.replicate (B + 1 - cl.length) none
    n := ks.length
    _shift := s }

/-- A tree of height 2 for B = 7, T = 3 with lazy shifts at every node: root shift 90 and root
key 104 (stored 14), left leaf with shift 20 holding 101, 102, 103, right leaf with shift -5
holding 105, 106, 107. -/
def B_tree.sample : B_tree Int :=
  ⟨some (B_tree_node.of_lists 7 [⟨14, some [4]⟩]
    (some [B_tree_node.of_lists 7 [⟨-9, some [1]⟩, ⟨-8, some [2]⟩, ⟨-7, some [3]⟩] none 20,
      B_tree_node.of_lists 7 [⟨20, some [5]⟩, ⟨21, some [6]⟩, ⟨22, some [7]⟩] none (-5)]) 90)⟩

/-- The part of the in-order key list of `x` from its key of index `j` on: key `j`, child
`j + 1`, key `j + 1`, ... (values in the frame of the parent of `x`). -/
def B_tree_node.flat_from : Nat → B_tree_node S → Nat → List (key_t S)
  | 0, _, _ => []
  | fuel + 1, x, j =>
    (match x.children with
      | none => (x.keys.take x.n).drop j
      | some ch =>
        inorder (B_tree_node.flat fuel) (none :: (ch.take (x.n + 1)).drop (j + 1))
          ((x.keys.take x.n).drop j)).map
      (key_t.add x._shift)

/-- The keys that an iterator stack still has to yield: each frame `(x, j, shift)` stands for
the keys of `x` from index `j` on, seen through `shift`; the null frame at the bottom ends the
iteration. -/
def iterator.pending (fuel : Nat) : List (Option (B_tree_node S) × Nat × Int) → List (key_t S)
  | [] => []
  | (none, _, _) :: _ => []
  | (some x, j, sh) :: rest =>
    (x.flat_from fuel j).map (key_t.add sh) ++ iterator.pending fuel rest

/-- Well-formed iterator stacks: every frame above the null frame holds a node of some height
at most `F` in which every node has a key, with sorted in-order list, and the index of a live
key. -/
def iterator.frames_ok (B F : Nat) : List (Option (B_tree_node S) × Nat × Int) → Prop
  | [] => False
  | (none, _, _) :: _ => True
  | (some x, j, _) :: rest =>
    j < x.n ∧ (∃ h, h ≤ F ∧ x.shape B 1 1 h = true ∧ keys_ok (x.flat h) = true) ∧
      iterator.frames_ok B F rest

end observation

/-! ## Concrete runs of the code -/

section runs

/-- C4: with B = 7, T = 3 the tree built by inserting 1..8, removing 8, 7, 1 and calling
`shift(100)` is valid and holds the keys 102..106 (root key 104 between two leaves of two keys).
`remove(104)` takes case 2.c of `B_tree_node::remove`, which calls `remove(value)` again with the
value already reduced by the root shift: the key is not found, the empty entry is returned and
key 104 stays in the tree. -/
theorem remove_present_key_case_2c_misses :
    (do
      let t ← B_tree.insert_all 7 2 B_tree.create (key_run 1 8)
      let t ← t.remove_all 7 3 3 [8, 7, 1]
      let t := t.shift 100
      let (t', r) ← t.remove 7 3 3 104
      pure (t.valid 7 3 2, t.entries 2, r, t'.entries 2)) =
    .ok (true, [(102, [2]), (103, [3]), (104, [4]), (105, [5]), (106, [6])], ⟨0, []⟩,
      [(102, [2]), (103, [3]), (104, [4]), (105, [5]), (106, [6])]) := by
  rfl

/-- C5: with B = 7, T = 3 the tree built by inserting 1..7, `shift(100)`, inserting 108 and
removing 108, 107, 101 is valid and holds the keys 102..106 in two leaves that carry the lazy
shift 100 under a root with shift 0.  `remove(2)` of the absent value 2 takes case 3.b: the merge
shrinks the root, whose shift becomes 100, and the retry `value += _shift` then looks for 102,
so the entry of key 102 is removed and returned. -/
theorem remove_absent_key_case_3b_removes_other :
    (do
      let t ← B_tree.insert_all 7 2 B_tree.create (key_run 1 7)
      let t := t.shift 100
      let t ← t.insert_all 7 2 [(108, 8)]
      let t ← t.remove_all 7 3 3 [108, 107, 101]
      let (t', r) ← t.remove 7 3 3 2
      pure (t.valid 7 3 2, t.entries 2, r, t'.entries 2)) =
    .ok (true, [(102, [2]), (103, [3]), (104, [4]), (105, [5]), (106, [6])], ⟨102, [2]⟩,
      [(103, [3]), (104, [4]), (105, [5]), (106, [6])]) := by
  rfl

/-- C6: `B_tree::remove` on the empty tree dereferences the null head pointer, whatever the
value and the parameters. -/
theorem remove_on_empty_tree_null_deref {S : Type} (B T fuel : Nat) (v : Int) :
    B_tree.remove B T fuel (B_tree.create : B_tree S) v = .error .null_deref := by
  rfl

/-- C7: with B = 7 the valid tree holding the keys 1..7 in a full root leaf makes
`shift_greater(4, 10)` write `keys[7]`, one past the end of the array of 7 keys (the loop
`for(s = l; s <= n; s++)` touches `keys[n]`). -/
theorem shift_greater_full_node_out_of_bounds :
    (do
      let t ← B_tree.insert_all 7 2 B_tree.create (key_run 1 7)
      pure (t.valid 7 3 1, (t.shift_greater 1 4 10).map Prod.snd)) =
    .ok (true, .error .out_of_bounds) := by
  rfl

/-- C8, as stated: after inserting 1, 3, 5, 7, 9, 11, 13 (B = 7, T = 3) the root leaf is full and
`shift_greater(5, 10)` leaves the bounds of the key array, so no iteration yields the elements
the claim lists. -/
theorem scenario_shift_greater_seven_keys_fails :
    ¬ ∃ l : List (Int × List String),
      (do
        let t ← B_tree.insert_all 7 2 B_tree.create
          [(1, "1"), (3, "3"), (5, "5"), (7, "7"), (9, "9"), (11, "11"), (13, "13")]
        let (t, _) ← t.shift_greater 2 5 10
        t.iterate 2 8) = .ok l ∧
      l.take 4 = [(1, ["1"]), (3, ["3"]), (5, ["5"]), (15, ["7"])] ∧
      l.getLast? = some (23, ["13"]) := by
  rintro ⟨l, hl, -, -⟩
  have h : (do
        let t ← B_tree.insert_all 7 2 B_tree.create
          [(1, "1"), (3, "3"), (5, "5"), (7, "7"), (9, "9"), (11, "11"), (13, "13")]
        let (t, _) ← t.shift_greater 2 5 10
        t.iterate 2 8) = (.error .out_of_bounds : Except Fault (List (Int × List String))) := rfl
  rw [h] at hl
  cases hl

/-- C8, amended: the keys 1, 3, ..., 13 held in two leaves that are not full (insert 1, 3, ...,
15, then remove 15); `shift_greater(5, 10)` shifts key 5 itself and every larger key by 10. -/
theorem scenario_shift_greater_seven_keys_two_leaves :
    (do
      let t ← B_tree.insert_all 7 2 B_tree.create
        [(1, "1"), (3, "3"), (5, "5"), (7, "7"), (9, "9"), (11, "11"), (13, "13"), (15, "15")]
      let (t, _) ← t.remove 7 3 2 15
      let (t, _) ← t.shift_greater 2 5 10
      t.iterate 2 8) =
    .ok [(1, ["1"]), (3, ["3"]), (15, ["5"]), (17, ["7"]), (19, ["9"]), (21, ["11"]),
      (23, ["13"])] := by
  rfl

set_option maxRecDepth 100000 in
/-- C10: with B = 7, T = 3 the tree built by inserting 1..31, `shift(100)`, inserting 132..152
and removing 101, 105, 102, 117, 121, 118 is valid (height 3, 46 keys; the two leftmost children
of the root carry the lazy shift 100 and hold two keys each).  After `R = split(132)` the call
`join(R)` removes the maximum 132 of the left tree through case 3.b of `remove` with a shrinking
root, misses it, and joins with a pivot that has a null satellite pointer: the result lists 47
keys, 132 followed by a spurious key 100. -/
theorem split_then_join_corrupts_shifted_tree :
    (do
      let t ← B_tree.insert_all 7 3 B_tree.create (key_run 1 31)
      let t := t.shift 100
      let t ← t.insert_all 7 3 (key_run 132 21)
      let t ← t.remove_all 7 3 4 [101, 105, 102, 117, 121, 118]
      let (a, b) ← t.split 7 3 132
      let j ← a.join 7 3 4 b
      pure (t.valid 7 3 3, (t.entries 3).map Prod.fst, (j.entries 3).map Prod.fst)) =
    .ok (true,
      [103, 104, 106, 107, 108, 109, 110, 111, 112, 113, 114, 115, 116, 119, 120, 122, 123, 124,
        125, 126, 127, 128, 129, 130, 131, 132, 133, 134, 135, 136, 137, 138, 139, 140, 141, 142,
        143, 144, 145, 146, 147, 148, 149, 150, 151, 152],
      [103, 104, 106, 107, 108, 109, 110, 111, 112, 113, 114, 115, 116, 119, 120, 122, 123, 124,
        125, 126, 127, 128, 129, 130, 131, 132, 100, 133, 134, 135, 136, 137, 138, 139, 140, 141,
        142, 143, 144, 145, 146, 147, 148, 149, 150, 151, 152]) := by
  rfl

/-- C11: with B = 7, T = 3 the valid tree A holding 102..106 (root key 104 with shift 0 over two
leaves of two keys that carry the lazy shift 100; built by inserting 1..7, `shift(100)`,
inserting 108 and removing 108, 107, 101) and the valid tree B holding 200, 201, 202 satisfy
max(A) < min(B).  `A.join(B)` removes the maximum 106 of A through case 3.b of `remove` with a
shrinking root, misses it, and uses the null entry as pivot: key 106 stays and a spurious key 100
with a null satellite pointer appears between the two trees. -/
theorem join_shifted_left_tree_spurious_pivot :
    (do
      let a ← B_tree.insert_all 7 2 B_tree.create (key_run 1 7)
      let a := a.shift 100
      let a ← a.insert_all 7 2 [(108, 8)]
      let a ← a.remove_all 7 3 3 [108, 107, 101]
      let b ← B_tree.insert_all 7 2 B_tree.create (key_run 200 3)
      let j ← a.join 7 3 3 b
      pure (a.valid 7 3 2, b.valid 7 3 1, a.entries 2, b.entries 1, j.entries 2)) =
    .ok (true, true,
      [(102, [2]), (103, [3]), (104, [4]), (105, [5]), (106, [6])],
      [(200, [200]), (201, [201]), (202, [202])],
      [(102, [2]), (103, [3]), (104, [4]), (105, [5]), (106, [6]), (100, []), (200, [200]),
        (201, [201]), (202, [202])]) := by
  rfl

/-- The order of the satellites after `merge`: in the scenario of C13 the common key 5 is the
minimum of B when it is pruned from A, and the satellites of A are appended to the entry of B:
(5, ["z","y"]).  With the two trees exchanged (receiver {(5,"y"), (9,"w")}, argument
{(2,"x"), (5,"z")}) the loop swaps them first and the list of the receiver comes first:
(5, ["y","z"]). -/
theorem scenario_merge_pruned_satellites_appended :
    (do
      let a ← B_tree.insert_all 7 2 B_tree.create [(2, "x"), (5, "y")]
      let b ← B_tree.insert_all 7 2 B_tree.create [(5, "z"), (9, "w")]
      let m ← a.merge 7 3 3 4 b
      let a' ← B_tree.insert_all 7 2 B_tree.create [(5, "y"), (9, "w")]
      let b' ← B_tree.insert_all 7 2 B_tree.create [(2, "x"), (5, "z")]
      let m' ← a'.merge 7 3 3 4 b'
      pure (← m.iterate 3 4, ← m'.iterate 3 4)) =
    .ok ([(2, ["x"]), (5, ["z", "y"]), (9, ["w"])], [(2, ["x"]), (5, ["y", "z"]), (9, ["w"])]) := by
  rfl

/-- C14: with B = 7, T = 3 the valid tree holding 1..8 has the key 4 in its root, between the
leaves {1,2,3} and {5,6,7,8}.  `predecessor(4)` descends into the left leaf without testing
`keys[l].value == value` in the internal node and returns the entry of key 3 (child 0, index 2),
not the entry of key 4. -/
theorem predecessor_of_internal_key_returns_smaller :
    (do
      let t ← B_tree.insert_all 7 2 B_tree.create (key_run 1 8)
      let r ← t.predecessor 2 4
      pure (t.valid 7 3 2, t.entries 2, r)) =
    .ok (true,
      [(1, [1]), (2, [2]), (3, [3]), (4, [4]), (5, [5]), (6, [6]), (7, [7]), (8, [8])],
      ⟨0, some ⟨[0], 2, ⟨3, some [3]⟩⟩⟩) := by
  rfl

/-- C16: with B = 7, T = 3 the valid tree holding 102..106 has the root key 104 (root shift 0)
over two leaves with lazy shift 100.  `successor(103)` finds nothing in the left leaf and falls
back to the root key, but keeps the shift 100 accumulated by the answer of the leaf: the
reference is (key 104 of the root, shift 100), which reconstructs to 204 and not to 104. -/
theorem successor_separator_keeps_child_shift :
    (do
      let t ← B_tree.insert_all 7 2 B_tree.create (key_run 1 7)
      let t := t.shift 100
      let t ← t.insert_all 7 2 [(108, 8)]
      let t ← t.remove_all 7 3 3 [108, 107, 101]
      let r ← t.successor 2 103
      pure (t.valid 7 3 2, t.entries 2, r)) =
    .ok (true, [(102, [2]), (103, [3]), (104, [4]), (105, [5]), (106, [6])],
      ⟨100, some ⟨[], 0, ⟨104, some [4]⟩⟩⟩) := by
  rfl

/-- C18: with B = 7, T = 3 the tree built by inserting 1..31, `shift(100)`, inserting 132, 133
and removing 101, 105, 102, 117, 121, 118 is valid (height 3; the root holds the key 116 over
two children of two keys that carry the lazy shift 100) and does not hold 101.  After
`insert(101, 1)` the call `remove(101)` takes case 3.b at the root, which shrinks; the retry
then looks for 201: the empty entry is returned and 101 stays in the tree. -/
theorem insert_then_remove_case_3b_keeps_key :
    (do
      let t ← B_tree.insert_all 7 3 B_tree.create (key_run 1 31)
      let t := t.shift 100
      let t ← t.insert_all 7 3 (key_run 132 2)
      let t ← t.remove_all 7 3 4 [101, 105, 102, 117, 121, 118]
      let (t1, _) ← t.insert 7 3 101 1
      let (t2, r) ← t1.remove 7 3 4 101
      pure (t.valid 7 3 3, (t.entries 3).map Prod.fst, (t1.entries 3).take 2, r,
        (t2.entries 3).map Prod.fst)) =
    .ok (true,
      [103, 104, 106, 107, 108, 109, 110, 111, 112, 113, 114, 115, 116, 119, 120, 122, 123, 124,
        125, 126, 127, 128, 129, 130, 131, 132, 133],
      [(101, [1]), (103, [3])], ⟨0, []⟩,
      [101, 103, 104, 106, 107, 108, 109, 110, 111, 112, 113, 114, 115, 116, 119, 120, 122, 123,
        124, 125, 126, 127, 128, 129, 130, 131, 132, 133]) := by
  rfl

/-- C1, as stated: with B = 2, T = 2 (which the constructor's assertion admits) the tree built
by inserting -5, ..., -1 is valid (root keys -4, -2 over three leaves of one key).  `insert(0, 0)`
splits the full root; the right half is an internal node without keys, whose dead slot
`keys[0]` has value 0 and a null satellite pointer: the test `keys[l].value == value` succeeds
and `push_back` dereferences the null pointer, so no search follows. -/
theorem insert_two_keys_per_node_null_deref :
    (do
      let t ← B_tree.insert_all 2 3 B_tree.create (key_run (-5) 5)
      pure (t.valid 2 2 2, t.entries 2, (t.insert 2 3 0 0).map Prod.snd)) =
    .ok (true, [(-5, [-5]), (-4, [-4]), (-3, [-3]), (-2, [-2]), (-1, [-1])],
      .error .null_deref) := by
  rfl

/-- C2, as stated: with B = 2, T = 2 the tree built by inserting 1, ..., 5 is valid (root keys
2, 4 over three leaves of one key).  `insert(6, 6)` splits the full root; the right half is an
internal node without keys and one child, and the new key goes into a fresh second child that
the key count of the node does not cover: the in-order entry list still holds 1..5 only, not the
list with (6, [6]) placed in key order. -/
theorem insert_two_keys_per_node_loses_entry :
    (do
      let t ← B_tree.insert_all 2 3 B_tree.create (key_run 1 5)
      let (t', _) ← t.insert 2 3 6 6
      pure (t.valid 2 2 2, t'.entries 3, ← t'.iterate 3 8, entries_insert 6 6 (t.entries 2))) =
    .ok (true, [(1, [1]), (2, [2]), (3, [3]), (4, [4]), (5, [5])],
      [(1, [1]), (2, [2]), (3, [3]), (4, [4]), (5, [5])],
      [(1, [1]), (2, [2]), (3, [3]), (4, [4]), (5, [5]), (6, [6])]) := by
  rfl

/-- C22: with B = 7, T = 3 the tree A holding 102..106 (root key 104 with shift 0 over two leaves
that carry the lazy shift 100; built by inserting 1..7, `shift(100)`, inserting 108 and removing
108, 107, 101) and the tree B holding 200, 201, 202 satisfy max(A) = 106 < 200 = min(B).  After
`A.join(B)` the in-order key list is 102, ..., 106, 100, 200, 201, 202: it is not increasing, and
the loop from `begin()` to `end()` dereferences the null satellite pointer of the key 100. -/
theorem join_result_keys_not_increasing :
    (do
      let a ← B_tree.insert_all 7 2 B_tree.create (key_run 1 7)
      let a := a.shift 100
      let a ← a.insert_all 7 2 [(108, 8)]
      let a ← a.remove_all 7 3 3 [108, 107, 101]
      let b ← B_tree.insert_all 7 2 B_tree.create (key_run 200 3)
      let j ← a.join 7 3 3 b
      pure (a.get_max 3, b.get_min 3, (j.flat 2).map key_t.value, keys_ok (j.flat 2),
        j.iterate 3 20)) =
    .ok (.ok 106, .ok 200, [102, 103, 104, 105, 106, 100, 200, 201, 202], false,
      .error .null_deref) := by
  rfl

/-- C23: B = 3, T = 3 satisfies 2 ≤ T ≤ B.  After inserting 1, 2, 3, 4 the root holds the key 2
over the leaves {1} and {3, 4}: the tree is balanced and sorted (`shape 3 1 1 2`, `keys_ok`), but
the leaf {1} holds 1 key, less than T - 1 = 2, so the tree is not valid for T = 3.  On this tree
`remove(1)` stops at the assertion of `merge_children` (2 + 1 + 1 keys do not fit B = 3). -/
theorem occupancy_fails_for_admitted_parameters :
    (do
      let t ← B_tree.insert_all 3 2 B_tree.create (key_run 1 4)
      let h ← deref t._head
      let c0 ← deref (← h.child_at 0)
      let c1 ← deref (← h.child_at 1)
      pure (t.entries 2, h.n, h.is_leaf, c0.n, c0.is_leaf, c1.n, c1.is_leaf, h.shape 3 1 1 2,
        keys_ok (h.flat 2), t.valid 3 3 2, (t.remove 3 3 3 1).map Prod.snd)) =
    .ok ([(1, [1]), (2, [2]), (3, [3]), (4, [4])], 1, false, 1, true, 2, true, true, true, false,
      .error .assert_fail) := by
  rfl

/-- C24: B = 2, T = 2 satisfies 2 ≤ T ≤ B.  After inserting 5, 1, 4, 0, 2 every leaf has depth 3;
`remove(7)` (7 is not a key) returns the empty entry and leaves a tree with the same entries whose
leaves have the depths 3, 3, 2, while `height()` is 3. -/
theorem balance_fails_for_admitted_parameters :
    (do
      let t ← B_tree.insert_all 2 3 B_tree.create [(5, 5), (1, 1), (4, 4), (0, 0), (2, 2)]
      let h ← deref t._head
      let (t', r) ← t.remove 2 2 3 7
      let h' ← deref t'._head
      pure (t.entries 3, h.leaf_depths 5, h.height 3, r, t'.entries 3, h'.leaf_depths 5,
        h'.height 3)) =
    .ok ([(0, [0]), (1, [1]), (2, [2]), (4, [4]), (5, [5])], [3, 3, 3, 3], .ok 3, ⟨0, []⟩,
      [(0, [0]), (1, [1]), (2, [2]), (4, [4]), (5, [5])], [3, 3, 2], .ok 3) := by
  rfl

/-- C25: with B = 3, T = 2 the tree built by inserting 1..8 is valid with height 2 (every node
holds at least one key).  Removing
4, 2, 6, 1, 3, 5, 7, 8 returns each key with its satellite list, and after each of the first seven
calls `check_integrity()` returns true and the iteration yields the remaining keys.  After
`remove(8)` the tree is empty and `check_integrity()` dereferences the null head pointer. -/
theorem scenario_check_integrity_on_emptied_tree :
    (do
      let t ← B_tree.insert_all 3 3 B_tree.create (key_run 1 8)
      let h ← deref t._head
      let tr ← t.remove_trace 3 2 4 8 [4, 2, 6, 1, 3, 5, 7, 8]
      pure (t.valid 3 2 2, h.height 3, t.check_integrity 3 3,
        tr.map fun (e : key_tt Int × Except Fault Bool × Except Fault (List (Int × List Int))) =>
          (e.1, e.2.1, e.2.2.map (List.map Prod.fst)))) =
    .ok (true, .ok 2, .ok true,
      [(⟨4, [4]⟩, .ok true, .ok [1, 2, 3, 5, 6, 7, 8]),
       (⟨2, [2]⟩, .ok true, .ok [1, 3, 5, 6, 7, 8]),
       (⟨6, [6]⟩, .ok true, .ok [1, 3, 5, 7, 8]),
       (⟨1, [1]⟩, .ok true, .ok [3, 5, 7, 8]),
       (⟨3, [3]⟩, .ok true, .ok [5, 7, 8]),
       (⟨5, [5]⟩, .ok true, .ok [7, 8]),
       (⟨7, [7]⟩, .ok true, .ok [8]),
       (⟨8, [8]⟩, .error .null_deref, .ok [])]) := by
  rfl

/-- C26, as stated: `check_integrity()` returns true on a leaf whose keys are 2, 1 (not
ascending), on the tree of B = 3, T = 3 holding 1..4 whose leaf {1} is below T - 1 keys, and on
the tree of B = 2, T = 2 whose leaves have the depths 3, 3, 2; a live key with a null satellite
pointer stops it with a failing assertion. -/
theorem check_integrity_accepts_breaches :
    (do
      let u : B_tree Int := ⟨some (B_tree_node.of_lists 3 [⟨2, some [2]⟩, ⟨1, some [1]⟩] none 0)⟩
      let w : B_tree Int := ⟨some (B_tree_node.of_lists 3 [⟨2, none⟩, ⟨3, some [3]⟩] none 0)⟩
      let o ← B_tree.insert_all 3 2 B_tree.create (key_run 1 4)
      let t ← B_tree.insert_all 2 3 B_tree.create [(5, 5), (1, 1), (4, 4), (0, 0), (2, 2)]
      let (t, _) ← t.remove 2 2 3 7
      let h ← deref t._head
      pure (keys_ok (u.flat 1), u.check_integrity 3 1, o.valid 3 3 2, o.check_integrity 3 2,
        h.leaf_depths 5, t.check_integrity 2 3, w.check_integrity 3 1)) =
    .ok (false, .ok true, false, .ok true, [3, 3, 2], .ok true, .error .assert_fail) := by
  rfl

/-- C33, as stated: with B = 5, T = 3 the valid parent with the key 30 over the leaves {10, 20}
and {40, 50, 60} has 2 + 3 + 1 > B keys below index 0; `fuse_children(0)` computes the median
position (2 + 3 + 1) >> 1 = 3, which equals the key count of the right child, and returns without
a change: the left child keeps 2 keys, fewer than T. -/
theorem fuse_children_leaves_child_below_T :
    (do
      let p : B_tree_node Int := B_tree_node.of_lists 5 [⟨30, some [30]⟩]
        (some [B_tree_node.of_lists 5 [⟨10, some [10]⟩, ⟨20, some [20]⟩] none 0,
          B_tree_node.of_lists 5 [⟨40, some [40]⟩, ⟨50, some [50]⟩, ⟨60, some [60]⟩] none 0]) 0
      let (q, _) ← p.fuse_children 5 0 none
      let l ← deref (← q.child_at 0)
      let r ← deref (← q.child_at 1)
      pure (p.valid 5 3 2, l.n, r.n, q.n, q.entries 2)) =
    .ok (true, 2, 3, 1,
      [(10, [10]), (20, [20]), (30, [30]), (40, [40]), (50, [50]), (60, [60])]) := by
  rfl

/-- C35, as stated: with B = 2, T = 2 (which the constructor's assertion admits) the valid tree
of height 3 with the root key -8 over the internal nodes {-17, -12} (leaves {-19}, {-15}, {-11})
and {-5} (leaves {-6}, {-4}): `split(-8, &h_this, &h_rhs)` with `*h_this = 3` leaves a left tree
whose leaves have the depths 3, 3, 2 and whose `height()` is 3, while `*h_this` is 2. -/
theorem split_two_keys_per_node_reports_wrong_height :
    (do
      let p : B_tree_node Int := B_tree_node.of_lists 2 [⟨-8, some [-8]⟩]
        (some [B_tree_node.of_lists 2 [⟨-17, some [-17]⟩, ⟨-12, some [-12]⟩]
            (some [B_tree_node.of_lists 2 [⟨-19, some [-19]⟩] none 0,
              B_tree_node.of_lists 2 [⟨-15, some [-15]⟩] none 0,
              B_tree_node.of_lists 2 [⟨-11, some [-11]⟩] none 0]) 0,
          B_tree_node.of_lists 2 [⟨-5, some [-5]⟩]
            (some [B_tree_node.of_lists 2 [⟨-6, some [-6]⟩] none 0,
              B_tree_node.of_lists 2 [⟨-4, some [-4]⟩] none 0]) 0]) 0
      let (a, b, h_this, h_rhs) ← p.split 2 5 (-8) (some 3)
      pure (p.valid 2 2 3, p.height 5, h_this, a.height 5, a.leaf_depths 5, h_rhs, b.height 5,
        (a.entries 5).map Prod.fst, (b.entries 5).map Prod.fst)) =
    .ok (true, .ok 3, 2, .ok 3, [3, 3, 2], 2, .ok 2, [-19, -17, -15, -12, -11, -8],
      [-6, -5, -4]) := by
  rfl

/-- C36, as stated: with B = 2, T = 2 the valid tree of height 2 built by inserting -5, ..., -1
has a full root (keys -4, -2).  `insert(0, 0)` grows a new root and splits the old one; the
right half is an internal node without keys, and the descent dereferences the null satellite
pointer of its dead slot: the call does not complete, so no tree of height 3 results. -/
theorem insert_full_root_two_keys_per_node_fails :
    (do
      let t ← B_tree.insert_all 2 3 B_tree.create (key_run (-5) 5)
      let x ← deref t._head
      pure (t.valid 2 2 2, x.height 3, x.is_full 2, (t.insert 2 5 0 0).map Prod.snd)) =
    .ok (true, .ok 2, true, .error .null_deref) := by
  rfl

/-- C37: with B = 7, T = 3 the valid tree holding 2..6 (root key 4 between two leaves of two
keys; built by inserting 1..8 and removing 8, 7, 1).  `remove(4)` followed by `shift(100)` leaves
102, 103, 105, 106 and returns the entry of 4; `shift(100)` followed by `remove(104)` takes
case 2.c, looks for the value reduced by the root shift a second time, returns the empty entry
and leaves 102..106. -/
theorem remove_after_shift_misses_separator :
    (do
      let t ← B_tree.insert_all 7 2 B_tree.create (key_run 1 8)
      let t ← t.remove_all 7 3 3 [8, 7, 1]
      let (a, ra) ← (t.shift 100).remove 7 3 3 104
      let (b, rb) ← t.remove 7 3 3 4
      pure (t.valid 7 3 2, t.entries 2, ra, a.entries 2, rb, (b.shift 100).entries 2)) =
    .ok (true, [(2, [2]), (3, [3]), (4, [4]), (5, [5]), (6, [6])], ⟨0, []⟩,
      [(102, [2]), (103, [3]), (104, [4]), (105, [5]), (106, [6])], ⟨4, [4]⟩,
      [(102, [2]), (103, [3]), (105, [5]), (106, [6])]) := by
  rfl

/-- C38: with B = 7 the valid tree holding 10, 20, ..., 70 in a full root leaf and the value 35,
which is not a key: `shift_greater(35, 10)` runs `for(s = l; s <= n; s++) keys[s].value += shift`
up to `keys[7]`, one past the end of the array.  With the five keys 10, ..., 50 in the leaf the
call shifts 40 and 50 and returns the null reference, and it also adds 10 to the dead slot
`keys[5]`. -/
theorem shift_greater_absent_key_out_of_bounds :
    (do
      let t ← B_tree.insert_all 7 2 B_tree.create
        [(10, 1), (20, 2), (30, 3), (40, 4), (50, 5), (60, 6), (70, 7)]
      let u ← B_tree.insert_all 7 2 B_tree.create [(10, 1), (20, 2), (30, 3), (40, 4), (50, 5)]
      let (u', r) ← u.shift_greater 1 35 10
      let x ← deref u'._head
      pure (t.valid 7 3 1, (t.entries 1).map Prod.fst, (t.shift_greater 1 35 10).map Prod.snd,
        u'.entries 1, r.key, x.keys.map key_t.value)) =
    .ok (true, [10, 20, 30, 40, 50, 60, 70], .error .out_of_bounds,
      [(10, [1]), (20, [2]), (30, [3]), (50, [4]), (60, [5])], none,
      [10, 20, 30, 50, 60, 10, 0]) := by
  rfl

/-- C39: with B = 7 the leaf holding 1, 2, 3 has the dead slots `keys[3..6]` with value 0 and a
null satellite pointer; `shift_greater(2, 5)` adds 5 to `keys[1]`, `keys[2]` and to the dead slot
`keys[3]`.  On the full leaf holding 1..7, `shift_greater(7, 5)` reads and writes `keys[7]`. -/
theorem shift_greater_changes_dead_slot :
    (do
      let t ← B_tree.insert_all 7 2 B_tree.create (key_run 1 3)
      let (t', _) ← t.shift_greater 1 2 5
      let x ← deref t._head
      let x' ← deref t'._head
      let f ← B_tree.insert_all 7 2 B_tree.create (key_run 1 7)
      let y ← deref f._head
      pure (t.valid 7 3 1, x.n, x.keys, x'.n, x'.keys, f.valid 7 3 1, y.n, y.keys.length,
        (f.shift_greater 1 7 5).map Prod.snd)) =
    .ok (true, 3,
      [⟨1, some [1]⟩, ⟨2, some [2]⟩, ⟨3, some [3]⟩, ⟨0, none⟩, ⟨0, none⟩, ⟨0, none⟩, ⟨0, none⟩],
      3,
      [⟨1, some [1]⟩, ⟨7, some [2]⟩, ⟨8, some [3]⟩, ⟨5, none⟩, ⟨0, none⟩, ⟨0, none⟩, ⟨0, none⟩],
      true, 7, 7, .error .out_of_bounds) := by
  rfl

set_option maxRecDepth 100000 in
/-- The truncation to `B_t` in `fuse_children`: with B = 200 (`B_t` is `uint8_t`) the parent with
the key 500000 over the leaves holding 1..150 and 600000..600119 has 150 + 120 + 1 = 271 > B keys
below index 0, but `(B_t)271 = 15 <= B`, so `fuse_children(0)` calls `merge_children(0)`, whose
assertion on the same truncated sum passes and which then writes behind the key array of the
left leaf. -/
theorem fuse_children_truncated_sum_merges_out_of_bounds :
    (B_t 200 (150 + 120 + 1),
      ((B_tree_node.of_lists 200 [⟨500000, some [0]⟩]
        (some [B_tree_node.of_lists 200
            ((List.range 150).map fun j => (⟨((j + 1 : Nat) : Int), some [0]⟩ : key_t Nat)) none 0,
          B_tree_node.of_lists 200
            ((List.range 120).map fun q => ⟨((600000 + q : Nat) : Int), some [0]⟩) none 0])
          0).fuse_children 200 0 none).map fun _ => ()) = (15, .error .out_of_bounds) := by
  rfl

end runs

/-! ## Basic facts about the array primitives, the binary search and the in-order walk -/

section basics

variable {S : Type} {α : Type}

theorem rd_ok {a : List α} {i : Nat} {x : α} (h : a[i]? = some x) : rd a i = .ok x := by
  simp [rd, h]

theorem rd_of_lt {a : List α} {i : Nat} (h : i < a.length) : rd a i = .ok a[i] := by
  simp [rd, h]

theorem rd_eq_ok_iff {a : List α} {i : Nat} {x : α} : rd a i = .ok x ↔ a[i]? = some x := by
  unfold rd
  cases h : a[i]? <;> simp

theorem wr_ok {a : List α} {i : Nat} (x : α) (h : i < a.length) : wr a i x = .ok (a.set i x) := by
  simp [wr, h]

theorem deref_some (x : α) : deref (some x) = .ok x := rfl

theorem usub_ok {a b : Nat} (h : b ≤ a) : usub a b = .ok (a - b) := by
  simp [usub, h]

theorem c_assert_ok {b : Bool} (h : b = true) : c_assert b = .ok () := by
  simp [c_assert, h]

theorem child_at_ok {x : B_tree_node S} {ch : List (Option (B_tree_node S))} {i : Nat}
    {c : Option (B_tree_node S)} (hc : x.children = some ch) (hi : ch[i]? = some c) :
    x.child_at i = .ok c := by
  simp [B_tree_node.child_at, hc, deref, rd_ok hi, bind, Except.bind]

theorem set_child_at_ok {x : B_tree_node S} {ch : List (Option (B_tree_node S))} {i : Nat}
    (c : Option (B_tree_node S)) (hc : x.children = some ch) (hi : i < ch.length) :
    x.set_child_at i c = .ok { x with children := some (ch.set i c) } := by
  simp [B_tree_node.set_child_at, hc, deref, wr_ok _ hi, bind, Except.bind, pure, Except.pure]

theorem set_key_at_ok {x : B_tree_node S} {i : Nat} (k : key_t S) (hi : i < x.keys.length) :
    x.set_key_at i k = .ok { x with keys := x.keys.set i k } := by
  simp [B_tree_node.set_key_at, wr_ok _ hi, bind, Except.bind, pure, Except.pure]

end basics

section bsearch_lemmas

variable {S : Type}

theorem bsearch_spec (keys : List (key_t S)) (value : Int) (n : Nat) (hn : n ≤ keys.length) :
    ∀ it l r, l < r → r ≤ n → r ≤ l + 1 + it →
    ∃ l', bsearch keys value it l r = .ok (l', l' + 1) ∧ l ≤ l' ∧ l' < r ∧
      (l' = l ∨ ∀ k, keys[l']? = some k → k.value ≤ value) ∧
      (l' + 1 = r ∨ ∀ k, keys[l' + 1]? = some k → value < k.value) := by
  intro it
  induction it with
  | zero =>
    intro l r hlr hrn hit
    refine ⟨l, ?_, le_refl _, hlr, Or.inl rfl, Or.inl (by omega)⟩
    have : r = l + 1 := by omega
    subst this
    simp [bsearch]
  | succ it ih =>
    intro l r hlr hrn hit
    by_cases hgt : r > l + 1
    · have hmid : (l + r) / 2 < keys.length := by omega
      obtain ⟨k, hk⟩ : ∃ k, keys[(l + r) / 2]? = some k := ⟨keys[(l+r)/2], by simp [hmid]⟩
      by_cases hle : k.value ≤ value
      · obtain ⟨l', h1, h2, h3, h4, h5⟩ := ih ((l + r) / 2) r (by omega) hrn (by omega)
        refine ⟨l', ?_, by omega, h3, ?_, h5⟩
        · simp [bsearch, hgt, rd_ok hk, hle, h1, bind, Except.bind]
        · rcases h4 with h4 | h4
          · right; intro k' hk'; rw [h4, hk] at hk'; cases hk'; exact hle
          · right; exact h4
      · obtain ⟨l', h1, h2, h3, h4, h5⟩ := ih l ((l + r) / 2) (by omega) (by omega) (by omega)
        refine ⟨l', ?_, h2, by omega, h4, ?_⟩
        · simp [bsearch, hgt, rd_ok hk, hle, h1, bind, Except.bind]
        · rcases h5 with h5 | h5
          · right; intro k' hk'; rw [h5, hk] at hk'; cases hk'; omega
          · right; exact h5
    · have : r = l + 1 := by omega
      subst this
      exact ⟨l, by simp [bsearch], le_refl _, hlr, Or.inl rfl, Or.inl rfl⟩

/-- The binary search on a node with `n ≥ 1` sorted live keys `ks`: the index found is the last
one whose key is `≤ value`, or 0. -/
theorem bsearch_sorted (keys ks : List (key_t S)) (value : Int) (n : Nat)
    (hn : n ≤ keys.length) (hks : keys.take n = ks) (hpos : 0 < n)
    (hs : (ks.map key_t.value).Pairwise (· < ·)) :
    ∃ l kl, bsearch keys value n 0 n = .ok (l, l + 1) ∧ l < n ∧ ks[l]? = some kl ∧
      keys[l]? = some kl ∧
      (∀ i k, i < l → ks[i]? = some k → k.value < value) ∧
      (l = 0 ∨ kl.value ≤ value) ∧
      (∀ i k, l < i → ks[i]? = some k → value < k.value) := by
  have hlen : ks.length = n := by rw [← hks]; simp [hn]
  obtain ⟨l, h1, -, h3, h4, h5⟩ := bsearch_spec keys value n hn n 0 n hpos (le_refl _) (by omega)
  have hget : ∀ i, i < n → keys[i]? = ks[i]? := by
    intro i hi; rw [← hks, List.getElem?_take]; simp [hi]
  have hl : l < ks.length := by omega
  refine ⟨l, ks[l], h1, h3, by simp, by rw [hget l h3]; simp, ?_, ?_, ?_⟩
  · intro i k hi hk
    rcases h4 with h4 | h4
    · omega
    · have hil : i < ks.length := by omega
      have hk' : k = ks[i] := by rw [List.getElem?_eq_getElem hil] at hk; cases hk; rfl
      have := List.pairwise_iff_getElem.mp hs i l (by simpa using hil) (by simpa using hl) hi
      simp only [List.getElem_map] at this
      have h4' := h4 ks[l] (by rw [hget l h3]; simp)
      rw [hk']; omega
  · rcases h4 with h4 | h4
    · left; exact h4
    · right; exact h4 ks[l] (by rw [hget l h3]; simp)
  · intro i k hi hk
    have hil : i < ks.length := by
      by_contra hc
      rw [List.getElem?_eq_none (by omega)] at hk; cases hk
    have hk' : k = ks[i] := by rw [List.getElem?_eq_getElem hil] at hk; cases hk; rfl
    rcases h5 with h5 | h5
    · omega
    · have hl1 : l + 1 < ks.length := by omega
      have h5' := h5 ks[l + 1] (by rw [hget (l + 1) (by omega)]; simp)
      rw [hk']
      by_cases hieq : i = l + 1
      · subst hieq; exact h5'
      · have := List.pairwise_iff_getElem.mp hs (l + 1) i (by simpa using hl1) (by simpa using hil) (by omega)
        simp only [List.getElem_map] at this
        omega

end bsearch_lemmas

section inorder_lemmas

variable {S : Type}

theorem inorder_cons_none (sub : B_tree_node S → List (key_t S))
    (c : Option (B_tree_node S)) (cs : List (Option (B_tree_node S))) (ks : List (key_t S)) :
    inorder sub (c :: cs) ks = (c.map sub).getD [] ++ inorder sub (none :: cs) ks := by
  cases ks <;> simp [inorder]

theorem inorder_append (sub : B_tree_node S → List (key_t S)) :
    ∀ (as : List (Option (B_tree_node S))) (ka : List (key_t S)) bs kb,
      as.length = ka.length →
      inorder sub (as ++ bs) (ka ++ kb) = inorder sub (as ++ [none]) ka ++ inorder sub bs kb := by
  intro as
  induction as with
  | nil =>
    intro ka bs kb h
    cases ka with
    | nil => simp [inorder]
    | cons _ _ => simp at h
  | cons a as ih =>
    intro ka bs kb h
    cases ka with
    | nil => simp at h
    | cons k ka =>
      have e := ih ka bs kb (by simpa using h)
      show (a.map sub).getD [] ++ k :: inorder sub (as ++ bs) (ka ++ kb) =
        ((a.map sub).getD [] ++ k :: inorder sub (as ++ [none]) ka) ++ inorder sub bs kb
      rw [e]; simp

/-- The in-order list of an internal node split around child `l`. -/
theorem inorder_split (sub : B_tree_node S → List (key_t S))
    (cl : List (B_tree_node S)) (ks : List (key_t S)) (l : Nat) (c : B_tree_node S)
    (hlen : cl.length = ks.length + 1) (hl : cl[l]? = some c) :
    inorder sub (cl.map some) ks =
      inorder sub ((cl.take l).map some ++ [none]) (ks.take l) ++
        (sub c ++ inorder sub (none :: (cl.drop (l + 1)).map some) (ks.drop l)) := by
  have hll : l < cl.length := by
    by_contra h; rw [List.getElem?_eq_none (by omega)] at hl; cases hl
  have hcl : cl = cl.take l ++ c :: cl.drop (l + 1) := by
    have := List.getElem_cons_drop cl l hll
    rw [List.getElem?_eq_getElem hll] at hl
    cases hl
    rw [this, List.take_append_drop]
  have hks : ks = ks.take l ++ ks.drop l := (List.take_append_drop l ks).symm
  conv_lhs => rw [hcl, hks]
  rw [List.map_append, inorder_append _ _ _ _ _ (by simp; omega)]
  rw [List.map_cons, inorder_cons_none]
  simp

theorem inorder_map_add (f : Nat) (cl : List (Option (B_tree_node S))) (ks : List (key_t S)) :
    ∀ e ∈ inorder (B_tree_node.flat f) cl ks,
      e ∈ ks ∨ ∃ c, some c ∈ cl ∧ e ∈ B_tree_node.flat f c := by
  induction cl generalizing ks with
  | nil => intro e he; simp [inorder] at he
  | cons c cs ih =>
    intro e he
    cases ks with
    | nil =>
      simp only [inorder] at he
      cases c with
      | none => simp at he
      | some c => right; exact ⟨c, by simp, by simpa using he⟩
    | cons k ks =>
      simp only [inorder, List.mem_append, List.mem_cons] at he
      rcases he with he | he | he
      · cases c with
        | none => simp at he
        | some c => right; exact ⟨c, by simp, by simpa using he⟩
      · left; simp [he]
      · rcases ih ks e he with h | ⟨c', h1, h2⟩
        · left; simp [h]
        · right; exact ⟨c', by simp [h1], h2⟩

end inorder_lemmas

section keys_lemmas

variable {S : Type}

@[simp] theorem key_t.add_value (d : Int) (k : key_t S) : (k.add d).value = k.value + d := rfl

@[simp] theorem key_t.add_satellites (d : Int) (k : key_t S) :
    (k.add d).satellites = k.satellites := rfl

@[simp] theorem key_t.add_zero (k : key_t S) : k.add 0 = k := by
  cases k; simp [key_t.add]

theorem key_t.add_add (a b : Int) (k : key_t S) : (k.add a).add b = k.add (a + b) := by
  cases k; simp [key_t.add, add_assoc]

theorem pairwise_map_add (d : Int) (l : List (key_t S)) :
    ((l.map (key_t.add d)).map key_t.value).Pairwise (· < ·) ↔
      (l.map key_t.value).Pairwise (· < ·) := by
  simp only [List.map_map, List.pairwise_map, Function.comp, key_t.add_value]
  constructor <;> intro h <;> refine h.imp ?_ <;> intro a b hab <;> omega

theorem keys_ok_iff (l : List (key_t S)) :
    keys_ok l = true ↔
      (l.map key_t.value).Pairwise (· < ·) ∧ ∀ k ∈ l, k.satellites.isSome = true := by
  simp [keys_ok]

theorem keys_ok_map_add (d : Int) (l : List (key_t S)) :
    keys_ok (l.map (key_t.add d)) = keys_ok l := by
  rw [Bool.eq_iff_iff, keys_ok_iff, keys_ok_iff, pairwise_map_add]
  simp

theorem keys_ok_append {a b : List (key_t S)} :
    keys_ok (a ++ b) = true ↔
      keys_ok a = true ∧ keys_ok b = true ∧ ∀ x ∈ a, ∀ y ∈ b, x.value < y.value := by
  simp only [keys_ok_iff, List.map_append, List.pairwise_append, List.mem_append, List.mem_map,
    forall_exists_index, and_imp, forall_apply_eq_imp_iff₂]
  constructor
  · rintro ⟨⟨h1, h2, h3⟩, h4⟩
    exact ⟨⟨h1, fun k hk => h4 k (Or.inl hk)⟩, ⟨h2, fun k hk => h4 k (Or.inr hk)⟩, h3⟩
  · rintro ⟨⟨h1, h2⟩, ⟨h3, h4⟩, h5⟩
    exact ⟨⟨h1, h3, h5⟩, fun k hk => hk.elim (h2 k) (h4 k)⟩

end keys_lemmas

section rep_lemmas

variable {S : Type}

theorem all_some_iff (p : B_tree_node S → Bool) :
    ∀ l : List (Option (B_tree_node S)),
      (l.all fun c => match c with
        | none => false
        | some c => p c) = true ↔
        ∃ cl : List (B_tree_node S), l = cl.map some ∧ ∀ c ∈ cl, p c = true := by
  intro l
  induction l with
  | nil => simp
  | cons a l ih =>
    cases a with
    | none =>
      simp only [List.all_cons, Bool.false_and, Bool.false_eq_true, false_iff, not_exists, not_and]
      intro cl h; cases cl <;> simp at h
    | some c =>
      simp only [List.all_cons, Bool.and_eq_true, ih]
      constructor
      · rintro ⟨hc, cl, rfl, hcl⟩
        exact ⟨c :: cl, by simp, by simpa [hc] using hcl⟩
      · rintro ⟨cl, h, hcl⟩
        cases cl with
        | nil => simp at h
        | cons c' cl =>
          simp only [List.map_cons, List.cons.injEq, Option.some.injEq] at h
          obtain ⟨rfl, rfl⟩ := h
          exact ⟨hcl c (by simp), cl, rfl, fun d hd => hcl d (by simp [hd])⟩

theorem B_tree_node.Rep.key_get {B : Nat} {x : B_tree_node S} {ks cs s} (r : B_tree_node.Rep B x ks cs s)
    {i : Nat} (hi : i < ks.length) : x.keys[i]? = ks[i]? := by
  rw [← r.keys_eq, List.getElem?_take]
  simp [r.n_eq, hi]

theorem B_tree_node.Rep.child_get {B : Nat} {x : B_tree_node S} {ks cl s}
    (r : B_tree_node.Rep B x ks (some cl) s) {ch} (hch : x.children = some ch)
    {i : Nat} {c : B_tree_node S} (hi : cl[i]? = some c) : ch[i]? = some (some c) := by
  obtain ⟨ch', h1, h2, h3, h4⟩ := r.ch
  rw [hch] at h1; cases h1
  have hil : i < cl.length := by
    by_contra h; rw [List.getElem?_eq_none (by omega)] at hi; cases hi
  have : (ch.take (x.n + 1))[i]? = ch[i]? := by
    rw [List.getElem?_take]; simp [r.n_eq]; omega
  rw [← this, h3]; simp [hi]

theorem B_tree_node.Rep.children_some {B : Nat} {x : B_tree_node S} {ks cl s}
    (r : B_tree_node.Rep B x ks (some cl) s) :
    ∃ ch, x.children = some ch ∧ ch.length = B + 1 ∧ ch.take (ks.length + 1) = cl.map some ∧
      cl.length = ks.length + 1 := by
  obtain ⟨ch, h1, h2, h3, h4⟩ := r.ch
  exact ⟨ch, h1, h2, by rw [← r.n_eq]; exact h3, h4⟩

theorem B_tree_node.Rep.children_none {B : Nat} {x : B_tree_node S} {ks s}
    (r : B_tree_node.Rep B x ks none s) : x.children = none := r.ch

theorem B_tree_node.Rep.is_leaf_none {B : Nat} {x : B_tree_node S} {ks s}
    (r : B_tree_node.Rep B x ks none s) : x.is_leaf = true := by
  simp [B_tree_node.is_leaf, r.children_none]

theorem B_tree_node.Rep.is_leaf_some {B : Nat} {x : B_tree_node S} {ks cl s}
    (r : B_tree_node.Rep B x ks (some cl) s) : x.is_leaf = false := by
  obtain ⟨ch, h1, -⟩ := r.ch
  simp [B_tree_node.is_leaf, h1]

theorem shape_succ_iff (B lo lo' h : Nat) (x : B_tree_node S) :
    x.shape B lo lo' (h + 1) = true ↔
      ∃ ks cs, B_tree_node.Rep B x ks cs x._shift ∧ lo ≤ ks.length ∧
        (match cs with
          | none => h = 0
          | some cl => h ≠ 0 ∧ ∀ c ∈ cl, c.shape B lo' lo' h = true) := by
  constructor
  · intro hs
    simp only [B_tree_node.shape, Bool.and_eq_true, beq_iff_eq, decide_eq_true_eq] at hs
    obtain ⟨⟨⟨h1, h2⟩, h3⟩, h4⟩ := hs
    cases hch : x.children with
    | none =>
      rw [hch] at h4
      refine ⟨x.keys.take x.n, none, ⟨h1, by simp; omega, by simp; omega, rfl, rfl, hch⟩,
        by simp; omega, by simpa using h4⟩
    | some ch =>
      rw [hch] at h4
      simp only [Bool.and_eq_true, bne_iff_ne, ne_eq, beq_iff_eq] at h4
      obtain ⟨⟨h5, h6⟩, h7⟩ := h4
      obtain ⟨cl, h8, h9⟩ := (all_some_iff _ _).mp h7
      have hlen : cl.length = x.n + 1 := by
        have := congrArg List.length h8
        simp at this; omega
      refine ⟨x.keys.take x.n, some cl,
        ⟨h1, by simp; omega, by simp; omega, rfl, rfl, ⟨ch, hch, h6, h8, by simp; omega⟩⟩,
        by simp; omega, h5, h9⟩
  · rintro ⟨ks, cs, r, hlo, hc⟩
    simp only [B_tree_node.shape, Bool.and_eq_true, beq_iff_eq, decide_eq_true_eq]
    refine ⟨⟨⟨r.keys_len, by rw [r.n_eq]; exact hlo⟩, by rw [r.n_eq]; exact r.n_le⟩, ?_⟩
    cases cs with
    | none =>
      have := r.children_none
      rw [this]; simpa using hc
    | some cl =>
      obtain ⟨ch, h1, h2, h3, h4⟩ := r.ch
      rw [h1]
      simp only [Bool.and_eq_true, bne_iff_ne, ne_eq, beq_iff_eq]
      exact ⟨⟨hc.1, h2⟩, (all_some_iff _ _).mpr ⟨cl, h3, hc.2⟩⟩

theorem shape_zero (B lo lo' : Nat) (x : B_tree_node S) : x.shape B lo lo' 0 = false := by
  simp [B_tree_node.shape]

theorem flat_leaf {B : Nat} {x : B_tree_node S} {ks s} (r : B_tree_node.Rep B x ks none s)
    (f : Nat) : x.flat (f + 1) = ks.map (key_t.add s) := by
  simp [B_tree_node.flat, r.children_none, r.keys_eq, r.shift_eq]

theorem flat_inner {B : Nat} {x : B_tree_node S} {ks cl s}
    (r : B_tree_node.Rep B x ks (some cl) s) (f : Nat) :
    x.flat (f + 1) = (inorder (B_tree_node.flat f) (cl.map some) ks).map (key_t.add s) := by
  obtain ⟨ch, h1, h2, h3, h4⟩ := r.ch
  simp [B_tree_node.flat, h1, h3, r.keys_eq, r.shift_eq]

theorem inorder_congr (f g : B_tree_node S → List (key_t S)) :
    ∀ (cl : List (Option (B_tree_node S))) (ks : List (key_t S)),
      (∀ c, some c ∈ cl → f c = g c) → inorder f cl ks = inorder g cl ks := by
  intro cl
  induction cl with
  | nil => intro ks _; simp [inorder]
  | cons c cs ih =>
    intro ks h
    have hc : (c.map f).getD [] = (c.map g).getD [] := by
      cases c with
      | none => rfl
      | some c => simp [h c (by simp)]
    cases ks with
    | nil => simp [inorder, hc]
    | cons k ks =>
      simp only [inorder, hc]
      rw [ih ks (fun c' hc' => h c' (by simp [hc']))]

theorem flat_fuel (B : Nat) : ∀ (h lo lo' : Nat) (x : B_tree_node S) (f : Nat),
    x.shape B lo lo' h = true → h ≤ f → x.flat f = x.flat h := by
  intro h
  induction h with
  | zero => intro lo lo' x f hs; simp [shape_zero] at hs
  | succ h ih =>
    intro lo lo' x f hs hf
    obtain ⟨f, rfl⟩ : ∃ f', f = f' + 1 := ⟨f - 1, by omega⟩
    obtain ⟨ks, cs, r, -, hc⟩ := (shape_succ_iff B lo lo' h x).mp hs
    cases cs with
    | none => rw [flat_leaf r, flat_leaf r]
    | some cl =>
      rw [flat_inner r, flat_inner r]
      congr 1
      apply inorder_congr
      intro c hc'
      have : c ∈ cl := by simpa using hc'
      exact ih lo' lo' c f (hc.2 c this) (by omega)

theorem shape_mono (B : Nat) : ∀ (h lo lo' a a' : Nat) (x : B_tree_node S),
    x.shape B lo lo' h = true → a ≤ lo → a' ≤ lo' → x.shape B a a' h = true := by
  intro h
  induction h with
  | zero => intro lo lo' a a' x hs; simp [shape_zero] at hs
  | succ h ih =>
    intro lo lo' a a' x hs ha ha'
    obtain ⟨ks, cs, r, hlo, hc⟩ := (shape_succ_iff B lo lo' h x).mp hs
    refine (shape_succ_iff B a a' h x).mpr ⟨ks, cs, r, by omega, ?_⟩
    cases cs with
    | none => exact hc
    | some cl => exact ⟨hc.1, fun c hcm => ih lo' lo' a' a' c (hc.2 c hcm) ha' ha'⟩

end rep_lemmas

section constructor_lemmas

variable {S : Type}

/-- The constructor of a leaf returns the blank leaf. -/
theorem create_leaf (B : Nat) :
    (B_tree_node.create B true : Except Fault (B_tree_node S)) =
      .ok (B_tree_node.blank B true) := rfl

/-- The constructor of an internal node returns the blank internal node when `B + 1` is a value
of `B_t`. -/
theorem create_inner {B : Nat} (h : B + 1 < 2 ^ B_t_bits B) :
    (B_tree_node.create B false : Except Fault (B_tree_node S)) =
      .ok (B_tree_node.blank B false) := by
  simp only [B_tree_node.create, Bool.false_eq_true, if_false, if_pos h]
  rfl

/-- The constructor returns when `B + 1` is a value of `B_t`. -/
theorem create_fits {B : Nat} (h : B + 1 < 2 ^ B_t_bits B) (leaf : Bool) :
    (B_tree_node.create B leaf : Except Fault (B_tree_node S)) =
      .ok (B_tree_node.blank B leaf) := by
  cases leaf with
  | true => exact create_leaf B
  | false => exact create_inner h

/-- A truncation to `B_t` does not increase the value. -/
theorem B_t_le (B v : Nat) : B_t B v ≤ v := Nat.mod_le _ _

/-- A value of `B_t` is not changed by the truncation. -/
theorem B_t_eq {B v : Nat} (h : v < 2 ^ B_t_bits B) : B_t B v = v := Nat.mod_eq_of_lt h

end constructor_lemmas

/-! ## The descent of search -/

section split_lemmas

variable {S : Type}

theorem sublist_inorder (sub : B_tree_node S → List (key_t S)) :
    ∀ (cs : List (Option (B_tree_node S))) (ks : List (key_t S)),
      ks.length < cs.length → ks.Sublist (inorder sub cs ks) := by
  intro cs
  induction cs with
  | nil => intro ks h; simp at h
  | cons c cs ih =>
    intro ks h
    cases ks with
    | nil => simp
    | cons k ks =>
      simp only [inorder]
      exact List.Sublist.trans ((ih ks (by simpa using h)).cons₂ k) (List.sublist_append_right _ _)

theorem keys_ok_sublist {a b : List (key_t S)} (h : a.Sublist b) (hb : keys_ok b = true) :
    keys_ok a = true := by
  rw [keys_ok_iff] at hb ⊢
  exact ⟨hb.1.sublist (h.map _), fun k hk => hb.2 k (h.subset hk)⟩

/-- Everything before child `l` in the in-order list of an internal node. -/
theorem inorder_pre_snoc (sub : B_tree_node S → List (key_t S)) :
    ∀ (as : List (Option (B_tree_node S))) (ka : List (key_t S)) (k : key_t S),
      as.length = ka.length + 1 →
      ∃ init, inorder sub (as ++ [none]) (ka ++ [k]) = init ++ [k] := by
  intro as
  induction as with
  | nil => intro ka k h; simp at h
  | cons a as ih =>
    intro ka k h
    cases ka with
    | nil =>
      cases as with
      | nil => exact ⟨(a.map sub).getD [], by simp [inorder]⟩
      | cons _ _ => simp at h
    | cons k' ka =>
      obtain ⟨init, hi⟩ := ih ka k (by simpa using h)
      refine ⟨(a.map sub).getD [] ++ k' :: init, ?_⟩
      show (a.map sub).getD [] ++ k' :: inorder sub (as ++ [none]) (ka ++ [k]) = _
      rw [hi]; simp

theorem pre_le (sub : B_tree_node S → List (key_t S))
    (as : List (Option (B_tree_node S))) (ka : List (key_t S)) (k : key_t S)
    (hlen : as.length = ka.length) (hk : ka.getLast? = some k)
    (hok : keys_ok (inorder sub (as ++ [none]) ka) = true) :
    ∀ e ∈ inorder sub (as ++ [none]) ka, e.value ≤ k.value := by
  obtain ⟨ka', rfl⟩ : ∃ ka', ka = ka' ++ [k] := by
    rcases List.eq_nil_or_concat ka with h | ⟨l, a, h⟩
    · subst h; simp at hk
    · subst h; simp at hk; subst hk; exact ⟨l, by simp⟩
  obtain ⟨init, hi⟩ := inorder_pre_snoc sub as ka' k (by simpa using hlen)
  rw [hi] at hok ⊢
  intro e he
  rw [keys_ok_append] at hok
  simp only [List.mem_append, List.mem_singleton] at he
  rcases he with he | he
  · exact le_of_lt (hok.2.2 e he k (by simp))
  · subst he; exact le_refl _

theorem pre_nil (sub : B_tree_node S → List (key_t S)) :
    inorder sub ([] ++ [none]) [] = [] := by
  simp [inorder]

theorem post_ge (sub : B_tree_node S → List (key_t S))
    (cs : List (Option (B_tree_node S))) (kb : List (key_t S)) (k : key_t S)
    (hk : kb.head? = some k)
    (hok : keys_ok (inorder sub (none :: cs) kb) = true) :
    ∀ e ∈ inorder sub (none :: cs) kb, k.value ≤ e.value := by
  cases kb with
  | nil => simp at hk
  | cons k' kb =>
    simp only [List.head?_cons, Option.some.injEq] at hk
    subst hk
    simp only [inorder, Option.map_none', Option.getD_none, List.nil_append] at hok ⊢
    have : keys_ok ([k'] ++ inorder sub cs kb) = true := hok
    rw [keys_ok_append] at this
    intro e he
    simp only [List.mem_cons] at he
    rcases he with he | he
    · subst he; exact le_refl _
    · exact le_of_lt (this.2.2 k' (by simp) e he)

theorem post_nil (sub : B_tree_node S → List (key_t S)) :
    inorder sub (none :: ([] : List (B_tree_node S)).map some) [] = [] := by
  simp [inorder]

/-- The in-order list of a subtree, split around child `l`. -/
theorem flat_split {B : Nat} {x : B_tree_node S} {ks cl s}
    (r : B_tree_node.Rep B x ks (some cl) s) (f : Nat) {l : Nat} {c : B_tree_node S}
    (hl : cl[l]? = some c) :
    x.flat (f + 1) =
      (inorder (B_tree_node.flat f) ((cl.take l).map some ++ [none]) (ks.take l) ++
        (c.flat f ++
          inorder (B_tree_node.flat f) (none :: (cl.drop (l + 1)).map some) (ks.drop l))).map
        (key_t.add s) := by
  rw [flat_inner r, inorder_split _ cl ks l c r.children_some.choose_spec.2.2.2 hl]

/-- What the sortedness of the in-order list says around child `l` of an internal node: the part
before the child lies at or below key `l - 1`, the part behind it at or above key `l`. -/
theorem flat_split_bounds (sub : B_tree_node S → List (key_t S))
    (cl : List (B_tree_node S)) (ks : List (key_t S)) (l : Nat) (c : B_tree_node S)
    (hlen : cl.length = ks.length + 1) (hl : cl[l]? = some c)
    (hok : keys_ok (inorder sub (cl.map some) ks) = true) :
    keys_ok (sub c) = true ∧
    keys_ok (inorder sub ((cl.take l).map some ++ [none]) (ks.take l)) = true ∧
    keys_ok (inorder sub (none :: (cl.drop (l + 1)).map some) (ks.drop l)) = true ∧
    (∀ e ∈ inorder sub ((cl.take l).map some ++ [none]) (ks.take l),
      ∀ k, 0 < l → ks[l - 1]? = some k → e.value ≤ k.value) ∧
    (l = 0 → inorder sub ((cl.take l).map some ++ [none]) (ks.take l) = []) ∧
    (∀ e ∈ inorder sub (none :: (cl.drop (l + 1)).map some) (ks.drop l),
      ∀ k, ks[l]? = some k → k.value ≤ e.value) ∧
    (l = ks.length → inorder sub (none :: (cl.drop (l + 1)).map some) (ks.drop l) = []) ∧
    (∀ e ∈ inorder sub ((cl.take l).map some ++ [none]) (ks.take l),
      ∀ e' ∈ sub c, e.value < e'.value) ∧
    (∀ e ∈ sub c, ∀ e' ∈ inorder sub (none :: (cl.drop (l + 1)).map some) (ks.drop l),
      e.value < e'.value) ∧
    (∀ e ∈ inorder sub ((cl.take l).map some ++ [none]) (ks.take l),
      ∀ e' ∈ inorder sub (none :: (cl.drop (l + 1)).map some) (ks.drop l),
      e.value < e'.value) := by
  have hll : l < cl.length := by
    by_contra h; rw [List.getElem?_eq_none (by omega)] at hl; cases hl
  rw [inorder_split sub cl ks l c hlen hl, keys_ok_append, keys_ok_append] at hok
  obtain ⟨h1, ⟨h2, h3, h4⟩, h5⟩ := hok
  refine ⟨h2, h1, h3, ?_, ?_, ?_, ?_, ?_, h4, ?_⟩
  · intro e he k hpos hk
    refine pre_le sub _ _ k (by simp; omega) ?_ h1 e he
    rw [List.getLast?_eq_getElem?, List.length_take, List.getElem?_take]
    have : min l ks.length - 1 = l - 1 := by omega
    rw [this]; simp [hpos, hk]
  · intro h0; subst h0; simp [inorder]
  · intro e he k hk
    exact post_ge sub _ _ k (by simpa using hk) h3 e he
  · intro hn
    have h1 : ks.drop l = [] := by simp [hn]
    have h2 : cl.drop (l + 1) = [] := by simp; omega
    rw [h1, h2]; simp [inorder]
  · intro e he e' he'
    exact h5 e he e' (List.mem_append.mpr (Or.inl he'))
  · intro e he e' he'
    exact h5 e he e' (List.mem_append.mpr (Or.inr he'))

theorem key_at_child {x : B_tree_node S} {ch : List (Option (B_tree_node S))} {l : Nat}
    {c : B_tree_node S} (hch : x.children = some ch) (hl : ch[l]? = some (some c))
    (path : List Nat) (idx : Nat) : x.key_at (l :: path) idx = c.key_at path idx := by
  simp [B_tree_node.key_at, hch, hl]

/-- Correctness of `B_tree_node::search` on a subtree of height `h`. -/
theorem search_node (B : Nat) : ∀ (h : Nat) (x : B_tree_node S) (v : Int) (fuel : Nat),
    x.shape B 1 1 h = true → keys_ok (x.flat h) = true → h ≤ fuel →
    ∃ r, x.search fuel v = .ok r ∧
      ((∃ p, r.key = some p ∧ p.key.value + r.shift = v ∧ p.key.add r.shift ∈ x.flat h ∧
          x.key_at p.path p.idx = some p.key) ∨
       (r.key = none ∧ ∀ k ∈ x.flat h, k.value ≠ v)) := by
  intro h
  induction h with
  | zero => intro x v fuel hs; simp [shape_zero] at hs
  | succ h ih =>
    intro x v fuel hs hok hf
    obtain ⟨fuel, rfl⟩ : ∃ f', fuel = f' + 1 := ⟨fuel - 1, by omega⟩
    obtain ⟨ks, cs, r, hlo, hc⟩ := (shape_succ_iff B 1 1 h x).mp hs
    have hnB : x.n ≤ x.keys.length := by rw [r.keys_len, r.n_eq]; exact r.n_le
    have hks : keys_ok ks = true := by
      cases cs with
      | none => rw [flat_leaf r, keys_ok_map_add] at hok; exact hok
      | some cl =>
        rw [flat_inner r, keys_ok_map_add] at hok
        exact keys_ok_sublist
          (sublist_inorder _ _ _ (by simp [r.children_some.choose_spec.2.2.2])) hok
    obtain ⟨l, kl, hb, hln, hkl, hkl', hlt, hle, hgt⟩ :=
      bsearch_sorted x.keys ks (v - x._shift) x.n hnB r.keys_eq (by rw [r.n_eq]; omega)
        ((keys_ok_iff _).mp hks).1
    have hklm : kl ∈ ks := List.getElem?_mem hkl
    have hsat : kl.satellites.isSome = true := ((keys_ok_iff _).mp hks).2 kl hklm
    simp only [B_tree_node.search, hb, rd_ok hkl', bind, Except.bind]
    by_cases hfound : kl.value = v - x._shift
    · -- the key is in this node
      refine ⟨⟨x._shift, some ⟨[], l, kl⟩⟩, by simp [hfound, hsat, pure, Except.pure], Or.inl ?_⟩
      refine ⟨⟨[], l, kl⟩, rfl, by simp; omega, ?_, by simp [B_tree_node.key_at, hln, hkl']⟩
      cases cs with
      | none => rw [flat_leaf r]; exact List.mem_map_of_mem _ hklm
      | some cl =>
        rw [flat_inner r]
        exact List.mem_map_of_mem _
          ((sublist_inorder _ _ _ (by simp [r.children_some.choose_spec.2.2.2])).subset hklm)
    · -- descend
      simp only [hfound, false_and, if_false]
      have hA : ∀ i k, i < (if kl.value < v - x._shift then l + 1 else l) → ks[i]? = some k →
          k.value < v - x._shift := by
        intro i k hi hk
        split at hi
        · rename_i hlt'
          by_cases hil : i = l
          · subst hil; rw [hkl] at hk; cases hk; exact hlt'
          · exact hlt i k (by omega) hk
        · exact hlt i k hi hk
      have hB : ∀ i k, (if kl.value < v - x._shift then l + 1 else l) ≤ i → ks[i]? = some k →
          v - x._shift < k.value := by
        intro i k hi hk
        split at hi
        · exact hgt i k (by omega) hk
        · rename_i hlt'
          by_cases hil : i = l
          · subst hil; rw [hkl] at hk; cases hk; omega
          · exact hgt i k (by omega) hk
      have hl'n : (if kl.value < v - x._shift then l + 1 else l) ≤ ks.length := by
        rw [← r.n_eq]; split <;> omega
      generalize (if kl.value < v - x._shift then l + 1 else l) = l' at hA hB hl'n ⊢
      cases cs with
      | none =>
        rw [r.children_none]
        refine ⟨⟨x._shift, none⟩, rfl, Or.inr ⟨rfl, ?_⟩⟩
        rw [flat_leaf r]
        intro k hk
        obtain ⟨k0, hk0, rfl⟩ := List.mem_map.mp hk
        obtain ⟨i, hi⟩ := List.mem_iff_getElem?.mp hk0
        simp only [key_t.add_value]
        by_cases hil : i < l'
        · have := hA i k0 hil hi; omega
        · have := hB i k0 (by omega) hi; omega
      | some cl =>
        obtain ⟨ch, hch, hchl, hcht, hcll⟩ := r.children_some
        obtain ⟨c, hcl⟩ : ∃ c, cl[l']? = some c := ⟨cl[l'], by simp⟩
        have hchc := r.child_get hch hcl
        rw [hch]
        simp only [rd_ok hchc]
        have hcm : c ∈ cl := List.getElem?_mem hcl
        have hflat := flat_split r h hcl
        rw [hflat, keys_ok_map_add] at hok
        rw [← inorder_split _ cl ks l' c hcll hcl] at hok
        obtain ⟨b1, b2, b3, b4, b5, b6, b7, b8, b9, b10⟩ :=
          flat_split_bounds (B_tree_node.flat h) cl ks l' c hcll hcl hok
        obtain ⟨r', hr', hres⟩ := ih c (v - x._shift) fuel (hc.2 c hcm) b1 (by omega)
        rw [hr']
        refine ⟨r'.lift l' x._shift, rfl, ?_⟩
        rcases hres with ⟨p, hp1, hp2, hp3, hp4⟩ | ⟨hn1, hn2⟩
        · left
          refine ⟨{ p with path := l' :: p.path }, by simp [shifted_key_ptr_t.lift, hp1],
            by simp [shifted_key_ptr_t.lift]; omega, ?_, ?_⟩
          · rw [hflat]
            simp only [shifted_key_ptr_t.lift, ← key_t.add_add]
            apply List.mem_map_of_mem
            simp [hp3]
          · simp only [key_at_child hch hchc]; exact hp4
        · right
          refine ⟨by simp [shifted_key_ptr_t.lift, hn1], ?_⟩
          rw [hflat]
          intro k hk
          obtain ⟨k0, hk0, rfl⟩ := List.mem_map.mp hk
          simp only [key_t.add_value]
          simp only [List.mem_append] at hk0
          rcases hk0 with hk0 | hk0 | hk0
          · by_cases h0 : l' = 0
            · rw [b5 h0] at hk0; simp at hk0
            · obtain ⟨kp, hkp⟩ : ∃ k, ks[l' - 1]? = some k := ⟨ks[l' - 1], by simp⟩
              have := b4 k0 hk0 kp (by omega) hkp
              have := hA (l' - 1) kp (by omega) hkp
              omega
          · have := hn2 k0 hk0; omega
          · by_cases hn : l' = ks.length
            · rw [b7 hn] at hk0; simp at hk0
            · obtain ⟨kp, hkp⟩ : ∃ k, ks[l']? = some k := ⟨ks[l'], by simp⟩
              have := b6 k0 hk0 kp hkp
              have := hB l' kp (le_refl _) hkp
              omega

end split_lemmas

/-! ## Contracts of search and shift -/

section read_contracts

variable {S : Type}

theorem flat_shift (x : B_tree_node S) (d : Int) (fuel : Nat) :
    (x.shift d).flat fuel = (x.flat fuel).map (key_t.add d) := by
  cases fuel with
  | zero => rfl
  | succ f =>
    simp only [B_tree_node.flat, B_tree_node.shift, List.map_map]
    congr 1
    funext k
    simp only [Function.comp, key_t.add_add]

/-- Searching a node whose shift was raised by `d` for `v + d` gives the answer of the search
for `v`, with `d` added to the shift of the reference. -/
theorem search_shift (x : B_tree_node S) (d v : Int) (fuel : Nat) :
    (x.shift d).search fuel (v + d) =
      (x.search fuel v).map fun r => { r with shift := r.shift + d } := by
  cases fuel with
  | zero => rfl
  | succ f =>
    have hv : v + d - (x._shift + d) = v - x._shift := by omega
    simp only [B_tree_node.search, B_tree_node.shift, hv]
    cases bsearch x.keys (v - x._shift) x.n 0 x.n with
    | error e => rfl
    | ok lr =>
      obtain ⟨l, r⟩ := lr
      simp only [bind, Except.bind, Except.map]
      cases rd x.keys l with
      | error e => rfl
      | ok kl =>
        simp only
        split
        · rfl
        · cases x.children with
          | none => rfl
          | some ch =>
            simp only
            cases rd ch (if kl.value < v - x._shift then l + 1 else l) with
            | error e => rfl
            | ok c =>
              cases c with
              | none => rfl
              | some c =>
                simp only
                cases B_tree_node.search f c (v - x._shift) with
                | error e => rfl
                | ok a =>
                  simp only [pure, Except.pure, shifted_key_ptr_t.lift, add_assoc]

/-- A valid root satisfies the structure that the descent lemmas need: every node of the tree
holds at least one key. -/
theorem valid_shape_one {B T h : Nat} {x : B_tree_node S} (hT : 2 ≤ T)
    (hv : x.valid B T h = true) :
    x.shape B 1 1 h = true ∧ keys_ok (x.flat h) = true := by
  simp only [B_tree_node.valid, Bool.and_eq_true] at hv
  exact ⟨shape_mono B h 1 (T - 1) 1 1 x hv.1 (le_refl _) (by omega), hv.2⟩

/-- C3: on a valid tree (2 ≤ T, enough fuel for the height) `search(v)` returns; the reference
is non-null exactly when some entry has effective key `v`; a non-null reference designates a
live key of the tree (`key_at` follows the pointer) whose value plus the returned shift is `v`
and which, with its satellite list, is an entry of the tree.  `search` only reads: it returns
the reference and no new tree. -/
theorem search_finds_exactly_the_present_keys (B T h : Nat) (t : B_tree S) (v : Int)
    (fuel : Nat) (hT : 2 ≤ T) (hv : t.valid B T h = true) (hf : h ≤ fuel) :
    ∃ r, t.search fuel v = .ok r ∧
      (r.key.isSome = true ↔ ∃ e ∈ t.entries h, e.1 = v) ∧
      ∀ p, r.key = some p →
        p.key.value + r.shift = v ∧ (p.key.add r.shift).entry ∈ t.entries h ∧
        ∃ head, t._head = some head ∧ head.key_at p.path p.idx = some p.key := by
  cases t with
  | mk head =>
    cases head with
    | none =>
      refine ⟨⟨0, none⟩, rfl, ?_, ?_⟩
      · simp [B_tree.entries]
      · intro p hp; cases hp
    | some x =>
      obtain ⟨hs, hk⟩ := valid_shape_one hT (show x.valid B T h = true from hv)
      obtain ⟨r, hr, hcase⟩ := search_node B h x v fuel hs hk hf
      refine ⟨r, hr, ?_, ?_⟩
      · constructor
        · intro hsome
          rcases hcase with ⟨p, hp, hval, hmem, -⟩ | ⟨hnone, -⟩
          · exact ⟨(p.key.add r.shift).entry, List.mem_map_of_mem _ hmem, hval⟩
          · rw [hnone] at hsome; cases hsome
        · rintro ⟨e, he, hev⟩
          rcases hcase with ⟨p, hp, -⟩ | ⟨-, hall⟩
          · rw [hp]; rfl
          · obtain ⟨k, hk', rfl⟩ := List.mem_map.mp he
            exact absurd hev (hall k hk')
      · intro p hp
        rcases hcase with ⟨q, hq, hval, hmem, hat⟩ | ⟨hnone, -⟩
        · rw [hq] at hp
          cases hp
          exact ⟨hval, List.mem_map_of_mem _ hmem, x, rfl, hat⟩
        · rw [hnone] at hp; cases hp

/-- The C3 theorem applied to the sample tree and the key 105 that it holds. -/
theorem search_finds_exactly_the_present_keys_witness :
    ∃ r, B_tree.sample.search 2 105 = .ok r ∧
      (r.key.isSome = true ↔ ∃ e ∈ B_tree.sample.entries 2, e.1 = 105) ∧
      ∀ p, r.key = some p →
        p.key.value + r.shift = 105 ∧ (p.key.add r.shift).entry ∈ B_tree.sample.entries 2 ∧
        ∃ head, B_tree.sample._head = some head ∧ head.key_at p.path p.idx = some p.key :=
  search_finds_exactly_the_present_keys 7 3 2 B_tree.sample 105 2 (by decide) rfl (le_refl _)

/-- C19: `shift(delta)` adds `delta` to the effective key of every entry and keeps the satellite
lists and the order (the entry list is mapped entry by entry); it replaces the root by the same
node with `delta` added to its lazy shift (keys, children, key count untouched); on the empty
tree it does nothing. -/
theorem shift_adds_delta_to_root_shift_only (t : B_tree S) (delta : Int) (fuel : Nat) :
    (t.shift delta).entries fuel = (t.entries fuel).map (fun e => (e.1 + delta, e.2)) ∧
    (match t._head with
      | none => t.shift delta = t
      | some head => t.shift delta = ⟨some { head with _shift := head._shift + delta }⟩) := by
  cases t with
  | mk head =>
    cases head with
    | none => exact ⟨rfl, rfl⟩
    | some x =>
      refine ⟨?_, rfl⟩
      simp only [B_tree.shift, B_tree.entries, B_tree_node.entries, flat_shift, List.map_map]
      rfl

/-- C20: on a valid tree (2 ≤ T, enough fuel) `search(v)` returns a reference `r`, and after
`shift(delta)` the call `search(v + delta)` returns a reference with the same key pointer (same
path, index, stored key and satellite list, or null in both); a non-null reference
reconstructs to `v + delta`. -/
theorem search_after_shift_designates_same_entry (B T h : Nat) (t : B_tree S) (delta v : Int)
    (fuel : Nat) (hT : 2 ≤ T) (hv : t.valid B T h = true) (hf : h ≤ fuel) :
    ∃ r r', t.search fuel v = .ok r ∧ (t.shift delta).search fuel (v + delta) = .ok r' ∧
      r'.key = r.key ∧ ∀ p, r'.key = some p → p.key.value + r'.shift = v + delta := by
  cases t with
  | mk head =>
    cases head with
    | none =>
      refine ⟨⟨0, none⟩, ⟨0, none⟩, rfl, rfl, rfl, ?_⟩
      intro p hp; cases hp
    | some x =>
      obtain ⟨hs, hk⟩ := valid_shape_one hT (show x.valid B T h = true from hv)
      obtain ⟨r, hr, hcase⟩ := search_node B h x v fuel hs hk hf
      have h1 : B_tree.search fuel (⟨some x⟩ : B_tree S) v = .ok r := hr
      have h2 : (B_tree.shift (⟨some x⟩ : B_tree S) delta).search fuel (v + delta) =
          .ok { r with shift := r.shift + delta } := by
        show (x.shift delta).search fuel (v + delta) = _
        rw [search_shift, hr]
        rfl
      refine ⟨r, _, h1, h2, rfl, ?_⟩
      intro p hp
      rcases hcase with ⟨q, hq, hval, -, -⟩ | ⟨hnone, -⟩
      · have hp' : r.key = some p := hp
        rw [hq] at hp'
        cases hp'
        show p.key.value + (r.shift + delta) = v + delta
        omega
      · have hp' : r.key = some p := hp
        rw [hnone] at hp'; cases hp'

/-- The C20 theorem applied to the sample tree, the key 102 and the shift -40. -/
theorem search_after_shift_designates_same_entry_witness :
    ∃ r r', B_tree.sample.search 2 102 = .ok r ∧
      (B_tree.sample.shift (-40)).search 2 (102 + -40) = .ok r' ∧
      r'.key = r.key ∧ ∀ p, r'.key = some p → p.key.value + r'.shift = 102 + -40 :=
  search_after_shift_designates_same_entry 7 3 2 B_tree.sample (-40) 102 2 (by decide) rfl
    (le_refl _)

end read_contracts

/-! ## Insertion into a leaf -/

section list_helpers

variable {α : Type}

theorem getElem?_insert_mid (a : List α) (x : α) (j m : Nat) (hj : j ≤ a.length) :
    (a.take j ++ x :: a.drop j)[m]? =
      if m < j then a[m]? else if m = j then some x else a[m - 1]? := by
  rw [List.getElem?_append]
  simp only [List.length_take, Nat.min_eq_left hj]
  split
  · rename_i h; rw [List.getElem?_take]; simp [h]
  · rename_i h
    by_cases hm : m = j
    · subst hm; simp
    · simp only [hm, if_false]
      obtain ⟨d, hd⟩ : ∃ d, m - j = d + 1 := ⟨m - j - 1, by omega⟩
      rw [hd, List.getElem?_cons_succ, List.getElem?_drop]
      congr 1; omega

theorem take_eq_of_getElem? (a b : List α) (n : Nat) (hb : b.length = n)
    (h : ∀ m, m < n → a[m]? = b[m]?) : a.take n = b := by
  apply List.ext_getElem?
  intro m
  rw [List.getElem?_take]
  split
  · rename_i hm; exact h m hm
  · rename_i hm; rw [List.getElem?_eq_none (by omega)]

theorem swap_at_ok (a : List α) (i j : Nat) (hi : i < a.length) (hj : j < a.length) :
    swap_at a i j = .ok ((a.set i a[j]).set j a[i]) := by
  simp [swap_at, rd_of_lt hi, rd_of_lt hj, wr, hi, hj, bind, Except.bind]

end list_helpers

section keys_insert_lemmas

variable {S : Type}

theorem keys_insert_mid (v : Int) (s : S) :
    ∀ (a b : List (key_t S)), (∀ k ∈ a, k.value < v) → (∀ k ∈ b, v < k.value) →
      keys_insert v s (a ++ b) = a ++ ⟨v, some [s]⟩ :: b := by
  intro a
  induction a with
  | nil =>
    intro b _ hb
    cases b with
    | nil => simp [keys_insert]
    | cons k b => simp [keys_insert, hb k (by simp)]
  | cons k a ih =>
    intro b ha hb
    have hk := ha k (by simp)
    have h1 : ¬ v < k.value := by omega
    have h2 : ¬ v = k.value := by omega
    simp only [List.cons_append, keys_insert, h1, h2, if_false, List.append_eq]
    rw [ih b (fun k' hk' => ha k' (by simp [hk'])) hb]

theorem keys_insert_hit (v : Int) (s : S) :
    ∀ (a b : List (key_t S)) (k : key_t S), (∀ k' ∈ a, k'.value < v) → k.value = v →
      keys_insert v s (a ++ k :: b) =
        a ++ { k with satellites := k.satellites.map (· ++ [s]) } :: b := by
  intro a
  induction a with
  | nil => intro b k _ hk; simp [keys_insert, hk]
  | cons k' a ih =>
    intro b k ha hk
    have hk' := ha k' (by simp)
    have h1 : ¬ v < k'.value := by omega
    have h2 : ¬ v = k'.value := by omega
    simp only [List.cons_append, keys_insert, h1, h2, if_false, List.append_eq]
    rw [ih b k (fun k'' hk'' => ha k'' (by simp [hk''])) hk]

theorem keys_insert_map_add (v : Int) (s : S) (d : Int) :
    ∀ l : List (key_t S),
      keys_insert (v + d) s (l.map (key_t.add d)) = (keys_insert v s l).map (key_t.add d) := by
  intro l
  induction l with
  | nil => simp [keys_insert, key_t.add]
  | cons k l ih =>
    simp only [List.map_cons, keys_insert, key_t.add_value]
    by_cases h1 : v < k.value
    · have : v + d < k.value + d := by omega
      simp [h1, this, key_t.add]
    · have h1' : ¬ v + d < k.value + d := by omega
      by_cases h2 : v = k.value
      · have : v + d = k.value + d := by omega
        simp [h1, h1', h2, key_t.add]
      · have h2' : ¬ v + d = k.value + d := by omega
        simp [h1, h1', h2, h2', ih]

theorem keys_insert_entries (v : Int) (s : S) :
    ∀ l : List (key_t S), (∀ k ∈ l, k.satellites.isSome = true) →
      (keys_insert v s l).map key_t.entry = entries_insert v s (l.map key_t.entry) := by
  intro l
  induction l with
  | nil => intro _; simp [keys_insert, entries_insert, key_t.entry]
  | cons k l ih =>
    intro hs
    simp only [List.map_cons, keys_insert, entries_insert, key_t.entry]
    by_cases h1 : v < k.value
    · simp [h1, key_t.entry]
    · by_cases h2 : v = k.value
      · have hk := hs k (by simp)
        obtain ⟨sats, hsat⟩ := Option.isSome_iff_exists.mp hk
        simp [h1, h2, key_t.entry, hsat]
      · simp [h1, h2, key_t.entry, ih (fun k' hk' => hs k' (by simp [hk']))]

theorem keys_insert_mem (v : Int) (s : S) :
    ∀ (l : List (key_t S)), ∀ y ∈ keys_insert v s l, y.value = v ∨ ∃ z ∈ l, z.value = y.value := by
  intro l
  induction l with
  | nil => intro y hy; simp [keys_insert] at hy; left; rw [hy]
  | cons z l ihl =>
    intro y hy
    simp only [keys_insert] at hy
    split at hy
    · simp only [List.mem_cons] at hy
      rcases hy with hy | hy | hy
      · left; rw [hy]
      · right; exact ⟨z, by simp, by rw [hy]⟩
      · right; exact ⟨y, by simp [hy], rfl⟩
    · split at hy
      · simp only [List.mem_cons] at hy
        rcases hy with hy | hy
        · right; exact ⟨z, by simp, by rw [hy]⟩
        · right; exact ⟨y, by simp [hy], rfl⟩
      · simp only [List.mem_cons] at hy
        rcases hy with hy | hy
        · right; exact ⟨z, by simp, by rw [hy]⟩
        · rcases ihl y hy with h | ⟨w, hw, hw'⟩
          · left; exact h
          · right; exact ⟨w, by simp [hw], hw'⟩

theorem keys_ok_insert (v : Int) (s : S) :
    ∀ l : List (key_t S), keys_ok l = true → keys_ok (keys_insert v s l) = true := by
  intro l
  induction l with
  | nil => intro _; simp [keys_insert, keys_ok]
  | cons k l ih =>
    intro h
    have hkl : keys_ok ([k] ++ l) = true := h
    rw [keys_ok_append] at hkl
    obtain ⟨hk, hl, hc⟩ := hkl
    simp only [keys_insert]
    by_cases h1 : v < k.value
    · simp only [h1, if_true]
      have : keys_ok ([(⟨v, some [s]⟩ : key_t S)] ++ k :: l) = true := by
        rw [keys_ok_append]
        refine ⟨by simp [keys_ok], h, ?_⟩
        intro x hx y hy
        simp only [List.mem_singleton] at hx
        subst hx
        simp only [List.mem_cons] at hy
        rcases hy with hy | hy
        · subst hy; exact h1
        · have := hc k (by simp) y hy; simp only at this ⊢; omega
      exact this
    · by_cases h2 : v = k.value
      · subst h2
        simp only [lt_self_iff_false, if_true, if_false]
        have : keys_ok ([({ k with satellites := k.satellites.map (· ++ [s]) } : key_t S)] ++ l)
            = true := by
          rw [keys_ok_append]
          refine ⟨?_, hl, ?_⟩
          · rw [keys_ok_iff] at hk ⊢
            simp only [List.map_cons, List.map_nil, List.pairwise_cons, List.not_mem_nil,
              false_implies, implies_true, List.Pairwise.nil, and_self, List.mem_singleton,
              forall_eq, Option.isSome_map', true_and] at hk ⊢
            exact hk
          · intro x hx y hy
            simp only [List.mem_singleton] at hx
            subst hx
            exact hc k (by simp) y hy
        exact this
      · simp only [h1, h2, if_false]
        have : keys_ok ([k] ++ keys_insert v s l) = true := by
          rw [keys_ok_append]
          refine ⟨hk, ih hl, ?_⟩
          intro x hx y hy
          simp only [List.mem_singleton] at hx
          subst hx
          rcases keys_insert_mem v s l y hy with h | ⟨z, hz, hz'⟩
          · omega
          · have := hc x (by simp) z hz; omega
        exact this

end keys_insert_lemmas

section leaf_insert

variable {S : Type}

theorem swap_at_ok' {α : Type} {a : List α} {i j : Nat} {x y : α} (hx : a[i]? = some x)
    (hy : a[j]? = some y) : swap_at a i j = .ok ((a.set i y).set j x) := by
  have hi : i < a.length := by
    by_contra h; rw [List.getElem?_eq_none (by omega)] at hx; cases hx
  have hj : j < a.length := by
    by_contra h; rw [List.getElem?_eq_none (by omega)] at hy; cases hy
  simp [swap_at, rd_ok hx, rd_ok hy, wr, hi, hj, bind, Except.bind]

theorem insert_bubble_spec (value : Int) (new : key_t S) (ks : List (key_t S)) (n L : Nat)
    (hn : ks.length = n) (hL : n < L) (hs : (ks.map key_t.value).Pairwise (· < ·)) :
    ∀ it i (keys : List (key_t S)), i ≤ n → n - i ≤ it → keys.length = L →
      (∀ j, j < n - i → keys[j]? = ks[j]?) → keys[n - i]? = some new →
      (∀ j, n - i < j → j ≤ n → keys[j]? = ks[j - 1]?) →
      (∀ j k, n - i ≤ j → ks[j]? = some k → value < k.value) →
      ∃ keys' i', insert_bubble value n it keys i = .ok (keys', i') ∧ i' ≤ n ∧
        keys'.length = L ∧
        (∀ j, j < n - i' → keys'[j]? = ks[j]?) ∧ keys'[n - i']? = some new ∧
        (∀ j, n - i' < j → j ≤ n → keys'[j]? = ks[j - 1]?) ∧
        (∀ j k, n - i' ≤ j → ks[j]? = some k → value < k.value) ∧
        (∀ j k, j < n - i' → ks[j]? = some k → k.value ≤ value) := by
  intro it
  induction it with
  | zero =>
    intro i keys hi hit hlen h1 h2 h3 h4
    have : i = n := by omega
    subst this
    exact ⟨keys, i, by simp [insert_bubble], le_refl _, hlen, h1, h2, h3, h4,
      fun j k hj => by omega⟩
  | succ it ih =>
    intro i keys hi hit hlen h1 h2 h3 h4
    by_cases hin : i < n
    · have hidx : n - i - 1 < ks.length := by omega
      have hk : keys[n - i - 1]? = some ks[n - i - 1] := by
        rw [h1 (n - i - 1) (by omega)]; simp
      by_cases hgt : ks[n - i - 1].value > value
      · have e := swap_at_ok' (a := keys) hk h2
        obtain ⟨keys', i', e1, e2, e3, e4, e5, e6, e7, e8⟩ :=
          ih (i + 1) ((keys.set (n - i - 1) new).set (n - i) ks[n - i - 1]) (by omega)
            (by omega) (by simp [hlen])
            (by
              intro j hj
              rw [List.getElem?_set_ne (by omega), List.getElem?_set_ne (by omega)]
              exact h1 j (by omega))
            (by
              have : n - (i + 1) = n - i - 1 := by omega
              rw [this, List.getElem?_set_ne (by omega), List.getElem?_set]
              simp; omega)
            (by
              intro j hj hjn
              by_cases hj' : j = n - i
              · subst hj'
                rw [List.getElem?_set]
                simp only [List.length_set, if_true, hlen]
                rw [if_pos (by omega), List.getElem?_eq_getElem hidx]
              · rw [List.getElem?_set_ne (by omega), List.getElem?_set_ne (by omega)]
                exact h3 j (by omega) hjn)
            (by
              intro j k hj hk'
              by_cases hj' : j = n - i - 1
              · subst hj'
                rw [List.getElem?_eq_getElem hidx] at hk'
                cases hk'; exact hgt
              · exact h4 j k (by omega) hk')
        refine ⟨keys', i', ?_, e2, e3, e4, e5, e6, e7, e8⟩
        simp only [insert_bubble, hin, if_true, rd_ok hk, bind, Except.bind, hgt, e]
        exact e1
      · refine ⟨keys, i, ?_, hi, hlen, h1, h2, h3, h4, ?_⟩
        · simp [insert_bubble, hin, rd_ok hk, bind, Except.bind, hgt]
        · intro j k hj hk'
          have hjl : j < ks.length := by omega
          rw [List.getElem?_eq_getElem hjl] at hk'
          cases hk'
          by_cases hj' : j = n - i - 1
          · subst hj'; omega
          · have := List.pairwise_iff_getElem.mp hs j (n - i - 1) (by simpa using hjl)
              (by simpa using hidx) (by omega)
            simp only [List.getElem_map] at this
            omega
    · have : i = n := by omega
      subst this
      exact ⟨keys, i, by simp [insert_bubble], le_refl _, hlen, h1, h2, h3, h4,
        fun j k hj => by omega⟩
theorem keys_insert_at (v : Int) (sat : S) (ks : List (key_t S)) (l : Nat) (kl : key_t S)
    (hkl : ks[l]? = some kl) (hv : kl.value = v)
    (hlt : ∀ i k, i < l → ks[i]? = some k → k.value < v) :
    keys_insert v sat ks = ks.set l { kl with satellites := kl.satellites.map (· ++ [sat]) } := by
  have hl : l < ks.length := by
    by_contra h; rw [List.getElem?_eq_none (by omega)] at hkl; cases hkl
  have hks : ks = ks.take l ++ kl :: ks.drop (l + 1) := by
    rw [List.getElem?_eq_getElem hl] at hkl
    cases hkl
    rw [List.getElem_cons_drop, List.take_append_drop]
  rw [List.set_eq_take_append_cons_drop, if_pos hl]
  conv_lhs => rw [hks]
  apply keys_insert_hit _ _ _ _ _ _ hv
  intro k hk
  obtain ⟨i, hi⟩ := List.mem_iff_getElem?.mp hk
  rw [List.getElem?_take] at hi
  split at hi
  · rename_i h; exact hlt i k h hi
  · cases hi

theorem push_back_ok {k : key_t S} {sats : List S} (s : S) (h : k.satellites = some sats) :
    k.push_back s = .ok { k with satellites := some (sats ++ [s]) } := by
  simp [key_t.push_back, h, deref, bind, Except.bind, pure, Except.pure]

theorem insert_leaf (B : Nat) (x : B_tree_node S) (ks : List (key_t S)) (s : Int)
    (r : B_tree_node.Rep B x ks none s) (hpos : 1 ≤ ks.length) (hlt : ks.length < B)
    (hok : keys_ok ks = true) (v : Int) (sat : S) (fuel : Nat) :
    ∃ x' p, x.insert B (fuel + 1) v sat = .ok (x', p) ∧
      B_tree_node.Rep B x' (keys_insert (v - s) sat ks) none s := by
  have hnB : x.n ≤ x.keys.length := by rw [r.keys_len, r.n_eq]; exact r.n_le
  have hsh := r.shift_eq
  obtain ⟨l, kl, hb, hln, hkl, hkl', hlt', hle, hgt⟩ :=
    bsearch_sorted x.keys ks (v - x._shift) x.n hnB r.keys_eq (by rw [r.n_eq]; omega)
      ((keys_ok_iff _).mp hok).1
  have hklm : kl ∈ ks := List.getElem?_mem hkl
  have hsat : kl.satellites.isSome = true := ((keys_ok_iff _).mp hok).2 kl hklm
  simp only [B_tree_node.insert, r.is_leaf_none, if_true, B_tree_node.search, sub_add_cancel, hb,
    rd_ok hkl', bind, Except.bind, r.children_none]
  by_cases hfound : kl.value = v - x._shift
  · obtain ⟨sats, hsats⟩ := Option.isSome_iff_exists.mp hsat
    have hlB : l < x.keys.length := by omega
    rw [if_pos ⟨hfound, hsat⟩]
    simp only [pure, Except.pure, rd_ok hkl', push_back_ok sat hsats, set_key_at_ok _ hlB]
    refine ⟨_, _, rfl, ?_⟩
    have hki := keys_insert_at (v - x._shift) sat ks l kl hkl hfound hlt'
    rw [← hsh, hki]
    refine ⟨by simp [r.keys_len], by simp [r.n_eq], by simpa using r.n_le, ?_, rfl,
      r.children_none⟩
    simp only [hsats, Option.map_some']
    rw [← r.keys_eq, List.set_take]
  · have hnf : ¬ (kl.value = v - x._shift ∧ kl.satellites.isSome = true) := fun h => hfound h.1
    rw [if_neg hnf]
    have hnlen : x.n < x.keys.length := by rw [r.keys_len, r.n_eq]; exact hlt
    simp only [pure, Except.pure, set_key_at_ok _ hnlen]
    have hne : ∀ (i : Nat) (k : key_t S), ks[i]? = some k → k.value ≠ v - x._shift := by
      intro i k hk
      rcases Nat.lt_trichotomy i l with h | h | h
      · have := hlt' i k h hk; omega
      · subst h; rw [hkl] at hk; cases hk; exact hfound
      · have := hgt i k h hk; omega
    obtain ⟨keys', i', e1, e2, e3, e4, e5, e6, e7, e8⟩ :=
      insert_bubble_spec (v - x._shift) ⟨v - x._shift, some [sat]⟩ ks x.n B r.n_eq.symm
        (by rw [r.n_eq]; exact hlt) ((keys_ok_iff _).mp hok).1 x.n 0
        (x.keys.set x.n ⟨v - x._shift, some [sat]⟩) (by omega) (by omega)
        (by simp [r.keys_len])
        (by
          intro j hj
          rw [List.getElem?_set_ne (by omega)]
          exact r.key_get (by rw [← r.n_eq]; omega))
        (by simp [List.getElem?_set, hnlen])
        (by intro j hj hjn; omega)
        (by
          intro j k hj hk
          rw [List.getElem?_eq_none (by rw [← r.n_eq]; omega)] at hk; cases hk)
    simp only [e1, usub_ok (show i' + 1 ≤ x.n + 1 by omega), Nat.add_sub_add_right, rd_ok e5]
    refine ⟨_, _, rfl, ?_⟩
    have hki : keys_insert (v - x._shift) sat ks =
        ks.take (x.n - i') ++ ⟨v - x._shift, some [sat]⟩ :: ks.drop (x.n - i') := by
      conv_lhs => rw [← List.take_append_drop (x.n - i') ks]
      apply keys_insert_mid
      · intro k hk
        obtain ⟨j, hj⟩ := List.mem_iff_getElem?.mp hk
        rw [List.getElem?_take] at hj
        split at hj
        · rename_i h
          have := e8 j k h hj
          have := hne j k hj
          omega
        · cases hj
      · intro k hk
        obtain ⟨j, hj⟩ := List.mem_iff_getElem?.mp hk
        rw [List.getElem?_drop] at hj
        exact e7 _ k (by omega) hj
    rw [← hsh, hki]
    have hlen' : (ks.take (x.n - i') ++ (⟨v - x._shift, some [sat]⟩ : key_t S) ::
        ks.drop (x.n - i')).length = x.n + 1 := by
      simp only [List.length_append, List.length_take, List.length_cons, List.length_drop]
      rw [← r.n_eq]; omega
    refine ⟨e3, by simp only; rw [hlen'], by rw [hlen']; rw [r.n_eq]; omega, ?_, rfl,
      r.children_none⟩
    simp only
    apply take_eq_of_getElem? _ _ _ hlen'
    intro m hm
    rw [getElem?_insert_mid _ _ _ _ (by rw [← r.n_eq]; omega)]
    split
    · rename_i h; exact e4 m h
    · split
      · rename_i h1 h2; subst h2; exact e5
      · rename_i h1 h2; exact e6 m (by omega) (by omega)

end leaf_insert

/-! ## The loops of split_child -/

section split_child_lemmas

variable {S : Type}

theorem getElem?_some_of_lt {α : Type} {a : List α} {i : Nat} (h : i < a.length) :
    ∃ x, a[i]? = some x := ⟨a[i], by simp [h]⟩

theorem lt_of_getElem?_some {α : Type} {a : List α} {i : Nat} {x : α} (h : a[i]? = some x) :
    i < a.length := by
  by_contra hc; rw [List.getElem?_eq_none (by omega)] at h; cases h

/-- The key/child transfer loop of `split_child` on a leaf. -/
theorem split_child_move_leaf (mp B : Nat) :
    ∀ (cnt i : Nat) (lhs rhs : B_tree_node S), mp + 1 ≤ i → i + cnt ≤ B →
      lhs.keys.length = B → rhs.keys.length = B → lhs.children = none →
      ∃ lhs' rhs', split_child_move mp cnt i lhs rhs = .ok (lhs', rhs') ∧
        lhs'.n = lhs.n ∧ lhs'._shift = lhs._shift ∧ rhs'.n = rhs.n ∧ rhs'._shift = rhs._shift ∧
        lhs'.children = none ∧ rhs'.children = rhs.children ∧
        lhs'.keys.length = B ∧ rhs'.keys.length = B ∧
        (∀ j, j < i ∨ i + cnt ≤ j → lhs'.keys[j]? = lhs.keys[j]?) ∧
        (∀ j, j < i - mp - 1 ∨ i - mp - 1 + cnt ≤ j → rhs'.keys[j]? = rhs.keys[j]?) ∧
        (∀ j, i - mp - 1 ≤ j → j < i - mp - 1 + cnt → rhs'.keys[j]? = lhs.keys[j + mp + 1]?) := by
  intro cnt
  induction cnt with
  | zero =>
    intro i lhs rhs _ _ h1 h2 h3
    exact ⟨lhs, rhs, rfl, rfl, rfl, rfl, rfl, h3, rfl, h1, h2, fun _ _ => rfl, fun _ _ => rfl,
      fun j h h' => by omega⟩
  | succ cnt ih =>
    intro i lhs rhs hi hB h1 h2 h3
    obtain ⟨a, ha⟩ := getElem?_some_of_lt (a := lhs.keys) (i := i) (by omega)
    obtain ⟨b, hb⟩ := getElem?_some_of_lt (a := rhs.keys) (i := i - mp - 1) (by omega)
    have hleaf : lhs.is_leaf = true := by simp [B_tree_node.is_leaf, h3]
    obtain ⟨lhs', rhs', e, e1, e2, e3, e4, e5, e6, e7, e8, e9, e10, e11⟩ :=
      ih (i + 1) { lhs with keys := lhs.keys.set i b } { rhs with keys := rhs.keys.set (i - mp - 1) a }
        (by omega) (by omega) (by simp [h1]) (by simp [h2]) h3
    have hl1 : i < lhs.keys.length := by omega
    have hl2 : i - mp - 1 < rhs.keys.length := by omega
    refine ⟨lhs', rhs', ?_, e1, e2, e3, e4, e5, e6, e7, e8, ?_, ?_, ?_⟩
    · simp only [split_child_move, hleaf, if_true, pure, Except.pure, bind, Except.bind,
        rd_ok ha, rd_ok hb, set_key_at_ok b hl1, set_key_at_ok a hl2]
      exact e
    · intro j hj
      rw [e9 j (by omega)]
      simp only
      rw [List.getElem?_set_ne (by omega)]
    · intro j hj
      rw [e10 j (by omega)]
      simp only
      rw [List.getElem?_set_ne (by omega)]
    · intro j hj hj'
      by_cases hje : j = i - mp - 1
      · subst hje
        rw [e10 _ (by omega)]
        simp only
        rw [List.getElem?_set, if_pos rfl, if_pos (by omega), ← ha]
        congr 1; omega
      · rw [e11 j (by omega) (by omega)]
        simp only
        rw [List.getElem?_set_ne (by omega)]

/-- The key/child transfer loop of `split_child` on an internal node. -/
theorem split_child_move_inner (mp B : Nat) :
    ∀ (cnt i : Nat) (lhs rhs : B_tree_node S) (lch rch : List (Option (B_tree_node S))),
      mp + 1 ≤ i → i + cnt ≤ B →
      lhs.keys.length = B → rhs.keys.length = B →
      lhs.children = some lch → rhs.children = some rch →
      lch.length = B + 1 → rch.length = B + 1 →
      ∃ lhs' rhs' lch' rch', split_child_move mp cnt i lhs rhs = .ok (lhs', rhs') ∧
        lhs'.n = lhs.n ∧ lhs'._shift = lhs._shift ∧ rhs'.n = rhs.n ∧ rhs'._shift = rhs._shift ∧
        lhs'.children = some lch' ∧ rhs'.children = some rch' ∧
        lch'.length = B + 1 ∧ rch'.length = B + 1 ∧
        lhs'.keys.length = B ∧ rhs'.keys.length = B ∧
        (∀ j, j < i ∨ i + cnt ≤ j → lhs'.keys[j]? = lhs.keys[j]?) ∧
        (∀ j, j < i - mp - 1 ∨ i - mp - 1 + cnt ≤ j → rhs'.keys[j]? = rhs.keys[j]?) ∧
        (∀ j, i - mp - 1 ≤ j → j < i - mp - 1 + cnt → rhs'.keys[j]? = lhs.keys[j + mp + 1]?) ∧
        (∀ j, j < i ∨ i + cnt ≤ j → lch'[j]? = lch[j]?) ∧
        (∀ j, j < i - mp - 1 ∨ i - mp - 1 + cnt ≤ j → rch'[j]? = rch[j]?) ∧
        (∀ j, i - mp - 1 ≤ j → j < i - mp - 1 + cnt → rch'[j]? = lch[j + mp + 1]?) := by
  intro cnt
  induction cnt with
  | zero =>
    intro i lhs rhs lch rch _ _ h1 h2 h3 h4 h5 h6
    exact ⟨lhs, rhs, lch, rch, rfl, rfl, rfl, rfl, rfl, h3, h4, h5, h6, h1, h2,
      fun _ _ => rfl, fun _ _ => rfl, fun j h h' => by omega,
      fun _ _ => rfl, fun _ _ => rfl, fun j h h' => by omega⟩
  | succ cnt ih =>
    intro i lhs rhs lch rch hi hB h1 h2 h3 h4 h5 h6
    obtain ⟨a, ha⟩ := getElem?_some_of_lt (a := lhs.keys) (i := i) (by omega)
    obtain ⟨b, hb⟩ := getElem?_some_of_lt (a := rhs.keys) (i := i - mp - 1) (by omega)
    obtain ⟨ca, hca⟩ := getElem?_some_of_lt (a := lch) (i := i) (by omega)
    obtain ⟨cb, hcb⟩ := getElem?_some_of_lt (a := rch) (i := i - mp - 1) (by omega)
    have hleaf : lhs.is_leaf = false := by simp [B_tree_node.is_leaf, h3]
    have hl1 : i < lhs.keys.length := by omega
    have hl2 : i - mp - 1 < rhs.keys.length := by omega
    have hl3 : i < lch.length := by omega
    have hl4 : i - mp - 1 < rch.length := by omega
    obtain ⟨lhs', rhs', lch', rch', e, e1, e2, e3, e4, e5, e6, e7, e8, e9, e10, e11, e12, e13,
        e14, e15, e16⟩ :=
      ih (i + 1) { lhs with keys := lhs.keys.set i b, children := some (lch.set i cb) }
        { rhs with keys := rhs.keys.set (i - mp - 1) a, children := some (rch.set (i - mp - 1) ca) }
        (lch.set i cb) (rch.set (i - mp - 1) ca)
        (by omega) (by omega) (by simp [h1]) (by simp [h2]) rfl rfl (by simp [h5]) (by simp [h6])
    refine ⟨lhs', rhs', lch', rch', ?_, e1, e2, e3, e4, e5, e6, e7, e8, e9, e10, ?_, ?_, ?_,
      ?_, ?_, ?_⟩
    · have s1 := set_child_at_ok (x := lhs) cb h3 hl3
      have s2 := set_child_at_ok (x := rhs) ca h4 hl4
      have s3 := set_key_at_ok (x := { lhs with children := some (lch.set i cb) }) b hl1
      have s4 := set_key_at_ok
        (x := { rhs with children := some (rch.set (i - mp - 1) ca) }) a hl2
      simp only [split_child_move, hleaf, pure, Except.pure, bind, Except.bind,
        child_at_ok h3 hca, child_at_ok h4 hcb, s1, s2, Bool.false_eq_true, if_false,
        rd_ok ha, rd_ok hb, s3, s4]
      exact e
    · intro j hj
      rw [e11 j (by omega)]
      simp only
      rw [List.getElem?_set_ne (by omega)]
    · intro j hj
      rw [e12 j (by omega)]
      simp only
      rw [List.getElem?_set_ne (by omega)]
    · intro j hj hj'
      by_cases hje : j = i - mp - 1
      · subst hje
        rw [e12 _ (by omega)]
        simp only
        rw [List.getElem?_set, if_pos rfl, if_pos (by omega), ← ha]
        congr 1; omega
      · rw [e13 j (by omega) (by omega)]
        simp only
        rw [List.getElem?_set_ne (by omega)]
    · intro j hj
      rw [e14 j (by omega)]
      rw [List.getElem?_set_ne (by omega)]
    · intro j hj
      rw [e15 j (by omega)]
      rw [List.getElem?_set_ne (by omega)]
    · intro j hj hj'
      by_cases hje : j = i - mp - 1
      · subst hje
        rw [e15 _ (by omega)]
        rw [List.getElem?_set, if_pos rfl, if_pos (by omega), ← hca]
        congr 1; omega
      · rw [e16 j (by omega) (by omega)]
        rw [List.getElem?_set_ne (by omega)]

/-- The bubbling loop of `split_child`: the promoted key `m` travels from slot `i` down to slot
`idx`, the new right sibling `R` from child slot `i + 1` down to `idx + 1`. -/
theorem split_child_bubble_spec (B n idx : Nat) (m : key_t S) (R : Option (B_tree_node S))
    (ks : List (key_t S)) (cs : List (Option (B_tree_node S)))
    (hks : ks.length = n) (hcs : cs.length = n + 1) (hn : n < B)
    (hgt : ∀ j k, idx ≤ j → ks[j]? = some k → m.value < k.value)
    (hle : ∀ j k, j < idx → ks[j]? = some k → k.value ≤ m.value) :
    ∀ (i : Nat) (y : B_tree_node S) (ych : List (Option (B_tree_node S))),
      idx ≤ i → i ≤ n → y.keys.length = B → y.children = some ych → ych.length = B + 1 →
      (∀ j, j < i → y.keys[j]? = ks[j]?) → y.keys[i]? = some m →
      (∀ j, i < j → j ≤ n → y.keys[j]? = ks[j - 1]?) →
      (∀ j, j ≤ i → ych[j]? = cs[j]?) → ych[i + 1]? = some R →
      (∀ j, i + 1 < j → j ≤ n + 1 → ych[j]? = cs[j - 1]?) →
      ∃ y' ych', split_child_bubble i y = .ok y' ∧ y'.n = y.n ∧ y'._shift = y._shift ∧
        y'.keys.length = B ∧ y'.children = some ych' ∧ ych'.length = B + 1 ∧
        (∀ j, j < idx → y'.keys[j]? = ks[j]?) ∧ y'.keys[idx]? = some m ∧
        (∀ j, idx < j → j ≤ n → y'.keys[j]? = ks[j - 1]?) ∧
        (∀ j, j ≤ idx → ych'[j]? = cs[j]?) ∧ ych'[idx + 1]? = some R ∧
        (∀ j, idx + 1 < j → j ≤ n + 1 → ych'[j]? = cs[j - 1]?) := by
  intro i
  induction i with
  | zero =>
    intro y ych hi _ h1 h2 h3 h4 h5 h6 h7 h8 h9
    have : idx = 0 := by omega
    subst this
    exact ⟨y, ych, rfl, rfl, rfl, h1, h2, h3, h4, h5, h6, h7, h8, h9⟩
  | succ i ih =>
    intro y ych hi hin h1 h2 h3 h4 h5 h6 h7 h8 h9
    obtain ⟨a, ha⟩ := getElem?_some_of_lt (a := ks) (i := i) (by omega)
    have hya : y.keys[i]? = some a := by rw [h4 i (by omega)]; exact ha
    by_cases hstop : idx = i + 1
    · subst hstop
      have hna : ¬ a.value > m.value := by
        have := hle i a (by omega) ha; omega
      refine ⟨y, ych, ?_, rfl, rfl, h1, h2, h3, h4, h5, h6, h7, h8, h9⟩
      simp only [split_child_bubble, rd_ok hya, rd_ok h5, bind, Except.bind, hna, if_false]
    · have hga : a.value > m.value := hgt i a (by omega) ha
      obtain ⟨ca, hca⟩ := getElem?_some_of_lt (a := cs) (i := i + 1) (by omega)
      have hyca : ych[i + 1]? = some ca := by rw [h7 (i + 1) (by omega)]; exact hca
      have hl1 : i + 1 < ych.length := by omega
      have hl2 : i + 2 < ych.length := by omega
      have hl3 : i < y.keys.length := by omega
      have hl4 : i + 1 < y.keys.length := by omega
      obtain ⟨y', ych', e, e1, e2, e3, e4, e5, e6, e7, e8, e9, e10, e11⟩ :=
        ih { y with keys := (y.keys.set i m).set (i + 1) a,
                    children := some ((ych.set (i + 1) R).set (i + 2) ca) }
          ((ych.set (i + 1) R).set (i + 2) ca) (by omega) (by omega) (by simp [h1]) rfl
          (by simp [h3])
          (by
            intro j hj
            simp only
            rw [List.getElem?_set_ne (by omega), List.getElem?_set_ne (by omega)]
            exact h4 j (by omega))
          (by
            simp only
            rw [List.getElem?_set_ne (by omega), List.getElem?_set, if_pos rfl, if_pos hl3])
          (by
            intro j hj hjn
            simp only
            by_cases hje : j = i + 1
            · subst hje
              rw [List.getElem?_set, if_pos rfl, if_pos (by simpa using hl4)]
              simpa using ha.symm
            · rw [List.getElem?_set_ne (by omega), List.getElem?_set_ne (by omega)]
              exact h6 j (by omega) hjn)
          (by
            intro j hj
            rw [List.getElem?_set_ne (by omega), List.getElem?_set_ne (by omega)]
            exact h7 j (by omega))
          (by
            rw [List.getElem?_set_ne (by omega), List.getElem?_set, if_pos rfl, if_pos hl1])
          (by
            intro j hj hjn
            by_cases hje : j = i + 2
            · subst hje
              rw [List.getElem?_set, if_pos rfl, if_pos (by simpa using hl2)]
              simpa using hca.symm
            · rw [List.getElem?_set_ne (by omega), List.getElem?_set_ne (by omega)]
              exact h9 j (by omega) hjn)
      refine ⟨y', ych', ?_, e1, e2, e3, e4, e5, e6, e7, e8, e9, e10, e11⟩
      have s1 := set_child_at_ok (x := y) R h2 hl1
      have s2 := set_child_at_ok (x := { y with children := some (ych.set (i + 1) R) }) ca rfl
        (show i + 2 < (ych.set (i + 1) R).length by simpa using hl2)
      have s3 := set_key_at_ok
        (x := { y with children := some ((ych.set (i + 1) R).set (i + 2) ca) }) m hl3
      have s4 := set_key_at_ok
        (x := { y with keys := y.keys.set i m,
                       children := some ((ych.set (i + 1) R).set (i + 2) ca) }) a
        (show i + 1 < (y.keys.set i m).length by simpa using hl4)
      simp only [split_child_bubble, rd_ok hya, rd_ok h5, bind, Except.bind, hga, if_true,
        child_at_ok h2 hyca, child_at_ok h2 h8, s1, s2, s3, s4]
      exact e

theorem getElem?_replace2 {α : Type} (a : List α) (x y : α) (i m : Nat) (hi : i < a.length) :
    (a.take i ++ x :: y :: a.drop (i + 1))[m]? =
      if m < i then a[m]? else if m = i then some x else if m = i + 1 then some y
      else a[m - 1]? := by
  rw [List.getElem?_append]
  simp only [List.length_take, Nat.min_eq_left (Nat.le_of_lt hi)]
  split
  · rename_i h; rw [List.getElem?_take]; simp [h]
  · rename_i h
    by_cases hm : m = i
    · subst hm; simp
    · simp only [hm, if_false]
      by_cases hm' : m = i + 1
      · subst hm'; simp
      · simp only [hm', if_false]
        obtain ⟨d, hd⟩ : ∃ d, m - i = d + 2 := ⟨m - i - 2, by omega⟩
        rw [hd, List.getElem?_cons_succ, List.getElem?_cons_succ, List.getElem?_drop]
        congr 1; omega

theorem B_tree_node.Rep.child_get' {B : Nat} {x : B_tree_node S} {ks cl s}
    (r : B_tree_node.Rep B x ks (some cl) s) {ch} (hch : x.children = some ch)
    {i : Nat} (hi : i ≤ ks.length) : ch[i]? = (cl.map some)[i]? := by
  obtain ⟨ch', h1, h2, h3, h4⟩ := r.ch
  rw [hch] at h1; cases h1
  rw [← h3, List.getElem?_take, if_pos (by rw [r.n_eq]; omega)]

/-- The second half of `split_child`. -/
theorem split_child_link_spec (B : Nat) (x lhs rhs : B_tree_node S) (ks : List (key_t S))
    (cl : List (B_tree_node S)) (s : Int) (index mp : Nat) (med : key_t S)
    (r : B_tree_node.Rep B x ks (some cl) s) (hn : ks.length < B) (hidx : index ≤ ks.length)
    (hlk : lhs.keys.length = B) (hmed : lhs.keys[mp]? = some med) (hmp : mp + 1 ≤ lhs.n)
    (hgt : ∀ j k, index ≤ j → ks[j]? = some k → med.value + lhs._shift < k.value)
    (hle : ∀ j k, j < index → ks[j]? = some k → k.value ≤ med.value + lhs._shift) :
    ∃ x' old, split_child_link x index mp lhs rhs = .ok x' ∧
      B_tree_node.Rep B x' (ks.take index ++ med.add lhs._shift :: ks.drop index)
        (some (cl.take index ++
          { lhs with keys := lhs.keys.set mp old, n := mp } ::
          { rhs with n := lhs.n - (mp + 1) } :: cl.drop (index + 1))) s := by
  obtain ⟨ch, hch, hchl, hcht, hcll⟩ := r.children_some
  have hxn : x.n < x.keys.length := by rw [r.keys_len, r.n_eq]; exact hn
  obtain ⟨old, hold⟩ := getElem?_some_of_lt hxn
  have hmpl : mp < lhs.keys.length := lt_of_getElem?_some hmed
  have hi1 : index < ch.length := by omega
  have hi2 : x.n + 1 < (ch.set index
      (some { lhs with keys := lhs.keys.set mp old, n := mp })).length := by
    simp [hchl, r.n_eq]; omega
  have s1 := set_key_at_ok (x := lhs) old hmpl
  have s2 := set_key_at_ok (x := x) (med.add lhs._shift) hxn
  have s3 := set_child_at_ok (x := { x with keys := x.keys.set x.n (med.add lhs._shift) })
    (some { lhs with keys := lhs.keys.set mp old, n := mp }) hch hi1
  have s4 := set_child_at_ok
    (x := { x with keys := x.keys.set x.n (med.add lhs._shift),
                   children := some (ch.set index
                    (some { lhs with keys := lhs.keys.set mp old, n := mp })) })
    (some { rhs with n := lhs.n - (mp + 1) }) rfl hi2
  obtain ⟨y', ych', e, e1, e2, e3, e4, e5, e6, e7, e8, e9, e10, e11⟩ :=
    split_child_bubble_spec B ks.length index (med.add lhs._shift)
      (some { rhs with n := lhs.n - (mp + 1) }) ks
      ((cl.map some).set index (some { lhs with keys := lhs.keys.set mp old, n := mp }))
      rfl (by simp [hcll]) hn
      (by intro j k hj hk; simpa using hgt j k hj hk)
      (by intro j k hj hk; simpa using hle j k hj hk)
      ks.length
      { x with keys := x.keys.set x.n (med.add lhs._shift),
               children := some ((ch.set index
                  (some { lhs with keys := lhs.keys.set mp old, n := mp })).set (x.n + 1)
                  (some { rhs with n := lhs.n - (mp + 1) })) }
      ((ch.set index (some { lhs with keys := lhs.keys.set mp old, n := mp })).set (x.n + 1)
          (some { rhs with n := lhs.n - (mp + 1) }))
      hidx (le_refl _) (by simp [r.keys_len]) rfl (by simp [hchl])
      (by
        intro j hj
        simp only
        rw [List.getElem?_set_ne (by rw [r.n_eq]; omega)]
        exact r.key_get hj)
      (by
        simp only
        rw [← r.n_eq, List.getElem?_set, if_pos rfl, if_pos hxn])
      (by intro j hj hjn; omega)
      (by
        intro j hj
        rw [List.getElem?_set_ne (by rw [r.n_eq]; omega), List.getElem?_set, List.getElem?_set]
        simp only [hchl, List.length_map, hcll]
        rw [r.child_get' hch hj]
        by_cases hij : index = j
        · simp only [hij, if_true]
          rw [if_pos (by omega), if_pos (by omega)]
        · simp only [hij, if_false])
      (by
        rw [← r.n_eq, List.getElem?_set, if_pos rfl, if_pos hi2])
      (by intro j hj hjn; omega)
  refine ⟨{ y' with n := y'.n + 1 }, old, ?_, ?_⟩
  · simp only [split_child_link, rd_ok hmed, rd_ok hold, s1, bind, Except.bind,
      usub_ok hmp, pure, Except.pure]
    have s2' : x.set_key_at x.n { value := med.value + lhs._shift, satellites := med.satellites } =
        Except.ok { x with keys := x.keys.set x.n (med.add lhs._shift) } := s2
    simp only [s2', s3, s4]
    rw [← r.n_eq] at e
    simp only [e]
  · have hlen1 : (ks.take index ++ med.add lhs._shift :: ks.drop index).length
        = ks.length + 1 := by
      simp only [List.length_append, List.length_take, List.length_cons, List.length_drop]
      omega
    have hlen2 : (cl.take index ++
          ({ lhs with keys := lhs.keys.set mp old, n := mp } : B_tree_node S) ::
          { rhs with n := lhs.n - (mp + 1) } :: cl.drop (index + 1)).length = ks.length + 2 := by
      simp only [List.length_append, List.length_take, List.length_cons, List.length_drop]
      omega
    have hyn : y'.n = ks.length := by rw [e1]; exact r.n_eq
    refine ⟨e3, by simp only; rw [hlen1, hyn], by rw [hlen1]; omega, ?_, by rw [← r.shift_eq]; exact e2,
      ⟨ych', e4, e5, ?_, by rw [hlen1, hlen2]⟩⟩
    · simp only [hyn]
      apply take_eq_of_getElem? _ _ _ hlen1
      intro m hm
      rw [getElem?_insert_mid _ _ _ _ hidx]
      split
      · rename_i h; exact e6 m h
      · split
        · rename_i h1 h2; subst h2; exact e7
        · rename_i h1 h2; exact e8 m (by omega) (by omega)
    · simp only [hyn]
      apply take_eq_of_getElem? _ _ _ (by rw [List.length_map, hlen2])
      intro m hm
      rw [List.getElem?_map, getElem?_replace2 _ _ _ _ _ (by omega)]
      split
      · rename_i h
        rw [e9 m (by omega), List.getElem?_set_ne (by omega), List.getElem?_map]
      · split
        · rename_i h1 h2
          subst h2
          rw [e9 m (le_refl _), List.getElem?_set, if_pos rfl, if_pos (by simp; omega)]
          rfl
        · split
          · rename_i h1 h2 h3
            subst h3
            rw [e10]; rfl
          · rename_i h1 h2 h3
            rw [e11 m (by omega) (by omega), List.getElem?_set_ne (by omega), List.getElem?_map]

end split_child_lemmas

/-! ## The two halves of a split child -/

section split_child_halves_lemmas

variable {S : Type}

/-- `split_child_move` started right after the median, on leaves. -/
theorem split_child_move_leaf0 (mp B cnt : Nat) (lhs rhs : B_tree_node S)
    (h : mp + 1 + cnt ≤ B) (hl : lhs.keys.length = B) (hr : rhs.keys.length = B)
    (hc : lhs.children = none) :
    ∃ lhs' rhs', split_child_move mp cnt (mp + 1) lhs rhs = .ok (lhs', rhs') ∧
      lhs'.n = lhs.n ∧ lhs'._shift = lhs._shift ∧ rhs'.n = rhs.n ∧ rhs'._shift = rhs._shift ∧
      lhs'.children = none ∧ rhs'.children = rhs.children ∧
      lhs'.keys.length = B ∧ rhs'.keys.length = B ∧
      (∀ j, j ≤ mp → lhs'.keys[j]? = lhs.keys[j]?) ∧
      (∀ j, j < cnt → rhs'.keys[j]? = lhs.keys[j + mp + 1]?) := by
  obtain ⟨lhs1, rhs1, e, e1, e2, e3, e4, e5, e6, e7, e8, e9, -, e11⟩ :=
    split_child_move_leaf mp B cnt (mp + 1) lhs rhs (le_refl _) h hl hr hc
  have h0 : mp + 1 - mp - 1 = 0 := by omega
  rw [h0] at e11
  exact ⟨lhs1, rhs1, e, e1, e2, e3, e4, e5, e6, e7, e8,
    fun j hj => e9 j (Or.inl (by omega)), fun j hj => e11 j (Nat.zero_le _) (by omega)⟩

/-- `split_child_move` started right after the median, on internal nodes. -/
theorem split_child_move_inner0 (mp B cnt : Nat) (lhs rhs : B_tree_node S)
    (lch rch : List (Option (B_tree_node S)))
    (h : mp + 1 + cnt ≤ B) (hl : lhs.keys.length = B) (hr : rhs.keys.length = B)
    (hlc : lhs.children = some lch) (hrc : rhs.children = some rch)
    (hll : lch.length = B + 1) (hrl : rch.length = B + 1) :
    ∃ lhs' rhs' lch' rch', split_child_move mp cnt (mp + 1) lhs rhs = .ok (lhs', rhs') ∧
      lhs'.n = lhs.n ∧ lhs'._shift = lhs._shift ∧ rhs'.n = rhs.n ∧ rhs'._shift = rhs._shift ∧
      lhs'.children = some lch' ∧ rhs'.children = some rch' ∧
      lch'.length = B + 1 ∧ rch'.length = B + 1 ∧
      lhs'.keys.length = B ∧ rhs'.keys.length = B ∧
      (∀ j, j ≤ mp → lhs'.keys[j]? = lhs.keys[j]?) ∧
      (∀ j, j < cnt → rhs'.keys[j]? = lhs.keys[j + mp + 1]?) ∧
      (∀ j, j ≤ mp ∨ mp + 1 + cnt ≤ j → lch'[j]? = lch[j]?) ∧
      (∀ j, cnt ≤ j → rch'[j]? = rch[j]?) ∧
      (∀ j, j < cnt → rch'[j]? = lch[j + mp + 1]?) := by
  obtain ⟨lhs1, rhs1, lch1, rch1, e, e1, e2, e3, e4, e5, e6, e7, e8, e9, e10, e11, -, e13,
      e14, e15, e16⟩ :=
    split_child_move_inner mp B cnt (mp + 1) lhs rhs lch rch (le_refl _) h hl hr hlc hrc hll hrl
  have h0 : mp + 1 - mp - 1 = 0 := by omega
  rw [h0] at e13 e15 e16
  refine ⟨lhs1, rhs1, lch1, rch1, e, e1, e2, e3, e4, e5, e6, e7, e8, e9, e10,
    fun j hj => e11 j (Or.inl (by omega)), fun j hj => e13 j (Nat.zero_le _) (by omega),
    fun j hj => e14 j ?_, fun j hj => e15 j (Or.inr (by omega)),
    fun j hj => e16 j (Nat.zero_le _) (by omega)⟩
  rcases hj with hj | hj
  · exact Or.inl (by omega)
  · exact Or.inr hj

/-- The lower half of a split node: keys. -/
theorem split_left_keys (B mp : Nat) (hmp : mp < B)
    (lhs lhs1 : B_tree_node S) (lks : List (key_t S)) (lcs : Option (List (B_tree_node S)))
    (ls : Int) (rl : B_tree_node.Rep B lhs lks lcs ls) (hfull : lks.length = B)
    (e9 : lhs1.keys.length = B)
    (e11 : ∀ j, j ≤ mp → lhs1.keys[j]? = lhs.keys[j]?) (old : key_t S) :
    (lhs1.keys.set mp old).length = B ∧ mp = (lks.take mp).length ∧ (lks.take mp).length ≤ B ∧
      (lhs1.keys.set mp old).take mp = lks.take mp := by
  refine ⟨by simp [e9], by simp [hfull] <;> omega, by simp [hfull] <;> omega, ?_⟩
  apply take_eq_of_getElem? _ _ _ (by simp [hfull] <;> omega)
  intro m hm
  rw [List.getElem?_set_ne (by omega), e11 m (by omega), rl.key_get (by omega),
    List.getElem?_take, if_pos hm]

/-- The upper half of a split node: keys. -/
theorem split_right_keys (B mp rn : Nat) (hsum : mp + 1 + rn = B)
    (lhs rhs1 : B_tree_node S) (lks : List (key_t S)) (lcs : Option (List (B_tree_node S)))
    (ls : Int) (rl : B_tree_node.Rep B lhs lks lcs ls) (hfull : lks.length = B)
    (e13 : ∀ j, j < rn → rhs1.keys[j]? = lhs.keys[j + mp + 1]?) :
    rn = (lks.drop (mp + 1)).length ∧ (lks.drop (mp + 1)).length ≤ B ∧
      rhs1.keys.take rn = lks.drop (mp + 1) := by
  refine ⟨by simp [hfull] <;> omega, by simp [hfull] <;> omega, ?_⟩
  apply take_eq_of_getElem? _ _ _ (by simp [hfull] <;> omega)
  intro m hm
  rw [e13 m hm, rl.key_get (by omega), List.getElem?_drop]
  congr 1; omega

/-- The lower half of a split internal node: children. -/
theorem split_left_children (B mp rn : Nat) (hsum : mp + 1 + rn = B)
    (lks : List (key_t S)) (lcl : List (B_tree_node S))
    (lch lch1 : List (Option (B_tree_node S))) (hfull : lks.length = B)
    (hlcht : lch.take (lks.length + 1) = lcl.map some)
    (hlcll : lcl.length = lks.length + 1) (e7 : lch1.length = B + 1)
    (e14 : ∀ j, j ≤ mp ∨ mp + 1 + rn ≤ j → lch1[j]? = lch[j]?) :
    (lch1.set B none).length = B + 1 ∧
      (lch1.set B none).take (mp + 1) = (lcl.take (mp + 1)).map some ∧
      (lcl.take (mp + 1)).length = (lks.take mp).length + 1 := by
  have hlch_get : ∀ j, j ≤ B → lch[j]? = (lcl.map some)[j]? := by
    intro j hj
    rw [← hlcht, List.getElem?_take, if_pos (by omega)]
  refine ⟨by simp [e7], ?_, by simp [hfull, hlcll] <;> omega⟩
  apply take_eq_of_getElem? _ _ _ (by simp [hfull, hlcll] <;> omega)
  intro m hm
  rw [List.getElem?_set_ne (by omega), e14 m (Or.inl (by omega)), hlch_get m (by omega),
    List.getElem?_map, List.getElem?_map, List.getElem?_take, if_pos hm]

/-- The upper half of a split internal node: children. -/
theorem split_right_children (B mp rn : Nat) (hsum : mp + 1 + rn = B)
    (lks : List (key_t S)) (lcl : List (B_tree_node S))
    (lch lch1 rch1 : List (Option (B_tree_node S))) (a : Option (B_tree_node S))
    (hfull : lks.length = B)
    (hlcht : lch.take (lks.length + 1) = lcl.map some)
    (hlcll : lcl.length = lks.length + 1) (e8 : rch1.length = B + 1)
    (e14 : ∀ j, j ≤ mp ∨ mp + 1 + rn ≤ j → lch1[j]? = lch[j]?)
    (e16 : ∀ j, j < rn → rch1[j]? = lch[j + mp + 1]?) (ha : lch1[B]? = some a) :
    (rch1.set rn a).length = B + 1 ∧
      (rch1.set rn a).take (rn + 1) = (lcl.drop (mp + 1)).map some ∧
      (lcl.drop (mp + 1)).length = (lks.drop (mp + 1)).length + 1 := by
  have hlch_get : ∀ j, j ≤ B → lch[j]? = (lcl.map some)[j]? := by
    intro j hj
    rw [← hlcht, List.getElem?_take, if_pos (by omega)]
  have hl2 : rn < rch1.length := by omega
  refine ⟨by rw [List.length_set, e8], ?_,
    by simp only [List.length_drop, hfull, hlcll]; omega⟩
  apply take_eq_of_getElem? _ _ _
    (by rw [List.length_map, List.length_drop, hlcll, hfull]; omega)
  intro m hm
  rw [List.getElem?_map, List.getElem?_drop]
  by_cases hmB : m = rn
  · subst hmB
    rw [List.getElem?_set, if_pos rfl, if_pos hl2]
    have : mp + 1 + m = B := hsum
    rw [this, ← List.getElem?_map, ← hlch_get B (le_refl _),
      ← e14 B (Or.inr (by omega)), ha]
  · rw [List.getElem?_set_ne (by omega), e16 m (by omega),
      hlch_get _ (by omega), List.getElem?_map]
    congr 2; omega

/-- The two halves produced from a full leaf, with the median at `mp` and `rn` keys above. -/
theorem split_child_halves_leaf_aux (B mp rn : Nat) (hsum : mp + 1 + rn = B)
    (lhs : B_tree_node S) (lks : List (key_t S)) (ls : Int) (med : key_t S)
    (rl : B_tree_node.Rep B lhs lks none ls) (hfull : lks.length = B)
    (hmed : lks[mp]? = some med) :
    ∃ lhs1 rhs1, split_child_move mp rn (mp + 1) lhs
        { B_tree_node.blank B true with _shift := lhs._shift } = .ok (lhs1, rhs1) ∧
      lhs1.is_leaf = true ∧
      lhs1.keys.length = B ∧ lhs1.keys[mp]? = some med ∧ lhs1.n = B ∧ lhs1._shift = ls ∧
      (∀ old, B_tree_node.Rep B { lhs1 with keys := lhs1.keys.set mp old, n := mp }
        (lks.take mp) none ls) ∧
      B_tree_node.Rep B { rhs1 with n := rn } (lks.drop (mp + 1)) none ls := by
  have hln : lhs.n = B := by rw [rl.n_eq, hfull]
  have hlmed : lhs.keys[mp]? = some med := by
    rw [rl.key_get (by omega)]; exact hmed
  obtain ⟨lhs1, rhs1, e, e1, e2, e3, e4, e5, e6, e7, e8, e9, e11⟩ :=
    split_child_move_leaf0 mp B rn lhs
      { B_tree_node.blank B true with _shift := lhs._shift } (by omega)
      rl.keys_len (by simp [B_tree_node.blank]) rl.children_none
  have hR := split_right_keys B mp rn hsum lhs rhs1 lks none ls rl hfull e11
  refine ⟨lhs1, rhs1, e, by simp [B_tree_node.is_leaf, e5], e7, ?_, e1.trans hln,
    e2.trans rl.shift_eq, ?_, ?_⟩
  · rw [e9 _ (le_refl _)]; exact hlmed
  · intro old
    have hL := split_left_keys B mp (by omega) lhs lhs1 lks none ls rl hfull e7 e9 old
    exact ⟨hL.1, hL.2.1, hL.2.2.1, hL.2.2.2, e2.trans rl.shift_eq, e5⟩
  · exact ⟨e8, hR.1, hR.2.1, hR.2.2, e4.trans rl.shift_eq,
      by rw [e6]; simp [B_tree_node.blank]⟩

/-- The two halves produced from a full internal node, before the last child pointer moves. -/
theorem split_child_halves_inner_aux (B mp rn : Nat) (hsum : mp + 1 + rn = B)
    (lhs : B_tree_node S) (lks : List (key_t S)) (lcl : List (B_tree_node S)) (ls : Int)
    (med : key_t S)
    (rl : B_tree_node.Rep B lhs lks (some lcl) ls) (hfull : lks.length = B)
    (hmed : lks[mp]? = some med) :
    ∃ lhs1 rhs1 lch1 rch1 a, split_child_move mp rn (mp + 1) lhs
        { B_tree_node.blank B false with _shift := lhs._shift } = .ok (lhs1, rhs1) ∧
      lhs1.is_leaf = false ∧ lhs1.children = some lch1 ∧ rhs1.children = some rch1 ∧
      lch1[B]? = some a ∧ rch1[rn]? = some none ∧
      lhs1.keys.length = B ∧ lhs1.keys[mp]? = some med ∧ lhs1.n = B ∧ lhs1._shift = ls ∧
      (∀ old, B_tree_node.Rep B
        { lhs1 with keys := lhs1.keys.set mp old, n := mp, children := some (lch1.set B none) }
        (lks.take mp) (some (lcl.take (mp + 1))) ls) ∧
      B_tree_node.Rep B { rhs1 with n := rn, children := some (rch1.set rn a) }
        (lks.drop (mp + 1)) (some (lcl.drop (mp + 1))) ls := by
  have hln : lhs.n = B := by rw [rl.n_eq, hfull]
  have hlmed : lhs.keys[mp]? = some med := by
    rw [rl.key_get (by omega)]; exact hmed
  obtain ⟨lch, hlch, hlchl, hlcht, hlcll⟩ := rl.children_some
  obtain ⟨lhs1, rhs1, lch1, rch1, e, e1, e2, e3, e4, e5, e6, e7, e8, e9, e10, e11, e13,
      e14, e15, e16⟩ :=
    split_child_move_inner0 mp B rn lhs
      { B_tree_node.blank B false with _shift := lhs._shift } lch
      (List.replicate (B + 1) none) (by omega)
      rl.keys_len (by simp [B_tree_node.blank]) hlch (by simp [B_tree_node.blank]) hlchl
      (by simp)
  have hBl : B < lch1.length := by rw [e7]; exact Nat.lt_succ_self B
  obtain ⟨a, ha⟩ := getElem?_some_of_lt hBl
  have hb : rch1[rn]? = some none := by
    rw [e15 _ (le_refl _), List.getElem?_replicate, if_pos (by omega)]
  have hR := split_right_keys B mp rn hsum lhs rhs1 lks _ ls rl hfull e13
  have hRc := split_right_children B mp rn hsum lks lcl lch lch1 rch1 a hfull hlcht hlcll e8
    e14 e16 ha
  have hLc := split_left_children B mp rn hsum lks lcl lch lch1 hfull hlcht hlcll e7 e14
  refine ⟨lhs1, rhs1, lch1, rch1, a, e, by simp [B_tree_node.is_leaf, e5], e5, e6, ha, hb, e9,
    ?_, e1.trans hln, e2.trans rl.shift_eq, ?_, ?_⟩
  · rw [e11 _ (le_refl _)]; exact hlmed
  · intro old
    have hL := split_left_keys B mp (by omega) lhs lhs1 lks _ ls rl hfull e9 e11 old
    exact ⟨hL.1, hL.2.1, hL.2.2.1, hL.2.2.2, e2.trans rl.shift_eq,
      ⟨lch1.set B none, rfl, hLc.1, hLc.2.1, hLc.2.2⟩⟩
  · exact ⟨e10, hR.1, hR.2.1, hR.2.2, e4.trans rl.shift_eq,
      ⟨rch1.set rn a, rfl, hRc.1, hRc.2.1, hRc.2.2⟩⟩

/-- `split_child_halves` on a full node: the keys below the median stay, the keys above it
move to the fresh right sibling, which inherits the shift. -/
theorem split_child_halves_spec (B : Nat) (hB : 1 ≤ B) (lhs : B_tree_node S)
    (lks : List (key_t S)) (lcs : Option (List (B_tree_node S))) (ls : Int) (med : key_t S)
    (hfit : lcs.isSome = true → B + 1 < 2 ^ B_t_bits B)
    (rl : B_tree_node.Rep B lhs lks lcs ls) (hfull : lks.length = B)
    (hmed : lks[B / 2]? = some med) :
    ∃ lhs1 rhs1, split_child_halves B lhs = .ok (lhs1, rhs1) ∧
      lhs1.keys.length = B ∧ lhs1.keys[B / 2]? = some med ∧ lhs1.n = B ∧ lhs1._shift = ls ∧
      (∀ old, B_tree_node.Rep B { lhs1 with keys := lhs1.keys.set (B / 2) old, n := B / 2 }
        (lks.take (B / 2)) (lcs.map (List.take (B / 2 + 1))) ls) ∧
      B_tree_node.Rep B { rhs1 with n := B - (B / 2 + 1) } (lks.drop (B / 2 + 1))
        (lcs.map (List.drop (B / 2 + 1))) ls := by
  have hln : lhs.n = B := by rw [rl.n_eq, hfull]
  have hsum : B / 2 + 1 + (B - (B / 2 + 1)) = B := by omega
  have hmp : B / 2 + 1 ≤ B := by omega
  simp only [split_child_halves, hln]
  generalize B - (B / 2 + 1) = rn at hsum hmp ⊢
  generalize B / 2 = mp at hsum hmed hmp ⊢
  cases lcs with
  | none =>
    obtain ⟨lhs1, rhs1, e, hleaf1, h1, h2, h3, h4, h5, h6⟩ :=
      split_child_halves_leaf_aux B mp rn hsum lhs lks ls med rl hfull hmed
    refine ⟨lhs1, rhs1, ?_, h1, h2, h3, h4, h5, h6⟩
    simp only [rl.is_leaf_none, create_leaf, e, hleaf1, if_true, pure, Except.pure, bind,
      Except.bind]
  | some lcl =>
    obtain ⟨lhs1, rhs1, lch1, rch1, a, e, hleaf1, hc1, hc2, ha, hb, h1, h2, h3, h4, h5, h6⟩ :=
      split_child_halves_inner_aux B mp rn hsum lhs lks lcl ls med rl hfull hmed
    have hl1 : B < lch1.length := lt_of_getElem?_some ha
    have hl2 : rn < rch1.length := lt_of_getElem?_some hb
    have hrn : B - (mp + 1) = rn := by omega
    refine ⟨{ lhs1 with children := some (lch1.set B none) },
      { rhs1 with children := some (rch1.set rn a) }, ?_, h1, h2, h3, h4, h5, h6⟩
    simp only [rl.is_leaf_some, create_inner (hfit rfl), e, hleaf1, Bool.false_eq_true, if_false, pure,
      Except.pure, h3, usub_ok hmp, hrn, bind, Except.bind, child_at_ok hc1 ha,
      child_at_ok hc2 hb, set_child_at_ok none hc1 hl1, set_child_at_ok a hc2 hl2]

/-- Variant of `split_child_link_spec` with the shift and the right count named. -/
theorem split_child_link_spec2 (B : Nat) (x lhs rhs : B_tree_node S) (ks : List (key_t S))
    (cl : List (B_tree_node S)) (s ls : Int) (index mp rn : Nat) (med : key_t S)
    (r : B_tree_node.Rep B x ks (some cl) s) (hn : ks.length < B) (hidx : index ≤ ks.length)
    (hlk : lhs.keys.length = B) (hmed : lhs.keys[mp]? = some med) (hrn : mp + 1 + rn = lhs.n)
    (hls : lhs._shift = ls)
    (hgt : ∀ j k, index ≤ j → ks[j]? = some k → med.value + ls < k.value)
    (hle : ∀ j k, j < index → ks[j]? = some k → k.value ≤ med.value + ls) :
    ∃ x' old, split_child_link x index mp lhs rhs = .ok x' ∧
      B_tree_node.Rep B x' (ks.take index ++ med.add ls :: ks.drop index)
        (some (cl.take index ++
          { lhs with keys := lhs.keys.set mp old, n := mp } ::
          { rhs with n := rn } :: cl.drop (index + 1))) s := by
  subst hls
  have h : rn = lhs.n - (mp + 1) := by omega
  subst h
  exact split_child_link_spec B x lhs rhs ks cl s index mp med r hn hidx hlk hmed (by omega)
    hgt hle

/-- `split_child` on the live contents of the nodes. -/
theorem split_child_rep (B : Nat) (hB : 1 ≤ B) (x lhs : B_tree_node S) (ks lks : List (key_t S))
    (cl : List (B_tree_node S)) (lcs : Option (List (B_tree_node S))) (s ls : Int)
    (index : Nat) (med : key_t S) (hfit : lcs.isSome = true → B + 1 < 2 ^ B_t_bits B)
    (r : B_tree_node.Rep B x ks (some cl) s) (hn : ks.length < B) (hcl : cl[index]? = some lhs)
    (rl : B_tree_node.Rep B lhs lks lcs ls) (hfull : lks.length = B)
    (hmed : lks[B / 2]? = some med)
    (hgt : ∀ j k, index ≤ j → ks[j]? = some k → med.value + ls < k.value)
    (hle : ∀ j k, j < index → ks[j]? = some k → k.value ≤ med.value + ls) :
    ∃ x' lhs' rhs', x.split_child B index = .ok x' ∧
      B_tree_node.Rep B x' (ks.take index ++ med.add ls :: ks.drop index)
        (some (cl.take index ++ lhs' :: rhs' :: cl.drop (index + 1))) s ∧
      B_tree_node.Rep B lhs' (lks.take (B / 2)) (lcs.map (List.take (B / 2 + 1))) ls ∧
      B_tree_node.Rep B rhs' (lks.drop (B / 2 + 1)) (lcs.map (List.drop (B / 2 + 1))) ls := by
  obtain ⟨ch, hch, hchl, hcht, hcll⟩ := r.children_some
  have hidx : index < cl.length := lt_of_getElem?_some hcl
  have hchc := r.child_get hch hcl
  have hln : lhs.n = B := by rw [rl.n_eq, hfull]
  obtain ⟨lhs1, rhs1, e, h1, h2, h3, h4, h5, h6⟩ :=
    split_child_halves_spec B hB lhs lks lcs ls med hfit rl hfull hmed
  obtain ⟨x', old, f, rx⟩ := split_child_link_spec2 B x lhs1 rhs1 ks cl s ls index (B / 2)
    (B - (B / 2 + 1)) med r hn (by omega) h1 h2 (by rw [h3]; omega) h4 hgt hle
  refine ⟨x', _, _, ?_, rx, h5 old, h6⟩
  simp only [B_tree_node.split_child, child_at_ok hch hchc, deref, bind, Except.bind, hln, e]
  exact f

end split_child_halves_lemmas

/-! ## Insertion on in-order lists -/

section insert_flat_lemmas

variable {S : Type}

/-- In-order walk cut at the key of index `l`. -/
theorem inorder_key_split (sub : B_tree_node S → List (key_t S)) :
    ∀ (l : Nat) (cs : List (Option (B_tree_node S))) (ks : List (key_t S)) (k : key_t S),
      ks[l]? = some k → l < cs.length →
      inorder sub cs ks =
        inorder sub (cs.take (l + 1)) (ks.take l) ++ k :: inorder sub (cs.drop (l + 1))
          (ks.drop (l + 1)) := by
  intro l
  induction l with
  | zero =>
    intro cs ks k hk hl
    cases ks with
    | nil => simp at hk
    | cons k0 ks =>
      cases cs with
      | nil => simp at hl
      | cons c cs =>
        simp only [List.getElem?_cons_zero, Option.some.injEq] at hk
        subst hk
        simp [inorder]
  | succ l ih =>
    intro cs ks k hk hl
    cases ks with
    | nil => simp at hk
    | cons k0 ks =>
      cases cs with
      | nil => simp at hl
      | cons c cs =>
        simp only [List.getElem?_cons_succ] at hk
        simp only [List.length_cons, Nat.add_lt_add_iff_right] at hl
        have h := ih cs ks k hk hl
        simp only [inorder, List.take_succ_cons, List.drop_succ_cons, List.append_assoc,
          List.cons_append]
        rw [h]

/-- Inserting into the middle part of a key list whose outer parts bound the value. -/
theorem keys_insert_between (v : Int) (s : S) :
    ∀ (a m b : List (key_t S)), (∀ k ∈ a, k.value < v) → (∀ k ∈ b, v < k.value) →
      keys_insert v s (a ++ (m ++ b)) = a ++ (keys_insert v s m ++ b) := by
  intro a
  induction a with
  | nil =>
    intro m b _ hb
    simp only [List.nil_append]
    induction m with
    | nil =>
      simp only [List.nil_append]
      have := keys_insert_mid v s [] b (by simp) hb
      simpa [keys_insert] using this
    | cons k m ih =>
      simp only [List.cons_append, keys_insert]
      split
      · rfl
      · split
        · rfl
        · simp only [List.append_eq, List.cons_append]
          rw [ih]
  | cons k a ih =>
    intro m b ha hb
    have hk : k.value < v := ha k (List.mem_cons_self _ _)
    simp only [List.cons_append, keys_insert]
    rw [if_neg (by omega), if_neg (by omega)]
    simp only [List.append_eq]
    rw [ih m b (fun k hk => ha k (List.mem_cons_of_mem _ hk)) hb]

/-- The key list after an insertion is not empty. -/
theorem keys_insert_length (v : Int) (s : S) :
    ∀ l : List (key_t S), l.length ≤ (keys_insert v s l).length ∧
      1 ≤ (keys_insert v s l).length ∧ (keys_insert v s l).length ≤ l.length + 1 := by
  intro l
  induction l with
  | nil => simp [keys_insert]
  | cons k l ih =>
    simp only [keys_insert]
    split
    · simp
    · split
      · simp
      · simp only [List.length_cons]; omega

/-- After an insertion the value is present. -/
theorem keys_insert_has (v : Int) (s : S) :
    ∀ l : List (key_t S), ∃ y ∈ keys_insert v s l, y.value = v := by
  intro l
  induction l with
  | nil => exact ⟨_, List.mem_singleton.mpr rfl, rfl⟩
  | cons k l ih =>
    simp only [keys_insert]
    split
    · exact ⟨_, List.mem_cons_self _ _, rfl⟩
    · split
      · rename_i h1 h2
        exact ⟨_, List.mem_cons_self _ _, h2.symm⟩
      · obtain ⟨y, hy, hv⟩ := ih
        exact ⟨y, List.mem_cons_of_mem _ hy, hv⟩

/-- After an insertion the satellite list of the value ends with the new satellite. -/
theorem keys_insert_last (v : Int) (s : S) :
    ∀ l : List (key_t S), keys_ok l = true → ∀ y ∈ keys_insert v s l, y.value = v →
      ∃ init, y.satellites = some (init ++ [s]) := by
  intro l
  induction l with
  | nil =>
    intro _ y hy _
    simp only [keys_insert, List.mem_singleton] at hy
    subst hy
    exact ⟨[], rfl⟩
  | cons k l ih =>
    intro hok y hy hv
    rw [keys_ok_iff] at hok
    obtain ⟨hp, hs⟩ := hok
    simp only [List.map_cons, List.pairwise_cons, List.mem_map, forall_exists_index, and_imp,
      forall_apply_eq_imp_iff₂] at hp
    have hokl : keys_ok l = true := by
      rw [keys_ok_iff]
      exact ⟨hp.2, fun k hk => hs k (List.mem_cons_of_mem _ hk)⟩
    simp only [keys_insert] at hy
    split at hy
    · rename_i h1
      rcases List.mem_cons.mp hy with h | h
      · subst h; exact ⟨[], rfl⟩
      · rcases List.mem_cons.mp h with h | h
        · subst h; omega
        · have := hp.1 y h; omega
    · split at hy
      · rename_i h1 h2
        rcases List.mem_cons.mp hy with h | h
        · subst h
          have hk := hs k (List.mem_cons_self _ _)
          cases hks : k.satellites with
          | none => rw [hks] at hk; simp at hk
          | some sats => exact ⟨sats, by simp⟩
        · have := hp.1 y h; omega
      · rename_i h1 h2
        rcases List.mem_cons.mp hy with h | h
        · subst h; omega
        · exact ih hokl y h hv

theorem take_set_self {α : Type} (l : List α) (n : Nat) (a : α) :
    (l.set n a).take n = l.take n :=
  List.ext_getElem? fun i => by
    rw [List.getElem?_take, List.getElem?_take]
    split
    · rw [List.getElem?_set_ne (by omega)]
    · rfl

/-- The in-order list of an internal node cut at its key of index `l`. -/
theorem flat_at_key {B : Nat} {x : B_tree_node S} {ks cl s}
    (r : B_tree_node.Rep B x ks (some cl) s) (f : Nat) {l : Nat} {k : key_t S}
    (hk : ks[l]? = some k) :
    x.flat (f + 1) =
      (inorder (B_tree_node.flat f) ((cl.take (l + 1)).map some) (ks.take l) ++
        k :: inorder (B_tree_node.flat f) ((cl.drop (l + 1)).map some) (ks.drop (l + 1))).map
        (key_t.add s) := by
  have hlen := r.children_some.choose_spec.2.2.2
  have hl : l < ks.length := lt_of_getElem?_some hk
  rw [flat_inner r, inorder_key_split _ l (cl.map some) ks k hk (by simp; omega),
    List.map_take, List.map_drop]

/-- Appending a satellite to key `l` of an internal node is `keys_insert` on the in-order
list. -/
theorem flat_insert_hit {B : Nat} {x x' : B_tree_node S} {ks cl s}
    (r : B_tree_node.Rep B x ks (some cl) s) (f : Nat) {l : Nat} {kl k' : key_t S}
    (hk : ks[l]? = some kl) (v : Int) (sat : S) (hv : kl.value = v)
    (hk' : k' = { kl with satellites := kl.satellites.map (· ++ [sat]) })
    (hok : keys_ok (x.flat (f + 1)) = true)
    (r' : B_tree_node.Rep B x' (ks.set l k') (some cl) s) :
    x'.flat (f + 1) = keys_insert (v + s) sat (x.flat (f + 1)) := by
  have hl : l < ks.length := lt_of_getElem?_some hk
  have hk2 : (ks.set l k')[l]? = some k' := by
    rw [List.getElem?_set, if_pos rfl, if_pos hl]
  rw [flat_at_key r f hk] at hok ⊢
  rw [flat_at_key r' f hk2, keys_insert_map_add, take_set_self,
    List.drop_set_of_lt _ _ (Nat.lt_succ_self l)]
  rw [keys_ok_map_add, keys_ok_append] at hok
  rw [keys_insert_hit v sat _ _ kl
    (fun a ha => by
      have := hok.2.2 a ha kl (List.mem_cons_self _ _)
      omega) hv, hk']

/-- Replacing child `i` of an internal node by the result of an insertion into it is
`keys_insert` on the in-order list, when the value lies between the keys around the child. -/
theorem flat_insert_child {B : Nat} {x x' : B_tree_node S} {ks cl s}
    (r : B_tree_node.Rep B x ks (some cl) s) (f : Nat) {i : Nat} {c c' : B_tree_node S}
    (hc : cl[i]? = some c) (v : Int) (sat : S)
    (hok : keys_ok (x.flat (f + 1)) = true)
    (hlo : ∀ k, 0 < i → ks[i - 1]? = some k → k.value < v)
    (hhi : ∀ k, ks[i]? = some k → v < k.value)
    (hc' : c'.flat f = keys_insert v sat (c.flat f))
    (r' : B_tree_node.Rep B x' ks (some (cl.set i c')) s) :
    x'.flat (f + 1) = keys_insert (v + s) sat (x.flat (f + 1)) := by
  have hlen := r.children_some.choose_spec.2.2.2
  have hi : i < cl.length := lt_of_getElem?_some hc
  have hc2 : (cl.set i c')[i]? = some c' := by
    rw [List.getElem?_set, if_pos rfl, if_pos hi]
  rw [flat_inner r, keys_ok_map_add] at hok
  obtain ⟨-, -, -, b4, b5, b6, b7, -, -, -⟩ :=
    flat_split_bounds (B_tree_node.flat f) cl ks i c hlen hc hok
  rw [flat_split r f hc, flat_split r' f hc2, keys_insert_map_add, take_set_self,
    List.drop_set_of_lt _ _ (Nat.lt_succ_self i), hc']
  rw [keys_insert_between]
  · intro k hk
    rcases Nat.eq_zero_or_pos i with h0 | hpos
    · rw [b5 h0] at hk; cases hk
    · obtain ⟨k0, hk0⟩ := getElem?_some_of_lt (a := ks) (i := i - 1) (by omega)
      have := b4 k hk k0 hpos hk0
      have := hlo k0 hpos hk0
      omega
  · intro k hk
    by_cases hik : i = ks.length
    · rw [b7 hik] at hk; cases hk
    · obtain ⟨k0, hk0⟩ := getElem?_some_of_lt (a := ks) (i := i) (by omega)
      have := b6 k hk k0 hk0
      have := hhi k0 hk0
      omega

/-- The in-order list of a node is that of its lower half, the median, and its upper half. -/
theorem flat_halves {B : Nat} {c lhs' rhs' : B_tree_node S} {lks lcs ls}
    (rc : B_tree_node.Rep B c lks lcs ls) (f : Nat) {m : Nat} {med : key_t S}
    (hmed : lks[m]? = some med)
    (rl : B_tree_node.Rep B lhs' (lks.take m) (lcs.map (List.take (m + 1))) ls)
    (rr : B_tree_node.Rep B rhs' (lks.drop (m + 1)) (lcs.map (List.drop (m + 1))) ls) :
    c.flat (f + 1) = lhs'.flat (f + 1) ++ med.add ls :: rhs'.flat (f + 1) := by
  have hm : m < lks.length := lt_of_getElem?_some hmed
  cases lcs with
  | none =>
    rw [flat_leaf rc, flat_leaf rl, flat_leaf rr, ← List.map_cons, ← List.map_append]
    congr 1
    rw [List.getElem?_eq_getElem hm] at hmed
    cases hmed
    rw [List.getElem_cons_drop lks m hm, List.take_append_drop]
  | some lcl =>
    rw [flat_at_key rc f hmed, flat_inner rl, flat_inner rr, List.map_append, List.map_cons]

/-- `split_child` does not change the in-order list of the parent. -/
theorem flat_split_child {B : Nat} {x x1 c lhs' rhs' : B_tree_node S} {ks cl s lks lcs ls}
    (r : B_tree_node.Rep B x ks (some cl) s) (f : Nat) {i : Nat} (hc : cl[i]? = some c)
    (rc : B_tree_node.Rep B c lks lcs ls) {m : Nat} {med : key_t S} (hmed : lks[m]? = some med)
    (r1 : B_tree_node.Rep B x1 (ks.take i ++ med.add ls :: ks.drop i)
      (some (cl.take i ++ lhs' :: rhs' :: cl.drop (i + 1))) s)
    (rl : B_tree_node.Rep B lhs' (lks.take m) (lcs.map (List.take (m + 1))) ls)
    (rr : B_tree_node.Rep B rhs' (lks.drop (m + 1)) (lcs.map (List.drop (m + 1))) ls) :
    x1.flat (f + 2) = x.flat (f + 2) := by
  have hlen := r.children_some.choose_spec.2.2.2
  have hi : i < cl.length := lt_of_getElem?_some hc
  have hil : (cl.take i).length = i := by rw [List.length_take]; omega
  have hkl : (ks.take i).length = i := by rw [List.length_take]; omega
  have hc1 : (cl.take i ++ lhs' :: rhs' :: cl.drop (i + 1))[i]? = some lhs' := by
    rw [List.getElem?_append_right (by omega), hil, Nat.sub_self]; rfl
  have e1 : (cl.take i ++ lhs' :: rhs' :: cl.drop (i + 1)).take i = cl.take i := by
    rw [List.take_append_of_le_length (by omega), List.take_of_length_le (by omega)]
  have e2 : (ks.take i ++ med.add ls :: ks.drop i).take i = ks.take i := by
    rw [List.take_append_of_le_length (by omega), List.take_of_length_le (by omega)]
  have e3 : (cl.take i ++ lhs' :: rhs' :: cl.drop (i + 1)).drop (i + 1)
      = rhs' :: cl.drop (i + 1) := by
    rw [List.drop_append_eq_append_drop, hil, List.drop_of_length_le (by omega)]
    have : i + 1 - i = 1 := by omega
    rw [this]; rfl
  have e4 : (ks.take i ++ med.add ls :: ks.drop i).drop i = med.add ls :: ks.drop i := by
    rw [List.drop_append_eq_append_drop, hkl, List.drop_of_length_le (by omega), Nat.sub_self]
    rfl
  rw [flat_split r (f + 1) hc, flat_split r1 (f + 1) hc1, e1, e2, e3, e4,
    flat_halves rc f hmed rl rr]
  congr 1
  simp only [List.map_cons, inorder, Option.map_none', Option.getD_none, List.nil_append,
    List.append_assoc, List.cons_append]
  rw [inorder_cons_none]
  rfl

end insert_flat_lemmas

/-! ## The cases of insert on an internal node -/

section insert_step_lemmas

variable {S : Type}

/-- `insert` into the fresh leaf of `make_set`. -/
theorem insert_create (B : Nat) (hB : 1 ≤ B) (v : Int) (sat : S) (fuel : Nat) :
    ∃ x' p, (B_tree_node.blank B true : B_tree_node S).insert B (fuel + 1) v sat = .ok (x', p) ∧
      B_tree_node.Rep B x' [⟨v, some [sat]⟩] none 0 := by
  have h0 : (List.replicate B (key_t.empty : key_t S))[0]? = some key_t.empty := by
    rw [List.getElem?_replicate, if_pos (by omega)]
  have hw : wr (List.replicate B (key_t.empty : key_t S)) 0 ⟨v, some [sat]⟩ =
      .ok ((List.replicate B (key_t.empty : key_t S)).set 0 ⟨v, some [sat]⟩) :=
    wr_ok _ (by simp; omega)
  have h1 : ((List.replicate B (key_t.empty : key_t S)).set 0 ⟨v, some [sat]⟩)[0]? =
      some ⟨v, some [sat]⟩ := by
    rw [List.getElem?_set, if_pos rfl, if_pos (by simp; omega)]
  have hs : (B_tree_node.blank B true : B_tree_node S).search 1 v = .ok ⟨0, none⟩ := by
    simp only [B_tree_node.search, B_tree_node.blank, bsearch, sub_zero, bind, Except.bind,
      Nat.not_lt_zero, gt_iff_lt, Nat.zero_add, if_false, rd_ok h0]
    simp [key_t.empty, pure, Except.pure]
  have he : (B_tree_node.blank B true : B_tree_node S).insert B (fuel + 1) v sat =
      .ok ({ keys := (List.replicate B (key_t.empty : key_t S)).set 0 ⟨v, some [sat]⟩,
             children := none, n := 1, _shift := 0 },
           ⟨0, some ⟨[], 0, ⟨v, some [sat]⟩⟩⟩) := by
    rw [B_tree_node.insert]
    have hl : (B_tree_node.blank B true : B_tree_node S).is_leaf = true := rfl
    have hsh : (B_tree_node.blank B true : B_tree_node S)._shift = 0 := rfl
    simp only [hl, hsh, if_true, sub_zero, add_zero, hs, bind, Except.bind]
    simp only [B_tree_node.blank, B_tree_node.set_key_at, hw, bind, Except.bind, pure,
      Except.pure, insert_bubble, Nat.lt_irrefl, Nat.not_lt_zero, if_false, usub_ok (le_refl 1),
      Nat.sub_self, rd_ok h1, Nat.zero_add, if_true]
  refine ⟨_, _, he, ?_⟩
  refine ⟨by simp, rfl, by simpa using hB, ?_, rfl, rfl⟩
  cases B with
  | zero => omega
  | succ b => rfl

/-- `insert` on an internal node that holds the value: the satellite is appended. -/
theorem insert_inner_hit (B fuel : Nat) (x : B_tree_node S) (v : Int) (sat : S) (l : Nat)
    (kl : key_t S) (sats : List S) (hleaf : x.is_leaf = false)
    (hb : bsearch x.keys (v - x._shift) x.n 0 x.n = .ok (l, l + 1))
    (hk : x.keys[l]? = some kl) (hv : kl.value = v - x._shift)
    (hs : kl.satellites = some sats) :
    ∃ p, x.insert B (fuel + 1) v sat =
      .ok ({ x with keys := x.keys.set l { kl with satellites := some (sats ++ [sat]) } }, p) := by
  rw [B_tree_node.insert]
  simp only [hleaf, hb, rd_ok hk, hv, push_back_ok sat hs,
    set_key_at_ok _ (lt_of_getElem?_some hk), bind, Except.bind, if_true, Bool.false_eq_true,
    if_false, pure, Except.pure]
  exact ⟨_, rfl⟩

/-- `insert` on an internal node that descends into a child that is not full. -/
theorem insert_inner_descend (B fuel : Nat) (x : B_tree_node S) (v : Int) (sat : S) (l : Nat)
    (kl : key_t S) (ch : List (Option (B_tree_node S))) (i : Nat) (c c' : B_tree_node S)
    (ans : shifted_key_ptr_t S) (hleaf : x.is_leaf = false)
    (hb : bsearch x.keys (v - x._shift) x.n 0 x.n = .ok (l, l + 1))
    (hk : x.keys[l]? = some kl) (hv : kl.value ≠ v - x._shift)
    (hi : i = if kl.value < v - x._shift then l + 1 else l)
    (hch : x.children = some ch) (hc : ch[i]? = some (some c)) (hfull : c.is_full B = false)
    (hrec : c.insert B fuel (v - x._shift) sat = .ok (c', ans)) :
    ∃ p, x.insert B (fuel + 1) v sat =
      .ok ({ x with children := some (ch.set i (some c')) }, p) := by
  rw [B_tree_node.insert]
  simp only [hleaf, hb, rd_ok hk, hv, ← hi, child_at_ok hch hc, hfull, hrec,
    set_child_at_ok _ hch (lt_of_getElem?_some hc), bind, Except.bind, if_true,
    Bool.false_eq_true, if_false, pure, Except.pure]
  exact ⟨_, rfl⟩

/-- `insert` on an internal node whose child was full: after `split_child` the promoted median
is the value. -/
theorem insert_inner_split_hit (B fuel : Nat) (x : B_tree_node S) (v : Int) (sat : S) (l : Nat)
    (kl : key_t S) (ch : List (Option (B_tree_node S))) (i : Nat) (c x1 : B_tree_node S)
    (k1 : key_t S) (sats : List S) (hleaf : x.is_leaf = false)
    (hb : bsearch x.keys (v - x._shift) x.n 0 x.n = .ok (l, l + 1))
    (hk : x.keys[l]? = some kl) (hv : kl.value ≠ v - x._shift)
    (hi : i = if kl.value < v - x._shift then l + 1 else l)
    (hch : x.children = some ch) (hc : ch[i]? = some (some c)) (hfull : c.is_full B = true)
    (hsp : x.split_child B i = .ok x1) (hk1 : x1.keys[i]? = some k1)
    (hv1 : k1.value = v - x._shift) (hs1 : k1.satellites = some sats) :
    ∃ p, x.insert B (fuel + 1) v sat =
      .ok ({ x1 with keys := x1.keys.set i { k1 with satellites := some (sats ++ [sat]) } },
        p) := by
  rw [B_tree_node.insert]
  simp only [hleaf, hb, rd_ok hk, hv, ← hi, child_at_ok hch hc, hfull, hsp, rd_ok hk1, hv1,
    push_back_ok sat hs1, set_key_at_ok _ (lt_of_getElem?_some hk1), bind, Except.bind, if_true,
    Bool.false_eq_true, if_false, pure, Except.pure]
  exact ⟨_, rfl⟩

/-- `insert` on an internal node whose child was full: after `split_child` the descent goes
into one of the two halves. -/
theorem insert_inner_split_descend (B fuel : Nat) (x : B_tree_node S) (v : Int) (sat : S)
    (l : Nat) (kl : key_t S) (ch : List (Option (B_tree_node S))) (i : Nat)
    (c x1 : B_tree_node S) (k1 : key_t S) (ch1 : List (Option (B_tree_node S))) (j : Nat)
    (c1 c1' : B_tree_node S) (ans : shifted_key_ptr_t S) (hleaf : x.is_leaf = false)
    (hb : bsearch x.keys (v - x._shift) x.n 0 x.n = .ok (l, l + 1))
    (hk : x.keys[l]? = some kl) (hv : kl.value ≠ v - x._shift)
    (hi : i = if kl.value < v - x._shift then l + 1 else l)
    (hch : x.children = some ch) (hc : ch[i]? = some (some c)) (hfull : c.is_full B = true)
    (hsp : x.split_child B i = .ok x1) (hk1 : x1.keys[i]? = some k1)
    (hv1 : k1.value ≠ v - x._shift)
    (hj : j = if k1.value < v - x._shift then i + 1 else i)
    (hch1 : x1.children = some ch1) (hc1 : ch1[j]? = some (some c1))
    (hrec : c1.insert B fuel (v - x._shift) sat = .ok (c1', ans)) :
    ∃ p, x.insert B (fuel + 1) v sat =
      .ok ({ x1 with children := some (ch1.set j (some c1')) }, p) := by
  rw [B_tree_node.insert]
  simp only [hleaf, hb, rd_ok hk, hv, ← hi, child_at_ok hch hc, hfull, hsp, rd_ok hk1, hv1,
    ← hj, child_at_ok hch1 hc1, deref, hrec, set_child_at_ok _ hch1 (lt_of_getElem?_some hc1),
    bind, Except.bind, if_true, Bool.false_eq_true, if_false, pure, Except.pure]
  exact ⟨_, rfl⟩

theorem shape_of_rep_leaf {B lo lo' : Nat} {x : B_tree_node S} {ks s}
    (r : B_tree_node.Rep B x ks none s) (hlo : lo ≤ ks.length) :
    x.shape B lo lo' 1 = true := by
  have r' : B_tree_node.Rep B x ks none x._shift := by rw [r.shift_eq]; exact r
  exact (shape_succ_iff B lo lo' 0 x).mpr ⟨ks, none, r', hlo, rfl⟩

theorem shape_of_rep_inner {B lo lo' h : Nat} {x : B_tree_node S} {ks cl s}
    (r : B_tree_node.Rep B x ks (some cl) s) (hlo : lo ≤ ks.length)
    (hc : ∀ c ∈ cl, c.shape B lo' lo' (h + 1) = true) :
    x.shape B lo lo' (h + 2) = true := by
  have r' : B_tree_node.Rep B x ks (some cl) x._shift := by rw [r.shift_eq]; exact r
  exact (shape_succ_iff B lo lo' (h + 1) x).mpr ⟨ks, some cl, r', hlo, Nat.succ_ne_zero h, hc⟩

/-- Replacing a live key keeps the representation, with the key replaced. -/
theorem rep_set_key {B : Nat} {x : B_tree_node S} {ks cs s}
    (r : B_tree_node.Rep B x ks cs s) {l : Nat} (hl : l < ks.length) (k : key_t S) :
    B_tree_node.Rep B { x with keys := x.keys.set l k } (ks.set l k) cs s := by
  have hk : (x.keys.set l k).take x.n = ks.set l k := by
    rw [← r.keys_eq, List.set_take]
  cases cs with
  | none =>
    exact ⟨by simp [r.keys_len], by simp [r.n_eq], by simpa using r.n_le, hk, r.shift_eq,
      r.children_none⟩
  | some cl =>
    obtain ⟨ch, h1, h2, h3, h4⟩ := r.ch
    exact ⟨by simp [r.keys_len], by simp [r.n_eq], by simpa using r.n_le, hk, r.shift_eq,
      ⟨ch, h1, h2, h3, by simpa using h4⟩⟩

/-- Replacing a live child keeps the representation, with the child replaced. -/
theorem rep_set_child {B : Nat} {x : B_tree_node S} {ks cl s}
    (r : B_tree_node.Rep B x ks (some cl) s) {ch : List (Option (B_tree_node S))}
    (hch : x.children = some ch) {i : Nat} (hi : i < cl.length) (c : B_tree_node S) :
    B_tree_node.Rep B { x with children := some (ch.set i (some c)) } ks
      (some (cl.set i c)) s := by
  obtain ⟨ch0, h1, h2, h3, h4⟩ := r.ch
  rw [hch] at h1
  cases h1
  refine ⟨r.keys_len, r.n_eq, r.n_le, r.keys_eq, r.shift_eq,
    ⟨ch.set i (some c), rfl, by simp [h2], ?_, by simp [h4]⟩⟩
  show (ch.set i (some c)).take (x.n + 1) = (cl.set i c).map some
  rw [List.set_take, h3, List.map_set]

/-- The shapes of the children after one of them was replaced. -/
theorem shape_set_child {B h : Nat} {cl : List (B_tree_node S)} {i : Nat} {c : B_tree_node S}
    (hcs : ∀ d ∈ cl, d.shape B 1 1 h = true) (hc : c.shape B 1 1 h = true) :
    ∀ d ∈ cl.set i c, d.shape B 1 1 h = true := by
  intro d hd
  rcases List.mem_or_eq_of_mem_set hd with h | h
  · exact hcs d h
  · rw [h]; exact hc

/-- The in-order list of a valid internal node contains its keys in order: they are sorted. -/
theorem keys_ok_of_flat {B : Nat} {x : B_tree_node S} {ks cl s}
    (r : B_tree_node.Rep B x ks (some cl) s) (f : Nat)
    (hok : keys_ok (x.flat (f + 1)) = true) : keys_ok ks = true := by
  rw [flat_inner r, keys_ok_map_add] at hok
  have hlen := r.children_some.choose_spec.2.2.2
  exact keys_ok_sublist (sublist_inorder _ _ _ (by simp; omega)) hok

/-- What the semantic part of "the node holds the value" gives: shape and in-order list. -/
theorem hit_sem {B h : Nat} {x : B_tree_node S} {ks cl s} (v : Int) (sat : S)
    (r : B_tree_node.Rep B x ks (some cl) s) (hpos : 1 ≤ ks.length)
    (hcs : ∀ c ∈ cl, c.shape B 1 1 (h + 1) = true)
    (hok : keys_ok (x.flat (h + 2)) = true)
    {l : Nat} {kl : key_t S} {sats : List S} (hk : ks[l]? = some kl)
    (hv : kl.value = v - s) (hs : kl.satellites = some sats) :
    B_tree_node.shape B 1 1 (h + 2)
        { x with keys := x.keys.set l { kl with satellites := some (sats ++ [sat]) } } = true ∧
      B_tree_node.flat (h + 2)
        { x with keys := x.keys.set l { kl with satellites := some (sats ++ [sat]) } } =
        keys_insert v sat (x.flat (h + 2)) := by
  have hl : l < ks.length := lt_of_getElem?_some hk
  have r' := rep_set_key r hl { kl with satellites := some (sats ++ [sat]) }
  refine ⟨shape_of_rep_inner r' (by simpa using hpos) hcs, ?_⟩
  have := flat_insert_hit r (h + 1) hk (v - s) sat hv (by simp [hs]) hok r'
  rw [this, sub_add_cancel]

/-- What the semantic part of "the value goes into child `i`" gives: shape and in-order list. -/
theorem descend_sem {B h : Nat} {x : B_tree_node S} {ks cl s} (v : Int) (sat : S)
    (r : B_tree_node.Rep B x ks (some cl) s) (hpos : 1 ≤ ks.length)
    (hcs : ∀ c ∈ cl, c.shape B 1 1 (h + 1) = true)
    (hok : keys_ok (x.flat (h + 2)) = true)
    {ch : List (Option (B_tree_node S))} (hch : x.children = some ch)
    {i : Nat} {c c' : B_tree_node S} (hc : cl[i]? = some c)
    (hlo : ∀ k, 0 < i → ks[i - 1]? = some k → k.value < v - s)
    (hhi : ∀ k, ks[i]? = some k → v - s < k.value)
    (hshape : c'.shape B 1 1 (h + 1) = true)
    (hflat : c'.flat (h + 1) = keys_insert (v - s) sat (c.flat (h + 1))) :
    B_tree_node.shape B 1 1 (h + 2) { x with children := some (ch.set i (some c')) } = true ∧
      B_tree_node.flat (h + 2) { x with children := some (ch.set i (some c')) } =
        keys_insert v sat (x.flat (h + 2)) := by
  have hi : i < cl.length := lt_of_getElem?_some hc
  have r' := rep_set_child r hch hi c'
  refine ⟨shape_of_rep_inner r' hpos (shape_set_child hcs hshape), ?_⟩
  have := flat_insert_child r (h + 1) hc (v - s) sat hok hlo hhi hflat r'
  rw [this, sub_add_cancel]

/-- The child of an internal node has a sorted in-order list. -/
theorem child_keys_ok {B : Nat} {x : B_tree_node S} {ks cl s}
    (r : B_tree_node.Rep B x ks (some cl) s) (f : Nat)
    (hok : keys_ok (x.flat (f + 1)) = true) {i : Nat} {c : B_tree_node S}
    (hc : cl[i]? = some c) : keys_ok (c.flat f) = true := by
  rw [flat_inner r, keys_ok_map_add] at hok
  exact (flat_split_bounds (B_tree_node.flat f) cl ks i c r.children_some.choose_spec.2.2.2
    hc hok).1

/-- The child index chosen by the descent and the keys around it. -/
theorem descend_bounds (ks : List (key_t S)) (value : Int) (l : Nat) (kl : key_t S)
    (hkl : ks[l]? = some kl)
    (hle : l = 0 ∨ kl.value ≤ value)
    (hgt : ∀ i k, l < i → ks[i]? = some k → value < k.value)
    (hv : kl.value ≠ value) (i : Nat) (hi : i = if kl.value < value then l + 1 else l) :
    i ≤ ks.length ∧ (∀ k, 0 < i → ks[i - 1]? = some k → k.value < value) ∧
      (∀ k, ks[i]? = some k → value < k.value) := by
  have hl : l < ks.length := lt_of_getElem?_some hkl
  by_cases h : kl.value < value
  · rw [if_pos h] at hi
    subst hi
    refine ⟨hl, ?_, fun k hk => hgt _ k (Nat.lt_succ_self l) hk⟩
    intro k _ hk
    rw [Nat.add_sub_cancel, hkl] at hk
    cases hk
    exact h
  · rw [if_neg h] at hi
    subst hi
    have h0 : i = 0 := by
      rcases hle with h0 | h1
      · exact h0
      · omega
    subst h0
    refine ⟨Nat.zero_le _, fun k hpos _ => absurd hpos (Nat.lt_irrefl 0), ?_⟩
    intro k hk
    rw [hkl] at hk
    cases hk
    omega

/-- A live key of a node occurs, shifted, in the in-order list of the node. -/
theorem mem_flat_of_key {B : Nat} {c : B_tree_node S} {lks lcs ls}
    (rc : B_tree_node.Rep B c lks lcs ls) (f : Nat) {m : Nat} {med : key_t S}
    (hmed : lks[m]? = some med) : med.add ls ∈ c.flat (f + 1) := by
  cases lcs with
  | none =>
    rw [flat_leaf rc]
    exact List.mem_map_of_mem _ (List.getElem?_mem hmed)
  | some lcl =>
    rw [flat_at_key rc f hmed]
    exact List.mem_map_of_mem _ (List.mem_append_right _ (List.mem_cons_self _ _))

/-- The keys of the parent around child `i` bound every key of the child. -/
theorem median_bounds {B : Nat} {x c : B_tree_node S} {ks cl s}
    (r : B_tree_node.Rep B x ks (some cl) s) (f : Nat)
    (hok : keys_ok (x.flat (f + 2)) = true) {i : Nat} (hc : cl[i]? = some c)
    {e : key_t S} (he : e ∈ c.flat (f + 1)) :
    (∀ j k, i ≤ j → ks[j]? = some k → e.value < k.value) ∧
      (∀ j k, j < i → ks[j]? = some k → k.value ≤ e.value) := by
  have hlen := r.children_some.choose_spec.2.2.2
  have hi : i < cl.length := lt_of_getElem?_some hc
  rw [flat_inner r, keys_ok_map_add] at hok
  obtain ⟨-, -, -, -, -, -, -, b8, b9, -⟩ :=
    flat_split_bounds (B_tree_node.flat (f + 1)) cl ks i c hlen hc hok
  constructor
  · intro j k hij hk
    apply b9 e he k
    have hsub := sublist_inorder (B_tree_node.flat (f + 1))
      (none :: (cl.drop (i + 1)).map some) (ks.drop i)
      (by simp only [List.length_cons, List.length_map, List.length_drop]; omega)
    apply hsub.subset
    have : (ks.drop i)[j - i]? = some k := by
      rw [List.getElem?_drop]
      have : i + (j - i) = j := by omega
      rw [this]; exact hk
    exact List.getElem?_mem this
  · intro j k hji hk
    have hsub := sublist_inorder (B_tree_node.flat (f + 1))
      ((cl.take i).map some ++ [none]) (ks.take i)
      (by simp only [List.length_append, List.length_map, List.length_take, List.length_cons,
            List.length_nil]; omega)
    have hm : k ∈ ks.take i := by
      have : (ks.take i)[j]? = some k := by
        rw [List.getElem?_take, if_pos hji]; exact hk
      exact List.getElem?_mem this
    exact le_of_lt (b8 k (hsub.subset hm) e he)

/-- The two halves of a split child have the shape of nodes of the same height, and room. -/
theorem halves_shape {B h : Nat} (hB : 3 ≤ B) {lhs' rhs' : B_tree_node S}
    {lks : List (key_t S)} {lcs : Option (List (B_tree_node S))} {ls : Int}
    (hfull : lks.length = B)
    (hcs : match lcs with
      | none => h = 0
      | some cl => h ≠ 0 ∧ ∀ c ∈ cl, B_tree_node.shape B 1 1 h c = true)
    (rl : B_tree_node.Rep B lhs' (lks.take (B / 2)) (lcs.map (List.take (B / 2 + 1))) ls)
    (rr : B_tree_node.Rep B rhs' (lks.drop (B / 2 + 1)) (lcs.map (List.drop (B / 2 + 1))) ls) :
    lhs'.shape B 1 1 (h + 1) = true ∧ rhs'.shape B 1 1 (h + 1) = true ∧
      lhs'.n < B ∧ rhs'.n < B := by
  have h1 : (lks.take (B / 2)).length = B / 2 := by rw [List.length_take]; omega
  have h2 : (lks.drop (B / 2 + 1)).length = B - (B / 2 + 1) := by rw [List.length_drop, hfull]
  have rl' : B_tree_node.Rep B lhs' (lks.take (B / 2)) (lcs.map (List.take (B / 2 + 1)))
      lhs'._shift := by rw [rl.shift_eq]; exact rl
  have rr' : B_tree_node.Rep B rhs' (lks.drop (B / 2 + 1)) (lcs.map (List.drop (B / 2 + 1)))
      rhs'._shift := by rw [rr.shift_eq]; exact rr
  refine ⟨(shape_succ_iff B 1 1 h lhs').mpr ⟨_, _, rl', by omega, ?_⟩,
    (shape_succ_iff B 1 1 h rhs').mpr ⟨_, _, rr', by omega, ?_⟩,
    by rw [rl.n_eq]; omega, by rw [rr.n_eq]; omega⟩
  · cases lcs with
    | none => exact hcs
    | some cl => exact ⟨hcs.1, fun c hc => hcs.2 c (List.mem_of_mem_take hc)⟩
  · cases lcs with
    | none => exact hcs
    | some cl => exact ⟨hcs.1, fun c hc => hcs.2 c (List.mem_of_mem_drop hc)⟩

/-- Facts about the key and child lists of the parent after `split_child` at child `i`. -/
theorem split_lists {α β : Type} (ks : List α) (cl : List β) (i : Nat) (m : α) (a b : β)
    (hi : i ≤ ks.length) (hlen : cl.length = ks.length + 1) :
    (ks.take i ++ m :: ks.drop i)[i]? = some m ∧
      (cl.take i ++ a :: b :: cl.drop (i + 1))[i]? = some a ∧
      (cl.take i ++ a :: b :: cl.drop (i + 1))[i + 1]? = some b ∧
      (ks.take i ++ m :: ks.drop i).length = ks.length + 1 ∧
      (∀ k, 0 < i → (ks.take i ++ m :: ks.drop i)[i - 1]? = some k → ks[i - 1]? = some k) ∧
      (∀ k, (ks.take i ++ m :: ks.drop i)[i + 1]? = some k → ks[i]? = some k) := by
  have h1 : (ks.take i).length = i := by rw [List.length_take]; omega
  have h2 : (cl.take i).length = i := by rw [List.length_take]; omega
  refine ⟨?_, ?_, ?_, ?_, ?_, ?_⟩
  · rw [getElem?_insert_mid _ _ _ _ hi, if_neg (Nat.lt_irrefl i), if_pos rfl]
  · rw [List.getElem?_append_right (by omega), h2, Nat.sub_self]; rfl
  · rw [List.getElem?_append_right (by omega), h2]
    have : i + 1 - i = 1 := by omega
    rw [this]; simp
  · simp only [List.length_append, List.length_take, List.length_cons, List.length_drop]; omega
  · intro k hpos hk
    rw [getElem?_insert_mid _ _ _ _ hi, if_pos (by omega)] at hk
    exact hk
  · intro k hk
    rw [getElem?_insert_mid _ _ _ _ hi, if_neg (by omega), if_neg (by omega)] at hk
    exact hk

/-- The shapes of the children of the parent after `split_child`. -/
theorem shape_split_children {B h : Nat} {cl : List (B_tree_node S)} {i : Nat}
    {a b : B_tree_node S} (hcs : ∀ d ∈ cl, d.shape B 1 1 h = true)
    (ha : a.shape B 1 1 h = true) (hb : b.shape B 1 1 h = true) :
    ∀ d ∈ cl.take i ++ a :: b :: cl.drop (i + 1), d.shape B 1 1 h = true := by
  intro d hd
  rcases List.mem_append.mp hd with h1 | h1
  · exact hcs d (List.mem_of_mem_take h1)
  · rcases List.mem_cons.mp h1 with h2 | h2
    · rw [h2]; exact ha
    · rcases List.mem_cons.mp h2 with h3 | h3
      · rw [h3]; exact hb
      · exact hcs d (List.mem_of_mem_drop h3)

end insert_step_lemmas

/-! ## Insertion into a subtree -/

section insert_node_lemmas

variable {S : Type}

/-- `insert` after the child on the way was split: the value is the promoted median, or it goes
into one of the two halves. -/
theorem insert_after_split (B h fuel : Nat) (hB : 3 ≤ B) (x c x1 lhs' rhs' : B_tree_node S)
    (ks : List (key_t S)) (cl : List (B_tree_node S)) (lks : List (key_t S))
    (lcs : Option (List (B_tree_node S))) (ls : Int) (med : key_t S)
    (v : Int) (sat : S) (l : Nat) (kl : key_t S) (ch : List (Option (B_tree_node S))) (i : Nat)
    (r : B_tree_node.Rep B x ks (some cl) x._shift) (hpos : 1 ≤ ks.length)
    (hcs : ∀ c ∈ cl, c.shape B 1 1 (h + 1) = true)
    (hok : keys_ok (x.flat (h + 2)) = true)
    (hb : bsearch x.keys (v - x._shift) x.n 0 x.n = .ok (l, l + 1))
    (hkx : x.keys[l]? = some kl) (hv : kl.value ≠ v - x._shift)
    (hi : i = if kl.value < v - x._shift then l + 1 else l)
    (hch : x.children = some ch) (hc : cl[i]? = some c)
    (hlo : ∀ k, 0 < i → ks[i - 1]? = some k → k.value < v - x._shift)
    (hhi : ∀ k, ks[i]? = some k → v - x._shift < k.value)
    (hfull : c.is_full B = true)
    (hccs : match lcs with
      | none => h = 0
      | some cl => h ≠ 0 ∧ ∀ c ∈ cl, B_tree_node.shape B 1 1 h c = true)
    (rc : B_tree_node.Rep B c lks lcs ls) (hfullk : lks.length = B)
    (hmed : lks[B / 2]? = some med)
    (hsp : x.split_child B i = .ok x1)
    (r1 : B_tree_node.Rep B x1 (ks.take i ++ med.add ls :: ks.drop i)
      (some (cl.take i ++ lhs' :: rhs' :: cl.drop (i + 1))) x._shift)
    (rl : B_tree_node.Rep B lhs' (lks.take (B / 2)) (lcs.map (List.take (B / 2 + 1))) ls)
    (rr : B_tree_node.Rep B rhs' (lks.drop (B / 2 + 1)) (lcs.map (List.drop (B / 2 + 1))) ls)
    (ih : ∀ (c : B_tree_node S) (w : Int), c.shape B 1 1 (h + 1) = true →
      keys_ok (c.flat (h + 1)) = true → c.n < B →
      ∃ c' p, c.insert B fuel w sat = .ok (c', p) ∧ c'.shape B 1 1 (h + 1) = true ∧
        c'.flat (h + 1) = keys_insert w sat (c.flat (h + 1))) :
    ∃ x' p, x.insert B (fuel + 1) v sat = .ok (x', p) ∧ x'.shape B 1 1 (h + 2) = true ∧
      x'.flat (h + 2) = keys_insert v sat (x.flat (h + 2)) := by
  have hlen := r.children_some.choose_spec.2.2.2
  have hil : i ≤ ks.length := by
    have := lt_of_getElem?_some hc
    omega
  obtain ⟨sl1, sl2, sl3, sl4, sl5, sl6⟩ := split_lists ks cl i (med.add ls) lhs' rhs' hil hlen
  obtain ⟨hsl, hsr, hnl, hnr⟩ := halves_shape hB hfullk hccs rl rr
  have hfl := flat_split_child r h hc rc hmed r1 rl rr
  have hok1 : keys_ok (x1.flat (h + 2)) = true := by rw [hfl]; exact hok
  have hcs1 := shape_split_children (i := i) hcs hsl hsr
  have hpos1 : 1 ≤ (ks.take i ++ med.add ls :: ks.drop i).length := by
    rw [sl4]; exact Nat.le_add_left 1 _
  have hk1 : x1.keys[i]? = some (med.add ls) := by
    rw [r1.key_get (by rw [sl4]; exact Nat.lt_succ_of_le hil)]; exact sl1
  have hleaf := r.is_leaf_some
  have hcc : ch[i]? = some (some c) := r.child_get hch hc
  by_cases hv1 : (med.add ls).value = v - x._shift
  · have hmem := mem_flat_of_key rc h hmed
    have hokc := child_keys_ok r (h + 1) hok hc
    have hsat : (med.add ls).satellites.isSome = true := ((keys_ok_iff _).mp hokc).2 _ hmem
    obtain ⟨sats, hsats⟩ := Option.isSome_iff_exists.mp hsat
    obtain ⟨p, hp⟩ := insert_inner_split_hit B fuel x v sat l kl ch i c x1 (med.add ls) sats
      hleaf hb hkx hv hi hch hcc hfull hsp hk1 hv1 hsats
    have hsem := hit_sem v sat r1 hpos1 hcs1 hok1 sl1 hv1 hsats
    exact ⟨_, p, hp, hsem.1, by rw [hsem.2, hfl]⟩
  · obtain ⟨ch1, hch1, -, -, -⟩ := r1.children_some
    by_cases hlt1 : (med.add ls).value < v - x._shift
    · have hc1 : ch1[i + 1]? = some (some rhs') := r1.child_get hch1 sl3
      have hokr := child_keys_ok r1 (h + 1) hok1 sl3
      obtain ⟨c', q, hrec, hsh', hfl'⟩ := ih rhs' (v - x._shift) hsr hokr hnr
      obtain ⟨p, hp⟩ := insert_inner_split_descend B fuel x v sat l kl ch i c x1 (med.add ls)
        ch1 (i + 1) rhs' c' q hleaf hb hkx hv hi hch hcc hfull hsp hk1 hv1
        (by rw [if_pos hlt1]) hch1 hc1 hrec
      have hsem := descend_sem v sat r1 hpos1 hcs1 hok1 hch1 sl3
        (fun k _ hk => by
          rw [Nat.add_sub_cancel, sl1] at hk
          cases hk
          exact hlt1)
        (fun k hk => hhi k (sl6 k hk)) hsh' hfl'
      exact ⟨_, p, hp, hsem.1, by rw [hsem.2, hfl]⟩
    · have hc1 : ch1[i]? = some (some lhs') := r1.child_get hch1 sl2
      have hokl := child_keys_ok r1 (h + 1) hok1 sl2
      obtain ⟨c', q, hrec, hsh', hfl'⟩ := ih lhs' (v - x._shift) hsl hokl hnl
      obtain ⟨p, hp⟩ := insert_inner_split_descend B fuel x v sat l kl ch i c x1 (med.add ls)
        ch1 i lhs' c' q hleaf hb hkx hv hi hch hcc hfull hsp hk1 hv1
        (by rw [if_neg hlt1]) hch1 hc1 hrec
      have hsem := descend_sem v sat r1 hpos1 hcs1 hok1 hch1 sl2
        (fun k hp0 hk => hlo k hp0 (sl5 k hp0 hk))
        (fun k hk => by
          rw [sl1] at hk
          cases hk
          exact lt_of_le_of_ne (not_lt.mp hlt1) (Ne.symm hv1))
        hsh' hfl'
      exact ⟨_, p, hp, hsem.1, by rw [hsem.2, hfl]⟩

/-- `insert` on an internal node whose child on the way is full. -/
theorem insert_case_split (B h fuel : Nat) (hB : 3 ≤ B) (hfit : B + 1 < 2 ^ B_t_bits B) (x c : B_tree_node S)
    (ks : List (key_t S)) (cl : List (B_tree_node S))
    (v : Int) (sat : S) (l : Nat) (kl : key_t S) (ch : List (Option (B_tree_node S))) (i : Nat)
    (r : B_tree_node.Rep B x ks (some cl) x._shift) (hpos : 1 ≤ ks.length)
    (hlt : ks.length < B)
    (hcs : ∀ c ∈ cl, c.shape B 1 1 (h + 1) = true)
    (hok : keys_ok (x.flat (h + 2)) = true)
    (hb : bsearch x.keys (v - x._shift) x.n 0 x.n = .ok (l, l + 1))
    (hkx : x.keys[l]? = some kl) (hv : kl.value ≠ v - x._shift)
    (hi : i = if kl.value < v - x._shift then l + 1 else l)
    (hch : x.children = some ch) (hc : cl[i]? = some c)
    (hlo : ∀ k, 0 < i → ks[i - 1]? = some k → k.value < v - x._shift)
    (hhi : ∀ k, ks[i]? = some k → v - x._shift < k.value)
    (hfull : c.is_full B = true)
    (ih : ∀ (c : B_tree_node S) (w : Int), c.shape B 1 1 (h + 1) = true →
      keys_ok (c.flat (h + 1)) = true → c.n < B →
      ∃ c' p, c.insert B fuel w sat = .ok (c', p) ∧ c'.shape B 1 1 (h + 1) = true ∧
        c'.flat (h + 1) = keys_insert w sat (c.flat (h + 1))) :
    ∃ x' p, x.insert B (fuel + 1) v sat = .ok (x', p) ∧ x'.shape B 1 1 (h + 2) = true ∧
      x'.flat (h + 2) = keys_insert v sat (x.flat (h + 2)) := by
  obtain ⟨lks, lcs, rc, -, hccs⟩ :=
    (shape_succ_iff B 1 1 h c).mp (hcs c (List.getElem?_mem hc))
  have hfullk : lks.length = B := by
    rw [← rc.n_eq]
    simpa [B_tree_node.is_full] using hfull
  obtain ⟨med, hmed⟩ := getElem?_some_of_lt (a := lks) (i := B / 2) (by omega)
  have mb := median_bounds r h hok hc (mem_flat_of_key rc h hmed)
  obtain ⟨x1, lhs', rhs', hsp, r1, rl, rr⟩ :=
    split_child_rep B (by omega) x c ks lks cl lcs x._shift c._shift i med (fun _ => hfit) r hlt
      hc rc hfullk
      hmed mb.1 mb.2
  exact insert_after_split B h fuel hB x c x1 lhs' rhs' ks cl lks lcs c._shift med v sat l kl
    ch i r hpos hcs hok hb hkx hv hi hch hc hlo hhi hfull hccs rc hfullk hmed hsp r1 rl rr ih

/-- `insert` on an internal node whose child on the way has room. -/
theorem insert_case_descend (B h fuel : Nat) (x c : B_tree_node S)
    (ks : List (key_t S)) (cl : List (B_tree_node S))
    (v : Int) (sat : S) (l : Nat) (kl : key_t S) (ch : List (Option (B_tree_node S))) (i : Nat)
    (r : B_tree_node.Rep B x ks (some cl) x._shift) (hpos : 1 ≤ ks.length)
    (hcs : ∀ c ∈ cl, c.shape B 1 1 (h + 1) = true)
    (hok : keys_ok (x.flat (h + 2)) = true)
    (hb : bsearch x.keys (v - x._shift) x.n 0 x.n = .ok (l, l + 1))
    (hkx : x.keys[l]? = some kl) (hv : kl.value ≠ v - x._shift)
    (hi : i = if kl.value < v - x._shift then l + 1 else l)
    (hch : x.children = some ch) (hc : cl[i]? = some c)
    (hlo : ∀ k, 0 < i → ks[i - 1]? = some k → k.value < v - x._shift)
    (hhi : ∀ k, ks[i]? = some k → v - x._shift < k.value)
    (hfull : c.is_full B = false)
    (ih : ∀ (c : B_tree_node S) (w : Int), c.shape B 1 1 (h + 1) = true →
      keys_ok (c.flat (h + 1)) = true → c.n < B →
      ∃ c' p, c.insert B fuel w sat = .ok (c', p) ∧ c'.shape B 1 1 (h + 1) = true ∧
        c'.flat (h + 1) = keys_insert w sat (c.flat (h + 1))) :
    ∃ x' p, x.insert B (fuel + 1) v sat = .ok (x', p) ∧ x'.shape B 1 1 (h + 2) = true ∧
      x'.flat (h + 2) = keys_insert v sat (x.flat (h + 2)) := by
  have hsc := hcs c (List.getElem?_mem hc)
  have hn : c.n < B := by
    obtain ⟨lks, lcs, rc, -, -⟩ := (shape_succ_iff B 1 1 h c).mp hsc
    have h1 : c.n ≠ B := by simpa [B_tree_node.is_full] using hfull
    have h2 := rc.n_le
    rw [← rc.n_eq] at h2
    omega
  obtain ⟨c', q, hrec, hsh', hfl'⟩ := ih c (v - x._shift) hsc (child_keys_ok r (h + 1) hok hc) hn
  obtain ⟨p, hp⟩ := insert_inner_descend B fuel x v sat l kl ch i c c' q r.is_leaf_some hb hkx
    hv hi hch (r.child_get hch hc) hfull hrec
  have hsem := descend_sem v sat r hpos hcs hok hch hc hlo hhi hsh' hfl'
  exact ⟨_, p, hp, hsem.1, hsem.2⟩

/-- `insert` on an internal node that is not full. -/
theorem insert_inner (B h fuel : Nat) (hB : 3 ≤ B) (hfit : B + 1 < 2 ^ B_t_bits B) (x : B_tree_node S)
    (ks : List (key_t S)) (cl : List (B_tree_node S)) (v : Int) (sat : S)
    (r : B_tree_node.Rep B x ks (some cl) x._shift) (hpos : 1 ≤ ks.length)
    (hlt : ks.length < B)
    (hcs : ∀ c ∈ cl, c.shape B 1 1 (h + 1) = true)
    (hok : keys_ok (x.flat (h + 2)) = true)
    (ih : ∀ (c : B_tree_node S) (w : Int), c.shape B 1 1 (h + 1) = true →
      keys_ok (c.flat (h + 1)) = true → c.n < B →
      ∃ c' p, c.insert B fuel w sat = .ok (c', p) ∧ c'.shape B 1 1 (h + 1) = true ∧
        c'.flat (h + 1) = keys_insert w sat (c.flat (h + 1))) :
    ∃ x' p, x.insert B (fuel + 1) v sat = .ok (x', p) ∧ x'.shape B 1 1 (h + 2) = true ∧
      x'.flat (h + 2) = keys_insert v sat (x.flat (h + 2)) := by
  have hks := keys_ok_of_flat r (h + 1) hok
  have hnB : x.n ≤ x.keys.length := by rw [r.keys_len, r.n_eq]; exact r.n_le
  obtain ⟨l, kl, hb, -, hkl, hkx, -, hle, hgt⟩ :=
    bsearch_sorted x.keys ks (v - x._shift) x.n hnB r.keys_eq (by rw [r.n_eq]; exact hpos)
      ((keys_ok_iff _).mp hks).1
  by_cases hv : kl.value = v - x._shift
  · have hsat : kl.satellites.isSome = true :=
      ((keys_ok_iff _).mp hks).2 kl (List.getElem?_mem hkl)
    obtain ⟨sats, hsats⟩ := Option.isSome_iff_exists.mp hsat
    obtain ⟨p, hp⟩ := insert_inner_hit B fuel x v sat l kl sats r.is_leaf_some hb hkx hv hsats
    have hsem := hit_sem v sat r hpos hcs hok hkl hv hsats
    exact ⟨_, p, hp, hsem.1, hsem.2⟩
  · obtain ⟨ch, hch, -, -, hlen⟩ := r.children_some
    obtain ⟨hil, hlo, hhi⟩ := descend_bounds ks (v - x._shift) l kl hkl hle hgt hv _ rfl
    obtain ⟨c, hc⟩ := getElem?_some_of_lt (a := cl)
      (i := if kl.value < v - x._shift then l + 1 else l) (by rw [hlen]; exact Nat.lt_succ_of_le hil)
    cases hfull : c.is_full B with
    | true =>
      exact insert_case_split B h fuel hB hfit x c ks cl v sat l kl ch _ r hpos hlt hcs hok hb hkx hv
        rfl hch hc hlo hhi hfull ih
    | false =>
      exact insert_case_descend B h fuel x c ks cl v sat l kl ch _ r hpos hcs hok hb hkx hv
        rfl hch hc hlo hhi hfull ih

/-- `insert` on a node that is not full, root of a subtree of height `h` in which every node
holds at least one key: the call returns, the result has the same height and structure
invariant, and its in-order key list is `keys_insert` of the old one. -/
theorem insert_node (B : Nat) (hB : 3 ≤ B) (hfit : B + 1 < 2 ^ B_t_bits B) (sat : S) :
    ∀ (h : Nat) (x : B_tree_node S) (v : Int) (fuel : Nat),
      x.shape B 1 1 h = true → keys_ok (x.flat h) = true → x.n < B → h ≤ fuel →
      ∃ x' p, x.insert B fuel v sat = .ok (x', p) ∧ x'.shape B 1 1 h = true ∧
        x'.flat h = keys_insert v sat (x.flat h) := by
  intro h
  induction h with
  | zero =>
    intro x v fuel hs
    rw [shape_zero] at hs
    cases hs
  | succ h ih =>
    intro x v fuel hs hok hn hf
    obtain ⟨f, rfl⟩ : ∃ f, fuel = f + 1 := ⟨fuel - 1, by omega⟩
    obtain ⟨ks, cs, r, hpos, hc⟩ := (shape_succ_iff B 1 1 h x).mp hs
    have hlt : ks.length < B := by rw [← r.n_eq]; exact hn
    cases cs with
    | none =>
      have h0 : h = 0 := hc
      subst h0
      rw [flat_leaf r, keys_ok_map_add] at hok
      obtain ⟨x', p, he, r'⟩ := insert_leaf B x ks x._shift r hpos hlt hok v sat f
      refine ⟨x', p, he, shape_of_rep_leaf r' (keys_insert_length _ _ _).2.1, ?_⟩
      rw [flat_leaf r', flat_leaf r, ← keys_insert_map_add, sub_add_cancel]
    | some cl =>
      obtain ⟨h', rfl⟩ : ∃ h', h = h' + 1 := ⟨h - 1, by have := hc.1; omega⟩
      exact insert_inner B h' f hB hfit x ks cl v sat r hpos hlt hc.2 hok
        (fun c w hsc hokc hnc => ih c w f hsc hokc hnc (by omega))

end insert_node_lemmas

/-! ## Insertion into a tree -/

section insert_tree_lemmas

variable {S : Type}

theorem map_add_zero (l : List (key_t S)) : l.map (key_t.add 0) = l := by
  induction l with
  | nil => rfl
  | cons k l ih => rw [List.map_cons, ih, key_t.add_zero]

/-- The fresh root of `B_tree::insert` with the old root as its only child. -/
theorem rep_new_root (B : Nat) (x : B_tree_node S) :
    ∃ tmp, (B_tree_node.blank B false : B_tree_node S).set_child B 0 (some x) = .ok tmp ∧
      B_tree_node.Rep B tmp [] (some [x]) 0 := by
  have hw : wr (List.replicate (B + 1) (none : Option (B_tree_node S))) 0 (some x) =
      .ok ((List.replicate (B + 1) none).set 0 (some x)) := wr_ok _ (by simp)
  refine ⟨{ (B_tree_node.blank B false : B_tree_node S) with
      children := some ((List.replicate (B + 1) none).set 0 (some x)) }, ?_, ?_⟩
  · simp only [B_tree_node.set_child, B_tree_node.blank, B_tree_node.set_child_at, deref, hw,
      bind, Except.bind, pure, Except.pure, Bool.false_eq_true, if_false]
  · refine ⟨by simp [B_tree_node.blank], rfl, Nat.zero_le _, rfl, rfl,
      ⟨_, rfl, by simp, ?_, rfl⟩⟩
    show ((List.replicate (B + 1) none).set 0 (some x)).take (0 + 1) = [some x]
    rfl

/-- The root-growing step of `B_tree::insert` on a full root: the new root holds the median
over the two halves, has room, and lists the same keys. -/
theorem grow_root (B h : Nat) (hB : 3 ≤ B) (hfit : B + 1 < 2 ^ B_t_bits B) (x : B_tree_node S)
    (hs : x.shape B 1 1 (h + 1) = true) (hfull : x.is_full B = true) :
    ∃ tmp x1, (B_tree_node.blank B false : B_tree_node S).set_child B 0 (some x) = .ok tmp ∧
      tmp.split_child B 0 = .ok x1 ∧ x1.shape B 1 1 (h + 2) = true ∧ x1.n < B ∧
      x1.flat (h + 2) = x.flat (h + 1) := by
  obtain ⟨tmp, htmp, r⟩ := rep_new_root B x
  obtain ⟨lks, lcs, rc, -, hccs⟩ := (shape_succ_iff B 1 1 h x).mp hs
  have hfullk : lks.length = B := by
    rw [← rc.n_eq]
    simpa [B_tree_node.is_full] using hfull
  obtain ⟨med, hmed⟩ := getElem?_some_of_lt (a := lks) (i := B / 2) (by omega)
  obtain ⟨x1, lhs', rhs', hsp, r1, rl, rr⟩ :=
    split_child_rep B (by omega) tmp x [] lks [x] lcs 0 x._shift 0 med (fun _ => hfit) r
      (show 0 < B by omega) rfl rc
      hfullk hmed (fun j k _ hk => by simp at hk) (fun j k _ hk => by simp at hk)
  obtain ⟨hsl, hsr, -, -⟩ := halves_shape hB hfullk hccs rl rr
  have hfl := flat_split_child r h (i := 0) rfl rc hmed r1 rl rr
  refine ⟨tmp, x1, htmp, hsp, ?_, ?_, ?_⟩
  · exact shape_of_rep_inner r1 (by simp) (@shape_split_children S B (h + 1) [x] 0 lhs' rhs'
      (fun d hd => by
        rw [List.mem_singleton] at hd
        rw [hd]; exact hs) hsl hsr)
  · rw [r1.n_eq]
    simp only [List.take_zero, List.drop_zero, List.nil_append, List.length_singleton]
    omega
  · rw [hfl, flat_inner r]
    simp only [List.map_cons, List.map_nil, inorder, Option.map_some', Option.getD_some]
    exact map_add_zero _

/-- `B_tree::insert` on a valid tree: the call returns a tree with a root, whose structure
invariant holds at a height of at most one more, and whose in-order key list is `keys_insert`
of the old one. -/
theorem insert_tree (B T h : Nat) (hB : 3 ≤ B) (hfit : B + 1 < 2 ^ B_t_bits B) (hT : 2 ≤ T)
    (t : B_tree S) (v : Int) (sat : S) (fuel : Nat) (hv : t.valid B T h = true) (hf : h + 1 ≤ fuel) :
    ∃ t' p x' h', t.insert B fuel v sat = .ok (t', p) ∧ t'._head = some x' ∧ h' ≤ h + 1 ∧
      x'.shape B 1 1 h' = true ∧
      x'.flat h' = keys_insert v sat (t.flat h) := by
  obtain ⟨f, rfl⟩ : ∃ f, fuel = f + 1 := ⟨fuel - 1, by omega⟩
  cases t with
  | mk head =>
    cases head with
    | none =>
      obtain ⟨x', p, he, r'⟩ := insert_create B (by omega) v sat f
      refine ⟨⟨some x'⟩, p, x', 1, ?_, rfl, by omega, shape_of_rep_leaf r' (le_refl _), ?_⟩
      · simp only [B_tree.insert, B_tree.make_set, create_leaf, he, bind, Except.bind, pure,
          Except.pure]
      · rw [flat_leaf r']
        simp [keys_insert]
    | some x =>
      obtain ⟨hs, hk⟩ := valid_shape_one hT (show x.valid B T h = true from hv)
      cases hfull : x.is_full B with
      | true =>
        obtain ⟨h0, rfl⟩ : ∃ h0, h = h0 + 1 := by
          cases h with
          | zero => rw [shape_zero] at hs; cases hs
          | succ h0 => exact ⟨h0, rfl⟩
        obtain ⟨tmp, x1, h1, h2, h3, h4, h5⟩ := grow_root B h0 hB hfit x hs hfull
        obtain ⟨x', p, he, hs', hfl'⟩ := insert_node B hB hfit sat (h0 + 2) x1 v (f + 1) h3
          (by rw [h5]; exact hk) h4 (by omega)
        refine ⟨⟨some x'⟩, p, x', h0 + 2, ?_, rfl, le_refl _, hs', by rw [hfl', h5]; rfl⟩
        simp only [B_tree.insert, hfull, if_true, create_inner hfit, h1, h2, he, bind,
          Except.bind, pure, Except.pure]
      | false =>
        have hn : x.n < B := by
          cases h with
          | zero => rw [shape_zero] at hs; cases hs
          | succ h0 =>
            obtain ⟨lks, lcs, rc, -, -⟩ := (shape_succ_iff B 1 1 h0 x).mp hs
            have h1 : x.n ≠ B := by simpa [B_tree_node.is_full] using hfull
            have h2 := rc.n_le
            rw [← rc.n_eq] at h2
            omega
        obtain ⟨x', p, he, hs', hfl'⟩ :=
          insert_node B hB hfit sat h x v (f + 1) hs hk hn (by omega)
        refine ⟨⟨some x'⟩, p, x', h, ?_, rfl, by omega, hs', hfl'⟩
        simp only [B_tree.insert, hfull, Bool.false_eq_true, if_false, he, bind, Except.bind,
          pure, Except.pure]

end insert_tree_lemmas

/-! ## Contracts of insert -/

section insert_contracts

variable {S : Type}

/-- Insertion followed by search, for a branching factor B ≥ 3 such that `B + 1` is a value of
`B_t` (so that the constructor of an internal node returns): on a valid tree, possibly empty
(2 ≤ T, fuel above the height), `insert(v, s)` returns, and `search(v)` on the new tree returns a
non-null reference to a live key of the tree (`key_at` follows the pointer) whose value plus the
returned shift is `v` and whose satellite list ends with `s`. -/
theorem insert_then_search_finds_new_satellite (B T h : Nat) (t : B_tree S) (v : Int) (s : S)
    (fuel : Nat) (hB : 3 ≤ B) (hfit : B + 1 < 2 ^ B_t_bits B) (hT : 2 ≤ T)
    (hv : t.valid B T h = true) (hf : h + 1 ≤ fuel) :
    ∃ t' p r q, t.insert B fuel v s = .ok (t', p) ∧ t'.search fuel v = .ok r ∧
      r.key = some q ∧ q.key.value + r.shift = v ∧
      (∃ init, q.key.satellites = some (init ++ [s])) ∧
      ∃ head, t'._head = some head ∧ head.key_at q.path q.idx = some q.key := by
  obtain ⟨t', p, x', h', he, hhead, hh, hs, hfl⟩ := insert_tree B T h hB hfit hT t v s fuel hv hf
  have hokt : keys_ok (t.flat h) = true := by
    cases t with
    | mk head =>
      cases head with
      | none => rfl
      | some x => exact (valid_shape_one hT (show x.valid B T h = true from hv)).2
  have hok' : keys_ok (x'.flat h') = true := by rw [hfl]; exact keys_ok_insert v s _ hokt
  obtain ⟨r, hr, hcase⟩ := search_node B h' x' v fuel hs hok' (by omega)
  have hsr : t'.search fuel v = .ok r := by
    cases t' with
    | mk head' =>
      cases hhead
      exact hr
  rcases hcase with ⟨q, hq, hval, hmem, hat⟩ | ⟨-, hall⟩
  · rw [hfl] at hmem
    obtain ⟨init, hinit⟩ := keys_insert_last v s _ hokt _ hmem hval
    exact ⟨t', p, r, q, he, hsr, hq, hval, ⟨init, hinit⟩, x', hhead, hat⟩
  · obtain ⟨y, hy, hyv⟩ := keys_insert_has v s (t.flat h)
    rw [← hfl] at hy
    exact absurd hyv (hall y hy)

/-- Insertion followed by search on the sample tree, with the new key 108. -/
theorem insert_then_search_finds_new_satellite_witness :
    B_tree.sample.valid 7 3 2 = true ∧
    ∃ t' p r q, B_tree.sample.insert 7 3 108 8 = .ok (t', p) ∧ t'.search 3 108 = .ok r ∧
      r.key = some q ∧ q.key.value + r.shift = 108 ∧
      (∃ init, q.key.satellites = some (init ++ [8])) ∧
      ∃ head, t'._head = some head ∧ head.key_at q.path q.idx = some q.key :=
  ⟨rfl, insert_then_search_finds_new_satellite 7 3 2 B_tree.sample 108 8 3 (by decide)
    (by decide) (by decide) rfl (le_refl _)⟩

/-- The entry list after insertion, for a branching factor B ≥ 3 such that `B + 1` is a value of
`B_t`: on a valid tree (2 ≤ T, fuel above the height) `insert(v, s)` returns and the in-order
entry list of the new tree is `entries_insert v s` of the old one: `s` appended to the list of
`v` if `v` was present, otherwise `(v, [s])` placed in key order, every other entry unchanged.
With the defaults B = 7, T = 3 the scenario insert(5,"a"), insert(2,"b"), insert(8,"c"),
insert(5,"d") from the empty tree iterates as [(2,["b"]), (5,["a","d"]), (8,["c"])]. -/
theorem insert_updates_the_entry_list (B T h : Nat) (t : B_tree S) (v : Int) (s : S)
    (fuel : Nat) (hB : 3 ≤ B) (hfit : B + 1 < 2 ^ B_t_bits B) (hT : 2 ≤ T)
    (hv : t.valid B T h = true) (hf : h + 1 ≤ fuel) :
    (∃ t' p, t.insert B fuel v s = .ok (t', p) ∧
      t'.entries (h + 1) = entries_insert v s (t.entries h)) ∧
    (do
      let t ← B_tree.insert_all 7 2 B_tree.create [(5, "a"), (2, "b"), (8, "c"), (5, "d")]
      t.iterate 2 4) = .ok [(2, ["b"]), (5, ["a", "d"]), (8, ["c"])] := by
  refine ⟨?_, rfl⟩
  obtain ⟨t', p, x', h', he, hhead, hh, hs, hfl⟩ := insert_tree B T h hB hfit hT t v s fuel hv hf
  refine ⟨t', p, he, ?_⟩
  have hokt : ∀ k ∈ t.flat h, k.satellites.isSome = true := by
    cases t with
    | mk head =>
      cases head with
      | none => intro k hk; cases hk
      | some x =>
        exact ((keys_ok_iff _).mp (valid_shape_one hT (show x.valid B T h = true from hv)).2).2
  have he' : t'.entries (h + 1) = (x'.flat h').map key_t.entry := by
    cases t' with
    | mk head' =>
      cases hhead
      show (x'.flat (h + 1)).map key_t.entry = _
      rw [flat_fuel B h' 1 1 x' (h + 1) hs hh]
  rw [he', hfl, keys_insert_entries v s _ hokt]
  cases t with
  | mk head =>
    cases head with
    | none => rfl
    | some x => rfl

/-- The entry list after insertion into the sample tree of the key 105 that it holds. -/
theorem insert_updates_the_entry_list_witness :
    B_tree.sample.valid 7 3 2 = true ∧
    ((∃ t' p, B_tree.sample.insert 7 3 105 9 = .ok (t', p) ∧
      t'.entries (2 + 1) = entries_insert 105 9 (B_tree.sample.entries 2)) ∧
    (do
      let t ← B_tree.insert_all 7 2 B_tree.create [(5, "a"), (2, "b"), (8, "c"), (5, "d")]
      t.iterate 2 4) = .ok [(2, ["b"]), (5, ["a", "d"]), (8, ["c"])]) :=
  ⟨rfl, insert_updates_the_entry_list 7 3 2 B_tree.sample 105 9 3 (by decide) (by decide)
    (by decide) rfl (le_refl _)⟩

end insert_contracts

/-! ## The descent of successor -/

section successor_lemmas

variable {S : Type}

theorem effective_at_child {x : B_tree_node S} {ch : List (Option (B_tree_node S))} {l : Nat}
    {c : B_tree_node S} (hch : x.children = some ch) (hl : ch[l]? = some (some c))
    (path : List Nat) (idx : Nat) :
    x.effective_at (l :: path) idx = (c.effective_at path idx).map (key_t.add x._shift) := by
  simp [B_tree_node.effective_at, hch, hl]

/-- The index chosen by `successor` in a node: the first key above the value. -/
theorem successor_index (ks : List (key_t S)) (value : Int) (l : Nat) (kl : key_t S)
    (hkl : ks[l]? = some kl)
    (hlt : ∀ i k, i < l → ks[i]? = some k → k.value < value)
    (hle : l = 0 ∨ kl.value ≤ value)
    (hgt : ∀ i k, l < i → ks[i]? = some k → value < k.value)
    (r : Nat) (hr : r = if kl.value > value then l + 1 - 1 else l + 1) :
    r ≤ ks.length ∧ (∀ i k, i < r → ks[i]? = some k → k.value ≤ value) ∧
      (∀ i k, r ≤ i → ks[i]? = some k → value < k.value) := by
  have hl : l < ks.length := lt_of_getElem?_some hkl
  by_cases h : kl.value > value
  · rw [if_pos h, Nat.add_sub_cancel] at hr
    have h0 : l = 0 := by
      rcases hle with h0 | h1
      · exact h0
      · omega
    subst hr
    subst h0
    refine ⟨Nat.zero_le _, fun i k hi _ => absurd hi (Nat.not_lt_zero i), ?_⟩
    intro i k _ hk
    rcases Nat.eq_zero_or_pos i with hi | hi
    · subst hi; rw [hkl] at hk; cases hk; exact h
    · exact hgt i k hi hk
  · rw [if_neg h] at hr
    subst hr
    refine ⟨hl, ?_, fun i k hi hk => hgt i k hi hk⟩
    intro i k hi hk
    rcases Nat.lt_or_ge i l with hil | hil
    · exact le_of_lt (hlt i k hil hk)
    · have : i = l := by omega
      subst this
      rw [hkl] at hk; cases hk
      omega

theorem sorted_get_le {ks : List (key_t S)} (hks : keys_ok ks = true) {i j : Nat}
    {a b : key_t S} (hij : i ≤ j) (ha : ks[i]? = some a) (hb : ks[j]? = some b) :
    a.value ≤ b.value := by
  rcases Nat.lt_or_ge i j with h | h
  · have hs := ((keys_ok_iff _).mp hks).1
    have hi : i < ks.length := lt_of_getElem?_some ha
    have hj : j < ks.length := lt_of_getElem?_some hb
    have := List.pairwise_iff_getElem.mp hs i j (by simpa using hi) (by simpa using hj) h
    rw [List.getElem?_eq_getElem hi] at ha
    rw [List.getElem?_eq_getElem hj] at hb
    cases ha; cases hb
    simp only [List.getElem_map] at this
    exact le_of_lt this
  · have : i = j := by omega
    subst this
    rw [ha] at hb; cases hb
    exact le_refl _

/-- The first key above the value in a sorted key list, by index. -/
theorem first_above (ks : List (key_t S)) (hks : keys_ok ks = true) (value : Int) (r : Nat)
    (hA : ∀ i k, i < r → ks[i]? = some k → k.value ≤ value) :
    (∀ k, ks[r]? = some k → ∀ e ∈ ks, value < e.value → k.value ≤ e.value) ∧
      (ks.length ≤ r → ∀ e ∈ ks, e.value ≤ value) := by
  constructor
  · intro k hk e he hv
    obtain ⟨i, hi⟩ := List.mem_iff_getElem?.mp he
    rcases Nat.lt_or_ge i r with h | h
    · have := hA i e h hi; omega
    · exact sorted_get_le hks h hk hi
  · intro hr e he
    obtain ⟨i, hi⟩ := List.mem_iff_getElem?.mp he
    exact hA i e (lt_of_lt_of_le (lt_of_getElem?_some hi) hr) hi

theorem succ_sem_found (pre mid post : List (key_t S)) (value v s : Int) (k : key_t S)
    (hvs : value = v - s) (hpre : ∀ e ∈ pre, e.value ≤ value) (hk : k ∈ mid)
    (hv : value < k.value) (hmin : ∀ e ∈ mid, value < e.value → k.value ≤ e.value)
    (hpost : ∀ e ∈ mid, ∀ e' ∈ post, e.value < e'.value) :
    k.add s ∈ (pre ++ (mid ++ post)).map (key_t.add s) ∧ v < (k.add s).value ∧
      ∀ e ∈ (pre ++ (mid ++ post)).map (key_t.add s), v < e.value →
        (k.add s).value ≤ e.value := by
  refine ⟨List.mem_map_of_mem _ (List.mem_append_right _ (List.mem_append_left _ hk)),
    by simp only [key_t.add_value]; omega, ?_⟩
  intro e he hve
  obtain ⟨e0, he0, rfl⟩ := List.mem_map.mp he
  simp only [key_t.add_value] at hve ⊢
  rcases List.mem_append.mp he0 with h1 | h1
  · have := hpre e0 h1; omega
  · rcases List.mem_append.mp h1 with h2 | h2
    · have := hmin e0 h2 (by omega); omega
    · have := hpost k hk e0 h2; omega

theorem succ_sem_fallback (pre mid post : List (key_t S)) (value v s : Int) (k : key_t S)
    (hvs : value = v - s) (hpre : ∀ e ∈ pre, e.value ≤ value)
    (hmid : ∀ e ∈ mid, e.value ≤ value) (hk : k ∈ post)
    (hv : value < k.value) (hpost : ∀ e ∈ post, k.value ≤ e.value) :
    k.add s ∈ (pre ++ (mid ++ post)).map (key_t.add s) ∧ v < (k.add s).value ∧
      ∀ e ∈ (pre ++ (mid ++ post)).map (key_t.add s), v < e.value →
        (k.add s).value ≤ e.value := by
  refine ⟨List.mem_map_of_mem _ (List.mem_append_right _ (List.mem_append_right _ hk)),
    by simp only [key_t.add_value]; omega, ?_⟩
  intro e he hve
  obtain ⟨e0, he0, rfl⟩ := List.mem_map.mp he
  simp only [key_t.add_value] at hve ⊢
  rcases List.mem_append.mp he0 with h1 | h1
  · have := hpre e0 h1; omega
  · rcases List.mem_append.mp h1 with h2 | h2
    · have := hmid e0 h2; omega
    · have := hpost e0 h2; omega

theorem succ_sem_none (pre mid : List (key_t S)) (value v s : Int)
    (hvs : value = v - s) (hpre : ∀ e ∈ pre, e.value ≤ value)
    (hmid : ∀ e ∈ mid, e.value ≤ value) :
    ∀ e ∈ (pre ++ (mid ++ [])).map (key_t.add s), e.value ≤ v := by
  intro e he
  obtain ⟨e0, he0, rfl⟩ := List.mem_map.mp he
  simp only [key_t.add_value]
  rw [List.append_nil] at he0
  rcases List.mem_append.mp he0 with h1 | h1
  · have := hpre e0 h1; omega
  · have := hmid e0 h1; omega

/-- The in-order list of an internal node around child `r`, as `successor` needs it: the part
before the child lies at or below the value, the part behind it starts with key `r`. -/
theorem succ_bounds {B : Nat} {x c : B_tree_node S} {ks cl s}
    (rp : B_tree_node.Rep B x ks (some cl) s) (f : Nat)
    (hok : keys_ok (x.flat (f + 1)) = true) {r : Nat} (hc : cl[r]? = some c) (value : Int)
    (hA : ∀ i k, i < r → ks[i]? = some k → k.value ≤ value) :
    keys_ok (c.flat f) = true ∧
    (∀ e ∈ inorder (B_tree_node.flat f) ((cl.take r).map some ++ [none]) (ks.take r),
      e.value ≤ value) ∧
    (∀ e ∈ c.flat f, ∀ e' ∈ inorder (B_tree_node.flat f) (none :: (cl.drop (r + 1)).map some)
      (ks.drop r), e.value < e'.value) ∧
    (∀ k, ks[r]? = some k →
      k ∈ inorder (B_tree_node.flat f) (none :: (cl.drop (r + 1)).map some) (ks.drop r) ∧
      ∀ e ∈ inorder (B_tree_node.flat f) (none :: (cl.drop (r + 1)).map some) (ks.drop r),
        k.value ≤ e.value) ∧
    (r = ks.length →
      inorder (B_tree_node.flat f) (none :: (cl.drop (r + 1)).map some) (ks.drop r) = []) := by
  have hlen := rp.children_some.choose_spec.2.2.2
  have hr : r < cl.length := lt_of_getElem?_some hc
  rw [flat_inner rp, keys_ok_map_add] at hok
  obtain ⟨b1, -, -, b4, b5, b6, b7, -, b9, -⟩ :=
    flat_split_bounds (B_tree_node.flat f) cl ks r c hlen hc hok
  refine ⟨b1, ?_, b9, ?_, b7⟩
  · intro e he
    rcases Nat.eq_zero_or_pos r with h0 | hpos
    · rw [b5 h0] at he; cases he
    · obtain ⟨k0, hk0⟩ := getElem?_some_of_lt (a := ks) (i := r - 1) (by omega)
      have := b4 e he k0 hpos hk0
      have := hA (r - 1) k0 (by omega) hk0
      omega
  · intro k hk
    refine ⟨?_, fun e he => b6 e he k hk⟩
    have hsub := sublist_inorder (B_tree_node.flat f)
      (none :: (cl.drop (r + 1)).map some) (ks.drop r)
      (by simp only [List.length_cons, List.length_map, List.length_drop]; omega)
    apply hsub.subset
    have : (ks.drop r)[0]? = some k := by rw [List.getElem?_drop]; exact hk
    exact List.getElem?_mem this

/-- Correctness of `B_tree_node::successor` on a subtree of height `h`: the designated key is
the first key of the in-order list above `v`, or the reference is null and no key is above `v`.
-/
theorem successor_node (B : Nat) : ∀ (h : Nat) (x : B_tree_node S) (v : Int) (fuel : Nat),
    x.shape B 1 1 h = true → keys_ok (x.flat h) = true → h ≤ fuel →
    ∃ r, x.successor fuel v = .ok r ∧
      ((∃ p k, r.key = some p ∧ x.key_at p.path p.idx = some p.key ∧
          x.effective_at p.path p.idx = some k ∧ k ∈ x.flat h ∧ v < k.value ∧
          ∀ e ∈ x.flat h, v < e.value → k.value ≤ e.value) ∨
       (r.key = none ∧ ∀ e ∈ x.flat h, e.value ≤ v)) := by
  intro h
  induction h with
  | zero => intro x v fuel hs; simp [shape_zero] at hs
  | succ h ih =>
    intro x v fuel hs hok hf
    obtain ⟨fuel, rfl⟩ : ∃ f', fuel = f' + 1 := ⟨fuel - 1, by omega⟩
    obtain ⟨ks, cs, r, hlo, hc⟩ := (shape_succ_iff B 1 1 h x).mp hs
    have hnB : x.n ≤ x.keys.length := by rw [r.keys_len, r.n_eq]; exact r.n_le
    have hks : keys_ok ks = true := by
      cases cs with
      | none => rw [flat_leaf r, keys_ok_map_add] at hok; exact hok
      | some cl => exact keys_ok_of_flat r h hok
    obtain ⟨l, kl, hb, hln, hkl, hkl', hlt, hle, hgt⟩ :=
      bsearch_sorted x.keys ks (v - x._shift) x.n hnB r.keys_eq (by rw [r.n_eq]; omega)
        ((keys_ok_iff _).mp hks).1
    obtain ⟨hrn, hA, hB⟩ := successor_index ks (v - x._shift) l kl hkl hlt hle hgt _ rfl
    simp only [B_tree_node.successor, hb, rd_ok hkl', bind, Except.bind, Nat.succ_ne_zero,
      and_false, if_false]
    generalize (if kl.value > v - x._shift then l + 1 - 1 else l + 1) = r' at hrn hA hB ⊢
    have hfa := first_above ks hks (v - x._shift) r' hA
    cases cs with
    | none =>
      have hleaf := r.is_leaf_none
      have hch := r.children_none
      rw [flat_leaf r]
      by_cases hrl : r' < x.n
      · have hrl' : r' < ks.length := by rw [← r.n_eq]; exact hrl
        obtain ⟨k, hk⟩ := getElem?_some_of_lt hrl'
        have hkx : x.keys[r']? = some k := by rw [r.key_get hrl']; exact hk
        have hkv : k.value > v - x._shift := hB r' k (le_refl _) hk
        have hsat : k.satellites.isSome = true :=
          ((keys_ok_iff _).mp hks).2 k (List.getElem?_mem hk)
        refine ⟨⟨x._shift, some ⟨[], r', k⟩⟩, ?_,
          Or.inl ⟨⟨[], r', k⟩, k.add x._shift, rfl, ?_, ?_, ?_, ?_, ?_⟩⟩
        · simp only [hleaf, hrl, and_self, if_true, rd_ok hkx, pure, Except.pure, hkv, hsat]
        · simp [B_tree_node.key_at, hrl, hkx]
        · simp [B_tree_node.effective_at, hrl, hkx]
        · exact List.mem_map_of_mem _ (List.getElem?_mem hk)
        · simp only [key_t.add_value]; omega
        · intro e he hve
          obtain ⟨e0, he0, rfl⟩ := List.mem_map.mp he
          simp only [key_t.add_value] at hve ⊢
          have := hfa.1 k hk e0 he0 (by omega)
          omega
      · refine ⟨⟨x._shift, none⟩, ?_, Or.inr ⟨rfl, ?_⟩⟩
        · simp only [hleaf, hrl, and_false, if_false, pure, Except.pure, hch]
        · intro e he
          obtain ⟨e0, he0, rfl⟩ := List.mem_map.mp he
          simp only [key_t.add_value]
          have := hfa.2 (by rw [← r.n_eq]; omega) e0 he0
          omega
    | some cl =>
      have hleaf := r.is_leaf_some
      obtain ⟨ch, hch, -, -, hcll⟩ := r.children_some
      obtain ⟨c, hcl⟩ := getElem?_some_of_lt (a := cl) (i := r') (by omega)
      have hchc := r.child_get hch hcl
      obtain ⟨b1, bpre, bmid, bpost, bnil⟩ := succ_bounds r h hok hcl (v - x._shift) hA
      obtain ⟨a, ha, hres⟩ := ih c (v - x._shift) fuel (hc.2 c (List.getElem?_mem hcl)) b1
        (by omega)
      simp only [hleaf, Bool.false_eq_true, false_and, if_false, pure, Except.pure, hch,
        rd_ok hchc, ha]
      rw [flat_split r h hcl]
      rcases hres with ⟨p, k, hp1, hp2, hp3, hp4, hp5, hp6⟩ | ⟨hn1, hn2⟩
      · have hsem := succ_sem_found _ _ _ (v - x._shift) v x._shift k rfl bpre hp4 hp5 hp6 bmid
        refine ⟨a.lift r' x._shift, ?_, Or.inl ⟨{ p with path := r' :: p.path },
          k.add x._shift, by simp [shifted_key_ptr_t.lift, hp1], ?_, ?_, hsem.1, hsem.2.1,
          hsem.2.2⟩⟩
        · simp [shifted_key_ptr_t.lift, hp1]
        · simp only [key_at_child hch hchc]; exact hp2
        · simp only [effective_at_child hch hchc, hp3, Option.map_some']
      · by_cases hrl : r' < x.n
        · have hrl' : r' < ks.length := by rw [← r.n_eq]; exact hrl
          obtain ⟨k, hk⟩ := getElem?_some_of_lt hrl'
          have hkx : x.keys[r']? = some k := by rw [r.key_get hrl']; exact hk
          have hkv : k.value > v - x._shift := hB r' k (le_refl _) hk
          have hsem := succ_sem_fallback _ _ _ (v - x._shift) v x._shift k rfl bpre hn2
            (bpost k hk).1 hkv (bpost k hk).2
          refine ⟨{ a.lift r' x._shift with key := some ⟨[], r', k⟩ }, ?_,
            Or.inl ⟨⟨[], r', k⟩, k.add x._shift, rfl, ?_, ?_, hsem.1, hsem.2.1, hsem.2.2⟩⟩
          · simp [shifted_key_ptr_t.lift, hn1, hrl, rd_ok hkx, hkv]
          · simp [B_tree_node.key_at, hrl, hkx]
          · simp [B_tree_node.effective_at, hrl, hkx]
        · refine ⟨a.lift r' x._shift, ?_, Or.inr ⟨by simp [shifted_key_ptr_t.lift, hn1], ?_⟩⟩
          · simp [shifted_key_ptr_t.lift, hn1, hrl]
          · rw [bnil (by have := r.n_eq; omega)]
            exact succ_sem_none _ _ (v - x._shift) v x._shift rfl bpre hn2

end successor_lemmas

/-! ## Contract of successor -/

section successor_contract

variable {S : Type}

/-- C15: on a valid tree (2 ≤ T, enough fuel for the height) `successor(v)` returns; either the
reference designates a live key of the tree (`key_at` follows the pointer) whose effective key
(`effective_at`: stored value plus the shifts of the nodes on the path) is above `v` and at most
every other key above `v`, with its satellite list an entry of the tree; or the reference is
null and no entry is above `v` (in particular on the empty tree). -/
theorem successor_designates_least_greater_entry (B T h : Nat) (t : B_tree S) (v : Int)
    (fuel : Nat) (hT : 2 ≤ T) (hv : t.valid B T h = true) (hf : h ≤ fuel) :
    ∃ r, t.successor fuel v = .ok r ∧
      ((∃ p k head, t._head = some head ∧ r.key = some p ∧
          head.key_at p.path p.idx = some p.key ∧ head.effective_at p.path p.idx = some k ∧
          k.entry ∈ t.entries h ∧ v < k.value ∧ ∀ e ∈ t.entries h, v < e.1 → k.value ≤ e.1) ∨
       (r.key = none ∧ ∀ e ∈ t.entries h, e.1 ≤ v)) := by
  cases t with
  | mk head =>
    cases head with
    | none =>
      refine ⟨⟨0, none⟩, rfl, Or.inr ⟨rfl, ?_⟩⟩
      intro e he
      cases he
    | some x =>
      obtain ⟨hs, hk⟩ := valid_shape_one hT (show x.valid B T h = true from hv)
      obtain ⟨r, hr, hcase⟩ := successor_node B h x v fuel hs hk hf
      refine ⟨r, hr, ?_⟩
      rcases hcase with ⟨p, k, h1, h2, h3, h4, h5, h6⟩ | ⟨h1, h2⟩
      · refine Or.inl ⟨p, k, x, rfl, h1, h2, h3, List.mem_map_of_mem _ h4, h5, ?_⟩
        intro e he hve
        obtain ⟨e0, he0, rfl⟩ := List.mem_map.mp he
        exact h6 e0 he0 hve
      · refine Or.inr ⟨h1, ?_⟩
        intro e he
        obtain ⟨e0, he0, rfl⟩ := List.mem_map.mp he
        exact h2 e0 he0

/-- The C15 theorem applied to the sample tree and the value 103, whose successor is the root
key 104. -/
theorem successor_designates_least_greater_entry_witness :
    B_tree.sample.valid 7 3 2 = true ∧
    ∃ r, B_tree.sample.successor 2 103 = .ok r ∧
      ((∃ p k head, B_tree.sample._head = some head ∧ r.key = some p ∧
          head.key_at p.path p.idx = some p.key ∧ head.effective_at p.path p.idx = some k ∧
          k.entry ∈ B_tree.sample.entries 2 ∧ 103 < k.value ∧
          ∀ e ∈ B_tree.sample.entries 2, 103 < e.1 → k.value ≤ e.1) ∨
       (r.key = none ∧ ∀ e ∈ B_tree.sample.entries 2, e.1 ≤ 103)) :=
  ⟨rfl, successor_designates_least_greater_entry 7 3 2 B_tree.sample 103 2 (by decide) rfl
    (le_refl _)⟩

end successor_contract

/-! ## The iterator and the in-order list -/

section iterator_lemmas

variable {S : Type}

theorem flat_from_leaf {B : Nat} {x : B_tree_node S} {ks s} (r : B_tree_node.Rep B x ks none s)
    (f j : Nat) : x.flat_from (f + 1) j = (ks.drop j).map (key_t.add s) := by
  simp only [B_tree_node.flat_from, r.children_none, r.keys_eq, r.shift_eq]

theorem flat_from_inner {B : Nat} {x : B_tree_node S} {ks cl s}
    (r : B_tree_node.Rep B x ks (some cl) s) (f j : Nat) :
    x.flat_from (f + 1) j =
      (inorder (B_tree_node.flat f) (none :: (cl.drop (j + 1)).map some) (ks.drop j)).map
        (key_t.add s) := by
  obtain ⟨ch, h1, h2, h3, h4⟩ := r.ch
  simp only [B_tree_node.flat_from, h1, h3, r.keys_eq, r.shift_eq, List.map_drop]

theorem flat_from_fuel (B : Nat) (h lo lo' : Nat) (x : B_tree_node S) (f j : Nat)
    (hs : x.shape B lo lo' h = true) (hf : h ≤ f) : x.flat_from f j = x.flat_from h j := by
  cases h with
  | zero => rw [shape_zero] at hs; cases hs
  | succ h =>
    obtain ⟨f, rfl⟩ : ∃ f', f = f' + 1 := ⟨f - 1, by omega⟩
    obtain ⟨ks, cs, r, -, hc⟩ := (shape_succ_iff B lo lo' h x).mp hs
    cases cs with
    | none => rw [flat_from_leaf r, flat_from_leaf r]
    | some cl =>
      rw [flat_from_inner r, flat_from_inner r]
      congr 1
      apply inorder_congr
      intro c hcm
      have hcm' : c ∈ cl := by
        rcases List.mem_cons.mp hcm with h0 | h0
        · cases h0
        · obtain ⟨c', hc', hcc⟩ := List.mem_map.mp h0
          cases hcc
          exact List.mem_of_mem_drop hc'
      exact flat_fuel B h lo' lo' c f (hc.2 c hcm') (by omega)

/-- The in-order list of a leaf is what the frame at index 0 stands for. -/
theorem flat_from_zero_leaf {B : Nat} {x : B_tree_node S} {ks s}
    (r : B_tree_node.Rep B x ks none s) (f : Nat) : x.flat_from (f + 1) 0 = x.flat (f + 1) := by
  rw [flat_from_leaf r, flat_leaf r, List.drop_zero]

/-- The in-order list of an internal node is that of its first child followed by what the frame
at index 0 stands for. -/
theorem flat_from_zero_inner {B : Nat} {x c : B_tree_node S} {ks cl s}
    (r : B_tree_node.Rep B x ks (some cl) s) (f : Nat) (hc : cl[0]? = some c) :
    x.flat (f + 1) = (c.flat f).map (key_t.add s) ++ x.flat_from (f + 1) 0 := by
  rw [flat_from_inner r, flat_split r f hc]
  simp [inorder]

/-- A frame at a live key of a leaf: the key, then the frame at the next index. -/
theorem flat_from_step_leaf {B : Nat} {x : B_tree_node S} {ks s}
    (r : B_tree_node.Rep B x ks none s) (f : Nat) {j : Nat} {k : key_t S}
    (hk : ks[j]? = some k) :
    x.flat_from (f + 1) j = k.add s :: x.flat_from (f + 1) (j + 1) := by
  have hj : j < ks.length := lt_of_getElem?_some hk
  rw [flat_from_leaf r, flat_from_leaf r, ← List.map_cons]
  congr 1
  rw [List.getElem?_eq_getElem hj] at hk
  cases hk
  exact (List.getElem_cons_drop ks j hj).symm

/-- A frame at a live key of an internal node: the key, the child behind it, then the frame at
the next index. -/
theorem flat_from_step_inner {B : Nat} {x c : B_tree_node S} {ks cl s}
    (r : B_tree_node.Rep B x ks (some cl) s) (f : Nat) {j : Nat} {k : key_t S}
    (hk : ks[j]? = some k) (hc : cl[j + 1]? = some c) :
    x.flat_from (f + 1) j =
      k.add s :: ((c.flat f).map (key_t.add s) ++ x.flat_from (f + 1) (j + 1)) := by
  have hj : j < ks.length := lt_of_getElem?_some hk
  have hcj : j + 1 < cl.length := lt_of_getElem?_some hc
  rw [flat_from_inner r, flat_from_inner r, ← List.map_append, ← List.map_cons]
  congr 1
  have e1 : ks.drop j = k :: ks.drop (j + 1) := by
    rw [List.getElem?_eq_getElem hj] at hk
    cases hk
    exact (List.getElem_cons_drop ks j hj).symm
  have e2 : cl.drop (j + 1) = c :: cl.drop (j + 1 + 1) := by
    rw [List.getElem?_eq_getElem hcj] at hc
    cases hc
    exact (List.getElem_cons_drop cl (j + 1) hcj).symm
  rw [e1, e2, List.map_cons]
  simp only [inorder, Option.map_none', Option.getD_none, List.nil_append]
  rw [inorder_cons_none]
  rfl

/-- A frame past the last key stands for nothing. -/
theorem flat_from_end {B : Nat} {x : B_tree_node S} {ks cs s}
    (r : B_tree_node.Rep B x ks cs s) (f : Nat) {j : Nat} (hj : ks.length ≤ j) :
    x.flat_from (f + 1) j = [] := by
  cases cs with
  | none => rw [flat_from_leaf r, List.drop_of_length_le hj]; rfl
  | some cl =>
    have hlen := r.children_some.choose_spec.2.2.2
    rw [flat_from_inner r, List.drop_of_length_le hj, List.drop_of_length_le (by omega)]
    rfl

theorem get_child_inner {B : Nat} {x : B_tree_node S} {ks cl s}
    (r : B_tree_node.Rep B x ks (some cl) s) {i : Nat} {c : B_tree_node S}
    (hc : cl[i]? = some c) : x.get_child i = .ok (some c) := by
  obtain ⟨ch, hch, -, -, hlen⟩ := r.children_some
  have hi : i < x.n + 1 := by
    have := lt_of_getElem?_some hc
    rw [r.n_eq]; omega
  simp only [B_tree_node.get_child, hi, r.is_leaf_some, Bool.not_false, and_self, if_true,
    child_at_ok hch (r.child_get hch hc)]

theorem map_add_add (a b : Int) (l : List (key_t S)) :
    (l.map (key_t.add a)).map (key_t.add b) = l.map (key_t.add (a + b)) := by
  rw [List.map_map]
  congr 1
  funext k
  exact key_t.add_add a b k

/-- The walk to the leftmost leaf: it returns, leaves a well-formed stack, and the keys of the
subtree are put in front of what the stack stood for. -/
theorem leftmost_spec (B F : Nat) : ∀ (h : Nat) (x : B_tree_node S)
    (st : List (Option (B_tree_node S) × Nat × Int)) (sh : Int) (fuel : Nat),
    x.shape B 1 1 h = true → keys_ok (x.flat h) = true → h ≤ fuel → h ≤ F →
    iterator.frames_ok B F st →
    ∃ st' leaf sh', iterator.leftmost fuel st x sh = .ok (st', leaf, sh') ∧
      leaf.is_leaf = true ∧
      iterator.frames_ok B F ((some leaf, 0, sh') :: st') ∧
      iterator.pending F ((some leaf, 0, sh') :: st') =
        (x.flat h).map (key_t.add sh) ++ iterator.pending F st := by
  intro h
  induction h with
  | zero => intro x st sh fuel hs; rw [shape_zero] at hs; cases hs
  | succ h ih =>
    intro x st sh fuel hs hok hf hF hst
    obtain ⟨f, rfl⟩ : ∃ f', fuel = f' + 1 := ⟨fuel - 1, by omega⟩
    obtain ⟨ks, cs, r, hpos, hc⟩ := (shape_succ_iff B 1 1 h x).mp hs
    have hn : 0 < x.n := by rw [r.n_eq]; exact hpos
    cases cs with
    | none =>
      refine ⟨st, x, sh, ?_, r.is_leaf_none, ⟨hn, ⟨h + 1, hF, hs, hok⟩, hst⟩, ?_⟩
      · simp only [iterator.leftmost, r.is_leaf_none, if_true]
        rfl
      · have h0 : h = 0 := hc
        subst h0
        simp only [iterator.pending]
        rw [flat_from_fuel B 1 1 1 x F 0 hs hF, flat_from_zero_leaf r]
    | some cl =>
      have hlen := r.children_some.choose_spec.2.2.2
      obtain ⟨c, hcl⟩ := getElem?_some_of_lt (a := cl) (i := 0) (by omega)
      obtain ⟨h', rfl⟩ : ∃ h', h = h' + 1 := ⟨h - 1, by have := hc.1; omega⟩
      obtain ⟨st', leaf, sh', e, hl, hfr, hp⟩ := ih c ((some x, 0, sh) :: st)
        (sh + x._shift) f (hc.2 c (List.getElem?_mem hcl)) (child_keys_ok r (h' + 1) hok hcl)
        (by omega) (by omega) ⟨hn, ⟨h' + 2, hF, hs, hok⟩, hst⟩
      refine ⟨st', leaf, sh', ?_, hl, hfr, ?_⟩
      · simp only [iterator.leftmost, r.is_leaf_some, Bool.false_eq_true, if_false,
          get_child_inner r hcl, bind, Except.bind, B_tree_node.get_shift, e]
      · rw [hp]
        simp only [iterator.pending]
        rw [flat_from_fuel B (h' + 2) 1 1 x F 0 hs hF, flat_from_zero_inner r (h' + 1) hcl,
          List.map_append, map_add_add, ← r.shift_eq, add_comm sh x._shift, List.append_assoc]


theorem entry_add_add (k : key_t S) (a b : Int) {sats : List S} (hs : k.satellites = some sats) :
    ((k.add a).add b).entry = (k.value + a + b, sats) := by
  simp [key_t.entry, key_t.add, hs]

/-- `operator*` at a live key of a node: the entry of the key seen through the shift of the
node and the shift accumulated above it. -/
theorem star_spec {B : Nat} {x : B_tree_node S} {ks cs} (h : Nat)
    (r : B_tree_node.Rep B x ks cs x._shift) (hok : keys_ok (x.flat (h + 1)) = true)
    {j : Nat} {k : key_t S} (hk : ks[j]? = some k) (sh : Int)
    (st : List (Option (B_tree_node S) × Nat × Int)) :
    iterator.star ⟨st, some x, j, sh⟩ = .ok ((k.add x._shift).add sh).entry := by
  have hj : j < ks.length := lt_of_getElem?_some hk
  have hjn : j < x.n := by rw [r.n_eq]; exact hj
  have hkx : x.keys[j]? = some k := by rw [r.key_get hj]; exact hk
  have hmem := mem_flat_of_key r h hk
  have hsat : (k.add x._shift).satellites.isSome = true := ((keys_ok_iff _).mp hok).2 _ hmem
  obtain ⟨sats, hsats⟩ := Option.isSome_iff_exists.mp hsat
  have hsats' : k.satellites = some sats := hsats
  rw [entry_add_add k _ _ hsats']
  simp only [iterator.star, deref, B_tree_node.get_key, hjn, if_true, rd_ok hkx, bind,
    Except.bind, pure, Except.pure, hsats']

/-- `internal_inc` in a leaf that has a further key. -/
theorem inc_leaf_more {B : Nat} (F fuel : Nat) {x : B_tree_node S} {ks}
    (r : B_tree_node.Rep B x ks none x._shift) (hs : x.shape B 1 1 1 = true) (hF : 1 ≤ F)
    {j : Nat} {k : key_t S} (hk : ks[j]? = some k) (hl : j + 1 < x.n) (sh : Int)
    (rest : List (Option (B_tree_node S) × Nat × Int)) :
    iterator.internal_inc fuel ⟨(some x, j, sh) :: rest, some x, j, sh⟩ =
        .ok ⟨(some x, j + 1, sh) :: rest, some x, j + 1, sh⟩ ∧
      iterator.pending F ((some x, j, sh) :: rest) =
        (k.add x._shift).add sh :: iterator.pending F ((some x, j + 1, sh) :: rest) := by
  constructor
  · simp only [iterator.internal_inc, B_tree_node.get_n_keys, hl, decide_True, Bool.not_true,
      Bool.false_eq_true, if_false, r.is_leaf_none, if_true, bind, Except.bind, pure,
      Except.pure]
  · simp only [iterator.pending]
    rw [flat_from_fuel B 1 1 1 x F j hs hF, flat_from_fuel B 1 1 1 x F (j + 1) hs hF,
      flat_from_step_leaf r 0 hk]
    rfl

/-- `internal_inc` at the last key of a leaf: the frame below becomes the position. -/
theorem inc_leaf_last {B : Nat} (F fuel : Nat) {x : B_tree_node S} {ks}
    (r : B_tree_node.Rep B x ks none x._shift) (hs : x.shape B 1 1 1 = true) (hF : 1 ≤ F)
    {j : Nat} {k : key_t S} (hk : ks[j]? = some k) (hl : ¬ j + 1 < x.n) (sh : Int)
    (rest : List (Option (B_tree_node S) × Nat × Int))
    (hrest : iterator.frames_ok B F rest) :
    ∃ c i s' rest', rest = (c, i, s') :: rest' ∧
      iterator.internal_inc (fuel + 2) ⟨(some x, j, sh) :: rest, some x, j, sh⟩ =
        .ok ⟨rest, c, i, s'⟩ ∧
      iterator.pending F ((some x, j, sh) :: rest) =
        (k.add x._shift).add sh :: iterator.pending F rest := by
  cases rest with
  | nil => exact absurd hrest (by simp [iterator.frames_ok])
  | cons fr rest' =>
    obtain ⟨c, i, s'⟩ := fr
    refine ⟨c, i, s', rest', rfl, ?_, ?_⟩
    · have hge : j + 1 ≥ x.n := Nat.le_of_not_lt hl
      cases c with
      | none =>
        simp only [iterator.internal_inc, B_tree_node.get_n_keys, hl, decide_False,
          Bool.not_false, if_true, r.is_leaf_none, bind, Except.bind, pure, Except.pure,
          iterator.unwind, hge]
      | some y =>
        have hi : ¬ i ≥ y.n := Nat.not_le_of_lt hrest.1
        simp only [iterator.internal_inc, B_tree_node.get_n_keys, hl, decide_False,
          Bool.not_false, if_true, r.is_leaf_none, bind, Except.bind, pure, Except.pure,
          iterator.unwind, hge, hi, if_false]
    · simp only [iterator.pending]
      rw [flat_from_fuel B 1 1 1 x F j hs hF, flat_from_step_leaf r 0 hk,
        flat_from_end r 0 (by rw [← r.n_eq]; omega)]
      rfl

/-- `internal_inc` on a key of an internal node: the walk goes to the leftmost leaf of the child
behind the key. -/
theorem inc_inner {B : Nat} (F fuel : Nat) {x c : B_tree_node S} {ks cl}
    (r : B_tree_node.Rep B x ks (some cl) x._shift) (h : Nat)
    (hs : x.shape B 1 1 (h + 2) = true) (hok : keys_ok (x.flat (h + 2)) = true)
    (hF : h + 2 ≤ F) (hfuel : h + 1 ≤ fuel)
    {j : Nat} {k : key_t S} (hk : ks[j]? = some k) (hc : cl[j + 1]? = some c)
    (hcs : c.shape B 1 1 (h + 1) = true) (sh : Int)
    (rest : List (Option (B_tree_node S) × Nat × Int)) (hrest : iterator.frames_ok B F rest) :
    ∃ st' leaf sh',
      iterator.internal_inc fuel ⟨(some x, j, sh) :: rest, some x, j, sh⟩ =
        .ok ⟨(some leaf, 0, sh') :: st', some leaf, 0, sh'⟩ ∧
      iterator.frames_ok B F ((some leaf, 0, sh') :: st') ∧
      iterator.pending F ((some x, j, sh) :: rest) =
        (k.add x._shift).add sh :: iterator.pending F ((some leaf, 0, sh') :: st') := by
  have hcok : keys_ok (c.flat (h + 1)) = true := child_keys_ok r (h + 1) hok hc
  by_cases hl : j + 1 < x.n
  · obtain ⟨st', leaf, sh', e, -, hfr, hp⟩ := leftmost_spec B F (h + 1) c
      ((some x, j + 1, sh) :: rest) (sh + x._shift) fuel hcs hcok hfuel (by omega)
      ⟨hl, ⟨h + 2, hF, hs, hok⟩, hrest⟩
    refine ⟨st', leaf, sh', ?_, hfr, ?_⟩
    · simp only [iterator.internal_inc, B_tree_node.get_n_keys, hl, decide_True, Bool.not_true,
        Bool.false_eq_true, if_false, r.is_leaf_some, get_child_inner r hc, bind, Except.bind,
        B_tree_node.get_shift, e]
      rfl
    · rw [hp]
      simp only [iterator.pending]
      rw [flat_from_fuel B (h + 2) 1 1 x F j hs hF, flat_from_fuel B (h + 2) 1 1 x F (j + 1) hs hF,
        flat_from_step_inner r (h + 1) hk hc, List.map_cons, List.map_append, map_add_add,
        add_comm sh x._shift, List.cons_append, List.append_assoc]
  · obtain ⟨st', leaf, sh', e, -, hfr, hp⟩ := leftmost_spec B F (h + 1) c
      rest (sh + x._shift) fuel hcs hcok hfuel (by omega) hrest
    refine ⟨st', leaf, sh', ?_, hfr, ?_⟩
    · simp only [iterator.internal_inc, B_tree_node.get_n_keys, hl, decide_False, Bool.not_false,
        if_true, Bool.false_eq_true, if_false, r.is_leaf_some, get_child_inner r hc, bind,
        Except.bind, B_tree_node.get_shift, e]
      rfl
    · rw [hp]
      simp only [iterator.pending]
      rw [flat_from_fuel B (h + 2) 1 1 x F j hs hF, flat_from_step_inner r (h + 1) hk hc,
        flat_from_end r (h + 1) (by rw [← r.n_eq]; omega), List.map_cons, List.map_append,
        map_add_add, add_comm sh x._shift, List.cons_append, List.map_nil, List.append_nil]

/-- One step of the loop on a well-formed position: `operator*` yields the head of the pending
list, `operator++` returns, and the new position is well formed and stands for the tail. -/
theorem inc_spec (B F fuel : Nat) (hF : F ≤ fuel + 1) (x : B_tree_node S) (j : Nat) (sh : Int)
    (rest : List (Option (B_tree_node S) × Nat × Int))
    (hfr : iterator.frames_ok B F ((some x, j, sh) :: rest)) :
    ∃ k c i s' rest', iterator.star ⟨(some x, j, sh) :: rest, some x, j, sh⟩ = .ok k.entry ∧
      iterator.internal_inc (fuel + 2) ⟨(some x, j, sh) :: rest, some x, j, sh⟩ =
        .ok ⟨(c, i, s') :: rest', c, i, s'⟩ ∧
      iterator.frames_ok B F ((c, i, s') :: rest') ∧
      iterator.pending F ((some x, j, sh) :: rest) = k :: iterator.pending F ((c, i, s') :: rest') := by
  obtain ⟨hjn, ⟨h, hhF, hs, hok⟩, hrest⟩ := hfr
  cases h with
  | zero => rw [shape_zero] at hs; cases hs
  | succ h =>
    obtain ⟨ks, cs, r, -, hc⟩ := (shape_succ_iff B 1 1 h x).mp hs
    obtain ⟨k, hk⟩ := getElem?_some_of_lt (a := ks) (i := j) (by rw [← r.n_eq]; exact hjn)
    have hstar := star_spec h r hok hk sh ((some x, j, sh) :: rest)
    cases cs with
    | none =>
      have h0 : h = 0 := hc
      subst h0
      by_cases hl : j + 1 < x.n
      · obtain ⟨e, hp⟩ := inc_leaf_more F (fuel + 2) r hs hhF hk hl sh rest
        exact ⟨_, some x, j + 1, sh, rest, hstar, e, ⟨hl, ⟨1, hhF, hs, hok⟩, hrest⟩, hp⟩
      · obtain ⟨c, i, s', rest', rfl, e, hp⟩ := inc_leaf_last F fuel r hs hhF hk hl sh rest hrest
        exact ⟨_, c, i, s', rest', hstar, e, hrest, hp⟩
    | some cl =>
      have hlen := r.children_some.choose_spec.2.2.2
      obtain ⟨c, hcl⟩ := getElem?_some_of_lt (a := cl) (i := j + 1)
        (by have := lt_of_getElem?_some hk; omega)
      obtain ⟨h', rfl⟩ : ∃ h', h = h' + 1 := ⟨h - 1, by have := hc.1; omega⟩
      obtain ⟨st', leaf, sh', e, hfr, hp⟩ := inc_inner F (fuel + 2) r h' hs hok hhF (by omega) hk hcl
        (hc.2 c (List.getElem?_mem hcl)) sh rest hrest
      exact ⟨_, some leaf, 0, sh', st', hstar, e, hfr, hp⟩

/-- The loop of dereference and increment from a well-formed position returns what the stack
stands for, when `steps` covers its length. -/
theorem collect_spec (B F fuel : Nat) (hF : F ≤ fuel + 1) : ∀ (steps : Nat)
    (c : Option (B_tree_node S)) (i : Nat) (s : Int)
    (rest : List (Option (B_tree_node S) × Nat × Int)),
    iterator.frames_ok B F ((c, i, s) :: rest) →
    (iterator.pending F ((c, i, s) :: rest)).length ≤ steps →
    iterator.collect (fuel + 2) steps ⟨(c, i, s) :: rest, c, i, s⟩ =
      .ok ((iterator.pending F ((c, i, s) :: rest)).map key_t.entry) := by
  intro steps
  induction steps with
  | zero =>
    intro c i s rest hfr hlen
    cases c with
    | none => rfl
    | some x =>
      obtain ⟨k, c', i', s', rest', -, -, -, hp⟩ := inc_spec B F fuel hF x i s rest hfr
      rw [hp] at hlen
      simp at hlen
  | succ n ih =>
    intro c i s rest hfr hlen
    cases c with
    | none => rfl
    | some x =>
      obtain ⟨k, c', i', s', rest', hstar, hinc, hfr', hp⟩ := inc_spec B F fuel hF x i s rest hfr
      rw [hp] at hlen ⊢
      have hlen' : (iterator.pending F ((c', i', s') :: rest')).length ≤ n := by
        simpa using hlen
      simp only [iterator.collect, Option.isNone_some, Bool.false_eq_true, if_false, hstar, hinc,
        ih c' i' s' rest' hfr' hlen', bind, Except.bind, pure, Except.pure, List.map_cons]

/-- The constructor on a non-null head returns a well-formed position that stands for the whole
in-order list. -/
theorem create_spec (B : Nat) (h : Nat) (x : B_tree_node S) (fuel : Nat)
    (hs : x.shape B 1 1 h = true) (hok : keys_ok (x.flat h) = true) (hf : h ≤ fuel) :
    ∃ st leaf sh, iterator.create fuel (some x) = .ok ⟨(some leaf, 0, sh) :: st, some leaf, 0, sh⟩ ∧
      iterator.frames_ok B h ((some leaf, 0, sh) :: st) ∧
      iterator.pending h ((some leaf, 0, sh) :: st) = x.flat h := by
  obtain ⟨st, leaf, sh, e, -, hfr, hp⟩ := leftmost_spec B h h x [(none, 0, 0)] 0 fuel hs hok hf
    (le_refl _) trivial
  refine ⟨st, leaf, sh, ?_, hfr, ?_⟩
  · simp only [iterator.create, e, bind, Except.bind]
    rfl
  · rw [hp]
    simp only [iterator.pending, List.append_nil]
    exact map_add_zero _

end iterator_lemmas

/-! ## Contract of the iterator -/

section iterator_contract

variable {S : Type}

/-- C17: on a valid tree (2 ≤ T, fuel above the height, `steps` covering the number of entries)
the loop from `begin()` to `end()` returns, and what it yields is exactly the recursive in-order
list of the entries of the tree, each as (stored value plus the shifts of the nodes from the root
down to its node, satellite list).  `begin()` and `end()` both return, `end()` has the null
position, and `begin()` has the null position exactly when the tree is empty, so on the empty
tree `begin()` equals `end()`. -/
theorem iteration_yields_the_in_order_traversal (B T h : Nat) (t : B_tree S) (fuel steps : Nat)
    (hT : 2 ≤ T) (hv : t.valid B T h = true) (hf : h + 1 ≤ fuel)
    (hsteps : (t.entries h).length ≤ steps) :
    t.iterate fuel steps = .ok (t.entries h) ∧
      ∃ b e : iterator S, iterator.create fuel t._head = .ok b ∧
        iterator.create fuel none = .ok e ∧
        e._current = none ∧ b._current.isNone = t._head.isNone := by
  cases t with
  | mk head =>
    cases head with
    | none =>
      refine ⟨?_, ⟨[], none, 0, 0⟩, ⟨[], none, 0, 0⟩, rfl, rfl, rfl, rfl⟩
      cases steps <;> rfl
    | some x =>
      obtain ⟨hs, hk⟩ := valid_shape_one hT (show x.valid B T h = true from hv)
      obtain ⟨st, leaf, sh, hc, hfr, hp⟩ := create_spec B h x fuel hs hk (by omega)
      have hh : 1 ≤ h := by
        cases h with
        | zero => rw [shape_zero] at hs; cases hs
        | succ n => omega
      obtain ⟨f, rfl⟩ : ∃ f, fuel = f + 2 := ⟨fuel - 2, by omega⟩
      have hlen : (iterator.pending h ((some leaf, 0, sh) :: st)).length ≤ steps := by
        rw [hp]
        simpa [B_tree.entries, B_tree_node.entries] using hsteps
      have hcol := collect_spec B h f (by omega) steps (some leaf) 0 sh st hfr hlen
      refine ⟨?_, _, ⟨[], none, 0, 0⟩, hc, rfl, rfl, rfl⟩
      simp only [B_tree.iterate, hc, hcol, hp, bind, Except.bind]
      rfl

/-- The C17 theorem applied to the sample tree: the loop yields the seven entries 101..107. -/
theorem iteration_yields_the_in_order_traversal_witness :
    B_tree.sample.valid 7 3 2 = true ∧
    B_tree.sample.entries 2 =
      [(101, [1]), (102, [2]), (103, [3]), (104, [4]), (105, [5]), (106, [6]), (107, [7])] ∧
    B_tree.sample.iterate 3 7 = .ok (B_tree.sample.entries 2) ∧
      ∃ b e : iterator Int, iterator.create 3 B_tree.sample._head = .ok b ∧
        iterator.create 3 none = .ok e ∧
        e._current = none ∧ b._current.isNone = B_tree.sample._head.isNone :=
  ⟨rfl, rfl, iteration_yields_the_in_order_traversal 7 3 2 B_tree.sample 3 7 (by decide) rfl
    (le_refl _) (by decide)⟩

end iterator_contract

/-! ## The extreme keys and the iteration of a subtree -/

section extreme_key_lemmas

variable {S : Type}

/-- `get_min` walks the leftmost spine and returns the value of the first key of the in-order
list. -/
theorem get_min_node (B : Nat) : ∀ (h : Nat) (x : B_tree_node S) (fuel : Nat),
    x.shape B 1 1 h = true → h ≤ fuel →
    ∃ k rest, x.flat h = k :: rest ∧ x.get_min fuel = .ok k.value := by
  intro h
  induction h with
  | zero => intro x fuel hs; rw [shape_zero] at hs; cases hs
  | succ h ih =>
    intro x fuel hs hf
    obtain ⟨f, rfl⟩ : ∃ f', fuel = f' + 1 := ⟨fuel - 1, by omega⟩
    obtain ⟨ks, cs, r, hpos, hc⟩ := (shape_succ_iff B 1 1 h x).mp hs
    cases cs with
    | none =>
      cases ks with
      | nil => simp at hpos
      | cons k0 ks' =>
        refine ⟨k0.add x._shift, ks'.map (key_t.add x._shift), ?_, ?_⟩
        · rw [flat_leaf r, List.map_cons]
        · have hk : x.keys[0]? = some k0 := by rw [r.key_get (by simp)]; simp
          simp only [B_tree_node.get_min, r.children_none, rd_ok hk, bind, Except.bind, pure,
            Except.pure, key_t.add]
    | some cl =>
      have hlen := r.children_some.choose_spec.2.2.2
      obtain ⟨c, hcl⟩ := getElem?_some_of_lt (a := cl) (i := 0) (by omega)
      obtain ⟨h', rfl⟩ : ∃ h', h = h' + 1 := ⟨h - 1, by have := hc.1; omega⟩
      obtain ⟨k, rest, hfl, hmin⟩ := ih c f (hc.2 c (List.getElem?_mem hcl)) (by omega)
      obtain ⟨ch, hch, -⟩ := r.children_some
      refine ⟨k.add x._shift, rest.map (key_t.add x._shift) ++ x.flat_from (h' + 2) 0, ?_, ?_⟩
      · rw [flat_from_zero_inner r (h' + 1) hcl, hfl, List.map_cons, List.cons_append]
      · simp only [B_tree_node.get_min, hch, rd_ok (r.child_get hch hcl), deref, hmin, bind,
          Except.bind, pure, Except.pure, key_t.add]

/-- `get_max` walks the rightmost spine and returns the value of the last key of the in-order
list. -/
theorem get_max_node (B : Nat) : ∀ (h : Nat) (x : B_tree_node S) (fuel : Nat),
    x.shape B 1 1 h = true → h ≤ fuel →
    ∃ k init, x.flat h = init ++ [k] ∧ x.get_max fuel = .ok k.value := by
  intro h
  induction h with
  | zero => intro x fuel hs; rw [shape_zero] at hs; cases hs
  | succ h ih =>
    intro x fuel hs hf
    obtain ⟨f, rfl⟩ : ∃ f', fuel = f' + 1 := ⟨fuel - 1, by omega⟩
    obtain ⟨ks, cs, r, hpos, hc⟩ := (shape_succ_iff B 1 1 h x).mp hs
    have hn := r.n_eq
    cases cs with
    | none =>
      obtain ⟨kl, hkl⟩ := getElem?_some_of_lt (a := ks) (i := ks.length - 1) (by omega)
      have hks : ks = ks.take (ks.length - 1) ++ [kl] := by
        apply List.ext_getElem?
        intro p
        rw [List.getElem?_append, List.getElem?_take]
        simp only [List.length_take]
        by_cases hp : p < ks.length - 1
        · rw [if_pos (by omega), if_pos hp]
        · rw [if_neg (by omega)]
          by_cases hp' : p = ks.length - 1
          · rw [hp', hkl]
            simp [Nat.min_eq_left (Nat.sub_le _ _)]
          · rw [List.getElem?_eq_none (by omega), List.getElem?_eq_none (by simp; omega)]
      refine ⟨kl.add x._shift, (ks.take (ks.length - 1)).map (key_t.add x._shift), ?_, ?_⟩
      · rw [flat_leaf r]
        conv_lhs => rw [hks]
        rw [List.map_append, List.map_cons, List.map_nil]
      · have hk : x.keys[x.n - 1]? = some kl := by
          rw [hn, r.key_get (by omega)]; exact hkl
        simp only [B_tree_node.get_max, r.children_none, usub_ok (show 1 ≤ x.n by omega),
          rd_ok hk, bind, Except.bind, pure, Except.pure, key_t.add]
    | some cl =>
      have hlen := r.children_some.choose_spec.2.2.2
      obtain ⟨c, hcl⟩ := getElem?_some_of_lt (a := cl) (i := ks.length) (by omega)
      obtain ⟨h', rfl⟩ : ∃ h', h = h' + 1 := ⟨h - 1, by have := hc.1; omega⟩
      obtain ⟨k, init, hfl, hmax⟩ := ih c f (hc.2 c (List.getElem?_mem hcl)) (by omega)
      obtain ⟨ch, hch, -⟩ := r.children_some
      refine ⟨k.add x._shift,
        (inorder (B_tree_node.flat (h' + 1)) ((cl.take ks.length).map some ++ [none])
          (ks.take ks.length) ++ init).map (key_t.add x._shift), ?_, ?_⟩
      · rw [flat_split r (h' + 1) hcl, hfl, List.drop_of_length_le (show cl.length ≤ ks.length + 1 by omega),
          List.drop_of_length_le (le_refl _)]
        simp [inorder]
      · have hcn : cl[x.n]? = some c := by rw [hn]; exact hcl
        simp only [B_tree_node.get_max, hch, rd_ok (r.child_get hch hcn), deref, hmax, bind,
          Except.bind, pure, Except.pure, key_t.add]

/-- The two extreme keys of a subtree with sorted in-order list: `get_min` returns the value of
the first key, `get_max` the value of the last, and every key of the list lies between them. -/
theorem extremes_node (B h : Nat) (x : B_tree_node S) (fuel : Nat)
    (hs : x.shape B 1 1 h = true) (hk : keys_ok (x.flat h) = true) (hf : h ≤ fuel) :
    ∃ kmin kmax rest init, x.flat h = kmin :: rest ∧ x.flat h = init ++ [kmax] ∧
      x.get_min fuel = .ok kmin.value ∧ x.get_max fuel = .ok kmax.value ∧
      ∀ k ∈ x.flat h, kmin.value ≤ k.value ∧ k.value ≤ kmax.value := by
  obtain ⟨kmin, rest, h1, hmin⟩ := get_min_node B h x fuel hs hf
  obtain ⟨kmax, init, h2, hmax⟩ := get_max_node B h x fuel hs hf
  refine ⟨kmin, kmax, rest, init, h1, h2, hmin, hmax, ?_⟩
  intro k hmem
  constructor
  · have hp := ((keys_ok_iff _).mp hk).1
    rw [h1, List.map_cons, List.pairwise_cons] at hp
    rw [h1, List.mem_cons] at hmem
    rcases hmem with rfl | hr
    · exact le_refl _
    · exact le_of_lt (hp.1 _ (List.mem_map_of_mem _ hr))
  · rw [h2] at hk hmem
    have hp := (keys_ok_append.mp hk).2.2
    rcases List.mem_append.mp hmem with hi | hl
    · exact le_of_lt (hp k hi kmax (by simp))
    · simp only [List.mem_singleton] at hl
      rw [hl]

/-- The loop from `begin()` to `end()` over a subtree with sorted in-order list yields its entry
list. -/
theorem iterate_node (B h : Nat) (x : B_tree_node S) (fuel steps : Nat)
    (hs : x.shape B 1 1 h = true) (hk : keys_ok (x.flat h) = true) (hf : h + 1 ≤ fuel)
    (hsteps : (x.entries h).length ≤ steps) :
    (⟨some x⟩ : B_tree S).iterate fuel steps = .ok (x.entries h) := by
  obtain ⟨st, leaf, sh, hc, hfr, hp⟩ := create_spec B h x fuel hs hk (by omega)
  have hh : 1 ≤ h := by
    cases h with
    | zero => rw [shape_zero] at hs; cases hs
    | succ n => omega
  obtain ⟨f, rfl⟩ : ∃ f, fuel = f + 2 := ⟨fuel - 2, by omega⟩
  have hlen : (iterator.pending h ((some leaf, 0, sh) :: st)).length ≤ steps := by
    rw [hp]
    simpa [B_tree_node.entries] using hsteps
  have hcol := collect_spec B h f (by omega) steps (some leaf) 0 sh st hfr hlen
  simp only [B_tree.iterate, hc, hcol, hp, bind, Except.bind]
  rfl

end extreme_key_lemmas

/-! ## Composition of shifts -/

section shift_composition

variable {S : Type}

/-- C21: `shift(delta)` followed by `shift(delta')` leaves the tree in the state that the single
call `shift(delta + delta')` produces (the same tree value: head pointer, keys, children, key
counts and lazy shifts). -/
theorem shift_twice_is_shift_of_the_sum (t : B_tree S) (delta delta' : Int) :
    (t.shift delta).shift delta' = t.shift (delta + delta') := by
  cases t with
  | mk head =>
    cases head with
    | none => rfl
    | some x =>
      simp only [B_tree.shift, B_tree_node.shift, Int.add_assoc]

end shift_composition

/-! ## Contract of get_min and get_max -/

section extreme_key_contract

variable {S : Type}

/-- C28: on a valid non-empty tree (2 ≤ T, fuel above the height, `steps` covering the number of
entries) `get_min()` and `get_max()` return; the in-order iteration yields the entry list of the
tree, in which every key is the stored value plus the shifts of the nodes from the root down to
its node; the key of the first entry is the value returned by `get_min()`, the key of the last
entry is the value returned by `get_max()`, and every entry of the tree has a key between the
two. -/
theorem get_min_get_max_return_the_extreme_effective_keys (B T h : Nat) (t : B_tree S)
    (fuel steps : Nat) (hT : 2 ≤ T) (hv : t.valid B T h = true) (hne : t.is_empty = false)
    (hf : h + 1 ≤ fuel) (hsteps : (t.entries h).length ≤ steps) :
    ∃ mn mx, t.get_min fuel = .ok mn ∧ t.get_max fuel = .ok mx ∧
      t.iterate fuel steps = .ok (t.entries h) ∧
      (t.entries h).head?.map Prod.fst = some mn ∧
      (t.entries h).getLast?.map Prod.fst = some mx ∧
      ∀ e ∈ t.entries h, mn ≤ e.1 ∧ e.1 ≤ mx := by
  cases t with
  | mk head =>
    cases head with
    | none => cases hne
    | some x =>
      obtain ⟨hs, hk⟩ := valid_shape_one hT (show x.valid B T h = true from hv)
      obtain ⟨kmin, kmax, rest, init, h1, h2, hmin, hmax, hb⟩ :=
        extremes_node B h x fuel hs hk (by omega)
      refine ⟨kmin.value, kmax.value, hmin, hmax, iterate_node B h x fuel steps hs hk hf hsteps,
        ?_, ?_, ?_⟩
      · show ((x.flat h).map key_t.entry).head?.map Prod.fst = _
        rw [h1]; rfl
      · show ((x.flat h).map key_t.entry).getLast?.map Prod.fst = _
        rw [h2, List.map_append, List.map_cons, List.map_nil, List.getLast?_append]
        rfl
      · intro e he
        obtain ⟨k, hk', rfl⟩ := List.mem_map.mp he
        exact hb k hk'

/-- The C28 theorem applied to the sample tree: its extreme keys are 101 and 107. -/
theorem get_min_get_max_return_the_extreme_effective_keys_witness :
    B_tree.sample.get_min 3 = .ok 101 ∧ B_tree.sample.get_max 3 = .ok 107 ∧
    ∃ mn mx, B_tree.sample.get_min 3 = .ok mn ∧ B_tree.sample.get_max 3 = .ok mx ∧
      B_tree.sample.iterate 3 7 = .ok (B_tree.sample.entries 2) ∧
      (B_tree.sample.entries 2).head?.map Prod.fst = some mn ∧
      (B_tree.sample.entries 2).getLast?.map Prod.fst = some mx ∧
      ∀ e ∈ B_tree.sample.entries 2, mn ≤ e.1 ∧ e.1 ≤ mx :=
  ⟨rfl, rfl, get_min_get_max_return_the_extreme_effective_keys 7 3 2 B_tree.sample 3 7
    (by decide) rfl rfl (le_refl _) (by decide)⟩

end extreme_key_contract

/-! ## The assertion of join -/

section join_assertion_contract

variable {S : Type}

/-- C27: for valid non-empty trees A and B (2 ≤ T, fuel covering both heights), with `ea` the last
entry of A and `eb` the first entry of B: `get_max()` of A returns the key of `ea` and `get_min()`
of B the key of `eb`; if the key of `ea` is not below the key of `eb`, `A.join(B)` stops at its
assertion and produces no tree (the two reads before the assertion return values only); if it is
below, the assertion passes and the call is the rest of `B_tree_node::join` (removal of the
maximum of A, then `join_right` or `join_left`) run on the two roots. -/
theorem join_asserts_max_below_min (B T ha hb : Nat) (a b : B_tree S) (xa xb : B_tree_node S)
    (fuel : Nat) (hT : 2 ≤ T) (hva : a.valid B T ha = true) (hvb : b.valid B T hb = true)
    (hxa : a._head = some xa) (hxb : b._head = some xb) (hfa : ha ≤ fuel) (hfb : hb ≤ fuel) :
    ∃ ea eb, (a.entries ha).getLast? = some ea ∧ (b.entries hb).head? = some eb ∧
      a.get_max fuel = .ok ea.1 ∧ b.get_min fuel = .ok eb.1 ∧
      (eb.1 ≤ ea.1 → a.join B T fuel b = .error .assert_fail) ∧
      (ea.1 < eb.1 → a.join B T fuel b =
        (xa.join_proceed B T fuel xb ea.1).map fun head => ⟨some head⟩) := by
  cases a with
  | mk heada =>
    cases b with
    | mk headb =>
      simp only at hxa hxb
      subst hxa hxb
      obtain ⟨hsa, hka⟩ := valid_shape_one hT (show xa.valid B T ha = true from hva)
      obtain ⟨hsb, hkb⟩ := valid_shape_one hT (show xb.valid B T hb = true from hvb)
      obtain ⟨-, kmax, -, init, -, h2, -, hmax, -⟩ := extremes_node B ha xa fuel hsa hka hfa
      obtain ⟨kmin, -, rest, -, h1, -, hmin, -, -⟩ := extremes_node B hb xb fuel hsb hkb hfb
      refine ⟨kmax.entry, kmin.entry, ?_, ?_, hmax, hmin, ?_, ?_⟩
      · show ((xa.flat ha).map key_t.entry).getLast? = _
        rw [h2, List.map_append, List.map_cons, List.map_nil, List.getLast?_append]
        rfl
      · show ((xb.flat hb).map key_t.entry).head? = _
        rw [h1]; rfl
      · intro hle
        have hle' : ¬ kmax.value < kmin.value := not_lt.mpr hle
        simp only [B_tree.join, B_tree_node.join, hmax, hmin, bind, Except.bind, c_assert,
          decide_eq_true_eq, hle', if_false]
      · intro hlt
        have hlt' : kmax.value < kmin.value := hlt
        simp only [B_tree.join, B_tree_node.join, hmax, hmin, bind, Except.bind, c_assert,
          decide_eq_true_eq, hlt', if_true, key_t.entry]
        cases xa.join_proceed B T fuel xb kmax.value <;> rfl

/-- The C27 theorem applied to the sample tree (keys 101..107) as A and the same tree shifted by
10 (keys 111..117) as B. -/
theorem join_asserts_max_below_min_witness :
    ∃ ea eb, (B_tree.sample.entries 2).getLast? = some ea ∧
      ((B_tree.sample.shift 10).entries 2).head? = some eb ∧
      B_tree.sample.get_max 2 = .ok ea.1 ∧ (B_tree.sample.shift 10).get_min 2 = .ok eb.1 ∧
      (eb.1 ≤ ea.1 → B_tree.sample.join 7 3 2 (B_tree.sample.shift 10) = .error .assert_fail) ∧
      (ea.1 < eb.1 → B_tree.sample.join 7 3 2 (B_tree.sample.shift 10) =
        ((B_tree_node.of_lists 7 [⟨14, some [4]⟩]
          (some [B_tree_node.of_lists 7 [⟨-9, some [1]⟩, ⟨-8, some [2]⟩, ⟨-7, some [3]⟩] none 20,
            B_tree_node.of_lists 7 [⟨20, some [5]⟩, ⟨21, some [6]⟩, ⟨22, some [7]⟩] none (-5)])
          90).join_proceed 7 3 2
          ((B_tree_node.of_lists 7 [⟨14, some [4]⟩]
            (some [B_tree_node.of_lists 7 [⟨-9, some [1]⟩, ⟨-8, some [2]⟩, ⟨-7, some [3]⟩] none 20,
              B_tree_node.of_lists 7 [⟨20, some [5]⟩, ⟨21, some [6]⟩, ⟨22, some [7]⟩] none (-5)])
            90).shift 10) ea.1).map fun head => ⟨some head⟩) :=
  join_asserts_max_below_min 7 3 2 2 B_tree.sample (B_tree.sample.shift 10) _ _ 2 (by decide)
    rfl rfl rfl rfl (le_refl _) (le_refl _)

end join_assertion_contract

/-! ## The integrity check -/

section check_integrity_lemmas

variable {S : Type}

theorem forM_ok {α : Type} (f : α → Except Fault Unit) :
    ∀ l : List α, (∀ a ∈ l, f a = .ok ()) → l.forM f = .ok () := by
  intro l
  induction l with
  | nil => intro _; rfl
  | cons a l ih =>
    intro h
    have e := ih fun b hb => h b (List.mem_cons_of_mem _ hb)
    show (f a >>= fun _ => l.forM f) = .ok ()
    rw [h a (List.mem_cons_self _ _), e]
    rfl

theorem mem_range_drop {B n i : Nat} (h : i ∈ (List.range B).drop n) : n ≤ i ∧ i < B := by
  obtain ⟨j, hj⟩ := List.mem_iff_getElem?.mp h
  rw [List.getElem?_drop] at hj
  have hlt : n + j < B := by
    by_contra hc
    rw [List.getElem?_eq_none (by simp; omega)] at hj
    cases hj
  rw [List.getElem?_range hlt] at hj
  cases hj
  omega

theorem mem_take_drop {α : Type} {l : List α} {B n i : Nat} {a : α} (hi : l[i]? = some a)
    (h1 : n ≤ i) (h2 : i < B) : a ∈ (l.take B).drop n := by
  apply List.mem_iff_getElem?.mpr
  refine ⟨i - n, ?_⟩
  rw [List.getElem?_drop, List.getElem?_take, if_pos (by omega),
    show n + (i - n) = i by omega, hi]

theorem bind_ne_false {α : Type} (m : Except Fault α) (f : α → Except Fault Bool)
    (h : ∀ a, f a ≠ .ok false) : (m >>= f) ≠ .ok false := by
  cases m with
  | error e => intro hc; cases hc
  | ok a => exact h a

/-- Whatever the node, `check_integrity` does not return `false`: it returns `true` or stops. -/
theorem check_integrity_node_ne_false (B : Nat) (fuel : Nat) (x : B_tree_node S) :
    x.check_integrity B fuel ≠ .ok false := by
  cases fuel with
  | zero => intro hc; cases hc
  | succ f =>
    rw [B_tree_node.check_integrity]
    split
    · refine bind_ne_false _ _ fun _ => bind_ne_false _ _ fun _ => ?_
      intro hc; cases hc
    · refine bind_ne_false _ _ fun _ => bind_ne_false _ _ fun _ => bind_ne_false _ _ fun _ =>
        bind_ne_false _ _ fun _ => bind_ne_false _ _ fun _ => bind_ne_false _ _ fun _ => ?_
      intro hc; cases hc

/-- On a subtree of height `h` whose live keys all carry a satellite list and whose unused slots
are empty, `check_integrity` returns `true`, when `B + 1` is a value of `B_t`. -/
theorem check_integrity_node (B : Nat) (hfit : B + 1 < 2 ^ B_t_bits B) :
    ∀ (h : Nat) (x : B_tree_node S) (fuel lo lo' : Nat),
    x.shape B lo lo' h = true → (∀ k ∈ x.flat h, k.satellites.isSome = true) →
    x.spare_empty B h = true → h ≤ fuel → x.check_integrity B fuel = .ok true := by
  intro h
  induction h with
  | zero => intro x fuel lo lo' hs; rw [shape_zero] at hs; cases hs
  | succ h ih =>
    intro x fuel lo lo' hs hsat hsp hf
    obtain ⟨f, rfl⟩ : ∃ f', fuel = f' + 1 := ⟨fuel - 1, by omega⟩
    obtain ⟨ks, cs, r, -, hc⟩ := (shape_succ_iff B lo lo' h x).mp hs
    have hn := r.n_eq
    have hnB := r.n_le
    have hkl := r.keys_len
    have hdead : ∀ i, x.n ≤ i → i < B →
        ∃ k, x.keys[i]? = some k ∧ k.satellites.isNone = true := by
      intro i h1 h2
      obtain ⟨k, hk⟩ := getElem?_some_of_lt (a := x.keys) (i := i) (by omega)
      refine ⟨k, hk, ?_⟩
      simp only [B_tree_node.spare_empty, Bool.and_eq_true, List.all_eq_true] at hsp
      exact hsp.1 k (mem_take_drop hk h1 h2)
    cases cs with
    | none =>
      have hlive : ∀ i, i < x.n → ∃ k, x.keys[i]? = some k ∧ k.satellites.isSome = true := by
        intro i hi
        obtain ⟨k, hk⟩ := getElem?_some_of_lt (a := ks) (i := i) (by omega)
        refine ⟨k, by rw [r.key_get (by omega)]; exact hk, ?_⟩
        have := hsat (k.add x._shift) (by
          rw [flat_leaf r]; exact List.mem_map_of_mem _ (List.getElem?_mem hk))
        exact this
      rw [B_tree_node.check_integrity, if_pos r.is_leaf_none]
      have e1 : ((List.range x.n).forM fun i => do
          let k ← rd x.keys i
          c_assert k.satellites.isSome) = .ok () := by
        apply forM_ok
        intro i hi
        obtain ⟨k, hk, hks⟩ := hlive i (List.mem_range.mp hi)
        simp only [rd_ok hk, bind, Except.bind, c_assert_ok hks]
      have e2 : (((List.range B).drop x.n).forM fun i => do
          let k ← rd x.keys i
          c_assert k.satellites.isNone) = .ok () := by
        apply forM_ok
        intro i hi
        obtain ⟨h1, h2⟩ := mem_range_drop hi
        obtain ⟨k, hk, hks⟩ := hdead i h1 h2
        simp only [rd_ok hk, bind, Except.bind, c_assert_ok hks]
      rw [e1]
      show ((((List.range B).drop x.n).forM fun i => do
          let k ← rd x.keys i
          c_assert k.satellites.isNone) >>= fun _ => pure true) = _
      rw [e2]
      rfl
    | some cl =>
      obtain ⟨ch, hch, hchl, htake, hlen⟩ := r.children_some
      have hflat := flat_inner r h
      have hlive : ∀ i, i < x.n → ∃ k, x.keys[i]? = some k ∧ k.satellites.isSome = true := by
        intro i hi
        obtain ⟨k, hk⟩ := getElem?_some_of_lt (a := ks) (i := i) (by omega)
        refine ⟨k, by rw [r.key_get (by omega)]; exact hk, ?_⟩
        have := hsat (k.add x._shift) (by
          rw [hflat]
          exact List.mem_map_of_mem _
            ((sublist_inorder _ (cl.map some) ks (by simp; omega)).subset (List.getElem?_mem hk)))
        exact this
      have hchild : ∀ i, i < x.n + 1 → ∃ c, ch[i]? = some (some c) ∧
          c.check_integrity B f = .ok true := by
        intro i hi
        obtain ⟨c, hci⟩ := getElem?_some_of_lt (a := cl) (i := i) (by omega)
        refine ⟨c, r.child_get hch hci, ?_⟩
        have hcs := hc.2 c (List.getElem?_mem hci)
        refine ih c f lo' lo' hcs ?_ ?_ (by omega)
        · intro k hk
          have := hsat (k.add x._shift) (by
            rw [hflat, inorder_split _ cl ks i c hlen hci]
            exact List.mem_map_of_mem _
              (List.mem_append_right _ (List.mem_append_left _ hk)))
          exact this
        · simp only [B_tree_node.spare_empty, hch, Bool.and_eq_true, List.all_eq_true] at hsp
          have := hsp.2.2 (some c) (by
            rw [hn, htake]; exact List.mem_map_of_mem _ (List.getElem?_mem hci))
          exact this
      have hdeadc : ∀ i, x.n + 1 ≤ i → i < B → ch[i]? = some none := by
        intro i h1 h2
        obtain ⟨c, hci⟩ := getElem?_some_of_lt (a := ch) (i := i) (by omega)
        simp only [B_tree_node.spare_empty, hch, Bool.and_eq_true, List.all_eq_true] at hsp
        have := hsp.2.1 c (mem_take_drop hci h1 h2)
        cases c with
        | none => exact hci
        | some _ => cases this
      have hfn : x.n + 1 < 2 ^ B_t_bits B := by omega
      rw [B_tree_node.check_integrity, if_neg (by rw [r.is_leaf_some]; simp), B_t_eq hfn,
        if_pos hfn]
      have e1 : ((List.range x.n).forM fun i => do
          let k ← rd x.keys i
          c_assert k.satellites.isSome
          let c ← x.child_at i
          c_assert c.isSome) = .ok () := by
        apply forM_ok
        intro i hi
        have hi' := List.mem_range.mp hi
        obtain ⟨k, hk, hks⟩ := hlive i hi'
        obtain ⟨c, hci, -⟩ := hchild i (by omega)
        simp only [rd_ok hk, bind, Except.bind, c_assert_ok hks, child_at_ok hch hci]
        rfl
      obtain ⟨cn, hcn, -⟩ := hchild x.n (by omega)
      have e2 : (if x.n < B then do
            let k ← rd x.keys x.n
            c_assert k.satellites.isNone
          else pure () : Except Fault Unit) = .ok () := by
        split
        · rename_i hlt
          obtain ⟨k, hk, hks⟩ := hdead x.n (le_refl _) hlt
          simp only [rd_ok hk, bind, Except.bind, c_assert_ok hks]
        · rfl
      have e3 : (((List.range B).drop (x.n + 1)).forM fun i => do
          let k ← rd x.keys i
          c_assert k.satellites.isNone
          let c ← x.child_at i
          c_assert c.isNone) = .ok () := by
        apply forM_ok
        intro i hi
        obtain ⟨h1, h2⟩ := mem_range_drop hi
        obtain ⟨k, hk, hks⟩ := hdead i (by omega) h2
        simp only [rd_ok hk, bind, Except.bind, c_assert_ok hks, child_at_ok hch (hdeadc i h1 h2)]
        rfl
      have e4 : ((List.range (x.n + 1)).forM fun i => do
          let c ← deref (← x.child_at i)
          let b ← B_tree_node.check_integrity B f c
          c_assert b) = .ok () := by
        apply forM_ok
        intro i hi
        obtain ⟨c, hci, hck⟩ := hchild i (List.mem_range.mp hi)
        simp only [child_at_ok hch hci, bind, Except.bind, deref, hck]
        rfl
      rw [e1, child_at_ok hch hcn]
      show ((if x.n < B then do
            let k ← rd x.keys x.n
            c_assert k.satellites.isNone
          else pure () : Except Fault Unit) >>= fun _ =>
        (((List.range B).drop (x.n + 1)).forM fun i => do
          let k ← rd x.keys i
          c_assert k.satellites.isNone
          let c ← x.child_at i
          c_assert c.isNone) >>= fun _ =>
        ((List.range (x.n + 1)).forM fun i => do
          let c ← deref (← x.child_at i)
          let b ← B_tree_node.check_integrity B f c
          c_assert b) >>= fun _ => pure true) = _
      rw [e2]
      show ((((List.range B).drop (x.n + 1)).forM fun i => do
          let k ← rd x.keys i
          c_assert k.satellites.isNone
          let c ← x.child_at i
          c_assert c.isNone) >>= fun _ =>
        ((List.range (x.n + 1)).forM fun i => do
          let c ← deref (← x.child_at i)
          let b ← B_tree_node.check_integrity B f c
          c_assert b) >>= fun _ => pure true) = _
      rw [e3]
      show (((List.range (x.n + 1)).forM fun i => do
          let c ← deref (← x.child_at i)
          let b ← B_tree_node.check_integrity B f c
          c_assert b) >>= fun _ => pure true) = _
      rw [e4]
      rfl

end check_integrity_lemmas

/-! ## Contract of check_integrity -/

section check_integrity_contract

variable {S : Type}

/-- C26 (amended): `check_integrity()` never returns `false`, whatever the tree: it returns
`true` or stops (a breach of a condition it examines fails an assertion).  On a non-empty tree
that satisfies the invariants (2 ≤ T, fuel covering the height) and whose unused key and child
slots are empty it returns `true`, when `B + 1` is a value of `B_t` (the loop counters of
`check_integrity` are of type `B_t` and run up to `n + 1`). -/
theorem check_integrity_returns_true_or_stops (B T h : Nat) (t : B_tree S) (x : B_tree_node S)
    (fuel : Nat) (hT : 2 ≤ T) (hfit : B + 1 < 2 ^ B_t_bits B) (hv : t.valid B T h = true)
    (hx : t._head = some x) (hsp : x.spare_empty B h = true) (hf : h ≤ fuel) :
    t.check_integrity B fuel = .ok true ∧
      ∀ (t' : B_tree S) (fuel' : Nat), t'.check_integrity B fuel' ≠ .ok false := by
  constructor
  · cases t with
    | mk head =>
      simp only at hx
      subst hx
      obtain ⟨hs, hk⟩ := valid_shape_one hT (show x.valid B T h = true from hv)
      exact check_integrity_node B hfit h x fuel 1 1 hs ((keys_ok_iff _).mp hk).2 hsp hf
  · intro t' fuel'
    exact bind_ne_false _ _ fun head => check_integrity_node_ne_false B fuel' head

/-- The C26 theorem applied to the sample tree. -/
theorem check_integrity_returns_true_or_stops_witness :
    B_tree.sample.check_integrity 7 2 = .ok true ∧
      ∀ (t' : B_tree Int) (fuel' : Nat), t'.check_integrity 7 fuel' ≠ .ok false :=
  check_integrity_returns_true_or_stops 7 3 2 B_tree.sample _ 2 (by decide) (by decide) rfl rfl
    rfl (le_refl _)

end check_integrity_contract

/-! ## Moving a shift between a node and its stored keys -/

section shift_transparency_lemmas

variable {S : Type}

theorem take_set_le {α : Type} (l : List α) (i j : Nat) (a : α) (h : j ≤ i) :
    (l.set i a).take j = l.take j := by
  apply List.ext_getElem?
  intro p
  simp only [List.getElem?_take]
  split
  · rw [List.getElem?_set_ne (by omega)]
  · rfl

theorem inorder_map_sub (sub sub' : B_tree_node S → List (key_t S))
    (g : B_tree_node S → B_tree_node S) (a : key_t S → key_t S) :
    ∀ (cs : List (Option (B_tree_node S))) (ks : List (key_t S)),
      (∀ c, some c ∈ cs → sub' (g c) = (sub c).map a) →
      inorder sub' (cs.map (Option.map g)) (ks.map a) = (inorder sub cs ks).map a := by
  intro cs
  induction cs with
  | nil => intro ks _; rfl
  | cons c cs ih =>
    intro ks h
    have hc : ((c.map g).map sub').getD [] = ((c.map sub).getD []).map a := by
      cases c with
      | none => rfl
      | some c => exact h c (List.mem_cons_self _ _)
    cases ks with
    | nil => exact hc
    | cons k ks =>
      have e := ih ks fun c' hc' => h c' (List.mem_cons_of_mem _ hc')
      show ((c.map g).map sub').getD [] ++ a k :: inorder sub' (cs.map (Option.map g)) (ks.map a) =
        (((c.map sub).getD []) ++ k :: inorder sub cs ks).map a
      rw [hc, e, List.map_append, List.map_cons]

theorem shape_shift (B lo lo' h : Nat) (x : B_tree_node S) (d : Int) :
    (x.shift d).shape B lo lo' h = x.shape B lo lo' h := by
  cases h <;> rfl

/-- Subtracting `d` from every stored key of a subtree keeps its structure and subtracts `d` from
every key of its in-order list. -/
theorem sub_keys_spec (B : Nat) (d : Int) : ∀ (h : Nat) (x : B_tree_node S) (fuel lo lo' : Nat),
    x.shape B lo lo' h = true → h ≤ fuel →
    (x.sub_keys d fuel).shape B lo lo' h = true ∧
      (x.sub_keys d fuel).flat h = (x.flat h).map (key_t.add (-d)) := by
  intro h
  induction h with
  | zero => intro x fuel lo lo' hs; rw [shape_zero] at hs; cases hs
  | succ h ih =>
    intro x fuel lo lo' hs hf
    obtain ⟨f, rfl⟩ : ∃ f', fuel = f' + 1 := ⟨fuel - 1, by omega⟩
    obtain ⟨ks, cs, r, hlo, hc⟩ := (shape_succ_iff B lo lo' h x).mp hs
    have hn := r.n_eq
    have hnB := r.n_le
    have hkl := r.keys_len
    have hke := r.keys_eq
    have hkeys : ((x.keys.take x.n).map (key_t.add (-d)) ++ x.keys.drop x.n).take x.n =
        ks.map (key_t.add (-d)) := by
      rw [hke]
      exact List.take_left' (by simp [hn])
    have hlen' : ((x.keys.take x.n).map (key_t.add (-d)) ++ x.keys.drop x.n).length = B := by
      simp only [List.length_append, List.length_map, List.length_take, List.length_drop]
      omega
    have hcomm : ∀ l : List (key_t S),
        (l.map (key_t.add (-d))).map (key_t.add x._shift) =
          (l.map (key_t.add x._shift)).map (key_t.add (-d)) := by
      intro l
      simp only [List.map_map]
      congr 1
      funext k
      simp only [Function.comp, key_t.add_add, add_comm]
    cases cs with
    | none =>
      have r' : B_tree_node.Rep B (x.sub_keys d (f + 1)) (ks.map (key_t.add (-d))) none
          (x.sub_keys d (f + 1))._shift :=
        ⟨hlen', by simp [B_tree_node.sub_keys, hn], by simpa using hnB, hkeys, rfl,
          by simp [B_tree_node.sub_keys, r.children_none]⟩
      refine ⟨(shape_succ_iff B lo lo' h _).mpr ⟨_, none, r', by simpa using hlo, hc⟩, ?_⟩
      rw [flat_leaf r' h, flat_leaf r h]
      exact hcomm ks
    | some cl =>
      obtain ⟨ch, hch, hchl, htake, hlen⟩ := r.children_some
      have r' : B_tree_node.Rep B (x.sub_keys d (f + 1)) (ks.map (key_t.add (-d)))
          (some (cl.map (B_tree_node.sub_keys d f))) (x.sub_keys d (f + 1))._shift := by
        refine ⟨hlen', by simp [B_tree_node.sub_keys, hn], by simpa using hnB, hkeys, rfl, ?_⟩
        refine ⟨(ch.take (x.n + 1)).map (Option.map (B_tree_node.sub_keys d f)) ++
          ch.drop (x.n + 1), by simp [B_tree_node.sub_keys, hch], ?_, ?_, by simpa using hlen⟩
        · simp only [List.length_append, List.length_map, List.length_take, List.length_drop]
          omega
        · show (List.map _ (ch.take (x.n + 1)) ++ ch.drop (x.n + 1)).take (x.n + 1) = _
          rw [List.take_left' (by simp; omega), hn, htake, List.map_map, List.map_map]
          rfl
      have hih : ∀ c ∈ cl, (c.sub_keys d f).shape B lo' lo' h = true ∧
          (c.sub_keys d f).flat h = (c.flat h).map (key_t.add (-d)) :=
        fun c hcm => ih c f lo' lo' (hc.2 c hcm) (by omega)
      refine ⟨(shape_succ_iff B lo lo' h _).mpr ⟨_, _, r', by simpa using hlo, hc.1, ?_⟩, ?_⟩
      · intro c' hc'
        obtain ⟨c, hcm, rfl⟩ := List.mem_map.mp hc'
        exact (hih c hcm).1
      · rw [flat_inner r' h, flat_inner r h, ← hcomm]
        congr 1
        have := inorder_map_sub (B_tree_node.flat h) (B_tree_node.flat h)
          (B_tree_node.sub_keys d f) (key_t.add (-d)) (cl.map some) ks (by
            intro c hcm
            obtain ⟨c0, hc0, he⟩ := List.mem_map.mp hcm
            cases he
            exact (hih c hc0).2)
        rw [← this, List.map_map, List.map_map]
        rfl

/-- The transformation of shift transparency at the root of a subtree keeps its structure and its
in-order list. -/
theorem retarget_spec (B : Nat) (d : Int) (h : Nat) (x : B_tree_node S) (fuel lo lo' : Nat)
    (hs : x.shape B lo lo' h = true) (hf : h ≤ fuel) :
    (x.retarget d fuel).shape B lo lo' h = true ∧ (x.retarget d fuel).flat h = x.flat h := by
  obtain ⟨h1, h2⟩ := sub_keys_spec B d h x fuel lo lo' hs hf
  refine ⟨by rw [B_tree_node.retarget, shape_shift]; exact h1, ?_⟩
  rw [B_tree_node.retarget, flat_shift, h2, List.map_map]
  conv_rhs => rw [← List.map_id (x.flat h)]
  congr 1
  funext k
  cases k
  simp [key_t.add]

/-- The transformation of shift transparency at any node of a subtree keeps the structure and
the in-order list of the subtree. -/
theorem at_path_spec (B : Nat) (d : Int) (F : Nat) : ∀ (path : List Nat) (h : Nat)
    (x : B_tree_node S) (lo lo' : Nat), x.shape B lo lo' h = true → h ≤ F →
    (x.at_path (B_tree_node.retarget d F) path).shape B lo lo' h = true ∧
      (x.at_path (B_tree_node.retarget d F) path).flat h = x.flat h := by
  intro path
  induction path with
  | nil => intro h x lo lo' hs hF; exact retarget_spec B d h x F lo lo' hs hF
  | cons i path ih =>
    intro h x lo lo' hs hF
    cases h with
    | zero => rw [shape_zero] at hs; cases hs
    | succ h =>
      obtain ⟨ks, cs, r, hlo, hc⟩ := (shape_succ_iff B lo lo' h x).mp hs
      cases cs with
      | none =>
        have e : x.at_path (B_tree_node.retarget d F) (i :: path) = x := by
          simp only [B_tree_node.at_path, r.children_none]
        rw [e]
        exact ⟨hs, rfl⟩
      | some cl =>
        obtain ⟨ch, hch, hchl, htake, hlen⟩ := r.children_some
        have hn := r.n_eq
        simp only [B_tree_node.at_path, hch]
        cases hci : ch[i]? with
        | none => exact ⟨hs, rfl⟩
        | some oc =>
          cases oc with
          | none => exact ⟨hs, rfl⟩
          | some c =>
            simp only
            have hil : i < ch.length := by
              by_contra hcon
              rw [List.getElem?_eq_none (by omega)] at hci
              cases hci
            by_cases hlive : i < x.n + 1
            · have hcl : cl[i]? = some c := by
                have e : (ch.take (ks.length + 1))[i]? = some (some c) := by
                  rw [List.getElem?_take, if_pos (by omega), hci]
                rw [htake, List.getElem?_map] at e
                cases hq : cl[i]? with
                | none => rw [hq] at e; cases e
                | some q => rw [hq] at e; cases e; rfl
              obtain ⟨hs', hfl'⟩ := ih h c lo' lo' (hc.2 c (List.getElem?_mem hcl)) (by omega)
              obtain ⟨c', hc'⟩ : ∃ c', c' = c.at_path (B_tree_node.retarget d F) path := ⟨_, rfl⟩
              rw [← hc'] at hs' hfl' ⊢
              have r' : B_tree_node.Rep B
                  { x with children := some (ch.set i (some c')) } ks (some (cl.set i c'))
                  x._shift := by
                refine ⟨r.keys_len, hn, r.n_le, r.keys_eq, rfl, ch.set i (some c'), rfl,
                  by simpa using hchl, ?_, by simpa using hlen⟩
                show (ch.set i (some c')).take (x.n + 1) = _
                apply List.ext_getElem?
                intro p
                rw [List.getElem?_map, List.getElem?_take]
                by_cases hp : p = i
                · subst hp
                  rw [if_pos hlive, List.getElem?_set_self hil,
                    List.getElem?_set_self (by omega)]
                  rfl
                · rw [List.getElem?_set_ne (Ne.symm hp), List.getElem?_set_ne (Ne.symm hp),
                    ← List.getElem?_map, ← htake, List.getElem?_take, hn]
              refine ⟨(shape_succ_iff B lo lo' h _).mpr ⟨ks, _, r', hlo, hc.1, ?_⟩, ?_⟩
              · intro c'' hc''
                rcases List.mem_or_eq_of_mem_set hc'' with hm | rfl
                · exact hc.2 c'' hm
                · exact hs'
              · have hset : (cl.set i c')[i]? = some c' := List.getElem?_set_self (by omega)
                rw [flat_inner r' h, flat_inner r h,
                  inorder_split _ (cl.set i c') ks i c' (by simpa using hlen) hset,
                  inorder_split _ cl ks i c hlen hcl, take_set_le _ _ _ _ (le_refl _),
                  List.drop_set_of_lt _ _ (Nat.lt_succ_self i), hfl']
            · have r' : B_tree_node.Rep B
                  { x with children := some (ch.set i (some
                    (c.at_path (B_tree_node.retarget d F) path))) } ks (some cl) x._shift := by
                refine ⟨r.keys_len, hn, r.n_le, r.keys_eq, rfl, _, rfl,
                  by simpa using hchl, ?_, hlen⟩
                show (ch.set i _).take (x.n + 1) = _
                rw [take_set_le _ _ _ _ (by omega), hn, htake]
              refine ⟨(shape_succ_iff B lo lo' h _).mpr ⟨ks, _, r', hlo, hc⟩, ?_⟩
              rw [flat_inner r' h, flat_inner r h]

theorem keys_ok_unique {l : List (key_t S)} (hk : keys_ok l = true) {a b : key_t S}
    (ha : a ∈ l) (hb : b ∈ l) (hv : a.value = b.value) : a = b := by
  have hp := ((keys_ok_iff l).mp hk).1
  rw [List.pairwise_map] at hp
  induction l with
  | nil => cases ha
  | cons c l ih =>
    rw [List.pairwise_cons] at hp
    have hkl : keys_ok l = true :=
      keys_ok_sublist (List.sublist_cons_self c l) hk
    rcases List.mem_cons.mp ha with rfl | ha'
    · rcases List.mem_cons.mp hb with rfl | hb'
      · rfl
      · have := hp.1 b hb'; omega
    · rcases List.mem_cons.mp hb with rfl | hb'
      · have := hp.1 a ha'; omega
      · exact ih hkl ha' hb' hp.2

/-- Two subtrees with the same sorted in-order list answer `search(v)` with references to the
same effective entry, or both with the null reference. -/
theorem search_same_flat (B h : Nat) (x y : B_tree_node S) (v : Int) (fuel : Nat)
    (hsx : x.shape B 1 1 h = true) (hsy : y.shape B 1 1 h = true)
    (hk : keys_ok (x.flat h) = true) (hxy : y.flat h = x.flat h) (hf : h ≤ fuel) :
    ∃ r r', x.search fuel v = .ok r ∧ y.search fuel v = .ok r' ∧
      r.key.map (fun p => (p.key.add r.shift).entry) =
        r'.key.map (fun p => (p.key.add r'.shift).entry) ∧
      (r.key.isSome = true ↔ ∃ e ∈ x.entries h, e.1 = v) := by
  obtain ⟨r, hr, hcase⟩ := search_node B h x v fuel hsx hk hf
  obtain ⟨r', hr', hcase'⟩ := search_node B h y v fuel hsy (by rw [hxy]; exact hk) hf
  refine ⟨r, r', hr, hr', ?_, ?_⟩
  · rcases hcase with ⟨p, hp, hval, hmem, -⟩ | ⟨hnone, hall⟩
    · rcases hcase' with ⟨p', hp', hval', hmem', -⟩ | ⟨hnone', hall'⟩
      · rw [hxy] at hmem'
        have := keys_ok_unique hk hmem hmem' (by
          show p.key.value + r.shift = p'.key.value + r'.shift
          omega)
        rw [hp, hp', Option.map_some', Option.map_some', this]
      · rw [hxy] at hall'
        exact absurd hval (hall' _ hmem)
    · rcases hcase' with ⟨p', hp', hval', hmem', -⟩ | ⟨hnone', hall'⟩
      · rw [hxy] at hmem'
        exact absurd hval' (hall _ hmem')
      · rw [hnone, hnone']
        rfl
  · constructor
    · intro hsome
      rcases hcase with ⟨p, hp, hval, hmem, -⟩ | ⟨hnone, -⟩
      · exact ⟨(p.key.add r.shift).entry, List.mem_map_of_mem _ hmem, hval⟩
      · rw [hnone] at hsome; cases hsome
    · rintro ⟨e, he, hev⟩
      rcases hcase with ⟨p, hp, -⟩ | ⟨-, hall⟩
      · rw [hp]; rfl
      · obtain ⟨k, hk', rfl⟩ := List.mem_map.mp he
        exact absurd hev (hall k hk')

end shift_transparency_lemmas

/-! ## Shift transparency -/

section shift_transparency_contract

variable {S : Type}

/-- C30: on a valid tree of height `h` (2 ≤ T, fuel above the height, `steps` covering the number
of entries), for every `delta` and every path of child indices, the tree in which `delta` was
added to the lazy shift of the node at the end of the path and subtracted from every stored key
of the subtree of that node (unchanged if the path leaves the tree) is valid and has the same
entry list; iteration yields that same list on both trees; `get_min()` and `get_max()` give the
same answers on both (values when the tree is non-empty); and `search(v)` returns on both, with
references that are both null or designate the same effective entry. -/
theorem retargeting_a_node_keeps_the_effective_entries (B T h : Nat) (t : B_tree S) (delta : Int)
    (path : List Nat) (v : Int) (fuel steps : Nat) (hT : 2 ≤ T) (hv : t.valid B T h = true)
    (hf : h + 1 ≤ fuel) (hsteps : (t.entries h).length ≤ steps) :
    (t.retarget_at delta h path).valid B T h = true ∧
    (t.retarget_at delta h path).entries h = t.entries h ∧
    t.iterate fuel steps = .ok (t.entries h) ∧
    (t.retarget_at delta h path).iterate fuel steps = .ok (t.entries h) ∧
    (t.retarget_at delta h path).get_min fuel = t.get_min fuel ∧
    (t.retarget_at delta h path).get_max fuel = t.get_max fuel ∧
    (t.is_empty = false → ∃ mn mx, t.get_min fuel = .ok mn ∧ t.get_max fuel = .ok mx) ∧
    ∃ r r', t.search fuel v = .ok r ∧ (t.retarget_at delta h path).search fuel v = .ok r' ∧
      r.key.map (fun p => (p.key.add r.shift).entry) =
        r'.key.map (fun p => (p.key.add r'.shift).entry) ∧
      (r.key.isSome = true ↔ ∃ e ∈ t.entries h, e.1 = v) := by
  cases t with
  | mk head =>
    cases head with
    | none =>
      refine ⟨hv, rfl, ?_, ?_, rfl, rfl, ?_, ⟨0, none⟩, ⟨0, none⟩, rfl, rfl, rfl, ?_⟩
      · cases steps <;> rfl
      · cases steps <;> rfl
      · intro hne; cases hne
      · simp [B_tree.entries]
    | some x =>
      have hvx : x.valid B T h = true := hv
      simp only [B_tree_node.valid, Bool.and_eq_true] at hvx
      obtain ⟨hs', hfl⟩ := at_path_spec B delta h path h x 1 (T - 1) hvx.1 (le_refl _)
      obtain ⟨y, hy⟩ : ∃ y, y = x.at_path (B_tree_node.retarget delta h) path := ⟨_, rfl⟩
      have ht : B_tree.retarget_at delta h path (⟨some x⟩ : B_tree S) = ⟨some y⟩ := by
        rw [hy]; rfl
      rw [← hy] at hs' hfl
      rw [ht]
      have hvy : y.valid B T h = true := by
        simp only [B_tree_node.valid, Bool.and_eq_true]
        exact ⟨hs', by rw [hfl]; exact hvx.2⟩
      obtain ⟨hsx, hkx⟩ := valid_shape_one hT (show x.valid B T h = true from hv)
      obtain ⟨hsy, hky⟩ := valid_shape_one hT hvy
      have hent : y.entries h = x.entries h := by
        simp only [B_tree_node.entries, hfl]
      obtain ⟨kmin, kmax, rest, init, h1, h2, hmin, hmax, -⟩ :=
        extremes_node B h x fuel hsx hkx (by omega)
      obtain ⟨kmin', kmax', rest', init', h1', h2', hmin', hmax', -⟩ :=
        extremes_node B h y fuel hsy hky (by omega)
      have emin : kmin' = kmin := by
        rw [hfl, h1] at h1'
        exact (List.cons.inj h1').1.symm
      have emax : kmax' = kmax := by
        rw [hfl, h2] at h2'
        exact (List.singleton_inj.mp (List.append_inj' h2' rfl).2).symm
      obtain ⟨r, r', hr, hr', hsame, hiff⟩ :=
        search_same_flat B h x y v fuel hsx hsy hkx hfl (by omega)
      refine ⟨hvy, hent, iterate_node B h x fuel steps hsx hkx hf hsteps, ?_, ?_, ?_,
        fun _ => ⟨_, _, hmin, hmax⟩, r, r', hr, hr', hsame, hiff⟩
      · have := iterate_node B h y fuel steps hsy hky hf (by rw [hent]; exact hsteps)
        rw [this, hent]
        rfl
      · show y.get_min fuel = x.get_min fuel
        rw [hmin, hmin', emin]
      · show y.get_max fuel = x.get_max fuel
        rw [hmax, hmax', emax]

/-- The C30 theorem applied to the sample tree, its right leaf (path [1], shift -5, stored keys
20, 21, 22) and delta = 7: the leaf gets the shift 2 and the stored keys 13, 14, 15. -/
theorem retargeting_a_node_keeps_the_effective_entries_witness :
    B_tree.sample.retarget_at 7 2 [1] =
      ⟨some (B_tree_node.of_lists 7 [⟨14, some [4]⟩]
        (some [B_tree_node.of_lists 7 [⟨-9, some [1]⟩, ⟨-8, some [2]⟩, ⟨-7, some [3]⟩] none 20,
          B_tree_node.of_lists 7 [⟨13, some [5]⟩, ⟨14, some [6]⟩, ⟨15, some [7]⟩] none 2]) 90)⟩ ∧
    ((B_tree.sample.retarget_at 7 2 [1]).valid 7 3 2 = true ∧
    (B_tree.sample.retarget_at 7 2 [1]).entries 2 = B_tree.sample.entries 2 ∧
    B_tree.sample.iterate 3 7 = .ok (B_tree.sample.entries 2) ∧
    (B_tree.sample.retarget_at 7 2 [1]).iterate 3 7 = .ok (B_tree.sample.entries 2) ∧
    (B_tree.sample.retarget_at 7 2 [1]).get_min 3 = B_tree.sample.get_min 3 ∧
    (B_tree.sample.retarget_at 7 2 [1]).get_max 3 = B_tree.sample.get_max 3 ∧
    (B_tree.sample.is_empty = false →
      ∃ mn mx, B_tree.sample.get_min 3 = .ok mn ∧ B_tree.sample.get_max 3 = .ok mx) ∧
    ∃ r r', B_tree.sample.search 3 106 = .ok r ∧
      (B_tree.sample.retarget_at 7 2 [1]).search 3 106 = .ok r' ∧
      r.key.map (fun p => (p.key.add r.shift).entry) =
        r'.key.map (fun p => (p.key.add r'.shift).entry) ∧
      (r.key.isSome = true ↔ ∃ e ∈ B_tree.sample.entries 2, e.1 = 106)) :=
  ⟨rfl, retargeting_a_node_keeps_the_effective_entries 7 3 2 B_tree.sample 7 [1] 106 3 7
    (by decide) rfl (le_refl _) (by decide)⟩

end shift_transparency_contract

/-! ## The key count of the root through the operations -/

section key_count_lemmas

variable {S : Type}

/-- A property holds of whatever a sequenced computation returns if it holds of whatever the
second part returns after any value returned by the first part. -/
theorem bind_sat {α β : Type} {m : Except Fault α} {f : α → Except Fault β} {P : β → Prop}
    (h : ∀ a, m = .ok a → ∀ r, f a = .ok r → P r) : ∀ r, (m >>= f) = .ok r → P r := by
  intro r hr
  cases m with
  | error e => cases hr
  | ok a => exact h a rfl r hr

theorem pure_sat {α : Type} {a : α} {P : α → Prop} (h : P a) :
    ∀ r, (pure a : Except Fault α) = .ok r → P r := by
  intro r hr
  cases hr
  exact h

theorem set_key_at_n {x x' : B_tree_node S} {i : Nat} {k : key_t S}
    (h : x.set_key_at i k = .ok x') : x'.n = x.n ∧ x'.is_leaf = x.is_leaf := by
  revert h
  rw [B_tree_node.set_key_at]
  refine bind_sat (P := fun r => r.n = x.n ∧ r.is_leaf = x.is_leaf) (fun ks _ => ?_) x'
  exact pure_sat ⟨rfl, rfl⟩

theorem set_child_at_n {x x' : B_tree_node S} {i : Nat} {c : Option (B_tree_node S)}
    (h : x.set_child_at i c = .ok x') : x'.n = x.n ∧ x'.is_leaf = x.is_leaf := by
  revert h
  rw [B_tree_node.set_child_at]
  refine bind_sat (P := fun r => r.n = x.n ∧ r.is_leaf = x.is_leaf)
    (fun ch hch => bind_sat fun ch' _ => ?_) x'
  refine pure_sat ⟨rfl, ?_⟩
  cases hx : x.children with
  | none => rw [hx] at hch; cases hch
  | some c0 => simp [B_tree_node.is_leaf, hx]

theorem shift_left_loop_n : ∀ (cnt j : Nat) (x x' : B_tree_node S),
    shift_left_loop cnt j x = .ok x' → x'.n = x.n := by
  intro cnt
  induction cnt with
  | zero => intro j x x' h; cases h; rfl
  | succ cnt ih =>
    intro j x x'
    rw [shift_left_loop]
    refine bind_sat (P := fun r => r.n = x.n) (fun k _ => bind_sat fun x1 h1 =>
      bind_sat fun x2 h2 => ?_) x'
    intro r hr
    have e1 := (set_key_at_n h1).1
    have e2 : x2.n = x1.n := by
      split at h2
      · cases h2; rfl
      · exact bind_sat (P := fun r => r.n = x1.n) (fun c _ r hr => (set_child_at_n hr).1) x2 h2
    rw [ih _ _ _ hr, e2, e1]

theorem shift_left_n {x x' : B_tree_node S} {pos : Nat} (h : x.shift_left pos = .ok x') :
    x'.n + 1 = x.n := by
  revert h
  rw [B_tree_node.shift_left]
  refine bind_sat (P := fun r => r.n + 1 = x.n) (fun x1 h1 => bind_sat fun x2 h2 =>
    bind_sat fun m hm => bind_sat fun x3 h3 => pure_sat ?_) x'
  have e1 := shift_left_loop_n _ _ _ _ h1
  have e2 : x2.n = x1.n := by
    split at h2
    · cases h2; rfl
    · exact bind_sat (P := fun r => r.n = x1.n) (fun m _ => bind_sat fun c _ =>
        bind_sat fun x3 h3 r hr => by rw [(set_child_at_n hr).1, (set_child_at_n h3).1]) x2 h2
  simp only [usub] at hm
  split at hm
  · cases hm
    show x2.n - 1 + 1 = x.n
    omega
  · cases hm

theorem shift_right_loop_n (offset : Nat) : ∀ (cnt j : Nat) (x x' : B_tree_node S),
    shift_right_loop offset cnt j x = .ok x' → x'.n = x.n := by
  intro cnt
  induction cnt with
  | zero => intro j x x' h; cases h; rfl
  | succ cnt ih =>
    intro j x x'
    rw [shift_right_loop]
    refine bind_sat (P := fun r => r.n = x.n) (fun src _ => bind_sat fun k _ =>
      bind_sat fun x1 h1 => bind_sat fun x2 h2 => ?_) x'
    intro r hr
    have e1 := (set_key_at_n h1).1
    have e2 : x2.n = x1.n := by
      split at h2
      · cases h2; rfl
      · exact bind_sat (P := fun r => r.n = x1.n) (fun c _ r hr => (set_child_at_n hr).1) x2 h2
    rw [ih _ _ _ hr, e2, e1]

theorem shift_right_clear_n : ∀ (cnt j : Nat) (x x' : B_tree_node S),
    shift_right_clear cnt j x = .ok x' → x'.n = x.n := by
  intro cnt
  induction cnt with
  | zero => intro j x x' h; cases h; rfl
  | succ cnt ih =>
    intro j x x'
    rw [shift_right_clear]
    refine bind_sat (P := fun r => r.n = x.n) (fun x1 h1 => bind_sat fun x2 h2 => ?_) x'
    intro r hr
    have e1 := (set_key_at_n h1).1
    have e2 : x2.n = x1.n := by
      split at h2
      · cases h2; rfl
      · exact (set_child_at_n h2).1
    rw [ih _ _ _ hr, e2, e1]

theorem shift_right_n {x x' : B_tree_node S} {pos offset : Nat}
    (h : x.shift_right pos offset = .ok x') : x'.n = x.n + offset := by
  revert h
  rw [B_tree_node.shift_right]
  refine bind_sat (P := fun r => r.n = x.n + offset) (fun x1 h1 => bind_sat fun x2 h2 =>
    bind_sat fun x3 h3 => pure_sat ?_) x'
  have e1 : x1.n = x.n := by
    split at h1
    · cases h1; rfl
    · exact bind_sat (P := fun r => r.n = x.n) (fun c _ r hr => (set_child_at_n hr).1) x1 h1
  have e2 := shift_right_loop_n _ _ _ _ _ h2
  have e3 := shift_right_clear_n _ _ _ _ h3
  show x3.n + offset = x.n + offset
  omega

end key_count_lemmas

/-! ## The array sizes through the operations -/

section array_size_lemmas

variable {S : Type}

end array_size_lemmas

/-! ## Contract of is_empty -/

section is_empty_contract

variable {S : Type}

end is_empty_contract

/-! ## Well-formed subtrees -/

section well_formed_lemmas

variable {S : Type}

theorem wf_zero (B : Nat) (x : B_tree_node S) : x.wf B 0 = false := by
  simp [B_tree_node.wf]

theorem wf_succ_iff (B d : Nat) (x : B_tree_node S) :
    x.wf B (d + 1) = true ↔
      ∃ ks cs, B_tree_node.Rep B x ks cs x._shift ∧
        (match cs with
          | none => True
          | some cl => ∀ c ∈ cl, c.wf B d = true) := by
  constructor
  · intro hs
    simp only [B_tree_node.wf, Bool.and_eq_true, beq_iff_eq, decide_eq_true_eq] at hs
    obtain ⟨⟨h1, h3⟩, h4⟩ := hs
    cases hch : x.children with
    | none =>
      exact ⟨x.keys.take x.n, none, ⟨h1, by simp; omega, by simp; omega, rfl, rfl, hch⟩, trivial⟩
    | some ch =>
      rw [hch] at h4
      simp only [Bool.and_eq_true, beq_iff_eq] at h4
      obtain ⟨h6, h7⟩ := h4
      obtain ⟨cl, h8, h9⟩ := (all_some_iff _ _).mp h7
      have hlen : cl.length = x.n + 1 := by
        have := congrArg List.length h8
        simp at this; omega
      exact ⟨x.keys.take x.n, some cl,
        ⟨h1, by simp; omega, by simp; omega, rfl, rfl, ⟨ch, hch, h6, h8, by simp; omega⟩⟩, h9⟩
  · rintro ⟨ks, cs, r, hc⟩
    simp only [B_tree_node.wf, Bool.and_eq_true, beq_iff_eq, decide_eq_true_eq]
    refine ⟨⟨r.keys_len, by rw [r.n_eq]; exact r.n_le⟩, ?_⟩
    cases cs with
    | none =>
      have := r.children_none
      rw [this]
    | some cl =>
      obtain ⟨ch, h1, h2, h3, h4⟩ := r.ch
      rw [h1]
      simp only [Bool.and_eq_true, beq_iff_eq]
      exact ⟨h2, (all_some_iff _ _).mpr ⟨cl, h3, hc⟩⟩

theorem wf_mono (B : Nat) : ∀ (d d' : Nat) (x : B_tree_node S),
    x.wf B d = true → d ≤ d' → x.wf B d' = true := by
  intro d
  induction d with
  | zero => intro d' x hs; simp [wf_zero] at hs
  | succ d ih =>
    intro d' x hs hd
    obtain ⟨e, rfl⟩ : ∃ e, d' = e + 1 := ⟨d' - 1, by omega⟩
    obtain ⟨ks, cs, r, hc⟩ := (wf_succ_iff B d x).mp hs
    refine (wf_succ_iff B e x).mpr ⟨ks, cs, r, ?_⟩
    cases cs with
    | none => trivial
    | some cl => exact fun c hcm => ih e c (hc c hcm) (by omega)

theorem flat_fuel_wf (B : Nat) : ∀ (d : Nat) (x : B_tree_node S) (f : Nat),
    x.wf B d = true → d ≤ f → x.flat f = x.flat d := by
  intro d
  induction d with
  | zero => intro x f hs; simp [wf_zero] at hs
  | succ d ih =>
    intro x f hs hf
    obtain ⟨f, rfl⟩ : ∃ f', f = f' + 1 := ⟨f - 1, by omega⟩
    obtain ⟨ks, cs, r, hc⟩ := (wf_succ_iff B d x).mp hs
    cases cs with
    | none => rw [flat_leaf r, flat_leaf r]
    | some cl =>
      rw [flat_inner r, flat_inner r]
      congr 1
      apply inorder_congr
      intro c hc'
      have : c ∈ cl := by simpa using hc'
      exact ih c f (hc c this) (by omega)

theorem shape_wf (B : Nat) : ∀ (h lo lo' : Nat) (x : B_tree_node S),
    x.shape B lo lo' h = true → x.wf B h = true := by
  intro h
  induction h with
  | zero => intro lo lo' x hs; simp [shape_zero] at hs
  | succ h ih =>
    intro lo lo' x hs
    obtain ⟨ks, cs, r, -, hc⟩ := (shape_succ_iff B lo lo' h x).mp hs
    refine (wf_succ_iff B h x).mpr ⟨ks, cs, r, ?_⟩
    cases cs with
    | none => trivial
    | some cl => exact fun c hcm => ih lo' lo' c (hc.2 c hcm)

/-- The fuel of `flat` may be any bound of the depth. -/
theorem flat_wf_eq (B : Nat) (d f g : Nat) (x : B_tree_node S) (h : x.wf B d = true)
    (hf : d ≤ f) (hg : d ≤ g) : x.flat f = x.flat g := by
  rw [flat_fuel_wf B d x f h hf, flat_fuel_wf B d x g h hg]

end well_formed_lemmas

/-! ## The loop of shift_left -/

section shift_left_lemmas

variable {S : Type}

theorem getElem?_set_if {α : Type} (l : List α) (i p : Nat) (v : α) (hi : i < l.length) :
    (l.set i v)[p]? = if p = i then some v else l[p]? := by
  rw [List.getElem?_set]
  by_cases h : i = p
  · subst h; simp [hi]
  · rw [if_neg h, if_neg (fun e => h e.symm)]

/-- One step of a loop that moves the slots above `j` down by one. -/
theorem shl_step {α : Type} (K K' : List α) (j cnt : Nat) (a : α) (ha : K[j + 1]? = some a)
    (hj : j < K.length)
    (e : ∀ p, K'[p]? = if j + 1 ≤ p ∧ p < j + 1 + cnt then (K.set j a)[p + 1]?
      else (K.set j a)[p]?) :
    ∀ p, K'[p]? = if j ≤ p ∧ p < j + (cnt + 1) then K[p + 1]? else K[p]? := by
  intro p
  rw [e p, getElem?_set_if _ _ _ _ hj, getElem?_set_if _ _ _ _ hj]
  split_ifs <;> first | rfl | (exfalso; omega) | (subst_vars; exact ha.symm)

/-- The loop of `shift_left` on a leaf. -/
theorem shift_left_loop_leaf (B : Nat) :
    ∀ (cnt j : Nat) (x : B_tree_node S), j + cnt + 1 ≤ B → x.keys.length = B →
      x.children = none →
      ∃ x', shift_left_loop cnt j x = .ok x' ∧ x'.n = x.n ∧ x'._shift = x._shift ∧
        x'.keys.length = B ∧ x'.children = none ∧
        ∀ p, x'.keys[p]? = if j ≤ p ∧ p < j + cnt then x.keys[p + 1]? else x.keys[p]? := by
  intro cnt
  induction cnt with
  | zero =>
    intro j x _ h1 h2
    exact ⟨x, rfl, rfl, rfl, h1, h2, fun p => (if_neg (by omega)).symm⟩
  | succ cnt ih =>
    intro j x hB h1 h2
    obtain ⟨a, ha⟩ := getElem?_some_of_lt (a := x.keys) (i := j + 1) (by omega)
    have hl1 : j < x.keys.length := by omega
    have hleaf : B_tree_node.is_leaf { x with keys := x.keys.set j a } = true := by
      simp [B_tree_node.is_leaf, h2]
    obtain ⟨x', e, e1, e2, e3, e4, e5⟩ :=
      ih (j + 1) { x with keys := x.keys.set j a } (by omega) (by simp [h1]) h2
    refine ⟨x', ?_, e1, e2, e3, e4, shl_step _ _ j cnt a ha hl1 e5⟩
    simp only [shift_left_loop, rd_ok ha, set_key_at_ok a hl1, bind, Except.bind, hleaf,
      if_true, pure, Except.pure]
    exact e

/-- The loop of `shift_left` on an internal node. -/
theorem shift_left_loop_inner (B : Nat) :
    ∀ (cnt j : Nat) (x : B_tree_node S) (ch : List (Option (B_tree_node S))),
      j + cnt + 1 ≤ B → x.keys.length = B → x.children = some ch → ch.length = B + 1 →
      ∃ x' ch', shift_left_loop cnt j x = .ok x' ∧ x'.n = x.n ∧ x'._shift = x._shift ∧
        x'.keys.length = B ∧ x'.children = some ch' ∧ ch'.length = B + 1 ∧
        (∀ p, x'.keys[p]? = if j ≤ p ∧ p < j + cnt then x.keys[p + 1]? else x.keys[p]?) ∧
        (∀ p, ch'[p]? = if j ≤ p ∧ p < j + cnt then ch[p + 1]? else ch[p]?) := by
  intro cnt
  induction cnt with
  | zero =>
    intro j x ch _ h1 h2 h3
    exact ⟨x, ch, rfl, rfl, rfl, h1, h2, h3, fun p => (if_neg (by omega)).symm,
      fun p => (if_neg (by omega)).symm⟩
  | succ cnt ih =>
    intro j x ch hB h1 h2 h3
    obtain ⟨a, ha⟩ := getElem?_some_of_lt (a := x.keys) (i := j + 1) (by omega)
    obtain ⟨c, hc⟩ := getElem?_some_of_lt (a := ch) (i := j + 1) (by omega)
    have hl1 : j < x.keys.length := by omega
    have hl2 : j < ch.length := by omega
    have hleaf : B_tree_node.is_leaf { x with keys := x.keys.set j a } = false := by
      simp [B_tree_node.is_leaf, h2]
    obtain ⟨x', ch', e, e1, e2, e3, e4, e5, e6, e7⟩ :=
      ih (j + 1) { x with keys := x.keys.set j a, children := some (ch.set j c) } (ch.set j c)
        (by omega) (by simp [h1]) rfl (by simp [h3])
    refine ⟨x', ch', ?_, e1, e2, e3, e4, e5, shl_step _ _ j cnt a ha hl1 e6,
      shl_step _ _ j cnt c hc hl2 e7⟩
    have s1 := set_child_at_ok (x := { x with keys := x.keys.set j a }) c h2 hl2
    have s2 := child_at_ok (x := { x with keys := x.keys.set j a }) h2 hc
    simp only [shift_left_loop, rd_ok ha, set_key_at_ok a hl1, bind, Except.bind, hleaf,
      Bool.false_eq_true, if_false, s1, s2]
    exact e

/-- A leaf described slot by slot. -/
theorem rep_of_leaf {B : Nat} {x : B_tree_node S} {ks : List (key_t S)} {s : Int}
    (h1 : x.keys.length = B) (h2 : x.n = ks.length) (h3 : ks.length ≤ B)
    (h4 : ∀ p, p < ks.length → x.keys[p]? = ks[p]?) (h5 : x._shift = s)
    (h6 : x.children = none) : B_tree_node.Rep B x ks none s :=
  ⟨h1, h2, h3, by rw [h2]; exact take_eq_of_getElem? _ _ _ rfl h4, h5, h6⟩

/-- An internal node described slot by slot. -/
theorem rep_of_inner {B : Nat} {x : B_tree_node S} {ks : List (key_t S)}
    {cl : List (B_tree_node S)} {s : Int} {C : List (Option (B_tree_node S))}
    (h1 : x.keys.length = B) (h2 : x.n = ks.length) (h3 : ks.length ≤ B)
    (h4 : ∀ p, p < ks.length → x.keys[p]? = ks[p]?) (h5 : x._shift = s)
    (h6 : x.children = some C) (h7 : C.length = B + 1) (h8 : cl.length = ks.length + 1)
    (h9 : ∀ p, p < cl.length → C[p]? = (cl.map some)[p]?) :
    B_tree_node.Rep B x ks (some cl) s :=
  ⟨h1, h2, h3, by rw [h2]; exact take_eq_of_getElem? _ _ _ rfl h4, h5,
    ⟨C, h6, h7, by rw [h2, ← h8]; exact take_eq_of_getElem? _ _ _ (by simp) h9, h8⟩⟩

/-- The slots of the child array of an internal node. -/
theorem B_tree_node.Rep.ch_get {B : Nat} {x : B_tree_node S} {ks cl s}
    (r : B_tree_node.Rep B x ks (some cl) s) {ch} (hch : x.children = some ch)
    {p : Nat} (hp : p < cl.length) : ch[p]? = (cl.map some)[p]? := by
  obtain ⟨c, hc⟩ := getElem?_some_of_lt hp
  rw [r.child_get hch hc, List.getElem?_map, hc]
  rfl

/-- The effect of `shift_left` on a leaf. -/
theorem shift_left_leaf {B : Nat} {x : B_tree_node S} {ks s}
    (r : B_tree_node.Rep B x ks none s) {pos : Nat} (hpos : pos < ks.length) :
    ∃ x', x.shift_left pos = .ok x' ∧ B_tree_node.Rep B x' (ks.eraseIdx pos) none s := by
  have hn := r.n_eq
  have hle := r.n_le
  obtain ⟨x1, e, e1, e2, e3, e4, e5⟩ := shift_left_loop_leaf B (x.n - 1 - pos) pos x
    (by omega) r.keys_len r.children_none
  have hleaf : x1.is_leaf = true := by simp [B_tree_node.is_leaf, e4]
  have hl : x1.n - 1 < x1.keys.length := by omega
  refine ⟨{ x1 with keys := x1.keys.set (x1.n - 1) key_t.empty, n := x1.n - 1 }, ?_, ?_⟩
  · simp only [B_tree_node.shift_left, e, bind, Except.bind, hleaf, if_true, pure, Except.pure,
      usub_ok (show 1 ≤ x1.n by omega), set_key_at_ok key_t.empty hl]
  · have hlen : (ks.eraseIdx pos).length = ks.length - 1 := List.length_eraseIdx_of_lt hpos
    refine rep_of_leaf (by simp [e3]) (by simp [hlen]; omega) (by omega) ?_ (by simp [e2, r.shift_eq])
      (by simp [e4])
    intro p hp
    simp only
    rw [getElem?_set_if _ _ _ _ hl, if_neg (by omega), e5 p, List.getElem?_eraseIdx]
    split_ifs <;> first
      | (exfalso; omega)
      | (exact r.key_get (by omega))

/-- The effect of `shift_left` on an internal node: key `pos` and child `pos` leave. -/
theorem shift_left_inner {B : Nat} {x : B_tree_node S} {ks cl s}
    (r : B_tree_node.Rep B x ks (some cl) s) {pos : Nat} (hpos : pos < ks.length) :
    ∃ x', x.shift_left pos = .ok x' ∧
      B_tree_node.Rep B x' (ks.eraseIdx pos) (some (cl.eraseIdx pos)) s := by
  have hn := r.n_eq
  have hle := r.n_le
  obtain ⟨ch, hch, hchl, -, hcll⟩ := r.children_some
  obtain ⟨x1, ch1, e, e1, e2, e3, e4, e5, e6, e7⟩ := shift_left_loop_inner B (x.n - 1 - pos) pos x ch
    (by omega) r.keys_len hch hchl
  have hleaf : x1.is_leaf = false := by simp [B_tree_node.is_leaf, e4]
  have hl : x1.n - 1 < x1.keys.length := by omega
  obtain ⟨c, hc⟩ := getElem?_some_of_lt (a := ch1) (i := x1.n) (by omega)
  have s1 := child_at_ok e4 hc
  have s2 := set_child_at_ok (x := x1) c e4 (show x1.n - 1 < ch1.length by omega)
  have s3 := set_child_at_ok (x := { x1 with children := some (ch1.set (x1.n - 1) c) }) none rfl
    (show x1.n < (ch1.set (x1.n - 1) c).length by simp; omega)
  have hl' : x1.n - 1 <
      ({ x1 with children := some ((ch1.set (x1.n - 1) c).set x1.n none) } : B_tree_node S).keys.length := hl
  refine ⟨{ keys := x1.keys.set (x1.n - 1) key_t.empty,
            children := some ((ch1.set (x1.n - 1) c).set x1.n none),
            n := x1.n - 1, _shift := x1._shift }, ?_, ?_⟩
  · simp only [B_tree_node.shift_left, e, bind, Except.bind, hleaf, Bool.false_eq_true, if_false,
      pure, Except.pure, usub_ok (show 1 ≤ x1.n by omega), s1, s2, s3, set_key_at_ok key_t.empty hl']
  · have hlen : (ks.eraseIdx pos).length = ks.length - 1 := List.length_eraseIdx_of_lt hpos
    have hlen2 : (cl.eraseIdx pos).length = cl.length - 1 :=
      List.length_eraseIdx_of_lt (by omega)
    refine rep_of_inner (by simp [e3]) (by simp [hlen]; omega) (by omega) ?_
      (by simp [e2, r.shift_eq]) rfl (by simp [e5]) (by omega) ?_
    · intro p hp
      simp only
      rw [getElem?_set_if _ _ _ _ hl, if_neg (by omega), e6 p, List.getElem?_eraseIdx]
      split_ifs <;> first
        | (exfalso; omega)
        | (exact r.key_get (by omega))
    · intro p hp
      have hcn : some c = ch[x.n]? := by rw [← hc, e7, if_neg (by omega), e1]
      rw [getElem?_set_if _ _ _ _ (by simp; omega), if_neg (by omega),
        getElem?_set_if _ _ _ _ (by omega), List.getElem?_map, List.getElem?_eraseIdx, e7 p]
      split_ifs <;> first
        | (exfalso; omega)
        | (rw [r.ch_get hch (by omega), List.getElem?_map])
        | (subst_vars; rw [hcn, e1, r.ch_get hch (by omega), List.getElem?_map]; congr 2; omega)

end shift_left_lemmas

/-! ## The loops of merge_children -/

section merge_loop_lemmas

variable {S : Type}

/-- One step of a loop that copies slots of `R` (through `f`) into `K` from index `m + i` on. -/
theorem blit_step {α β : Type} (K K' : List α) (R R1 : List β) (f : β → α) (m i cnt : Nat)
    (b : β) (hb : R[i]? = some b) (hd : m + i < K.length)
    (hR1 : ∀ q, q ≠ i → R1[q]? = R[q]?)
    (e : ∀ p, K'[p]? = if m + (i + 1) ≤ p ∧ p < m + (i + 1) + cnt then (R1[p - m]?).map f
      else (K.set (m + i) (f b))[p]?) :
    ∀ p, K'[p]? = if m + i ≤ p ∧ p < m + i + (cnt + 1) then (R[p - m]?).map f else K[p]? := by
  intro p
  rw [e p, getElem?_set_if _ _ _ _ hd]
  split_ifs <;> first
    | rfl
    | (exfalso; omega)
    | (rw [hR1 _ (by omega)])
    | (subst_vars; rw [show m + i - m = i by omega, hb]; rfl)

/-- One step on the array whose slot `i` is overwritten. -/
theorem junk_step {β : Type} (R R' : List β) (i cnt : Nat) (a : β) (hi : i < R.length)
    (e : ∀ q, q < i + 1 ∨ i + 1 + cnt ≤ q → R'[q]? = (R.set i a)[q]?) :
    ∀ q, q < i ∨ i + (cnt + 1) ≤ q → R'[q]? = R[q]? := by
  intro q hq
  rw [e q (by omega), getElem?_set_if _ _ _ _ hi, if_neg (by omega)]

/-- The loop of `merge_children` on leaves. -/
theorem merge_children_move_leaf (mp B : Nat) :
    ∀ (cnt i : Nat) (lhs rhs : B_tree_node S), mp + 1 + i + cnt ≤ B →
      lhs.keys.length = B → rhs.keys.length = B → lhs.children = none →
      ∃ lhs' rhs', merge_children_move mp cnt i lhs rhs = .ok (lhs', rhs') ∧
        lhs'.n = lhs.n ∧ lhs'._shift = lhs._shift ∧ rhs'.n = rhs.n ∧ rhs'._shift = rhs._shift ∧
        lhs'.children = none ∧ rhs'.children = rhs.children ∧
        lhs'.keys.length = B ∧ rhs'.keys.length = B ∧
        (∀ p, lhs'.keys[p]? = if mp + 1 + i ≤ p ∧ p < mp + 1 + i + cnt then
            (rhs.keys[p - (mp + 1)]?).map
              (fun b => { b with value := b.value + rhs._shift - lhs._shift })
          else lhs.keys[p]?) := by
  intro cnt
  induction cnt with
  | zero =>
    intro i lhs rhs _ h1 h2 h3
    exact ⟨lhs, rhs, rfl, rfl, rfl, rfl, rfl, h3, rfl, h1, h2, fun p => (if_neg (by omega)).symm⟩
  | succ cnt ih =>
    intro i lhs rhs hB h1 h2 h3
    obtain ⟨a, ha⟩ := getElem?_some_of_lt (a := lhs.keys) (i := mp + i + 1) (by omega)
    obtain ⟨b, hb⟩ := getElem?_some_of_lt (a := rhs.keys) (i := i) (by omega)
    have hleaf : lhs.is_leaf = true := by simp [B_tree_node.is_leaf, h3]
    have hl1 : mp + i + 1 < lhs.keys.length := by omega
    have hl2 : i < rhs.keys.length := by omega
    obtain ⟨kb, hkb⟩ : ∃ kb : key_t S,
      kb = { b with value := b.value + rhs._shift - lhs._shift } := ⟨_, rfl⟩
    have hleaf' : B_tree_node.is_leaf { lhs with keys := lhs.keys.set (mp + i + 1) kb } = true :=
      hleaf
    obtain ⟨lhs', rhs', e, e1, e2, e3, e4, e5, e6, e7, e8, e9⟩ :=
      ih (i + 1) { lhs with keys := lhs.keys.set (mp + i + 1) kb }
        { rhs with keys := rhs.keys.set i a }
        (by omega) (by simp [h1]) (by simp [h2]) h3
    refine ⟨lhs', rhs', ?_, e1, e2, e3, e4, e5, e6, e7, e8, ?_⟩
    · simp only [merge_children_move, hleaf, if_true, pure, Except.pure, bind, Except.bind,
        rd_ok ha, rd_ok hb, set_key_at_ok _ hl1, set_key_at_ok a hl2, ← hkb, hleaf']
      exact e
    · have := blit_step lhs.keys lhs'.keys rhs.keys (rhs.keys.set i a)
        (fun b => { b with value := b.value + rhs._shift - lhs._shift }) (mp + 1) i cnt b hb
        (by omega) (fun q hq => by rw [getElem?_set_if _ _ _ _ hl2, if_neg hq])
        (fun p => by rw [e9 p, hkb]; simp only [show mp + 1 + i = mp + i + 1 by omega])
      exact this

/-- The loop of `merge_children` on internal nodes. -/
theorem merge_children_move_inner (mp B : Nat) :
    ∀ (cnt i : Nat) (lhs rhs : B_tree_node S) (lch rch : List (Option (B_tree_node S))),
      mp + 1 + i + cnt ≤ B →
      lhs.keys.length = B → rhs.keys.length = B →
      lhs.children = some lch → rhs.children = some rch →
      lch.length = B + 1 → rch.length = B + 1 →
      (∀ q, i ≤ q → q < i + cnt → ∃ c, rch[q]? = some (some c)) →
      ∃ lhs' rhs' lch' rch', merge_children_move mp cnt i lhs rhs = .ok (lhs', rhs') ∧
        lhs'.n = lhs.n ∧ lhs'._shift = lhs._shift ∧ rhs'.n = rhs.n ∧ rhs'._shift = rhs._shift ∧
        lhs'.children = some lch' ∧ rhs'.children = some rch' ∧
        lch'.length = B + 1 ∧ rch'.length = B + 1 ∧
        lhs'.keys.length = B ∧ rhs'.keys.length = B ∧
        (∀ p, lhs'.keys[p]? = if mp + 1 + i ≤ p ∧ p < mp + 1 + i + cnt then
            (rhs.keys[p - (mp + 1)]?).map
              (fun b => { b with value := b.value + rhs._shift - lhs._shift })
          else lhs.keys[p]?) ∧
        (∀ p, lch'[p]? = if mp + 1 + i ≤ p ∧ p < mp + 1 + i + cnt then
            (rch[p - (mp + 1)]?).map
              (Option.map fun c => { c with _shift := c._shift + rhs._shift - lhs._shift })
          else lch[p]?) ∧
        (∀ q, q < i ∨ i + cnt ≤ q → rch'[q]? = rch[q]?) := by
  intro cnt
  induction cnt with
  | zero =>
    intro i lhs rhs lch rch _ h1 h2 h3 h4 h5 h6 _
    exact ⟨lhs, rhs, lch, rch, rfl, rfl, rfl, rfl, rfl, h3, h4, h5, h6, h1, h2,
      fun p => (if_neg (by omega)).symm, fun p => (if_neg (by omega)).symm, fun _ _ => rfl⟩
  | succ cnt ih =>
    intro i lhs rhs lch rch hB h1 h2 h3 h4 h5 h6 hnn
    obtain ⟨a, ha⟩ := getElem?_some_of_lt (a := lhs.keys) (i := mp + i + 1) (by omega)
    obtain ⟨b, hb⟩ := getElem?_some_of_lt (a := rhs.keys) (i := i) (by omega)
    obtain ⟨ca, hca⟩ := getElem?_some_of_lt (a := lch) (i := mp + i + 1) (by omega)
    obtain ⟨cb, hcb⟩ := hnn i (le_refl _) (by omega)
    have hleaf : lhs.is_leaf = false := by simp [B_tree_node.is_leaf, h3]
    have hl1 : mp + i + 1 < lhs.keys.length := by omega
    have hl2 : i < rhs.keys.length := by omega
    have hl3 : mp + i + 1 < lch.length := by omega
    have hl4 : i < rch.length := by omega
    obtain ⟨kb, hkb⟩ : ∃ kb : key_t S,
      kb = { b with value := b.value + rhs._shift - lhs._shift } := ⟨_, rfl⟩
    obtain ⟨gb, hgb⟩ : ∃ gb : B_tree_node S,
      gb = { cb with _shift := cb._shift + rhs._shift - lhs._shift } := ⟨_, rfl⟩
    obtain ⟨lhs', rhs', lch', rch', e, e1, e2, e3, e4, e5, e6, e7, e8, e9, e10, e11, e12, e13⟩ :=
      ih (i + 1)
        { lhs with keys := lhs.keys.set (mp + i + 1) kb,
                   children := some (lch.set (mp + i + 1) (some gb)) }
        { rhs with keys := rhs.keys.set i a, children := some (rch.set i ca) }
        (lch.set (mp + i + 1) (some gb)) (rch.set i ca)
        (by omega) (by simp [h1]) (by simp [h2]) rfl rfl (by simp [h5]) (by simp [h6])
        (fun q hq hq' => by
          obtain ⟨c, hc⟩ := hnn q (by omega) (by omega)
          exact ⟨c, by rw [getElem?_set_if _ _ _ _ hl4, if_neg (by omega), hc]⟩)
    refine ⟨lhs', rhs', lch', rch', ?_, e1, e2, e3, e4, e5, e6, e7, e8, e9, e10, ?_, ?_, ?_⟩
    · have s1 := set_child_at_ok (x := lhs) (some cb) h3 hl3
      have s2 := set_child_at_ok (x := rhs) ca h4 hl4
      have s3 := set_key_at_ok
        (x := { lhs with children := some (lch.set (mp + i + 1) (some cb)) }) kb hl1
      have s4 := set_key_at_ok (x := { rhs with children := some (rch.set i ca) }) a hl2
      have s5 := child_at_ok
        (x := { lhs with keys := lhs.keys.set (mp + i + 1) kb,
                         children := some (lch.set (mp + i + 1) (some cb)) })
        (c := some cb) rfl (by rw [getElem?_set_if _ _ _ _ hl3, if_pos rfl])
      have s6 := set_child_at_ok
        (x := { lhs with keys := lhs.keys.set (mp + i + 1) kb,
                         children := some (lch.set (mp + i + 1) (some cb)) })
        (some gb) rfl (show mp + i + 1 < (lch.set (mp + i + 1) (some cb)).length by simpa using hl3)
      have hleaf' : B_tree_node.is_leaf
          { lhs with keys := lhs.keys.set (mp + i + 1) kb,
                     children := some (lch.set (mp + i + 1) (some cb)) } = false := rfl
      simp only [merge_children_move, hleaf, pure, Except.pure, bind, Except.bind,
        child_at_ok h3 hca, child_at_ok h4 hcb, s1, s2, Bool.false_eq_true, if_false,
        rd_ok ha, rd_ok hb, ← hkb, s3, s4, hleaf', s5, rebase_child, deref, ← hgb, s6,
        List.set_set]
      exact e
    · exact blit_step lhs.keys lhs'.keys rhs.keys (rhs.keys.set i a)
        (fun b => { b with value := b.value + rhs._shift - lhs._shift }) (mp + 1) i cnt b hb
        (by omega) (fun q hq => by rw [getElem?_set_if _ _ _ _ hl2, if_neg hq])
        (fun p => by rw [e11 p, hkb]; simp only [show mp + 1 + i = mp + i + 1 by omega])
    · exact blit_step lch lch' rch (rch.set i ca)
        (Option.map fun c => { c with _shift := c._shift + rhs._shift - lhs._shift })
        (mp + 1) i cnt (some cb) hcb
        (by omega) (fun q hq => by rw [getElem?_set_if _ _ _ _ hl4, if_neg hq])
        (fun p => by
          rw [e12 p, hgb]; simp only [show mp + 1 + i = mp + i + 1 by omega, Option.map_some'])
    · exact junk_step rch rch' i cnt ca hl4 e13


theorem key_rebase_eq (b : key_t S) (a c : Int) :
    ({ b with value := b.value + a - c } : key_t S) = b.add (a - c) := by
  simp only [key_t.add]
  congr 1
  omega

theorem key_sub_eq (b : key_t S) (c : Int) :
    ({ b with value := b.value - c } : key_t S) = b.add (-c) := by
  simp only [key_t.add]
  congr 1

theorem node_rebase_eq (x : B_tree_node S) (a c : Int) :
    ({ x with _shift := x._shift + a - c } : B_tree_node S) = x.shift (a - c) := by
  simp only [B_tree_node.shift]
  congr 1
  omega

theorem getElem?_append_cons {α : Type} (a b : List α) (x : α) (p : Nat) :
    (a ++ x :: b)[p]? =
      if p < a.length then a[p]? else if p = a.length then some x else b[p - a.length - 1]? := by
  rw [List.getElem?_append]
  split_ifs with h1 h2
  · rfl
  · subst h2; simp
  · obtain ⟨d, hd⟩ : ∃ d, p - a.length = d + 1 := ⟨p - a.length - 1, by omega⟩
    rw [hd, List.getElem?_cons_succ]
    congr 1

/-- The node description does not depend on the stored shift. -/
theorem rep_with_shift {B : Nat} {x : B_tree_node S} {ks cs s} (r : B_tree_node.Rep B x ks cs s)
    (s' : Int) :
    B_tree_node.Rep B { keys := x.keys, children := x.children, n := x.n, _shift := s' }
      ks cs s' :=
  ⟨r.keys_len, r.n_eq, r.n_le, r.keys_eq, rfl, r.ch⟩

/-- The keys of the merged node. -/
theorem merged_keys (lks rks : List (key_t S)) (KL KR K2 : List (key_t S)) (sep' : key_t S)
    (d : Int)
    (hl : ∀ p, p < lks.length → KL[p]? = lks[p]?)
    (hr : ∀ p, p < rks.length → KR[p]? = rks[p]?)
    (hll : lks.length < KL.length)
    (h2 : ∀ p, K2[p]? = if lks.length + 1 + 0 ≤ p ∧ p < lks.length + 1 + 0 + rks.length then
        (KR[p - (lks.length + 1)]?).map (key_t.add d)
      else (KL.set lks.length sep')[p]?) :
    ∀ p, p < (lks ++ sep' :: rks.map (key_t.add d)).length →
      K2[p]? = (lks ++ sep' :: rks.map (key_t.add d))[p]? := by
  intro p hp
  simp only [List.length_append, List.length_cons, List.length_map] at hp
  rw [h2 p, getElem?_append_cons, getElem?_set_if _ _ _ _ hll, List.getElem?_map]
  split_ifs <;> first
    | rfl
    | (exfalso; omega)
    | (exact hl p (by omega))
    | (rw [hr _ (by omega)]; congr 2; try omega)

/-- The children of the merged node. -/
theorem merged_children (lcl rcl : List (B_tree_node S)) (CL CR C2 : List (Option (B_tree_node S)))
    (g : B_tree_node S → B_tree_node S) (m : Nat) (hm : lcl.length = m + 1)
    (hl : ∀ p, p < lcl.length → CL[p]? = (lcl.map some)[p]?)
    (hr : ∀ p, p < rcl.length → CR[p]? = (rcl.map some)[p]?)
    (rn : Nat) (hrn : rcl.length = rn + 1) (hlen : m + rn + 1 < C2.length) (cR : B_tree_node S)
    (hcR : rcl[rn]? = some cR)
    (h2 : ∀ p, C2[p]? = if m + 1 + 0 ≤ p ∧ p < m + 1 + 0 + rn then
        (CR[p - (m + 1)]?).map (Option.map g)
      else CL[p]?) :
    ∀ p, p < (lcl ++ rcl.map g).length →
      (C2.set (m + rn + 1) (some (g cR)))[p]? = ((lcl ++ rcl.map g).map some)[p]? := by
  intro p hp
  simp only [List.length_append, List.length_map] at hp
  rw [getElem?_set_if _ _ _ _ hlen, h2 p, List.map_append, List.getElem?_append, List.map_map,
    List.getElem?_map, List.getElem?_map]
  simp only [List.length_map]
  split_ifs <;> first
    | (exfalso; omega)
    | (rw [hl p (by omega), List.getElem?_map])
    | (rw [hr _ (by omega), List.getElem?_map]
       simp only [Option.map_map, Function.comp]
       congr 2 <;> omega)
    | (subst_vars
       rw [show m + rn + 1 - lcl.length = rn by omega, hcR]
       rfl)

end merge_loop_lemmas

/-! ## The effect of merge_children -/

section merge_children_lemmas

variable {S : Type}

theorem eraseIdx_set_self {α : Type} (l : List α) (i : Nat) (a : α) :
    (l.set i a).eraseIdx i = l.eraseIdx i := by
  apply List.ext_getElem?
  intro p
  rw [List.getElem?_eraseIdx, List.getElem?_eraseIdx, List.getElem?_set, List.getElem?_set]
  split_ifs <;> first | rfl | (exfalso; omega)

theorem eraseIdx_set_succ {α : Type} (l : List α) (i : Nat) (a b : α) (hi : i + 1 < l.length) :
    ((l.set i a).set (i + 1) b).eraseIdx i = (l.eraseIdx i).set i b := by
  apply List.ext_getElem?
  intro p
  have h1 : (l.eraseIdx i).length = l.length - 1 := List.length_eraseIdx_of_lt (by omega)
  rw [List.getElem?_eraseIdx, getElem?_set_if _ _ _ _ (by simp; omega),
    getElem?_set_if _ _ _ _ (by omega), getElem?_set_if _ _ _ _ (by simp; omega),
    getElem?_set_if _ _ _ _ (by omega), getElem?_set_if _ _ _ _ (by omega),
    List.getElem?_eraseIdx]
  split_ifs <;> first | rfl | (exfalso; omega)

/-- The effect of `merge_children` on an internal node with internal children: the merged node
`M` replaces the two children; if no key is left, the node takes over the contents of `M`. -/
theorem merge_children_inner {B : Nat} {x L R : B_tree_node S} {ks cl s lks lcl ls rks rcl rs}
    (r : B_tree_node.Rep B x ks (some cl) s) {i : Nat} {sep : key_t S}
    (hk : ks[i]? = some sep) (hL : cl[i]? = some L) (hR : cl[i + 1]? = some R)
    (rl : B_tree_node.Rep B L lks (some lcl) ls) (rr : B_tree_node.Rep B R rks (some rcl) rs)
    (hsum : lks.length + rks.length + 1 ≤ B) (ho : Option Int) :
    ∃ M x4, B_tree_node.Rep B M (lks ++ sep.add (-ls) :: rks.map (key_t.add (rs - ls)))
        (some (lcl ++ rcl.map fun c => c.shift (rs - ls))) ls ∧
      B_tree_node.Rep B x4 (ks.eraseIdx i) (some ((cl.eraseIdx i).set i M)) s ∧
      x.merge_children B i ho = .ok (if x4.n = 0 then
          ({ keys := M.keys, children := M.children, n := M.n, _shift := x4._shift + M._shift },
            ho.map (· - 1))
        else (x4, ho)) := by
  have hi : i < ks.length := lt_of_getElem?_some hk
  obtain ⟨chx, hchx, hchxl, -, hcll⟩ := r.children_some
  obtain ⟨chL, hchL, hchLl, -, hlcll⟩ := rl.children_some
  obtain ⟨chR, hchR, hchRl, -, hrcll⟩ := rr.children_some
  have hLn := rl.n_eq
  have hRn := rr.n_eq
  have hLs := rl.shift_eq
  have hRs := rr.shift_eq
  have hxn := r.n_eq
  obtain ⟨a, ha⟩ := getElem?_some_of_lt (a := L.keys) (i := L.n) (by rw [rl.keys_len]; omega)
  have hsepx : x.keys[i]? = some sep := by rw [r.key_get hi, hk]
  obtain ⟨sep', hsep'⟩ : ∃ k : key_t S, k = { sep with value := sep.value - L._shift } := ⟨_, rfl⟩
  have hlk : L.n < L.keys.length := by rw [rl.keys_len]; omega
  have hxk : i < x.keys.length := by rw [r.keys_len]; have := r.n_le; omega
  obtain ⟨L2, R2, chL2, chR2, e, e1, e2, e3, e4, e5, e6, e7, e8, e9, e10, e11, e12, e13⟩ :=
    merge_children_move_inner L.n B R.n 0 { L with keys := L.keys.set L.n sep' } R chL chR
      (by omega) (by simp [rl.keys_len]) rr.keys_len hchL hchR hchLl hchRl
      (fun q _ hq => by
        obtain ⟨c, hc⟩ := getElem?_some_of_lt (a := rcl) (i := q) (by omega)
        exact ⟨c, rr.child_get hchR hc⟩)
  simp only at e1 e2 e11 e12
  have hle := r.n_le
  obtain ⟨a2, ha2⟩ := getElem?_some_of_lt (a := chL2) (i := L.n + R2.n + 1) (by omega)
  obtain ⟨cR, hcR⟩ := getElem?_some_of_lt (a := rcl) (i := R.n) (by omega)
  have hb2 : chR2[R2.n]? = some (some cR) := by
    rw [e3, e13 _ (Or.inr (by omega)), rr.ch_get hchR (by omega), List.getElem?_map, hcR]
    rfl
  obtain ⟨gR, hgR⟩ : ∃ g : B_tree_node S,
    g = { cR with _shift := cR._shift + R2._shift - L2._shift } := ⟨_, rfl⟩
  -- the merged node
  obtain ⟨M, hM⟩ : ∃ M : B_tree_node S, M =
      { keys := L2.keys, children := some (chL2.set (L.n + R2.n + 1) (some gR)),
        n := L.n + R2.n + 1, _shift := L2._shift } := ⟨_, rfl⟩
  have rM : B_tree_node.Rep B M (lks ++ sep.add (-ls) :: rks.map (key_t.add (rs - ls)))
      (some (lcl ++ rcl.map fun c => c.shift (rs - ls))) ls := by
    subst hM
    refine rep_of_inner e9 (by simp; omega) (by simp; omega) ?_ (by simp [e2, hLs]) rfl
      (by simp [e7]) (by simp; omega) ?_
    · have := merged_keys lks rks L.keys R.keys L2.keys (sep.add (-ls)) (rs - ls)
        (fun p hp => rl.key_get hp) (fun p hp => rr.key_get hp) (by omega)
        (fun p => by
          rw [e11 p, hsep', hLn, hRn, hLs, hRs, key_sub_eq]
          simp only [key_rebase_eq])
      exact this
    · have := merged_children lcl rcl chL chR chL2 (fun c => c.shift (rs - ls)) L.n (by omega)
        (fun p hp => rl.ch_get hchL hp) (fun p hp => rr.ch_get hchR hp) R.n (by omega)
        (by omega) cR hcR
        (fun p => by
          rw [e12 p, hLs, hRs]
          simp only [node_rebase_eq])
      intro p hp
      rw [← this p hp, hgR, e2, e3, e4, hLs, hRs, node_rebase_eq]
  -- the parent before `shift_left`
  have r3 : B_tree_node.Rep B
      { keys := x.keys.set i a, children := some ((chx.set i (some R2)).set (i + 1) (some M)),
        n := x.n, _shift := x._shift }
      (ks.set i a) (some ((cl.set i R2).set (i + 1) M)) s := by
    refine rep_of_inner (by simp [r.keys_len]) (by simp [hxn]) (by simpa using r.n_le) ?_
      r.shift_eq rfl (by simp [hchxl]) (by simp; omega) ?_
    · intro p hp
      simp only [List.length_set] at hp
      simp only
      rw [getElem?_set_if _ _ _ _ hxk, getElem?_set_if _ _ _ _ hi]
      split_ifs <;> first | rfl | (exfalso; omega) | (exact r.key_get (by omega))
    · intro p hp
      simp only [List.length_set] at hp
      rw [List.getElem?_map, getElem?_set_if _ _ _ _ (by simp; omega),
        getElem?_set_if _ _ _ _ (by omega), getElem?_set_if _ _ _ _ (by simp; omega),
        getElem?_set_if _ _ _ _ (by omega)]
      split_ifs <;> first
        | rfl
        | (exfalso; omega)
        | (rw [r.ch_get hchx (by omega), List.getElem?_map])
  obtain ⟨x4, e4', r4⟩ := shift_left_inner r3 (show i < (ks.set i a).length by simpa using hi)
  rw [eraseIdx_set_self, eraseIdx_set_succ _ _ _ _ (by omega)] at r4
  refine ⟨M, x4, rM, r4, ?_⟩
  have s0 := child_at_ok hchx (r.child_get hchx hL)
  have s1 := child_at_ok hchx (r.child_get hchx hR)
  have s2 := set_key_at_ok (x := L) sep' hlk
  have s3 := set_key_at_ok (x := x) a hxk
  have hleaf2 : L2.is_leaf = false := by simp [B_tree_node.is_leaf, e5]
  have s4 := child_at_ok e5 ha2
  have s5 := child_at_ok e6 hb2
  have s6 := set_child_at_ok (x := L2) (some cR) e5 (show L.n + R2.n + 1 < chL2.length by omega)
  have s7 := set_child_at_ok (x := R2) a2 e6 (show R2.n < chR2.length by omega)
  have s8 := child_at_ok (x := { L2 with children := some (chL2.set (L.n + R2.n + 1) (some cR)) })
    (c := some cR) rfl (by rw [getElem?_set_if _ _ _ _ (by omega), if_pos rfl])
  have s9 := set_child_at_ok
    (x := { L2 with children := some (chL2.set (L.n + R2.n + 1) (some cR)) }) (some gR) rfl
    (show L.n + R2.n + 1 < (chL2.set (L.n + R2.n + 1) (some cR)).length by simp; omega)
  have s10 := set_child_at_ok (x := { x with keys := x.keys.set i a }) (some R2) hchx
    (show i < chx.length by omega)
  have s11 := set_child_at_ok
    (x := { x with keys := x.keys.set i a, children := some (chx.set i (some R2)) }) (some M) rfl
    (show i + 1 < (chx.set i (some R2)).length by simp; omega)
  simp only [B_tree_node.merge_children, c_assert_ok (show decide (i < x.n) = true by simp; omega),
    s0, s1, deref, bind, Except.bind, pure, Except.pure,
    c_assert_ok (show decide (B_t B (L.n + R.n + 1) ≤ B) = true by
      have h0 := B_t_le B (L.n + R.n + 1); simp; omega), rd_ok ha, rd_ok hsepx,
    ← hsep', s2, s3, e, hleaf2, Bool.false_eq_true, if_false, s4, s5, s6, s7, s8,
    rebase_child, ← hgR, s9, List.set_set, ← hM, s10, s11, e4']
  split_ifs <;> first | rfl | (subst hM; rfl)

/-- The effect of `merge_children` on an internal node with leaf children. -/
theorem merge_children_leaf {B : Nat} {x L R : B_tree_node S} {ks cl s lks ls rks rs}
    (r : B_tree_node.Rep B x ks (some cl) s) {i : Nat} {sep : key_t S}
    (hk : ks[i]? = some sep) (hL : cl[i]? = some L) (hR : cl[i + 1]? = some R)
    (rl : B_tree_node.Rep B L lks none ls) (rr : B_tree_node.Rep B R rks none rs)
    (hsum : lks.length + rks.length + 1 ≤ B) (ho : Option Int) :
    ∃ M x4, B_tree_node.Rep B M (lks ++ sep.add (-ls) :: rks.map (key_t.add (rs - ls))) none ls ∧
      B_tree_node.Rep B x4 (ks.eraseIdx i) (some ((cl.eraseIdx i).set i M)) s ∧
      x.merge_children B i ho = .ok (if x4.n = 0 then
          ({ keys := M.keys, children := M.children, n := M.n, _shift := x4._shift + M._shift },
            ho.map (· - 1))
        else (x4, ho)) := by
  have hi : i < ks.length := lt_of_getElem?_some hk
  obtain ⟨chx, hchx, hchxl, -, hcll⟩ := r.children_some
  have hLn := rl.n_eq
  have hRn := rr.n_eq
  have hLs := rl.shift_eq
  have hRs := rr.shift_eq
  have hxn := r.n_eq
  have hle := r.n_le
  obtain ⟨a, ha⟩ := getElem?_some_of_lt (a := L.keys) (i := L.n) (by rw [rl.keys_len]; omega)
  have hsepx : x.keys[i]? = some sep := by rw [r.key_get hi, hk]
  obtain ⟨sep', hsep'⟩ : ∃ k : key_t S, k = { sep with value := sep.value - L._shift } := ⟨_, rfl⟩
  have hlk : L.n < L.keys.length := by rw [rl.keys_len]; omega
  have hxk : i < x.keys.length := by rw [r.keys_len]; omega
  obtain ⟨L2, R2, e, e1, e2, e3, e4, e5, e6, e7, e8, e9⟩ :=
    merge_children_move_leaf L.n B R.n 0 { L with keys := L.keys.set L.n sep' } R
      (by omega) (by simp [rl.keys_len]) rr.keys_len rl.children_none
  simp only at e1 e2 e9
  obtain ⟨M, hM⟩ : ∃ M : B_tree_node S, M =
      { keys := L2.keys, children := L2.children, n := L.n + R2.n + 1, _shift := L2._shift } :=
    ⟨_, rfl⟩
  have rM : B_tree_node.Rep B M (lks ++ sep.add (-ls) :: rks.map (key_t.add (rs - ls)))
      none ls := by
    subst hM
    refine rep_of_leaf e7 (by simp; omega) (by simp; omega) ?_ (by simp [e2, hLs]) e5
    have := merged_keys lks rks L.keys R.keys L2.keys (sep.add (-ls)) (rs - ls)
      (fun p hp => rl.key_get hp) (fun p hp => rr.key_get hp) (by omega)
      (fun p => by
        rw [e9 p, hsep', hLn, hRn, hLs, hRs, key_sub_eq]
        simp only [key_rebase_eq])
    exact this
  have r3 : B_tree_node.Rep B
      { keys := x.keys.set i a, children := some ((chx.set i (some R2)).set (i + 1) (some M)),
        n := x.n, _shift := x._shift }
      (ks.set i a) (some ((cl.set i R2).set (i + 1) M)) s := by
    refine rep_of_inner (by simp [r.keys_len]) (by simp [hxn]) (by simpa using r.n_le) ?_
      r.shift_eq rfl (by simp [hchxl]) (by simp; omega) ?_
    · intro p hp
      simp only [List.length_set] at hp
      simp only
      rw [getElem?_set_if _ _ _ _ hxk, getElem?_set_if _ _ _ _ hi]
      split_ifs <;> first | rfl | (exfalso; omega) | (exact r.key_get (by omega))
    · intro p hp
      simp only [List.length_set] at hp
      rw [List.getElem?_map, getElem?_set_if _ _ _ _ (by simp; omega),
        getElem?_set_if _ _ _ _ (by omega), getElem?_set_if _ _ _ _ (by simp; omega),
        getElem?_set_if _ _ _ _ (by omega)]
      split_ifs <;> first
        | rfl
        | (exfalso; omega)
        | (rw [r.ch_get hchx (by omega), List.getElem?_map])
  obtain ⟨x4, e4', r4⟩ := shift_left_inner r3 (show i < (ks.set i a).length by simpa using hi)
  rw [eraseIdx_set_self, eraseIdx_set_succ _ _ _ _ (by omega)] at r4
  refine ⟨M, x4, rM, r4, ?_⟩
  have s0 := child_at_ok hchx (r.child_get hchx hL)
  have s1 := child_at_ok hchx (r.child_get hchx hR)
  have s2 := set_key_at_ok (x := L) sep' hlk
  have s3 := set_key_at_ok (x := x) a hxk
  have hleaf2 : L2.is_leaf = true := by simp [B_tree_node.is_leaf, e5]
  have s10 := set_child_at_ok (x := { x with keys := x.keys.set i a }) (some R2) hchx
    (show i < chx.length by omega)
  have s11 := set_child_at_ok
    (x := { x with keys := x.keys.set i a, children := some (chx.set i (some R2)) }) (some M) rfl
    (show i + 1 < (chx.set i (some R2)).length by simp; omega)
  simp only [B_tree_node.merge_children, c_assert_ok (show decide (i < x.n) = true by simp; omega),
    s0, s1, deref, bind, Except.bind, pure, Except.pure,
    c_assert_ok (show decide (B_t B (L.n + R.n + 1) ≤ B) = true by
      have h0 := B_t_le B (L.n + R.n + 1); simp; omega), rd_ok ha, rd_ok hsepx,
    ← hsep', s2, s3, e, hleaf2, if_true, ← hM, s10, s11, e4']
  split_ifs <;> first | rfl | (subst hM; rfl)

end merge_children_lemmas

/-! ## The loop of shift_right -/

section shift_right_loop_lemmas

variable {S : Type}

/-- One step of a loop that moves slots up by `offset`, from the top down. -/
theorem shr_step {α : Type} (K K' : List α) (n j cnt offset : Nat) (a : α)
    (ha : K[n - (1 + j)]? = some a) (hjc : j + 1 + cnt ≤ n)
    (hlen : n - (1 + j) + offset < K.length)
    (e : ∀ p, K'[p]? = if n - (j + 1 + cnt) + offset ≤ p ∧ p < n - (j + 1) + offset then
        (K.set (n - (1 + j) + offset) a)[p - offset]?
      else (K.set (n - (1 + j) + offset) a)[p]?) :
    ∀ p, K'[p]? = if n - (j + (cnt + 1)) + offset ≤ p ∧ p < n - j + offset then K[p - offset]?
      else K[p]? := by
  intro p
  rw [e p, getElem?_set_if _ _ _ _ hlen, getElem?_set_if _ _ _ _ hlen]
  split_ifs <;> first
    | rfl
    | (exfalso; omega)
    | (subst_vars; rw [← ha]; congr 1; omega)

/-- The moving loop of `shift_right` and `fuse_children` on a leaf. -/
theorem shift_right_loop_leaf (B offset : Nat) :
    ∀ (cnt j : Nat) (x : B_tree_node S), j + cnt ≤ x.n → x.n + offset ≤ B →
      x.keys.length = B → x.children = none →
      ∃ x', shift_right_loop offset cnt j x = .ok x' ∧ x'.n = x.n ∧ x'._shift = x._shift ∧
        x'.keys.length = B ∧ x'.children = none ∧
        ∀ p, x'.keys[p]? = if x.n - (j + cnt) + offset ≤ p ∧ p < x.n - j + offset then
            x.keys[p - offset]?
          else x.keys[p]? := by
  intro cnt
  induction cnt with
  | zero =>
    intro j x _ _ h1 h2
    exact ⟨x, rfl, rfl, rfl, h1, h2, fun p => (if_neg (by omega)).symm⟩
  | succ cnt ih =>
    intro j x hj hB h1 h2
    obtain ⟨a, ha⟩ := getElem?_some_of_lt (a := x.keys) (i := x.n - (1 + j)) (by omega)
    have hl1 : x.n - (1 + j) + offset < x.keys.length := by omega
    have hleaf : B_tree_node.is_leaf
        { x with keys := x.keys.set (x.n - (1 + j) + offset) a } = true := by
      simp [B_tree_node.is_leaf, h2]
    obtain ⟨x', e, e1, e2, e3, e4, e5⟩ :=
      ih (j + 1) { x with keys := x.keys.set (x.n - (1 + j) + offset) a } (by simpa using by omega)
        (by simpa using hB) (by simp [h1]) h2
    refine ⟨x', ?_, e1, e2, e3, e4, shr_step _ _ x.n j cnt offset a ha (by omega) hl1 e5⟩
    simp only [shift_right_loop, usub_ok (show 1 + j ≤ x.n by omega), rd_ok ha,
      set_key_at_ok a hl1, bind, Except.bind, hleaf, if_true, pure, Except.pure]
    exact e

/-- The moving loop of `shift_right` and `fuse_children` on an internal node. -/
theorem shift_right_loop_inner (B offset : Nat) :
    ∀ (cnt j : Nat) (x : B_tree_node S) (ch : List (Option (B_tree_node S))),
      j + cnt ≤ x.n → x.n + offset ≤ B →
      x.keys.length = B → x.children = some ch → ch.length = B + 1 →
      ∃ x' ch', shift_right_loop offset cnt j x = .ok x' ∧ x'.n = x.n ∧ x'._shift = x._shift ∧
        x'.keys.length = B ∧ x'.children = some ch' ∧ ch'.length = B + 1 ∧
        (∀ p, x'.keys[p]? = if x.n - (j + cnt) + offset ≤ p ∧ p < x.n - j + offset then
            x.keys[p - offset]?
          else x.keys[p]?) ∧
        (∀ p, ch'[p]? = if x.n - (j + cnt) + offset ≤ p ∧ p < x.n - j + offset then
            ch[p - offset]?
          else ch[p]?) := by
  intro cnt
  induction cnt with
  | zero =>
    intro j x ch _ _ h1 h2 h3
    exact ⟨x, ch, rfl, rfl, rfl, h1, h2, h3, fun p => (if_neg (by omega)).symm,
      fun p => (if_neg (by omega)).symm⟩
  | succ cnt ih =>
    intro j x ch hj hB h1 h2 h3
    obtain ⟨a, ha⟩ := getElem?_some_of_lt (a := x.keys) (i := x.n - (1 + j)) (by omega)
    obtain ⟨c, hc⟩ := getElem?_some_of_lt (a := ch) (i := x.n - (1 + j)) (by omega)
    have hl1 : x.n - (1 + j) + offset < x.keys.length := by omega
    have hl2 : x.n - (1 + j) + offset < ch.length := by omega
    have hleaf : B_tree_node.is_leaf
        { x with keys := x.keys.set (x.n - (1 + j) + offset) a } = false := by
      simp [B_tree_node.is_leaf, h2]
    obtain ⟨x', ch', e, e1, e2, e3, e4, e5, e6, e7⟩ :=
      ih (j + 1) { x with keys := x.keys.set (x.n - (1 + j) + offset) a,
                          children := some (ch.set (x.n - (1 + j) + offset) c) }
        (ch.set (x.n - (1 + j) + offset) c) (by simpa using by omega)
        (by simpa using hB) (by simp [h1]) rfl (by simp [h3])
    refine ⟨x', ch', ?_, e1, e2, e3, e4, e5, shr_step _ _ x.n j cnt offset a ha (by omega) hl1 e6,
      shr_step _ _ x.n j cnt offset c hc (by omega) hl2 e7⟩
    have s1 := set_child_at_ok (x := { x with keys := x.keys.set (x.n - (1 + j) + offset) a }) c
      h2 hl2
    have s2 := child_at_ok (x := { x with keys := x.keys.set (x.n - (1 + j) + offset) a }) h2 hc
    simp only [shift_right_loop, usub_ok (show 1 + j ≤ x.n by omega), rd_ok ha,
      set_key_at_ok a hl1, bind, Except.bind, hleaf, Bool.false_eq_true, if_false, s1, s2]
    exact e

end shift_right_loop_lemmas

/-! ## The copy loop of fuse_children -/

section fuse_copy_lemmas

variable {S : Type}

/-- One step of a loop that copies the slots `s, s + 1, ...` of `R` (through `f`) to the slots
`d, d + 1, ...` of `K`. -/
theorem blit2_step {α β : Type} (K K' : List α) (R R1 : List β) (f : β → α) (s d cnt : Nat)
    (b : β) (hb : R[s]? = some b) (hd : d < K.length)
    (hR1 : ∀ q, q ≠ s → R1[q]? = R[q]?)
    (e : ∀ p, K'[p]? = if d + 1 ≤ p ∧ p < d + 1 + cnt then (R1[s + 1 + (p - (d + 1))]?).map f
      else (K.set d (f b))[p]?) :
    ∀ p, K'[p]? = if d ≤ p ∧ p < d + (cnt + 1) then (R[s + (p - d)]?).map f else K[p]? := by
  intro p
  rw [e p, getElem?_set_if _ _ _ _ hd]
  split_ifs <;> first
    | rfl
    | (exfalso; omega)
    | (rw [hR1 _ (by omega)]; congr 2; omega)
    | (subst_vars; rw [Nat.sub_self, Nat.add_zero, hb]; rfl)

/-- The copy loop of `fuse_children` on leaves. -/
theorem fuse_copy_leaf (B : Nat) (clear : Bool) (a b : Int) :
    ∀ (cnt s d : Nat) (src dst : B_tree_node S), s + cnt ≤ B → d + cnt ≤ B →
      src.keys.length = B → dst.keys.length = B →
      ∃ src' dst', fuse_copy true clear a b cnt s d src dst = .ok (src', dst') ∧
        src'.n = src.n ∧ src'._shift = src._shift ∧ dst'.n = dst.n ∧ dst'._shift = dst._shift ∧
        src'.children = src.children ∧ dst'.children = dst.children ∧
        src'.keys.length = B ∧ dst'.keys.length = B ∧
        (∀ p, dst'.keys[p]? = if d ≤ p ∧ p < d + cnt then
            (src.keys[s + (p - d)]?).map (fun k => { k with value := k.value + a - b })
          else dst.keys[p]?) ∧
        (∀ q, q < s ∨ s + cnt ≤ q → src'.keys[q]? = src.keys[q]?) ∧
        (clear = false → src' = src) := by
  intro cnt
  induction cnt with
  | zero =>
    intro s d src dst _ _ h1 h2
    exact ⟨src, dst, rfl, rfl, rfl, rfl, rfl, rfl, rfl, h1, h2,
      fun p => (if_neg (by omega)).symm, fun _ _ => rfl, fun _ => rfl⟩
  | succ cnt ih =>
    intro s d src dst hs hd h1 h2
    obtain ⟨k, hk⟩ := getElem?_some_of_lt (a := src.keys) (i := s) (by omega)
    have hl1 : d < dst.keys.length := by omega
    have hl2 : s < src.keys.length := by omega
    obtain ⟨kb, hkb⟩ : ∃ kb : key_t S, kb = { k with value := k.value + a - b } := ⟨_, rfl⟩
    cases clear with
    | false =>
      obtain ⟨src', dst', e, e1, e2, e3, e4, e5, e6, e7, e8, e9, e10, e11⟩ :=
        ih (s + 1) (d + 1) src { dst with keys := dst.keys.set d kb }
          (by omega) (by omega) h1 (by simp [h2])
      refine ⟨src', dst', ?_, e1, e2, e3, e4, e5, e6, e7, e8, ?_, fun q hq => e10 q (by omega),
        e11⟩
      · simp only [fuse_copy, rd_ok hk, ← hkb, set_key_at_ok kb hl1, bind, Except.bind, if_true,
          Bool.false_eq_true, if_false, pure, Except.pure]
        exact e
      · exact blit2_step dst.keys dst'.keys src.keys src.keys _ s d cnt k hk hl1
          (fun _ _ => rfl) (fun p => by rw [e9 p, hkb])
    | true =>
      obtain ⟨src', dst', e, e1, e2, e3, e4, e5, e6, e7, e8, e9, e10, -⟩ :=
        ih (s + 1) (d + 1) { src with keys := src.keys.set s key_t.empty }
          { dst with keys := dst.keys.set d kb }
          (by omega) (by omega) (by simp [h1]) (by simp [h2])
      refine ⟨src', dst', ?_, e1, e2, e3, e4, e5, e6, e7, e8, ?_, ?_, fun h => by cases h⟩
      · simp only [fuse_copy, rd_ok hk, ← hkb, set_key_at_ok kb hl1, bind, Except.bind, if_true,
          set_key_at_ok key_t.empty hl2, pure, Except.pure]
        exact e
      · exact blit2_step dst.keys dst'.keys src.keys (src.keys.set s key_t.empty) _ s d cnt k hk
          hl1 (fun q hq => by rw [getElem?_set_if _ _ _ _ hl2, if_neg hq])
          (fun p => by rw [e9 p, hkb])
      · exact junk_step src.keys src'.keys s cnt key_t.empty hl2 e10

/-- The copy loop of `fuse_children` on internal nodes. -/
theorem fuse_copy_inner (B : Nat) (clear : Bool) (a b : Int) :
    ∀ (cnt s d : Nat) (src dst : B_tree_node S) (sch dch : List (Option (B_tree_node S))),
      s + cnt ≤ B → d + cnt ≤ B →
      src.keys.length = B → dst.keys.length = B →
      src.children = some sch → dst.children = some dch →
      sch.length = B + 1 → dch.length = B + 1 →
      (∀ q, s ≤ q → q < s + cnt → ∃ c, sch[q]? = some (some c)) →
      ∃ src' dst' sch' dch', fuse_copy false clear a b cnt s d src dst = .ok (src', dst') ∧
        src'.n = src.n ∧ src'._shift = src._shift ∧ dst'.n = dst.n ∧ dst'._shift = dst._shift ∧
        src'.children = some sch' ∧ dst'.children = some dch' ∧
        sch'.length = B + 1 ∧ dch'.length = B + 1 ∧
        src'.keys.length = B ∧ dst'.keys.length = B ∧
        (∀ p, dst'.keys[p]? = if d ≤ p ∧ p < d + cnt then
            (src.keys[s + (p - d)]?).map (fun k => { k with value := k.value + a - b })
          else dst.keys[p]?) ∧
        (∀ p, dch'[p]? = if d ≤ p ∧ p < d + cnt then
            (sch[s + (p - d)]?).map (Option.map fun c => { c with _shift := c._shift + a - b })
          else dch[p]?) ∧
        (∀ q, q < s ∨ s + cnt ≤ q → src'.keys[q]? = src.keys[q]?) ∧
        (∀ q, q < s ∨ s + cnt ≤ q → sch'[q]? = sch[q]?) ∧
        (clear = false → src' = src) := by
  intro cnt
  induction cnt with
  | zero =>
    intro s d src dst sch dch _ _ h1 h2 h3 h4 h5 h6 _
    exact ⟨src, dst, sch, dch, rfl, rfl, rfl, rfl, rfl, h3, h4, h5, h6, h1, h2,
      fun p => (if_neg (by omega)).symm, fun p => (if_neg (by omega)).symm,
      fun _ _ => rfl, fun _ _ => rfl, fun _ => rfl⟩
  | succ cnt ih =>
    intro s d src dst sch dch hs hd h1 h2 h3 h4 h5 h6 hnn
    obtain ⟨k, hk⟩ := getElem?_some_of_lt (a := src.keys) (i := s) (by omega)
    obtain ⟨c, hc⟩ := hnn s (le_refl _) (by omega)
    have hl1 : d < dst.keys.length := by omega
    have hl2 : s < src.keys.length := by omega
    have hl3 : d < dch.length := by omega
    have hl4 : s < sch.length := by omega
    obtain ⟨kb, hkb⟩ : ∃ kb : key_t S, kb = { k with value := k.value + a - b } := ⟨_, rfl⟩
    obtain ⟨gc, hgc⟩ : ∃ gc : B_tree_node S, gc = { c with _shift := c._shift + a - b } :=
      ⟨_, rfl⟩
    have s1 := child_at_ok h3 hc
    have s2 := set_child_at_ok (x := { dst with keys := dst.keys.set d kb }) (some c) h4 hl3
    have s3 := child_at_ok
      (x := { dst with keys := dst.keys.set d kb, children := some (dch.set d (some c)) })
      (c := some c) rfl (by rw [getElem?_set_if _ _ _ _ hl3, if_pos rfl])
    have s4 := set_child_at_ok
      (x := { dst with keys := dst.keys.set d kb, children := some (dch.set d (some c)) })
      (some gc) rfl (show d < (dch.set d (some c)).length by simpa using hl3)
    cases clear with
    | false =>
      obtain ⟨src', dst', sch', dch', e, e1, e2, e3, e4, e5, e6, e7, e8, e9, e10, e11, e12, e13,
          e14, e15⟩ :=
        ih (s + 1) (d + 1) src
          { dst with keys := dst.keys.set d kb, children := some (dch.set d (some gc)) }
          sch (dch.set d (some gc))
          (by omega) (by omega) h1 (by simp [h2]) h3 rfl h5 (by simp [h6])
          (fun q hq hq' => hnn q (by omega) (by omega))
      refine ⟨src', dst', sch', dch', ?_, e1, e2, e3, e4, e5, e6, e7, e8, e9, e10, ?_, ?_,
        fun q hq => e13 q (by omega), fun q hq => e14 q (by omega), e15⟩
      · simp only [fuse_copy, rd_ok hk, ← hkb, set_key_at_ok kb hl1, bind, Except.bind,
          Bool.false_eq_true, if_false, pure, Except.pure, s1, s2, s3, rebase_child, deref,
          ← hgc, s4, List.set_set]
        exact e
      · exact blit2_step dst.keys dst'.keys src.keys src.keys _ s d cnt k hk hl1
          (fun _ _ => rfl) (fun p => by rw [e11 p, hkb])
      · exact blit2_step dch dch' sch sch
          (Option.map fun c => { c with _shift := c._shift + a - b }) s d cnt (some c) hc hl3
          (fun _ _ => rfl) (fun p => by rw [e12 p, hgc]; rfl)
    | true =>
      have s5 := set_child_at_ok (x := { src with keys := src.keys.set s key_t.empty }) none
        h3 hl4
      obtain ⟨src', dst', sch', dch', e, e1, e2, e3, e4, e5, e6, e7, e8, e9, e10, e11, e12, e13,
          e14, -⟩ :=
        ih (s + 1) (d + 1)
          { src with keys := src.keys.set s key_t.empty, children := some (sch.set s none) }
          { dst with keys := dst.keys.set d kb, children := some (dch.set d (some gc)) }
          (sch.set s none) (dch.set d (some gc))
          (by omega) (by omega) (by simp [h1]) (by simp [h2]) rfl rfl (by simp [h5])
          (by simp [h6])
          (fun q hq hq' => by
            obtain ⟨c', hc'⟩ := hnn q (by omega) (by omega)
            exact ⟨c', by rw [getElem?_set_if _ _ _ _ hl4, if_neg (by omega), hc']⟩)
      refine ⟨src', dst', sch', dch', ?_, e1, e2, e3, e4, e5, e6, e7, e8, e9, e10, ?_, ?_, ?_, ?_,
        fun h => by cases h⟩
      · simp only [fuse_copy, rd_ok hk, ← hkb, set_key_at_ok kb hl1, bind, Except.bind,
          Bool.false_eq_true, if_false, if_true, pure, Except.pure, s1, s2, s3, rebase_child,
          deref, ← hgc, s4, List.set_set, set_key_at_ok key_t.empty hl2, s5]
        exact e
      · exact blit2_step dst.keys dst'.keys src.keys (src.keys.set s key_t.empty) _ s d cnt k hk
          hl1 (fun q hq => by rw [getElem?_set_if _ _ _ _ hl2, if_neg hq])
          (fun p => by rw [e11 p, hkb])
      · exact blit2_step dch dch' sch (sch.set s none)
          (Option.map fun c => { c with _shift := c._shift + a - b }) s d cnt (some c) hc hl3
          (fun q hq => by rw [getElem?_set_if _ _ _ _ hl4, if_neg hq])
          (fun p => by rw [e12 p, hgc]; rfl)
      · exact junk_step src.keys src'.keys s cnt key_t.empty hl2 e13
      · exact junk_step sch sch' s cnt none hl4 e14

end fuse_copy_lemmas

/-! ## The closing loop of fuse_children -/

section fuse_close_lemmas

variable {S : Type}

/-- One step of a loop that moves slots down by `k` and clears the slots left. -/
theorem close_step {α : Type} (K K' : List α) (k i cnt : Nat) (a E : α) (hk : 1 ≤ k)
    (ha : K[i + k]? = some a) (hlen : i + k < K.length)
    (e : ∀ p, K'[p]? = if i + 1 ≤ p ∧ p < i + 1 + cnt then ((K.set i a).set (i + k) E)[p + k]?
      else if i + 1 + k ≤ p ∧ p < i + 1 + k + cnt then some E
      else ((K.set i a).set (i + k) E)[p]?) :
    ∀ p, K'[p]? = if i ≤ p ∧ p < i + (cnt + 1) then K[p + k]?
      else if i + k ≤ p ∧ p < i + k + (cnt + 1) then some E
      else K[p]? := by
  intro p
  rw [e p, getElem?_set_if _ _ _ _ (by simpa using hlen), getElem?_set_if _ _ _ _ (by omega),
    getElem?_set_if _ _ _ _ (by simpa using hlen), getElem?_set_if _ _ _ _ (by omega)]
  split_ifs <;> first
    | rfl
    | (exfalso; omega)
    | (subst_vars; exact ha.symm)

/-- The closing loop of `fuse_children` on a leaf. -/
theorem fuse_close_leaf (B k : Nat) (hk : 1 ≤ k) :
    ∀ (cnt i : Nat) (x : B_tree_node S), i + k + cnt ≤ B → x.keys.length = B →
      x.children = none →
      ∃ x', fuse_close k cnt i x = .ok x' ∧ x'.n = x.n ∧ x'._shift = x._shift ∧
        x'.keys.length = B ∧ x'.children = none ∧
        ∀ p, x'.keys[p]? = if i ≤ p ∧ p < i + cnt then x.keys[p + k]?
          else if i + k ≤ p ∧ p < i + k + cnt then some key_t.empty
          else x.keys[p]? := by
  intro cnt
  induction cnt with
  | zero =>
    intro i x _ h1 h2
    exact ⟨x, rfl, rfl, rfl, h1, h2, fun p => by
      rw [if_neg (by omega), if_neg (by omega)]⟩
  | succ cnt ih =>
    intro i x hB h1 h2
    obtain ⟨a, ha⟩ := getElem?_some_of_lt (a := x.keys) (i := i + k) (by omega)
    have hl1 : i < x.keys.length := by omega
    have hl2 : i + k < (x.keys.set i a).length := by simp; omega
    have hleaf : B_tree_node.is_leaf { x with keys := x.keys.set i a } = true := by
      simp [B_tree_node.is_leaf, h2]
    have hleaf2 : B_tree_node.is_leaf
        { x with keys := (x.keys.set i a).set (i + k) key_t.empty } = true := by
      simp [B_tree_node.is_leaf, h2]
    obtain ⟨x', e, e1, e2, e3, e4, e5⟩ :=
      ih (i + 1) { x with keys := (x.keys.set i a).set (i + k) key_t.empty } (by omega)
        (by simp [h1]) h2
    refine ⟨x', ?_, e1, e2, e3, e4, close_step _ _ k i cnt a key_t.empty hk ha (by omega) e5⟩
    have s1 := set_key_at_ok (x := { x with keys := x.keys.set i a }) key_t.empty hl2
    simp only [fuse_close, rd_ok ha, set_key_at_ok a hl1, bind, Except.bind, hleaf, if_true,
      pure, Except.pure, s1, hleaf2]
    exact e

/-- The closing loop of `fuse_children` on an internal node. -/
theorem fuse_close_inner (B k : Nat) (hk : 1 ≤ k) :
    ∀ (cnt i : Nat) (x : B_tree_node S) (ch : List (Option (B_tree_node S))),
      i + k + cnt ≤ B → x.keys.length = B → x.children = some ch → ch.length = B + 1 →
      ∃ x' ch', fuse_close k cnt i x = .ok x' ∧ x'.n = x.n ∧ x'._shift = x._shift ∧
        x'.keys.length = B ∧ x'.children = some ch' ∧ ch'.length = B + 1 ∧
        (∀ p, x'.keys[p]? = if i ≤ p ∧ p < i + cnt then x.keys[p + k]?
          else if i + k ≤ p ∧ p < i + k + cnt then some key_t.empty
          else x.keys[p]?) ∧
        (∀ p, ch'[p]? = if i ≤ p ∧ p < i + cnt then ch[p + k]?
          else if i + k ≤ p ∧ p < i + k + cnt then some none
          else ch[p]?) := by
  intro cnt
  induction cnt with
  | zero =>
    intro i x ch _ h1 h2 h3
    exact ⟨x, ch, rfl, rfl, rfl, h1, h2, h3,
      fun p => by rw [if_neg (by omega), if_neg (by omega)],
      fun p => by rw [if_neg (by omega), if_neg (by omega)]⟩
  | succ cnt ih =>
    intro i x ch hB h1 h2 h3
    obtain ⟨a, ha⟩ := getElem?_some_of_lt (a := x.keys) (i := i + k) (by omega)
    obtain ⟨c, hc⟩ := getElem?_some_of_lt (a := ch) (i := i + k) (by omega)
    have hl1 : i < x.keys.length := by omega
    have hl2 : i + k < (x.keys.set i a).length := by simp; omega
    have hl3 : i < ch.length := by omega
    have hl4 : i + k < (ch.set i c).length := by simp; omega
    have hleaf : B_tree_node.is_leaf { x with keys := x.keys.set i a } = false := by
      simp [B_tree_node.is_leaf, h2]
    have hleaf2 : B_tree_node.is_leaf
        { x with keys := (x.keys.set i a).set (i + k) key_t.empty,
                 children := some (ch.set i c) } = false := rfl
    obtain ⟨x', ch', e, e1, e2, e3, e4, e5, e6, e7⟩ :=
      ih (i + 1) { x with keys := (x.keys.set i a).set (i + k) key_t.empty,
                          children := some ((ch.set i c).set (i + k) none) }
        ((ch.set i c).set (i + k) none) (by omega) (by simp [h1]) rfl (by simp [h3])
    refine ⟨x', ch', ?_, e1, e2, e3, e4, e5,
      close_step _ _ k i cnt a key_t.empty hk ha (by omega) e6,
      close_step _ _ k i cnt c none hk hc (by omega) e7⟩
    have s1 := child_at_ok (x := { x with keys := x.keys.set i a }) h2 hc
    have s2 := set_child_at_ok (x := { x with keys := x.keys.set i a }) c h2 hl3
    have s3 := set_key_at_ok
      (x := { x with keys := x.keys.set i a, children := some (ch.set i c) }) key_t.empty hl2
    have s4 := set_child_at_ok
      (x := { x with keys := (x.keys.set i a).set (i + k) key_t.empty,
                     children := some (ch.set i c) }) none rfl hl4
    simp only [fuse_close, rd_ok ha, set_key_at_ok a hl1, bind, Except.bind, hleaf,
      Bool.false_eq_true, if_false, pure, Except.pure, s1, s2, s3, hleaf2, s4]
    exact e

end fuse_close_lemmas

/-! ## The height of a subtree -/

section height_lemmas

variable {S : Type}

/-- `height()` of a node that is the root of a balanced subtree of height `h` returns `h`. -/
theorem height_of_shape (B : Nat) : ∀ (h lo lo' : Nat) (x : B_tree_node S) (fuel : Nat),
    x.shape B lo lo' h = true → h ≤ fuel → x.height fuel = .ok (h : Int) := by
  intro h
  induction h with
  | zero => intro lo lo' x fuel hs; simp [shape_zero] at hs
  | succ h ih =>
    intro lo lo' x fuel hs hf
    obtain ⟨f, rfl⟩ : ∃ f, fuel = f + 1 := ⟨fuel - 1, by omega⟩
    obtain ⟨ks, cs, r, -, hcs⟩ := (shape_succ_iff B lo lo' h x).mp hs
    cases cs with
    | none =>
      dsimp only at hcs
      subst hcs
      rw [B_tree_node.height, r.children_none]
      rfl
    | some cl =>
      obtain ⟨hne, hall⟩ := hcs
      obtain ⟨ch, hch, -, -, hlen⟩ := r.children_some
      obtain ⟨c0, hc0⟩ := getElem?_some_of_lt (a := cl) (i := 0) (by omega)
      have h0 := r.child_get hch hc0
      have hsc := hall c0 (List.getElem?_mem hc0)
      have hh := ih lo' lo' c0 f hsc (by omega)
      rw [B_tree_node.height, hch]
      simp only [rd_ok h0, deref_some, hh, bind, Except.bind, pure, Except.pure]
      rfl

/-- The root-growing step of `B_tree::insert` on a full root, with the key count of the new
root and the room of its two children. -/
theorem grow_root_one (B h : Nat) (hB : 3 ≤ B) (hfit : B + 1 < 2 ^ B_t_bits B)
    (x : B_tree_node S)
    (hs : x.shape B 1 1 (h + 1) = true) (hfull : x.is_full B = true) :
    ∃ tmp x1 k lhs' rhs', (B_tree_node.blank B false : B_tree_node S).set_child B 0 (some x)
        = .ok tmp ∧
      tmp.split_child B 0 = .ok x1 ∧ B_tree_node.Rep B x1 [k] (some [lhs', rhs']) 0 ∧
      lhs'.n < B ∧ rhs'.n < B := by
  obtain ⟨tmp, htmp, r⟩ := rep_new_root B x
  obtain ⟨lks, lcs, rc, -, hccs⟩ := (shape_succ_iff B 1 1 h x).mp hs
  have hfullk : lks.length = B := by
    rw [← rc.n_eq]
    simpa [B_tree_node.is_full] using hfull
  obtain ⟨med, hmed⟩ := getElem?_some_of_lt (a := lks) (i := B / 2) (by omega)
  obtain ⟨x1, lhs', rhs', hsp, r1, rl, rr⟩ :=
    split_child_rep B (by omega) tmp x [] lks [x] lcs 0 x._shift 0 med (fun _ => hfit) r
      (show 0 < B by omega) rfl rc
      hfullk hmed (fun j k _ hk => by simp at hk) (fun j k _ hk => by simp at hk)
  obtain ⟨-, -, hl, hr⟩ := halves_shape hB hfullk hccs rl rr
  exact ⟨tmp, x1, med.add x._shift, lhs', rhs', htmp, hsp, r1, hl, hr⟩

/-- `insert` on an internal node none of whose live children is full keeps the key count of the
node. -/
theorem insert_root_n (B fuel : Nat) (x : B_tree_node S) (v : Int) (s : S)
    (hleaf : x.is_leaf = false) (hn : 1 ≤ x.n) (hk : x.n ≤ x.keys.length)
    (hc : ∀ i c, i ≤ x.n → x.child_at i = .ok (some c) → c.is_full B = false) :
    ∀ r, B_tree_node.insert B fuel x v s = .ok r → r.1.n = x.n := by
  cases fuel with
  | zero => intro r hr; cases hr
  | succ f =>
    rw [B_tree_node.insert]
    dsimp only
    rw [hleaf]
    simp only [Bool.false_eq_true, if_false]
    refine bind_sat fun q hq => ?_
    obtain ⟨l, l2⟩ := q
    obtain ⟨l', hb', -, hl', -⟩ := bsearch_spec x.keys (v - x._shift) x.n hk x.n 0 x.n
      (by omega) (le_refl _) (by omega)
    rw [hb'] at hq
    have hl : l = l' := by cases hq; rfl
    subst hl
    dsimp only
    refine bind_sat fun kl _ => ?_
    intro r
    split
    · revert r
      refine bind_sat fun k _ => ?_
      refine bind_sat fun x1 hx1 => ?_
      refine pure_sat ?_
      exact (set_key_at_n hx1).1
    · revert r
      generalize hi : (if kl.value < v - x._shift then l + 1 else l) = i
      have hile : i ≤ x.n := by
        rw [← hi]; split <;> omega
      refine bind_sat fun c hcc => ?_
      intro r
      split
      · rename_i c0
        have hnf := hc i c0 hile hcc
        rw [hnf]
        simp only [Bool.false_eq_true, if_false]
        revert r
        refine bind_sat fun q _ => ?_
        obtain ⟨c1, ans⟩ := q
        refine bind_sat fun x1 hx1 => ?_
        refine pure_sat ?_
        exact (set_child_at_n hx1).1
      · revert r
        refine bind_sat fun _ _ => bind_sat fun q _ => ?_
        obtain ⟨c1, ans⟩ := q
        refine bind_sat fun x1 hx1 => ?_
        refine pure_sat ?_
        exact (set_child_at_n hx1).1

end height_lemmas

/-! ## Contract of split_child -/

section split_child_contract

variable {S : Type}

/-- `split_child(i)` on a parent `P` that is not full (live keys `ks`, live children `cl`,
shift `s`) whose child `c` at index `i` is full (live keys `lks`, live children `lcs`, shift
`ls`), inside a subtree whose keys ascend, when the constructor of the new sibling returns: the
child is a leaf, or `B + 1` is a value of `B_t`.  The call returns; child `i` keeps the first
`B / 2` keys (and `B / 2 + 1` children) of `c`, the new child `i + 1` holds the remaining
`B - B / 2 - 1` keys with their children and has the shift `ls`; the former median
`lks[B / 2]`, its stored value increased by `ls`, is key `i` of `P`; the keys of `P` from `i` on
and its children from `i + 1` on have moved one slot to the right, so `P` has one key and one
child more; and the in-order list of effective keys with their satellite lists below `P` is
unchanged. -/
theorem split_child_of_full_child (B f i : Nat) (x c : B_tree_node S)
    (ks lks : List (key_t S)) (cl : List (B_tree_node S)) (lcs : Option (List (B_tree_node S)))
    (s ls : Int)
    (r : B_tree_node.Rep B x ks (some cl) s) (hn : x.is_full B = false)
    (hc : cl[i]? = some c) (rc : B_tree_node.Rep B c lks lcs ls) (hfull : c.is_full B = true)
    (hok : keys_ok (x.flat (f + 2)) = true)
    (hfit : lcs.isSome = true → B + 1 < 2 ^ B_t_bits B) :
    ∃ x' lhs' rhs' med, x.split_child B i = .ok x' ∧ lks[B / 2]? = some med ∧
      B_tree_node.Rep B x' (ks.take i ++ med.add ls :: ks.drop i)
        (some (cl.take i ++ lhs' :: rhs' :: cl.drop (i + 1))) s ∧
      B_tree_node.Rep B lhs' (lks.take (B / 2)) (lcs.map (List.take (B / 2 + 1))) ls ∧
      B_tree_node.Rep B rhs' (lks.drop (B / 2 + 1)) (lcs.map (List.drop (B / 2 + 1))) ls ∧
      x'.n = x.n + 1 ∧ lhs'.n = B / 2 ∧ rhs'.n = B - B / 2 - 1 ∧
      x'.flat (f + 2) = x.flat (f + 2) := by
  have hlt : ks.length < B := by
    have h1 : x.n ≠ B := by simpa [B_tree_node.is_full] using hn
    have h2 := r.n_le
    rw [← r.n_eq] at h2 ⊢
    omega
  have hfullk : lks.length = B := by
    rw [← rc.n_eq]
    simpa [B_tree_node.is_full] using hfull
  have hi : i < cl.length := lt_of_getElem?_some hc
  have hcl := r.children_some.choose_spec.2.2.2
  obtain ⟨med, hmed⟩ := getElem?_some_of_lt (a := lks) (i := B / 2)
    (by rw [hfullk]; exact Nat.div_lt_self (by omega) (by decide))
  have mb := median_bounds r f hok hc (mem_flat_of_key rc f hmed)
  obtain ⟨x1, lhs', rhs', hsp, r1, rl, rr⟩ :=
    split_child_rep B (by omega) x c ks lks cl lcs s ls i med hfit r hlt hc rc hfullk hmed mb.1
      mb.2
  refine ⟨x1, lhs', rhs', med, hsp, hmed, r1, rl, rr, ?_, ?_, ?_,
    flat_split_child r f hc rc hmed r1 rl rr⟩
  · rw [r1.n_eq, r.n_eq]
    simp only [List.length_append, List.length_take, List.length_cons, List.length_drop]
    omega
  · rw [rl.n_eq, List.length_take, hfullk]
    omega
  · rw [rr.n_eq, List.length_drop, hfullk]
    omega

/-- The effect of `split_child` with B = 3 on the parent with shift 10, stored key 20 and the leaves
{1, 2, 3} (shift 4, full) and {30}: `split_child(0)` promotes the median 2 as stored key 6. -/
theorem split_child_of_full_child_witness :
    ∃ x' lhs' rhs' med,
      (B_tree_node.of_lists 3 [⟨20, some [20]⟩]
        (some [B_tree_node.of_lists 3 [⟨1, some [1]⟩, ⟨2, some [2]⟩, ⟨3, some [3]⟩] none 4,
          B_tree_node.of_lists 3 [⟨30, some [30]⟩] none 0]) 10).split_child 3 0 = .ok x' ∧
      [(⟨1, some [1]⟩ : key_t Int), ⟨2, some [2]⟩, ⟨3, some [3]⟩][3 / 2]? = some med ∧
      B_tree_node.Rep 3 x' ([(⟨20, some [20]⟩ : key_t Int)].take 0 ++ med.add 4 ::
          [(⟨20, some [20]⟩ : key_t Int)].drop 0)
        (some ([B_tree_node.of_lists 3 [⟨1, some [1]⟩, ⟨2, some [2]⟩, ⟨3, some [3]⟩] none 4,
            B_tree_node.of_lists 3 [⟨30, some [30]⟩] none 0].take 0 ++ lhs' :: rhs' ::
          [B_tree_node.of_lists 3 [⟨1, some [1]⟩, ⟨2, some [2]⟩, ⟨3, some [3]⟩] none 4,
            B_tree_node.of_lists 3 [⟨30, some [30]⟩] none 0].drop (0 + 1))) 10 ∧
      B_tree_node.Rep 3 lhs' ([(⟨1, some [1]⟩ : key_t Int), ⟨2, some [2]⟩, ⟨3, some [3]⟩].take
        (3 / 2)) ((none : Option (List (B_tree_node Int))).map (List.take (3 / 2 + 1))) 4 ∧
      B_tree_node.Rep 3 rhs' ([(⟨1, some [1]⟩ : key_t Int), ⟨2, some [2]⟩, ⟨3, some [3]⟩].drop
        (3 / 2 + 1)) ((none : Option (List (B_tree_node Int))).map (List.drop (3 / 2 + 1))) 4 ∧
      x'.n = (B_tree_node.of_lists 3 [⟨20, some [20]⟩]
        (some [B_tree_node.of_lists 3 [⟨1, some [1]⟩, ⟨2, some [2]⟩, ⟨3, some [3]⟩] none 4,
          B_tree_node.of_lists 3 [⟨30, some [30]⟩] none 0]) 10).n + 1 ∧
      lhs'.n = 3 / 2 ∧ rhs'.n = 3 - 3 / 2 - 1 ∧
      x'.flat (0 + 2) = (B_tree_node.of_lists 3 [⟨20, some [20]⟩]
        (some [B_tree_node.of_lists 3 [⟨1, some [1]⟩, ⟨2, some [2]⟩, ⟨3, some [3]⟩] none 4,
          B_tree_node.of_lists 3 [⟨30, some [30]⟩] none 0]) 10).flat (0 + 2) :=
  split_child_of_full_child 3 0 0 _ _ _ _ _ _ 10 4
    ⟨rfl, rfl, by decide, rfl, rfl, ⟨_, rfl, rfl, rfl, rfl⟩⟩ rfl rfl
    ⟨rfl, rfl, by decide, rfl, rfl, rfl⟩ rfl rfl (fun h => by cases h)

end split_child_contract

/-! ## The height after insert -/

section insert_height_contract

variable {S : Type}

/-- The height after insertion, for `B ≥ 3` such that `B + 1` is a value of `B_t`:
`B_tree::insert` on a valid tree of height `h` with root `x` returns a tree whose root `x'` has `height()` equal to `h + 1` if `x` was full and to `h` otherwise
(`height()` of `x` is `h`); in the growing case the new root has exactly one key, and its two
live children are its first two child pointers. -/
theorem insert_grows_height_iff_root_full (B T h : Nat) (hB : 3 ≤ B)
    (hfit : B + 1 < 2 ^ B_t_bits B) (hT : 2 ≤ T)
    (t : B_tree S) (x : B_tree_node S) (v : Int) (sat : S) (fuel : Nat)
    (hx : t._head = some x) (hv : t.valid B T h = true) (hf : h + 1 ≤ fuel) :
    ∃ t' p x', t.insert B fuel v sat = .ok (t', p) ∧ t'._head = some x' ∧
      x.height fuel = .ok (h : Int) ∧
      x'.height fuel = .ok (((if x.is_full B = true then h + 1 else h : Nat)) : Int) ∧
      (x.is_full B = true → x'.n = 1 ∧
        ∃ c0 c1 rest, x'.children = some (some c0 :: some c1 :: rest)) := by
  obtain ⟨f, rfl⟩ : ∃ f, fuel = f + 1 := ⟨fuel - 1, by omega⟩
  cases t with
  | mk head =>
    dsimp only at hx
    subst hx
    obtain ⟨hs, hk⟩ := valid_shape_one hT (show x.valid B T h = true from hv)
    have hhx := height_of_shape B h 1 1 x (f + 1) hs (by omega)
    cases hfull : x.is_full B with
    | true =>
      obtain ⟨h0, rfl⟩ : ∃ h0, h = h0 + 1 := by
        cases h with
        | zero => rw [shape_zero] at hs; cases hs
        | succ h0 => exact ⟨h0, rfl⟩
      obtain ⟨tmp, x1, h1, h2, h3, h4, h5⟩ := grow_root B h0 hB hfit x hs hfull
      obtain ⟨tmp', x1', k, lhs', rhs', h1', h2', r1, hl, hr⟩ := grow_root_one B h0 hB hfit x hs hfull
      have e1 : tmp' = tmp := by
        rw [h1] at h1'; cases h1'; rfl
      subst e1
      have e2 : x1' = x1 := by
        rw [h2] at h2'; cases h2'; rfl
      subst e2
      obtain ⟨x', p, he, hs', -⟩ := insert_node B hB hfit sat (h0 + 2) x1' v (f + 1) h3
        (by rw [h5]; exact hk) h4 (by omega)
      have hn1 : x1'.n = 1 := r1.n_eq
      obtain ⟨ch, hch, hchl, htk, -⟩ := r1.children_some
      have hnx : x'.n = 1 := by
        have := insert_root_n B (f + 1) x1' v sat r1.is_leaf_some (by omega)
          (by rw [r1.keys_len]; omega)
          (fun i c hi hc => by
            simp only [B_tree_node.child_at, hch, deref, bind, Except.bind] at hc
            have hci := rd_eq_ok_iff.mp hc
            have hti : (ch.take ([k].length + 1))[i]? = ch[i]? := by
              rw [List.getElem?_take]
              simp only [List.length_singleton]
              rw [if_pos (by omega)]
            rw [htk, hci] at hti
            have hi2 : i = 0 ∨ i = 1 := by omega
            rcases hi2 with rfl | rfl
            · have : c = lhs' := by
                simp at hti
                exact hti.symm
              subst this
              simp only [B_tree_node.is_full, beq_eq_false_iff_ne, ne_eq]
              omega
            · have : c = rhs' := by
                simp at hti
                exact hti.symm
              subst this
              simp only [B_tree_node.is_full, beq_eq_false_iff_ne, ne_eq]
              omega) (x', p) he
        rw [this, hn1]
      refine ⟨⟨some x'⟩, p, x', ?_, rfl, hhx, ?_, fun _ => ⟨hnx, ?_⟩⟩
      · simp only [B_tree.insert, hfull, if_true, create_inner hfit, h1, h2, he, bind,
          Except.bind, pure, Except.pure]
      · simp only [if_true]
        exact height_of_shape B (h0 + 2) 1 1 x' (f + 1) hs' (by omega)
      · obtain ⟨ks', cs', r', -, hcs'⟩ := (shape_succ_iff B 1 1 (h0 + 1) x').mp hs'
        cases cs' with
        | none =>
          dsimp only at hcs'
          omega
        | some cl' =>
          obtain ⟨ch', hch', hchl', htk', hlen'⟩ := r'.children_some
          have hk1 : ks'.length = 1 := by rw [← r'.n_eq]; exact hnx
          rw [hk1] at htk' hlen'
          obtain ⟨c0, c1, rfl⟩ : ∃ c0 c1, cl' = [c0, c1] := by
            match cl', hlen' with
            | [a, b], _ => exact ⟨a, b, rfl⟩
          refine ⟨c0, c1, ch'.drop 2, ?_⟩
          rw [hch']
          congr 1
          calc ch' = ch'.take 2 ++ ch'.drop 2 := (List.take_append_drop 2 ch').symm
            _ = _ := by rw [htk']; rfl
    | false =>
      have hn : x.n < B := by
        cases h with
        | zero => rw [shape_zero] at hs; cases hs
        | succ h0 =>
          obtain ⟨lks, lcs, rc, -, -⟩ := (shape_succ_iff B 1 1 h0 x).mp hs
          have h1 : x.n ≠ B := by simpa [B_tree_node.is_full] using hfull
          have h2 := rc.n_le
          rw [← rc.n_eq] at h2
          omega
      obtain ⟨x', p, he, hs', -⟩ := insert_node B hB hfit sat h x v (f + 1) hs hk hn (by omega)
      refine ⟨⟨some x'⟩, p, x', ?_, rfl, hhx, ?_, fun h => by cases h⟩
      · simp only [B_tree.insert, hfull, Bool.false_eq_true, if_false, he, bind, Except.bind,
          pure, Except.pure]
      · simp only [Bool.false_eq_true, if_false]
        exact height_of_shape B h 1 1 x' (f + 1) hs' (by omega)

/-- The height after insertion with B = 7, T = 3 into the tree whose root is the full leaf holding
1..7 (height 1) and to `insert(8, 8)`: the height becomes 2 and the new root has one key. -/
theorem insert_grows_height_iff_root_full_witness :
    ∃ t' p x', (⟨some (B_tree_node.of_lists 7 [⟨1, some [1]⟩, ⟨2, some [2]⟩, ⟨3, some [3]⟩, ⟨4, some [4]⟩,
        ⟨5, some [5]⟩, ⟨6, some [6]⟩, ⟨7, some [7]⟩] none 0 : B_tree_node Int)⟩ : B_tree Int).insert 7 2 8 8 = .ok (t', p) ∧ t'._head = some x' ∧
      (B_tree_node.of_lists 7 [⟨1, some [1]⟩, ⟨2, some [2]⟩, ⟨3, some [3]⟩, ⟨4, some [4]⟩,
        ⟨5, some [5]⟩, ⟨6, some [6]⟩, ⟨7, some [7]⟩] none 0 : B_tree_node Int).height 2 = .ok ((1 : Nat) : Int) ∧
      x'.height 2 = .ok (((if (B_tree_node.of_lists 7 [⟨1, some [1]⟩, ⟨2, some [2]⟩, ⟨3, some [3]⟩, ⟨4, some [4]⟩,
        ⟨5, some [5]⟩, ⟨6, some [6]⟩, ⟨7, some [7]⟩] none 0 : B_tree_node Int).is_full 7 = true then 1 + 1 else 1 : Nat)) : Int) ∧
      ((B_tree_node.of_lists 7 [⟨1, some [1]⟩, ⟨2, some [2]⟩, ⟨3, some [3]⟩, ⟨4, some [4]⟩,
        ⟨5, some [5]⟩, ⟨6, some [6]⟩, ⟨7, some [7]⟩] none 0 : B_tree_node Int).is_full 7 = true → x'.n = 1 ∧
        ∃ c0 c1 rest, x'.children = some (some c0 :: some c1 :: rest)) :=
  insert_grows_height_iff_root_full 7 3 1 (by decide) (by decide) (by decide) _ _ 8 8 2 rfl rfl
    (by decide)

end insert_height_contract

/-! ## The in-order list through merge_children -/

section merge_flat_lemmas

variable {S : Type}

/-- In-order walk over two runs of children joined by a key. -/
theorem inorder_join (sub : B_tree_node S → List (key_t S)) :
    ∀ (c1 : List (Option (B_tree_node S))) (k1 : List (key_t S)) (c2 : List (Option (B_tree_node S)))
      (k2 : List (key_t S)) (sep : key_t S), c1.length = k1.length + 1 →
      inorder sub (c1 ++ c2) (k1 ++ sep :: k2) = inorder sub c1 k1 ++ sep :: inorder sub c2 k2 := by
  intro c1
  induction c1 with
  | nil => intro k1 c2 k2 sep h; simp at h
  | cons a c1 ih =>
    intro k1 c2 k2 sep h
    cases k1 with
    | nil =>
      have : c1 = [] := by
        simp only [List.length_cons, List.length_nil, Nat.add_left_eq_self] at h
        exact List.length_eq_zero.mp h
      subst this
      rfl
    | cons k k1 =>
      have e := ih k1 c2 k2 sep (by simpa using h)
      show (a.map sub).getD [] ++ k :: inorder sub (c1 ++ c2) (k1 ++ sep :: k2) =
        ((a.map sub).getD [] ++ k :: inorder sub c1 k1) ++ sep :: inorder sub c2 k2
      rw [e]
      simp

/-- Replacing two neighbouring children and their separator by one child that lists the same
keys does not change the in-order walk. -/
theorem inorder_merge (sub : B_tree_node S → List (key_t S)) (L R M : B_tree_node S)
    (sep : key_t S) (C : List (B_tree_node S)) (KC : List (key_t S))
    (hM : sub M = sub L ++ sep :: sub R) :
    ∀ (A : List (B_tree_node S)) (KA : List (key_t S)), A.length = KA.length →
      inorder sub ((A ++ M :: C).map some) (KA ++ KC) =
        inorder sub ((A ++ L :: R :: C).map some) (KA ++ sep :: KC) := by
  intro A
  induction A with
  | nil =>
    intro KA h
    have : KA = [] := List.length_eq_zero.mp h.symm
    subst this
    simp only [List.nil_append, List.map_cons]
    rw [inorder_cons_none, inorder]
    rw [inorder_cons_none sub (some R)]
    simp [hM]
  | cons a A ih =>
    intro KA h
    cases KA with
    | nil => simp at h
    | cons k KA =>
      have e := ih KA (by simpa using h)
      show ((some a).map sub).getD [] ++ k :: inorder sub ((A ++ M :: C).map some) (KA ++ KC) =
        ((some a).map sub).getD [] ++ k ::
          inorder sub ((A ++ L :: R :: C).map some) (KA ++ sep :: KC)
      rw [e]

theorem list_split_two {α : Type} (cl : List α) (i : Nat) (a b : α) (ha : cl[i]? = some a)
    (hb : cl[i + 1]? = some b) : cl = cl.take i ++ a :: b :: cl.drop (i + 2) := by
  have h1 := lt_of_getElem?_some ha
  have h2 := lt_of_getElem?_some hb
  apply List.ext_getElem?
  intro p
  rw [getElem?_append_cons, List.length_take, Nat.min_eq_left (by omega)]
  by_cases c1 : p < i
  · rw [if_pos c1, List.getElem?_take, if_pos c1]
  · rw [if_neg c1]
    by_cases c2 : p = i
    · rw [if_pos c2, c2]; exact ha
    · rw [if_neg c2]
      by_cases c3 : p = i + 1
      · subst c3
        rw [show i + 1 - i - 1 = 0 by omega, List.getElem?_cons_zero]
        exact hb
      · obtain ⟨e, he⟩ : ∃ e, p - i - 1 = e + 1 := ⟨p - i - 2, by omega⟩
        rw [he, List.getElem?_cons_succ, List.getElem?_drop]
        congr 1
        omega

theorem list_split_one {α : Type} (ks : List α) (i : Nat) (a : α) (ha : ks[i]? = some a) :
    ks = ks.take i ++ a :: ks.drop (i + 1) := by
  have h1 := lt_of_getElem?_some ha
  apply List.ext_getElem?
  intro p
  rw [getElem?_append_cons, List.length_take, Nat.min_eq_left (by omega)]
  by_cases c1 : p < i
  · rw [if_pos c1, List.getElem?_take, if_pos c1]
  · rw [if_neg c1]
    by_cases c2 : p = i
    · rw [if_pos c2, c2]; exact ha
    · rw [if_neg c2, List.getElem?_drop]
      congr 1
      omega

theorem list_merged {α : Type} (cl : List α) (i : Nat) (m : α) (h : i + 1 < cl.length) :
    (cl.eraseIdx i).set i m = cl.take i ++ m :: cl.drop (i + 2) := by
  have h1 : (cl.eraseIdx i).length = cl.length - 1 := List.length_eraseIdx_of_lt (by omega)
  apply List.ext_getElem?
  intro p
  rw [getElem?_append_cons, List.getElem?_take, List.length_take, Nat.min_eq_left (by omega),
    getElem?_set_if _ _ _ _ (by omega), List.getElem?_eraseIdx, List.getElem?_drop]
  split_ifs <;> first
    | rfl
    | (exfalso; omega)
    | (congr 1; omega)

/-- The in-order list of the node produced by `merge_children`: the keys of the left child, the
separator, the keys of the right child. -/
theorem flat_merged {B : Nat} {L R M : B_tree_node S} {lks rks : List (key_t S)}
    {lcs rcs : Option (List (B_tree_node S))} {ls rs : Int} {sep : key_t S}
    (rl : B_tree_node.Rep B L lks lcs ls) (rr : B_tree_node.Rep B R rks rcs rs)
    (rm : B_tree_node.Rep B M (lks ++ sep.add (-ls) :: rks.map (key_t.add (rs - ls)))
      (lcs.bind fun lcl => rcs.map fun rcl => lcl ++ rcl.map fun c => c.shift (rs - ls)) ls)
    (hsame : lcs.isSome = rcs.isSome) (f : Nat) :
    M.flat (f + 1) = L.flat (f + 1) ++ sep :: R.flat (f + 1) := by
  have hsep : (sep.add (-ls)).add ls = sep := by
    rw [key_t.add_add]
    simp
  have hrs : rs - ls + ls = rs := by omega
  have hrk : (rks.map (key_t.add (rs - ls))).map (key_t.add ls) = rks.map (key_t.add rs) := by
    rw [map_add_add, hrs]
  cases lcs with
  | none =>
    cases rcs with
    | some rcl => simp at hsame
    | none =>
      rw [flat_leaf rl, flat_leaf rr, flat_leaf rm, List.map_append, List.map_cons, hsep, hrk]
  | some lcl =>
    cases rcs with
    | none => simp at hsame
    | some rcl =>
      have hll := rl.children_some.choose_spec.2.2.2
      rw [flat_inner rl, flat_inner rr]
      have rm' : B_tree_node.Rep B M (lks ++ sep.add (-ls) :: rks.map (key_t.add (rs - ls)))
          (some (lcl ++ rcl.map fun c => c.shift (rs - ls))) ls := rm
      rw [flat_inner rm', List.map_append, inorder_join _ _ _ _ _ _ (by simp; omega),
        List.map_append, List.map_cons, hsep]
      congr 2
      rw [List.map_map]
      have := inorder_map_sub (B_tree_node.flat f) (B_tree_node.flat f)
        (fun c => c.shift (rs - ls)) (key_t.add (rs - ls)) (rcl.map some) rks
        (fun c _ => flat_shift c (rs - ls) f)
      rw [List.map_map] at this
      have e : (Option.map (fun c : B_tree_node S => c.shift (rs - ls)) ∘ some) =
          (some ∘ fun c => c.shift (rs - ls)) := by
        funext c; rfl
      rw [e] at this
      rw [this, map_add_add, hrs]

/-- The in-order list of the parent is not changed by `merge_children`. -/
theorem flat_merge_parent {B : Nat} {x x4 L R M : B_tree_node S} {ks cl s} {i : Nat}
    {sep : key_t S} (r : B_tree_node.Rep B x ks (some cl) s)
    (hk : ks[i]? = some sep) (hL : cl[i]? = some L) (hR : cl[i + 1]? = some R)
    (r4 : B_tree_node.Rep B x4 (ks.eraseIdx i) (some ((cl.eraseIdx i).set i M)) s) (f : Nat)
    (hM : M.flat (f + 1) = L.flat (f + 1) ++ sep :: R.flat (f + 1)) :
    x4.flat (f + 2) = x.flat (f + 2) := by
  have h2 := lt_of_getElem?_some hR
  have hi := lt_of_getElem?_some hk
  rw [flat_inner r4, flat_inner r]
  congr 1
  rw [list_merged cl i M h2, List.eraseIdx_eq_take_drop_succ]
  conv_rhs => rw [list_split_two cl i L R hL hR, list_split_one ks i sep hk]
  exact inorder_merge _ L R M sep _ _ hM _ _ (by
    rw [List.length_take, List.length_take]
    omega)

/-- The effect of `merge_children`, for two leaves or two internal children. -/
theorem merge_children_rep {B : Nat} {x L R : B_tree_node S} {ks cl s lks lcs ls rks rcs rs}
    (r : B_tree_node.Rep B x ks (some cl) s) {i : Nat} {sep : key_t S}
    (hk : ks[i]? = some sep) (hL : cl[i]? = some L) (hR : cl[i + 1]? = some R)
    (rl : B_tree_node.Rep B L lks lcs ls) (rr : B_tree_node.Rep B R rks rcs rs)
    (hsame : lcs.isSome = rcs.isSome)
    (hsum : lks.length + rks.length + 1 ≤ B) (ho : Option Int) :
    ∃ M x4, B_tree_node.Rep B M (lks ++ sep.add (-ls) :: rks.map (key_t.add (rs - ls)))
        (lcs.bind fun lcl => rcs.map fun rcl => lcl ++ rcl.map fun c => c.shift (rs - ls)) ls ∧
      B_tree_node.Rep B x4 (ks.eraseIdx i) (some ((cl.eraseIdx i).set i M)) s ∧
      x.merge_children B i ho = .ok (if x4.n = 0 then
          ({ keys := M.keys, children := M.children, n := M.n, _shift := x4._shift + M._shift },
            ho.map (· - 1))
        else (x4, ho)) := by
  cases lcs with
  | none =>
    cases rcs with
    | some rcl => simp at hsame
    | none => exact merge_children_leaf r hk hL hR rl rr hsum ho
  | some lcl =>
    cases rcs with
    | none => simp at hsame
    | some rcl => exact merge_children_inner r hk hL hR rl rr hsum ho

/-- Two nodes with the same live contents list the same keys, up to their shifts. -/
theorem flat_with_shift {B : Nat} {M P : B_tree_node S} {ks cs} {ls s' : Int}
    (rm : B_tree_node.Rep B M ks cs ls) (rp : B_tree_node.Rep B P ks cs s') (f : Nat) :
    P.flat (f + 1) = (M.flat (f + 1)).map (key_t.add (s' - ls)) := by
  have e : ls + (s' - ls) = s' := by omega
  cases cs with
  | none => rw [flat_leaf rm, flat_leaf rp, map_add_add, e]
  | some cl => rw [flat_inner rm, flat_inner rp, map_add_add, e]

/-- `height()` of a node is one more than `height()` of its first child. -/
theorem height_inner {B : Nat} {x c : B_tree_node S} {ks cl s}
    (r : B_tree_node.Rep B x ks (some cl) s) (hc : cl[0]? = some c) (fuel : Nat) (h : Int) :
    x.height (fuel + 1) = .ok (h + 1) ↔ c.height fuel = .ok h := by
  obtain ⟨ch, hch, -, -, -⟩ := r.children_some
  have h0 := r.child_get hch hc
  rw [B_tree_node.height, hch]
  simp only [rd_ok h0, deref_some, bind, Except.bind, pure, Except.pure]
  cases c.height fuel with
  | error e => simp
  | ok a =>
    simp only [Except.ok.injEq]
    omega

/-- Two nodes with the same child array have the same `height()`. -/
theorem height_congr {x y : B_tree_node S} (h : x.children = y.children) (fuel : Nat) :
    x.height fuel = y.height fuel := by
  cases fuel with
  | zero => rfl
  | succ f => rw [B_tree_node.height, B_tree_node.height, h]

end merge_flat_lemmas

/-! ## Contract of merge_children -/

section merge_children_contract

variable {S : Type}

/-- C32: `merge_children(i)` on a parent `P` (live keys `ks`, live children `cl`, shift `s`)
with `i < P.n`, whose children `L = children[i]` and `R = children[i+1]` (both leaves or both
internal, with the shifts `ls` and `rs`) satisfy `L.n + R.n + 1 ≤ B`.  The call returns; the
merged node `M` holds the keys of `L`, the separator re-based to the frame of `L`, and the keys
of `R` re-based from `rs` to `ls`, with the children of `R` (re-based) appended to those of `L`:
`L.n + R.n + 1` keys that list, in order, the effective keys of `L`, the separator and the
effective keys of `R`.  If `P` had more than one key, the result has the key `i` removed and `M`
in place of the two children, and lists the same effective keys with the same satellite lists.
If `P` had one key, the result has the contents of `M` and the shift `s + ls`, lists the same
effective keys, the height passed by pointer is decremented, and `height()` is one less. -/
theorem merge_children_of_two_children (B f i : Nat) (x L R : B_tree_node S)
    (ks lks rks : List (key_t S)) (cl : List (B_tree_node S))
    (lcs rcs : Option (List (B_tree_node S))) (s ls rs : Int) (ho : Option Int)
    (r : B_tree_node.Rep B x ks (some cl) s) (hi : i < x.n)
    (hL : cl[i]? = some L) (hR : cl[i + 1]? = some R)
    (rl : B_tree_node.Rep B L lks lcs ls) (rr : B_tree_node.Rep B R rks rcs rs)
    (hsame : lcs.isSome = rcs.isSome) (hsum : L.n + R.n + 1 ≤ B) :
    ∃ sep M P' ho', ks[i]? = some sep ∧ x.merge_children B i ho = .ok (P', ho') ∧
      B_tree_node.Rep B M (lks ++ sep.add (-ls) :: rks.map (key_t.add (rs - ls)))
        (lcs.bind fun lcl => rcs.map fun rcl => lcl ++ rcl.map fun c => c.shift (rs - ls)) ls ∧
      M.n = L.n + R.n + 1 ∧
      M.flat (f + 1) = L.flat (f + 1) ++ sep :: R.flat (f + 1) ∧
      (1 < x.n → B_tree_node.Rep B P' (ks.eraseIdx i) (some ((cl.eraseIdx i).set i M)) s ∧
        P'.n + 1 = x.n ∧ ho' = ho ∧ P'.flat (f + 2) = x.flat (f + 2)) ∧
      (x.n = 1 → B_tree_node.Rep B P' (lks ++ sep.add (-ls) :: rks.map (key_t.add (rs - ls)))
          (lcs.bind fun lcl => rcs.map fun rcl => lcl ++ rcl.map fun c => c.shift (rs - ls))
          (s + ls) ∧
        ho' = ho.map (· - 1) ∧ P'.flat (f + 1) = x.flat (f + 2) ∧
        ∀ fuel h, x.height (fuel + 1) = .ok (h + 1) ↔ P'.height fuel = .ok h) := by
  have hik : i < ks.length := by rw [← r.n_eq]; exact hi
  obtain ⟨sep, hk⟩ := getElem?_some_of_lt hik
  have hsum' : lks.length + rks.length + 1 ≤ B := by
    rw [← rl.n_eq, ← rr.n_eq]; exact hsum
  obtain ⟨M, x4, rm, r4, hm⟩ := merge_children_rep r hk hL hR rl rr hsame hsum' ho
  have hfm := flat_merged rl rr rm hsame f
  have hn4 : x4.n + 1 = x.n := by
    rw [r4.n_eq, r.n_eq, List.length_eraseIdx_of_lt hik]
    omega
  have hMn : M.n = L.n + R.n + 1 := by
    rw [rm.n_eq, rl.n_eq, rr.n_eq]
    simp only [List.length_append, List.length_cons, List.length_map]
    omega
  by_cases h1 : x.n = 1
  · have h40 : x4.n = 0 := by omega
    rw [if_pos h40] at hm
    have rp : B_tree_node.Rep B
        ({ keys := M.keys, children := M.children, n := M.n, _shift := x4._shift + M._shift } :
          B_tree_node S)
        (lks ++ sep.add (-ls) :: rks.map (key_t.add (rs - ls)))
        (lcs.bind fun lcl => rcs.map fun rcl => lcl ++ rcl.map fun c => c.shift (rs - ls))
        (s + ls) := by
      have e : x4._shift + M._shift = s + ls := by rw [r4.shift_eq, rm.shift_eq]
      rw [e]
      exact rep_with_shift rm (s + ls)
    have hi0 : i = 0 := by omega
    subst hi0
    have hks : ks = [sep] := by
      have hl : ks.length = 1 := by rw [← r.n_eq]; exact h1
      match ks, hl, hk with
      | [a], _, hk =>
        simp only [List.getElem?_cons_zero, Option.some.injEq] at hk
        rw [hk]
    subst hks
    have hcl : cl = [L, R] := by
      have hl : cl.length = 2 := r.children_some.choose_spec.2.2.2
      match cl, hl, hL, hR with
      | [a, b], _, hL, hR =>
        simp only [List.getElem?_cons_zero, Option.some.injEq] at hL
        simp only [Nat.zero_add, List.getElem?_cons_succ, List.getElem?_cons_zero,
          Option.some.injEq] at hR
        rw [hL, hR]
    subst hcl
    refine ⟨sep, M, _, _, hk, hm, rm, hMn, hfm, fun h => by omega, fun _ => ⟨rp, rfl, ?_, ?_⟩⟩
    · rw [flat_with_shift rm rp f, flat_inner r, hfm]
      have : s + ls - ls = s := by omega
      rw [this]
      rfl
    · intro fuel h
      rw [height_inner r hL fuel h]
      cases lcs with
      | none =>
        have rm' : B_tree_node.Rep B M (lks ++ sep.add (-ls) :: rks.map (key_t.add (rs - ls)))
            none ls := rm
        have e : L.children =
            (⟨M.keys, M.children, M.n, x4._shift + M._shift⟩ : B_tree_node S).children := by
          rw [rl.children_none]; exact rm'.children_none.symm
        rw [height_congr e]
      | some lcl =>
        cases rcs with
        | none => simp at hsame
        | some rcl =>
          have rp' : B_tree_node.Rep B
              (⟨M.keys, M.children, M.n, x4._shift + M._shift⟩ : B_tree_node S)
              (lks ++ sep.add (-ls) :: rks.map (key_t.add (rs - ls)))
              (some (lcl ++ rcl.map fun c => c.shift (rs - ls))) (s + ls) := rp
          have hll := rl.children_some.choose_spec.2.2.2
          obtain ⟨c0, hc0⟩ := getElem?_some_of_lt (a := lcl) (i := 0) (by omega)
          have hc0' : (lcl ++ rcl.map fun c => c.shift (rs - ls))[0]? = some c0 := by
            rw [List.getElem?_append_left (by omega)]
            exact hc0
          cases fuel with
          | zero => exact ⟨fun h => (by cases h), fun h => (by cases h)⟩
          | succ g =>
            have e : h = (h - 1) + 1 := by omega
            rw [e, height_inner rl hc0 g (h - 1), height_inner rp' hc0' g (h - 1)]
  · have h40 : ¬ x4.n = 0 := by omega
    rw [if_neg h40] at hm
    refine ⟨sep, M, _, _, hk, hm, rm, hMn, hfm,
      fun _ => ⟨r4, hn4, rfl, flat_merge_parent r hk hL hR r4 f hfm⟩, fun h => by omega⟩

/-- The C32 theorem applied with B = 5 to the parent with shift 100 and the stored keys 30, 70
over the leaves {8, 18} (shift 2), {45} (shift -5) and {80}: `merge_children(0)` gives the
leaf with the stored keys 8, 18, 28, 38 and the shift 2. -/
theorem merge_children_of_two_children_witness :
    ∃ sep M P' ho', [(⟨30, some [30]⟩ : key_t Int), ⟨70, some [70]⟩][0]? = some sep ∧
      (B_tree_node.of_lists 5 [(⟨30, some [30]⟩ : key_t Int), ⟨70, some [70]⟩]
      (some [(B_tree_node.of_lists 5 [⟨8, some [10]⟩, ⟨18, some [20]⟩] none 2 : B_tree_node Int),
        (B_tree_node.of_lists 5 [⟨45, some [40]⟩] none (-5) : B_tree_node Int),
        (B_tree_node.of_lists 5 [⟨80, some [80]⟩] none 0 : B_tree_node Int)]) 100).merge_children 5 0 (some 2) = .ok (P', ho') ∧
      B_tree_node.Rep 5 M ([(⟨8, some [10]⟩ : key_t Int), ⟨18, some [20]⟩] ++ sep.add (-2) ::
          [(⟨45, some [40]⟩ : key_t Int)].map (key_t.add (-5 - 2)))
        ((none : Option (List (B_tree_node Int))).bind fun lcl =>
          (none : Option (List (B_tree_node Int))).map fun rcl => lcl ++ rcl.map fun c => c.shift (-5 - 2)) 2 ∧
      M.n = (B_tree_node.of_lists 5 [⟨8, some [10]⟩, ⟨18, some [20]⟩] none 2 : B_tree_node Int).n +
        (B_tree_node.of_lists 5 [⟨45, some [40]⟩] none (-5) : B_tree_node Int).n + 1 ∧
      M.flat (0 + 1) = (B_tree_node.of_lists 5 [⟨8, some [10]⟩, ⟨18, some [20]⟩] none 2 : B_tree_node Int).flat (0 + 1) ++
        sep :: (B_tree_node.of_lists 5 [⟨45, some [40]⟩] none (-5) : B_tree_node Int).flat (0 + 1) ∧
      (1 < (B_tree_node.of_lists 5 [(⟨30, some [30]⟩ : key_t Int), ⟨70, some [70]⟩]
      (some [(B_tree_node.of_lists 5 [⟨8, some [10]⟩, ⟨18, some [20]⟩] none 2 : B_tree_node Int),
        (B_tree_node.of_lists 5 [⟨45, some [40]⟩] none (-5) : B_tree_node Int),
        (B_tree_node.of_lists 5 [⟨80, some [80]⟩] none 0 : B_tree_node Int)]) 100).n →
        B_tree_node.Rep 5 P' ([(⟨30, some [30]⟩ : key_t Int), ⟨70, some [70]⟩].eraseIdx 0)
          (some (([(B_tree_node.of_lists 5 [⟨8, some [10]⟩, ⟨18, some [20]⟩] none 2 : B_tree_node Int),
        (B_tree_node.of_lists 5 [⟨45, some [40]⟩] none (-5) : B_tree_node Int),
        (B_tree_node.of_lists 5 [⟨80, some [80]⟩] none 0 : B_tree_node Int)].eraseIdx 0).set 0 M)) 100 ∧
        P'.n + 1 = (B_tree_node.of_lists 5 [(⟨30, some [30]⟩ : key_t Int), ⟨70, some [70]⟩]
      (some [(B_tree_node.of_lists 5 [⟨8, some [10]⟩, ⟨18, some [20]⟩] none 2 : B_tree_node Int),
        (B_tree_node.of_lists 5 [⟨45, some [40]⟩] none (-5) : B_tree_node Int),
        (B_tree_node.of_lists 5 [⟨80, some [80]⟩] none 0 : B_tree_node Int)]) 100).n ∧ ho' = some 2 ∧
        P'.flat (0 + 2) = (B_tree_node.of_lists 5 [(⟨30, some [30]⟩ : key_t Int), ⟨70, some [70]⟩]
      (some [(B_tree_node.of_lists 5 [⟨8, some [10]⟩, ⟨18, some [20]⟩] none 2 : B_tree_node Int),
        (B_tree_node.of_lists 5 [⟨45, some [40]⟩] none (-5) : B_tree_node Int),
        (B_tree_node.of_lists 5 [⟨80, some [80]⟩] none 0 : B_tree_node Int)]) 100).flat (0 + 2)) ∧
      ((B_tree_node.of_lists 5 [(⟨30, some [30]⟩ : key_t Int), ⟨70, some [70]⟩]
      (some [(B_tree_node.of_lists 5 [⟨8, some [10]⟩, ⟨18, some [20]⟩] none 2 : B_tree_node Int),
        (B_tree_node.of_lists 5 [⟨45, some [40]⟩] none (-5) : B_tree_node Int),
        (B_tree_node.of_lists 5 [⟨80, some [80]⟩] none 0 : B_tree_node Int)]) 100).n = 1 →
        B_tree_node.Rep 5 P' ([(⟨8, some [10]⟩ : key_t Int), ⟨18, some [20]⟩] ++ sep.add (-2) ::
            [(⟨45, some [40]⟩ : key_t Int)].map (key_t.add (-5 - 2)))
          ((none : Option (List (B_tree_node Int))).bind fun lcl =>
          (none : Option (List (B_tree_node Int))).map fun rcl => lcl ++ rcl.map fun c => c.shift (-5 - 2)) (100 + 2) ∧
        ho' = (some 2 : Option Int).map (· - 1) ∧
        P'.flat (0 + 1) = (B_tree_node.of_lists 5 [(⟨30, some [30]⟩ : key_t Int), ⟨70, some [70]⟩]
      (some [(B_tree_node.of_lists 5 [⟨8, some [10]⟩, ⟨18, some [20]⟩] none 2 : B_tree_node Int),
        (B_tree_node.of_lists 5 [⟨45, some [40]⟩] none (-5) : B_tree_node Int),
        (B_tree_node.of_lists 5 [⟨80, some [80]⟩] none 0 : B_tree_node Int)]) 100).flat (0 + 2) ∧
        ∀ fuel h, (B_tree_node.of_lists 5 [(⟨30, some [30]⟩ : key_t Int), ⟨70, some [70]⟩]
      (some [(B_tree_node.of_lists 5 [⟨8, some [10]⟩, ⟨18, some [20]⟩] none 2 : B_tree_node Int),
        (B_tree_node.of_lists 5 [⟨45, some [40]⟩] none (-5) : B_tree_node Int),
        (B_tree_node.of_lists 5 [⟨80, some [80]⟩] none 0 : B_tree_node Int)]) 100).height (fuel + 1) = .ok (h + 1) ↔ P'.height fuel = .ok h) :=
  merge_children_of_two_children 5 0 0 _ _ _ _ _ _ _ none none 100 2 (-5) (some 2)
    ⟨rfl, rfl, by decide, rfl, rfl, ⟨_, rfl, rfl, rfl, rfl⟩⟩ (by decide) rfl rfl
    ⟨rfl, rfl, by decide, rfl, rfl, rfl⟩ ⟨rfl, rfl, by decide, rfl, rfl, rfl⟩ rfl (by decide)

end merge_children_contract

/-! ## Operations that hold no assertion -/

section assertion_lemmas

variable {S : Type}

/-- A sequenced computation does not stop at an assertion if its first part does not and its
second part does not after any value returned by the first part. -/
theorem bind_naf {α β : Type} {m : Except Fault α} {f : α → Except Fault β}
    (h0 : m ≠ .error .assert_fail) (h : ∀ a, m = .ok a → f a ≠ .error .assert_fail) :
    (m >>= f) ≠ .error .assert_fail := by
  cases m with
  | error e =>
    intro hc
    apply h0
    cases hc
    rfl
  | ok a => exact h a rfl

theorem pure_naf {α : Type} (a : α) : (pure a : Except Fault α) ≠ .error .assert_fail := by
  intro h; cases h

theorem ok_naf {α : Type} (a : α) : (.ok a : Except Fault α) ≠ .error .assert_fail := by
  intro h; cases h

theorem rd_naf {α : Type} (a : List α) (i : Nat) : rd a i ≠ .error .assert_fail := by
  rw [rd]
  split <;> intro h <;> cases h

theorem wr_naf {α : Type} (a : List α) (i : Nat) (x : α) : wr a i x ≠ .error .assert_fail := by
  rw [wr]
  split <;> intro h <;> cases h

theorem deref_naf {α : Type} (p : Option α) : deref p ≠ .error .assert_fail := by
  cases p <;> intro h <;> cases h

theorem usub_naf (a b : Nat) : usub a b ≠ .error .assert_fail := by
  rw [usub]
  split <;> intro h <;> cases h

theorem child_at_naf (x : B_tree_node S) (i : Nat) : x.child_at i ≠ .error .assert_fail := by
  rw [B_tree_node.child_at]
  exact bind_naf (deref_naf _) fun _ _ => rd_naf _ _

theorem set_child_at_naf (x : B_tree_node S) (i : Nat) (c : Option (B_tree_node S)) :
    x.set_child_at i c ≠ .error .assert_fail := by
  rw [B_tree_node.set_child_at]
  exact bind_naf (deref_naf _) fun _ _ => bind_naf (wr_naf _ _ _) fun _ _ => pure_naf _

theorem set_key_at_naf (x : B_tree_node S) (i : Nat) (k : key_t S) :
    x.set_key_at i k ≠ .error .assert_fail := by
  rw [B_tree_node.set_key_at]
  exact bind_naf (wr_naf _ _ _) fun _ _ => pure_naf _

theorem shift_key_naf (p : shifted_key_ptr_t S) : p.shift_key ≠ .error .assert_fail := by
  rw [shifted_key_ptr_t.shift_key]
  exact bind_naf (deref_naf _) fun _ _ => pure_naf _

theorem rebase_child_naf (p : Option (B_tree_node S)) (a b : Int) :
    rebase_child p a b ≠ .error .assert_fail := by
  rw [rebase_child]
  exact bind_naf (deref_naf _) fun _ _ => pure_naf _

theorem bsearch_naf (keys : List (key_t S)) (value : Int) :
    ∀ it l r, bsearch keys value it l r ≠ .error .assert_fail := by
  intro it
  induction it with
  | zero =>
    intro l r
    rw [bsearch]
    split <;> intro h <;> cases h
  | succ it ih =>
    intro l r
    rw [bsearch]
    split
    · refine bind_naf (rd_naf _ _) fun k _ => ?_
      split
      · exact ih _ _
      · exact ih _ _
    · exact ok_naf _

theorem remove_leaf_loop_naf : ∀ (cnt l : Nat) (keys : List (key_t S)),
    remove_leaf_loop cnt l keys ≠ .error .assert_fail := by
  intro cnt
  induction cnt with
  | zero => intro l keys; exact ok_naf _
  | succ cnt ih =>
    intro l keys
    rw [remove_leaf_loop]
    exact bind_naf (rd_naf _ _) fun _ _ => bind_naf (wr_naf _ _ _) fun _ _ => ih _ _

theorem shift_left_loop_naf : ∀ (cnt j : Nat) (x : B_tree_node S),
    shift_left_loop cnt j x ≠ .error .assert_fail := by
  intro cnt
  induction cnt with
  | zero => intro j x; exact ok_naf _
  | succ cnt ih =>
    intro j x
    rw [shift_left_loop]
    refine bind_naf (rd_naf _ _) fun _ _ => bind_naf (set_key_at_naf _ _ _) fun x1 _ =>
      bind_naf ?_ fun _ _ => ih _ _
    split
    · exact pure_naf _
    · exact bind_naf (child_at_naf _ _) fun _ _ => set_child_at_naf _ _ _

theorem shift_left_naf (x : B_tree_node S) (pos : Nat) :
    x.shift_left pos ≠ .error .assert_fail := by
  rw [B_tree_node.shift_left]
  refine bind_naf (shift_left_loop_naf _ _ _) fun x1 _ => bind_naf ?_ fun _ _ =>
    bind_naf (usub_naf _ _) fun _ _ => bind_naf (set_key_at_naf _ _ _) fun _ _ => pure_naf _
  split
  · exact pure_naf _
  · exact bind_naf (usub_naf _ _) fun _ _ => bind_naf (child_at_naf _ _) fun _ _ =>
      bind_naf (set_child_at_naf _ _ _) fun _ _ => set_child_at_naf _ _ _

theorem shift_right_loop_naf (offset : Nat) : ∀ (cnt j : Nat) (x : B_tree_node S),
    shift_right_loop offset cnt j x ≠ .error .assert_fail := by
  intro cnt
  induction cnt with
  | zero => intro j x; exact ok_naf _
  | succ cnt ih =>
    intro j x
    rw [shift_right_loop]
    refine bind_naf (usub_naf _ _) fun _ _ => bind_naf (rd_naf _ _) fun _ _ =>
      bind_naf (set_key_at_naf _ _ _) fun x1 _ => bind_naf ?_ fun _ _ => ih _ _
    split
    · exact pure_naf _
    · exact bind_naf (child_at_naf _ _) fun _ _ => set_child_at_naf _ _ _

theorem shift_right_clear_naf : ∀ (cnt j : Nat) (x : B_tree_node S),
    shift_right_clear cnt j x ≠ .error .assert_fail := by
  intro cnt
  induction cnt with
  | zero => intro j x; exact ok_naf _
  | succ cnt ih =>
    intro j x
    rw [shift_right_clear]
    refine bind_naf (set_key_at_naf _ _ _) fun x1 _ => bind_naf ?_ fun _ _ => ih _ _
    split
    · exact pure_naf _
    · exact set_child_at_naf _ _ _

theorem shift_right_naf (x : B_tree_node S) (pos offset : Nat) :
    x.shift_right pos offset ≠ .error .assert_fail := by
  rw [B_tree_node.shift_right]
  refine bind_naf ?_ fun x1 _ => bind_naf (shift_right_loop_naf _ _ _ _) fun _ _ =>
    bind_naf (shift_right_clear_naf _ _ _) fun _ _ => pure_naf _
  split
  · exact pure_naf _
  · exact bind_naf (child_at_naf _ _) fun _ _ => set_child_at_naf _ _ _

theorem predecessor_naf : ∀ (fuel : Nat) (x : B_tree_node S) (v : Int),
    B_tree_node.predecessor fuel x v ≠ .error .assert_fail := by
  intro fuel
  induction fuel with
  | zero => intro x v h; cases h
  | succ f ih =>
    intro x v
    rw [B_tree_node.predecessor]
    dsimp only
    refine bind_naf (bsearch_naf _ _ _ _ _) fun p _ => ?_
    obtain ⟨l, l2⟩ := p
    refine bind_naf (rd_naf _ _) fun kl _ => ?_
    dsimp only
    split
    · exact pure_naf _
    · generalize (if kl.value < v - x._shift then l + 1 else l) = l'
      refine bind_naf ?_ fun ans _ => ?_
      · split
        · exact pure_naf _
        · refine bind_naf (rd_naf _ _) fun c _ => ?_
          split
          · exact pure_naf _
          · exact bind_naf (ih _ _) fun _ _ => pure_naf _
      · split
        · refine bind_naf (rd_naf _ _) fun k _ => ?_
          split
          · exact pure_naf _
          · exact pure_naf _
        · exact pure_naf _

theorem successor_naf : ∀ (fuel : Nat) (x : B_tree_node S) (v : Int),
    B_tree_node.successor fuel x v ≠ .error .assert_fail := by
  intro fuel
  induction fuel with
  | zero => intro x v h; cases h
  | succ f ih =>
    intro x v
    rw [B_tree_node.successor]
    dsimp only
    refine bind_naf (bsearch_naf _ _ _ _ _) fun p _ => ?_
    obtain ⟨l, r⟩ := p
    refine bind_naf (rd_naf _ _) fun kl _ => ?_
    dsimp only
    split
    · split
      · exact pure_naf _
      · intro h; cases h
    · generalize (if kl.value > v - x._shift then r - 1 else r) = r'
      refine bind_naf ?_ fun hit _ => ?_
      · split
        · exact bind_naf (rd_naf _ _) fun _ _ => pure_naf _
        · exact pure_naf _
      · split
        · exact pure_naf _
        · refine bind_naf ?_ fun ans _ => ?_
          · split
            · exact pure_naf _
            · refine bind_naf (rd_naf _ _) fun c _ => ?_
              split
              · exact pure_naf _
              · exact bind_naf (ih _ _) fun _ _ => pure_naf _
          · split
            · refine bind_naf (rd_naf _ _) fun k _ => ?_
              split
              · exact pure_naf _
              · exact pure_naf _
            · exact pure_naf _

end assertion_lemmas

/-! ## Non-null satellites along the in-order list -/

section satellite_lemmas

variable {S : Type}

theorem set_key_at_inv {x x' : B_tree_node S} {i : Nat} {k : key_t S}
    (h : x.set_key_at i k = .ok x') :
    i < x.keys.length ∧ x' = { x with keys := x.keys.set i k } := by
  by_cases hi : i < x.keys.length
  · rw [set_key_at_ok k hi] at h
    cases h
    exact ⟨hi, rfl⟩
  · simp [B_tree_node.set_key_at, wr, hi, bind, Except.bind] at h

theorem child_at_inv {x : B_tree_node S} {i : Nat} {c : Option (B_tree_node S)}
    (h : x.child_at i = .ok c) : ∃ ch, x.children = some ch ∧ ch[i]? = some c := by
  cases hch : x.children with
  | none => simp [B_tree_node.child_at, hch, deref, bind, Except.bind] at h
  | some ch =>
    refine ⟨ch, rfl, ?_⟩
    simp only [B_tree_node.child_at, hch, deref, bind, Except.bind] at h
    exact rd_eq_ok_iff.mp h

theorem set_child_at_inv {x x' : B_tree_node S} {i : Nat} {c : Option (B_tree_node S)}
    (h : x.set_child_at i c = .ok x') :
    ∃ ch, x.children = some ch ∧ i < ch.length ∧
      x' = { x with children := some (ch.set i c) } := by
  cases hch : x.children with
  | none => simp [B_tree_node.set_child_at, hch, deref, bind, Except.bind] at h
  | some ch =>
    by_cases hi : i < ch.length
    · rw [set_child_at_ok c hch hi] at h
      cases h
      exact ⟨ch, rfl, hi, rfl⟩
    · simp [B_tree_node.set_child_at, hch, deref, wr, hi, bind, Except.bind] at h

/-- The child pointer of a live index of an internal node. -/
theorem child_at_rep {B : Nat} {x c : B_tree_node S} {ks cl s} {i : Nat}
    (r : B_tree_node.Rep B x ks (some cl) s) (hc : cl[i]? = some c) :
    x.child_at i = .ok (some c) := by
  obtain ⟨ch, hch, -, -, -⟩ := r.children_some
  exact child_at_ok hch (r.child_get hch hc)

/-- The live keys of a node whose listed keys all carry satellites carry satellites. -/
theorem sats_key {B : Nat} {x : B_tree_node S} {ks cs s} (r : B_tree_node.Rep B x ks cs s)
    (f : Nat) (hs : ∀ e ∈ x.flat (f + 1), e.satellites.isSome = true) {k : key_t S}
    (hk : k ∈ ks) : k.satellites.isSome = true := by
  obtain ⟨m, hm⟩ := List.getElem?_of_mem hk
  simpa using hs _ (mem_flat_of_key r f hm)

/-- The keys listed below a live child are listed below the node. -/
theorem sats_child {B : Nat} {x c : B_tree_node S} {ks cl s}
    (r : B_tree_node.Rep B x ks (some cl) s) (f : Nat)
    (hs : ∀ e ∈ x.flat (f + 1), e.satellites.isSome = true) (hc : c ∈ cl) :
    ∀ e ∈ c.flat f, e.satellites.isSome = true := by
  obtain ⟨i, hi⟩ := List.getElem?_of_mem hc
  intro e he
  have := hs (e.add s) (by
    rw [flat_split r f hi]
    apply List.mem_map_of_mem
    simp only [List.mem_append]
    exact Or.inr (Or.inl he))
  simpa using this

/-- A node whose live keys carry satellites and whose live children list only keys with
satellites lists only keys with satellites. -/
theorem sats_of_rep {B : Nat} {x : B_tree_node S} {ks cs s} (r : B_tree_node.Rep B x ks cs s)
    (f : Nat) (hk : ∀ k ∈ ks, k.satellites.isSome = true)
    (hc : ∀ cl, cs = some cl → ∀ c ∈ cl, ∀ e ∈ c.flat f, e.satellites.isSome = true) :
    ∀ e ∈ x.flat (f + 1), e.satellites.isSome = true := by
  intro e he
  cases cs with
  | none =>
    rw [flat_leaf r] at he
    obtain ⟨k, hk', rfl⟩ := List.mem_map.mp he
    simpa using hk k hk'
  | some cl =>
    rw [flat_inner r] at he
    obtain ⟨k, hk', rfl⟩ := List.mem_map.mp he
    rw [key_t.add_satellites]
    rcases inorder_map_add f (cl.map some) ks k hk' with h | ⟨c, h1, h2⟩
    · exact hk k h
    · have : c ∈ cl := by
        obtain ⟨c', hc', e'⟩ := List.mem_map.mp h1
        cases e'
        exact hc'
      exact hc cl rfl c this k h2

end satellite_lemmas

/-! ## The invariant of remove through merge_children -/

section merge_invariant_lemmas

variable {S : Type}

/-- The structure and satellite invariant of a subtree of height `h + 1`, read off its root. -/
theorem inv_elim {B h : Nat} {x : B_tree_node S} (hs : x.shape B 1 1 (h + 1) = true)
    (hf : ∀ e ∈ x.flat (h + 1), e.satellites.isSome = true) :
    ∃ ks cs, B_tree_node.Rep B x ks cs x._shift ∧ 1 ≤ ks.length ∧
      (∀ k ∈ ks, k.satellites.isSome = true) ∧
      match cs with
      | none => h = 0
      | some cl => h ≠ 0 ∧ ∀ c ∈ cl, c.shape B 1 1 h = true ∧
          ∀ e ∈ c.flat h, e.satellites.isSome = true := by
  obtain ⟨ks, cs, r, hpos, hcs⟩ := (shape_succ_iff B 1 1 h x).mp hs
  refine ⟨ks, cs, r, hpos, fun k hk => sats_key r h hf hk, ?_⟩
  cases cs with
  | none => exact hcs
  | some cl => exact ⟨hcs.1, fun c hc => ⟨hcs.2 c hc, sats_child r h hf hc⟩⟩

/-- The structure and satellite invariant of a subtree of height `h + 1`, from its root. -/
theorem inv_intro {B h : Nat} {x : B_tree_node S} {ks cs s} (r : B_tree_node.Rep B x ks cs s)
    (hpos : 1 ≤ ks.length) (hk : ∀ k ∈ ks, k.satellites.isSome = true)
    (hcs : match cs with
      | none => h = 0
      | some cl => h ≠ 0 ∧ ∀ c ∈ cl, c.shape B 1 1 h = true ∧
          ∀ e ∈ c.flat h, e.satellites.isSome = true) :
    x.shape B 1 1 (h + 1) = true ∧ ∀ e ∈ x.flat (h + 1), e.satellites.isSome = true := by
  have r' : B_tree_node.Rep B x ks cs x._shift := by rw [r.shift_eq]; exact r
  cases cs with
  | none =>
    exact ⟨(shape_succ_iff B 1 1 h x).mpr ⟨ks, none, r', hpos, hcs⟩,
      sats_of_rep r h hk (fun cl hcl => by cases hcl)⟩
  | some cl =>
    refine ⟨(shape_succ_iff B 1 1 h x).mpr ⟨ks, some cl, r', hpos, hcs.1,
      fun c hc => (hcs.2 c hc).1⟩, sats_of_rep r h hk (fun cl' hcl c hc => ?_)⟩
    cases hcl
    exact (hcs.2 c hc).2

/-- The invariant does not depend on the lazy shift of the root. -/
theorem inv_shift {B h : Nat} {c : B_tree_node S} (d : Int)
    (hc : c.shape B 1 1 h = true ∧ ∀ e ∈ c.flat h, e.satellites.isSome = true) :
    (c.shift d).shape B 1 1 h = true ∧ ∀ e ∈ (c.shift d).flat h, e.satellites.isSome = true := by
  refine ⟨by rw [shape_shift]; exact hc.1, fun e he => ?_⟩
  rw [flat_shift] at he
  obtain ⟨k, hk, rfl⟩ := List.mem_map.mp he
  simpa using hc.2 k hk

/-- The node produced by merging two children that satisfy the invariant satisfies it. -/
theorem merged_inv {B h : Nat} {M : B_tree_node S} {sep : key_t S}
    {lks rks : List (key_t S)} {lcs rcs : Option (List (B_tree_node S))} {ls rs : Int}
    (hsep : sep.satellites.isSome = true)
    (hlk : ∀ k ∈ lks, k.satellites.isSome = true) (hrk : ∀ k ∈ rks, k.satellites.isSome = true)
    (hlc : match lcs with
      | none => h = 0
      | some cl => h ≠ 0 ∧ ∀ c ∈ cl, c.shape B 1 1 h = true ∧
          ∀ e ∈ c.flat h, e.satellites.isSome = true)
    (hrc : match rcs with
      | none => h = 0
      | some cl => h ≠ 0 ∧ ∀ c ∈ cl, c.shape B 1 1 h = true ∧
          ∀ e ∈ c.flat h, e.satellites.isSome = true)
    {s' : Int}
    (rm : B_tree_node.Rep B M (lks ++ sep.add (-ls) :: rks.map (key_t.add (rs - ls)))
      (lcs.bind fun lcl => rcs.map fun rcl => lcl ++ rcl.map fun c => c.shift (rs - ls)) s') :
    M.shape B 1 1 (h + 1) = true ∧ ∀ e ∈ M.flat (h + 1), e.satellites.isSome = true := by
  refine inv_intro rm (by simp; omega) ?_ ?_
  · intro k hk
    simp only [List.mem_append, List.mem_cons, List.mem_map] at hk
    rcases hk with hk | rfl | ⟨k', hk', rfl⟩
    · exact hlk k hk
    · simpa using hsep
    · simpa using hrk k' hk'
  · cases lcs with
    | none =>
      cases rcs with
      | none => exact hlc
      | some rcl => exact hlc
    | some lcl =>
      cases rcs with
      | none => exact absurd hrc hlc.1
      | some rcl =>
        refine ⟨hlc.1, fun c hc => ?_⟩
        simp only [List.mem_append, List.mem_map] at hc
        rcases hc with hc | ⟨c', hc', rfl⟩
        · exact hlc.2 c hc
        · exact inv_shift _ (hrc.2 c' hc')

/-- `merge_children` on a node that satisfies the invariant, at a live key whose two children
fit into one node: the call returns a node that satisfies the invariant at the same height or
one below. -/
theorem merge_inv {B h : Nat} {x L R : B_tree_node S} {i : Nat}
    (hs : x.shape B 1 1 (h + 2) = true)
    (hf : ∀ e ∈ x.flat (h + 2), e.satellites.isSome = true)
    (hi : i < x.n) (hL : x.child_at i = .ok (some L)) (hR : x.child_at (i + 1) = .ok (some R))
    (hsum : L.n + R.n + 1 ≤ B) (ho : Option Int) :
    ∃ x' o' h', x.merge_children B i ho = .ok (x', o') ∧ x'.shape B 1 1 (h' + 1) = true ∧
      ∀ e ∈ x'.flat (h' + 1), e.satellites.isSome = true := by
  obtain ⟨ks, cs, r, hpos, hks, hcs⟩ := inv_elim hs hf
  cases cs with
  | none => exact absurd hcs (Nat.succ_ne_zero h)
  | some cl =>
    have hcl := r.children_some.choose_spec.2.2.2
    have hik : i < ks.length := by rw [← r.n_eq]; exact hi
    obtain ⟨sep, hk⟩ := getElem?_some_of_lt hik
    obtain ⟨L0, hL0⟩ := getElem?_some_of_lt (a := cl) (i := i) (by omega)
    obtain ⟨R0, hR0⟩ := getElem?_some_of_lt (a := cl) (i := i + 1) (by omega)
    have eL : L0 = L := by
      rw [child_at_rep r hL0] at hL; cases hL; rfl
    have eR : R0 = R := by
      rw [child_at_rep r hR0] at hR; cases hR; rfl
    subst eL eR
    obtain ⟨hLs, hLf⟩ := hcs.2 L0 (List.getElem?_mem hL0)
    obtain ⟨hRs, hRf⟩ := hcs.2 R0 (List.getElem?_mem hR0)
    obtain ⟨lks, lcs, rl, -, hlk, hlc⟩ := inv_elim hLs hLf
    obtain ⟨rks, rcs, rr, -, hrk, hrc⟩ := inv_elim hRs hRf
    have hsame : lcs.isSome = rcs.isSome := by
      cases lcs with
      | none =>
        cases rcs with
        | none => rfl
        | some rcl => exact absurd hlc hrc.1
      | some lcl =>
        cases rcs with
        | none => exact absurd hrc hlc.1
        | some rcl => rfl
    obtain ⟨M, x4, rm, r4, hm⟩ := merge_children_rep r hk hL0 hR0 rl rr hsame
      (by rw [← rl.n_eq, ← rr.n_eq]; exact hsum) ho
    have hsep := hks sep (List.getElem?_mem hk)
    have hM := merged_inv (h := h) hsep hlk hrk hlc hrc rm
    by_cases h4 : x4.n = 0
    · rw [if_pos h4] at hm
      exact ⟨_, _, h, hm, merged_inv (h := h) hsep hlk hrk hlc hrc
        (rep_with_shift rm (x4._shift + M._shift))⟩
    · rw [if_neg h4] at hm
      refine ⟨_, _, h + 1, hm, inv_intro r4 (by rw [← r4.n_eq]; omega)
        (fun k hk' => hks k ((List.eraseIdx_sublist ks i).subset hk')) ⟨Nat.succ_ne_zero h, ?_⟩⟩
      intro c hc
      rw [list_merged cl i M (by omega)] at hc
      simp only [List.mem_append, List.mem_cons] at hc
      rcases hc with hc | rfl | hc
      · exact hcs.2 c (List.mem_of_mem_take hc)
      · exact hM
      · exact hcs.2 c (List.mem_of_mem_drop hc)

end merge_invariant_lemmas

/-! ## The rotations of remove -/

section rotation_lemmas

variable {S : Type}

/-- `shift_right(0, 1)` on a leaf with room: the keys move one slot to the right. -/
theorem shift_right_one_leaf {B : Nat} {x : B_tree_node S} {ks s}
    (r : B_tree_node.Rep B x ks none s) (hlt : ks.length < B) :
    ∃ x', x.shift_right 0 1 = .ok x' ∧ x'.keys.length = B ∧ x'.n = ks.length + 1 ∧
      x'._shift = s ∧ x'.children = none ∧
      ∀ p, 1 ≤ p → p < ks.length + 1 → x'.keys[p]? = ks[p - 1]? := by
  have hn := r.n_eq
  obtain ⟨x1, e, e1, e2, e3, e4, e5⟩ := shift_right_loop_leaf B 1 x.n 0 x
    (by omega) (by omega) r.keys_len r.children_none
  have hleaf : x1.is_leaf = true := by simp [B_tree_node.is_leaf, e4]
  have hl : 0 < x1.keys.length := by omega
  have hleaf' : B_tree_node.is_leaf { x1 with keys := x1.keys.set 0 key_t.empty } = true := hleaf
  refine ⟨{ x1 with keys := x1.keys.set 0 key_t.empty, n := x1.n + 1 }, ?_, by simp [e3],
    by simp [e1, hn], by simp [e2, r.shift_eq], e4, ?_⟩
  · simp only [B_tree_node.shift_right, r.is_leaf_none, if_true, pure, Except.pure, bind,
      Except.bind, Nat.sub_zero, e, shift_right_clear, set_key_at_ok key_t.empty hl, hleaf']
  · intro p h1 h2
    show (x1.keys.set 0 key_t.empty)[p]? = _
    rw [getElem?_set_if _ _ _ _ hl, if_neg (by omega), e5 p, if_pos (by omega),
      r.key_get (by omega)]

/-- `shift_right(0, 1)` on an internal node with room: the keys and the children move one slot
to the right. -/
theorem shift_right_one_inner {B : Nat} {x : B_tree_node S} {ks cl s}
    (r : B_tree_node.Rep B x ks (some cl) s) (hlt : ks.length < B) :
    ∃ x' ch', x.shift_right 0 1 = .ok x' ∧ x'.keys.length = B ∧ x'.n = ks.length + 1 ∧
      x'._shift = s ∧ x'.children = some ch' ∧ ch'.length = B + 1 ∧
      (∀ p, 1 ≤ p → p < ks.length + 1 → x'.keys[p]? = ks[p - 1]?) ∧
      ∀ p, 1 ≤ p → p < cl.length + 1 → ch'[p]? = (cl.map some)[p - 1]? := by
  have hn := r.n_eq
  obtain ⟨ch, hch, hchl, -, hcll⟩ := r.children_some
  obtain ⟨c, hc⟩ := getElem?_some_of_lt (a := ch) (i := x.n) (by omega)
  have s1 := child_at_ok hch hc
  have s2 := set_child_at_ok (x := x) c hch (show x.n + 1 < ch.length by omega)
  obtain ⟨x1, ch1, e, e1, e2, e3, e4, e5, e6, e7⟩ := shift_right_loop_inner B 1 x.n 0
    { x with children := some (ch.set (x.n + 1) c) } (ch.set (x.n + 1) c)
    (by simp) (by simp; omega) r.keys_len rfl (by simp [hchl])
  simp only at e e1 e2 e6 e7
  have hl : 0 < x1.keys.length := by omega
  have hleaf' : B_tree_node.is_leaf { x1 with keys := x1.keys.set 0 key_t.empty } = false := by
    simp [B_tree_node.is_leaf, e4]
  have s3 := set_child_at_ok (x := { x1 with keys := x1.keys.set 0 key_t.empty }) none e4
    (show 0 < ch1.length by omega)
  refine ⟨{ keys := x1.keys.set 0 key_t.empty, children := some (ch1.set 0 none), n := x1.n + 1,
            _shift := x1._shift }, ch1.set 0 none, ?_, by simp [e3], by simp [e1, hn],
    by simp [e2, r.shift_eq], rfl, by simp [e5], ?_, ?_⟩
  · simp only [B_tree_node.shift_right, r.is_leaf_some, Bool.false_eq_true, if_false, pure,
      Except.pure, bind, Except.bind, Nat.sub_zero, s1, s2, e, shift_right_clear,
      set_key_at_ok key_t.empty hl, hleaf', s3]
  · intro p h1 h2
    show (x1.keys.set 0 key_t.empty)[p]? = _
    rw [getElem?_set_if _ _ _ _ hl, if_neg (by omega), e6 p, if_pos (by omega),
      r.key_get (by omega)]
  · intro p h1 h2
    rw [getElem?_set_if _ _ _ _ (by omega), if_neg (by omega), e7 p]
    by_cases hp : p < x.n + 1
    · rw [if_pos (by omega), getElem?_set_if _ _ _ _ (by omega), if_neg (by omega),
        r.ch_get hch (by omega)]
    · have hpe : p = x.n + 1 := by omega
      rw [if_neg (by omega), getElem?_set_if _ _ _ _ (by omega), if_pos hpe, hpe,
        Nat.add_sub_cancel, ← r.ch_get hch (by omega), hc]

/-- Case 3.a of `remove` with the left sibling: what the child `c` holds after the room at its
front has received the separator `k` and, in an internal node, the last child of the sibling. -/
theorem rot_left_rep {B : Nat} {c c1 c2 lhs1 G : B_tree_node S} {cks ccs s} {k : key_t S}
    (r : B_tree_node.Rep B c cks ccs s) (hlt : cks.length < B)
    (h1 : c.shift_right 0 1 = .ok c1) (h2 : c1.set_key_at 0 k = .ok c2)
    (hg : ccs.isSome = true → lhs1.child_at lhs1.n = .ok (some G)) :
    ∀ c3, (if c2.is_leaf then pure c2 else do
        let g ← lhs1.child_at lhs1.n
        let c ← c2.set_child_at 0 g
        let g ← rebase_child (← c.child_at 0) lhs1._shift c._shift
        c.set_child_at 0 g : Except Fault (B_tree_node S)) = .ok c3 →
      B_tree_node.Rep B c3 (k :: cks)
        (ccs.map fun ccl => G.shift (lhs1._shift - s) :: ccl) s := by
  cases ccs with
  | none =>
    have F : c1.keys.length = B ∧ c1.n = cks.length + 1 ∧ c1._shift = s ∧ c1.children = none ∧
        ∀ p, 1 ≤ p → p < cks.length + 1 → c1.keys[p]? = cks[p - 1]? := by
      obtain ⟨c1', e, F⟩ := shift_right_one_leaf r hlt
      rw [e] at h1
      cases h1
      exact F
    obtain ⟨e1, e2, e3, e4, e5⟩ := F
    obtain ⟨-, rfl⟩ := set_key_at_inv h2
    intro c3 h3
    have hleaf : B_tree_node.is_leaf { c1 with keys := c1.keys.set 0 k } = true := by
      simp [B_tree_node.is_leaf, e4]
    rw [hleaf] at h3
    cases h3
    refine rep_of_leaf (by simp [e1]) (by simp [e2]) (by simp; omega) ?_ e3 e4
    intro p hp
    show (c1.keys.set 0 k)[p]? = _
    rw [getElem?_set_if _ _ _ _ (by omega)]
    cases p with
    | zero => simp
    | succ q =>
      simp only [List.length_cons] at hp
      rw [if_neg (by omega), e5 (q + 1) (by omega) (by omega)]
      simp
  | some ccl =>
    have F : ∃ ch', c1.keys.length = B ∧ c1.n = cks.length + 1 ∧ c1._shift = s ∧
        c1.children = some ch' ∧ ch'.length = B + 1 ∧
        (∀ p, 1 ≤ p → p < cks.length + 1 → c1.keys[p]? = cks[p - 1]?) ∧
        ∀ p, 1 ≤ p → p < ccl.length + 1 → ch'[p]? = (ccl.map some)[p - 1]? := by
      obtain ⟨c1', ch', e, F⟩ := shift_right_one_inner r hlt
      rw [e] at h1
      cases h1
      exact ⟨ch', F⟩
    obtain ⟨ch', e1, e2, e3, e4, e5, e6, e7⟩ := F
    obtain ⟨-, rfl⟩ := set_key_at_inv h2
    have hccl := r.children_some.choose_spec.2.2.2
    intro c3 h3
    have hleaf : B_tree_node.is_leaf { c1 with keys := c1.keys.set 0 k } = false := by
      simp [B_tree_node.is_leaf, e4]
    have t1 := set_child_at_ok (x := { c1 with keys := c1.keys.set 0 k }) (some G) e4
      (show 0 < ch'.length by omega)
    have t2 := child_at_ok
      (x := { c1 with keys := c1.keys.set 0 k, children := some (ch'.set 0 (some G)) })
      (c := some G) rfl (by rw [getElem?_set_if _ _ _ _ (by omega), if_pos rfl])
    have t3 := set_child_at_ok
      (x := { c1 with keys := c1.keys.set 0 k, children := some (ch'.set 0 (some G)) })
      (some (G.shift (lhs1._shift - c1._shift))) rfl
      (show 0 < (ch'.set 0 (some G)).length by simp; omega)
    rw [hleaf] at h3
    simp only [Bool.false_eq_true, if_false, hg rfl, t1, t2, rebase_child, deref, bind,
      Except.bind, pure, Except.pure, node_rebase_eq, t3, Except.ok.injEq] at h3
    subst h3
    rw [← e3]
    refine rep_of_inner
      (C := (ch'.set 0 (some G)).set 0 (some (G.shift (lhs1._shift - c1._shift))))
      (by simp [e1]) (by simp [e2]) (by simp; omega) ?_ rfl rfl (by simp [e5])
      (by simp; omega) ?_
    · intro p hp
      show (c1.keys.set 0 k)[p]? = _
      rw [getElem?_set_if _ _ _ _ (by omega)]
      cases p with
      | zero => simp
      | succ q =>
        simp only [List.length_cons] at hp
        rw [if_neg (by omega), e6 (q + 1) (by omega) (by omega)]
        simp
    · intro p hp
      simp only [List.length_cons] at hp
      rw [List.set_set, getElem?_set_if _ _ _ _ (by omega)]
      cases p with
      | zero => simp
      | succ q =>
        rw [if_neg (by omega), e7 (q + 1) (by omega) (by omega)]
        simp

/-- Case 3.a of `remove` with the right sibling: what the child `c` holds after the separator
`k` and, in an internal node, the first child of the sibling have been appended. -/
theorem rot_right_rep {B : Nat} {c c1 rhs1 G : B_tree_node S} {cks ccs s} {k : key_t S}
    (r : B_tree_node.Rep B c cks ccs s) (hlt : cks.length < B)
    (h1 : c.set_key_at c.n k = .ok c1)
    (hg : ccs.isSome = true → rhs1.child_at 0 = .ok (some G)) :
    ∀ c3, (if B_tree_node.is_leaf { c1 with n := c1.n + 1 } then
        pure { c1 with n := c1.n + 1 } else do
        let g ← rhs1.child_at 0
        let c ← B_tree_node.set_child_at { c1 with n := c1.n + 1 } (c1.n + 1) g
        let g ← rebase_child (← c.child_at c.n) rhs1._shift c._shift
        c.set_child_at c.n g : Except Fault (B_tree_node S)) = .ok c3 →
      B_tree_node.Rep B c3 (cks ++ [k])
        (ccs.map fun ccl => ccl ++ [G.shift (rhs1._shift - s)]) s := by
  obtain ⟨-, rfl⟩ := set_key_at_inv h1
  have hn := r.n_eq
  have hs := r.shift_eq
  subst hs
  cases ccs with
  | none =>
    intro c3 h3
    have hleaf : B_tree_node.is_leaf
        { keys := c.keys.set c.n k, children := c.children, n := c.n + 1, _shift := c._shift }
        = true := r.is_leaf_none
    rw [hleaf] at h3
    cases h3
    refine rep_of_leaf (by simp [r.keys_len]) (by simp [hn]) (by simp; omega) ?_ rfl
      r.children_none
    intro p hp
    simp only [List.length_append, List.length_singleton] at hp
    show (c.keys.set c.n k)[p]? = _
    rw [getElem?_set_if _ _ _ _ (by rw [r.keys_len]; omega), List.getElem?_append]
    by_cases hp' : p = c.n
    · rw [if_pos hp', if_neg (by omega), hp', hn, Nat.sub_self]
      rfl
    · rw [if_neg hp', if_pos (by omega), r.key_get (by omega)]
  | some ccl =>
    obtain ⟨ch, hch, hchl, -, hcll⟩ := r.children_some
    intro c3 h3
    have hleaf : B_tree_node.is_leaf
        { keys := c.keys.set c.n k, children := c.children, n := c.n + 1, _shift := c._shift }
        = false := r.is_leaf_some
    have t1 := set_child_at_ok
      (x := { keys := c.keys.set c.n k, children := c.children, n := c.n + 1,
              _shift := c._shift }) (some G) hch (show c.n + 1 < ch.length by omega)
    have t2 := child_at_ok
      (x := { keys := c.keys.set c.n k, children := some (ch.set (c.n + 1) (some G)),
              n := c.n + 1, _shift := c._shift })
      (c := some G) (i := c.n + 1) rfl
      (by rw [getElem?_set_if _ _ _ _ (by omega), if_pos rfl])
    have t3 := set_child_at_ok
      (x := { keys := c.keys.set c.n k, children := some (ch.set (c.n + 1) (some G)),
              n := c.n + 1, _shift := c._shift })
      (some (G.shift (rhs1._shift - c._shift))) (i := c.n + 1) rfl
      (show c.n + 1 < (ch.set (c.n + 1) (some G)).length by simp; omega)
    rw [hleaf] at h3
    simp only [Bool.false_eq_true, if_false, hg rfl, t1, t2, rebase_child, deref, bind,
      Except.bind, pure, Except.pure, node_rebase_eq, t3, Except.ok.injEq] at h3
    subst h3
    refine rep_of_inner
      (C := (ch.set (c.n + 1) (some G)).set (c.n + 1)
        (some (G.shift (rhs1._shift - c._shift))))
      (by simp [r.keys_len]) (by simp [hn]) (by simp; omega) ?_ rfl rfl (by simp [hchl])
      (by simp; omega) ?_
    · intro p hp
      simp only [List.length_append, List.length_singleton] at hp
      show (c.keys.set c.n k)[p]? = _
      rw [getElem?_set_if _ _ _ _ (by rw [r.keys_len]; omega), List.getElem?_append]
      by_cases hp' : p = c.n
      · rw [if_pos hp', if_neg (by omega), hp', hn, Nat.sub_self]
        rfl
      · rw [if_neg hp', if_pos (by omega), r.key_get (by omega)]
    · intro p hp
      simp only [List.length_append, List.length_singleton] at hp
      rw [List.set_set, getElem?_set_if _ _ _ _ (by omega), List.map_append,
        List.getElem?_append, List.length_map]
      by_cases hp' : p = c.n + 1
      · rw [if_pos hp', if_neg (by omega), hp', hcll, ← hn, Nat.sub_self]
        rfl
      · rw [if_neg hp', if_pos (by omega), r.ch_get hch (by omega)]

end rotation_lemmas

/-! ## The invariant of remove through the rotations -/

section rotation_invariant_lemmas

variable {S : Type}

/-- Case 3.a of `remove` with the left sibling keeps the invariant of the child on the way. -/
theorem rot_left_inv {B h : Nat} {c c1 c2 lhs lhs1 : B_tree_node S} {sep : key_t S} {m : Nat}
    (hc : c.shape B 1 1 (h + 1) = true)
    (hcf : ∀ e ∈ c.flat (h + 1), e.satellites.isSome = true)
    (hl : lhs.shape B 1 1 (h + 1) = true)
    (hlf : ∀ e ∈ lhs.flat (h + 1), e.satellites.isSome = true)
    (hlt : c.n < B) (hsep : sep.satellites.isSome = true)
    (h1 : c.shift_right 0 1 = .ok c1)
    (h2 : c1.set_key_at 0 { sep with value := sep.value - c1._shift } = .ok c2)
    (h3 : lhs.set_key_at m key_t.empty = .ok lhs1) :
    ∀ c3, (if c2.is_leaf then pure c2 else do
        let g ← lhs1.child_at lhs1.n
        let c ← c2.set_child_at 0 g
        let g ← rebase_child (← c.child_at 0) lhs1._shift c._shift
        c.set_child_at 0 g : Except Fault (B_tree_node S)) = .ok c3 →
      c3.shape B 1 1 (h + 1) = true ∧ ∀ e ∈ c3.flat (h + 1), e.satellites.isSome = true := by
  obtain ⟨cks, ccs, rc, -, hck, hcc⟩ := inv_elim hc hcf
  obtain ⟨lks, lcs, rl, -, -, hlc⟩ := inv_elim hl hlf
  obtain ⟨-, rfl⟩ := set_key_at_inv h3
  have hlt' : cks.length < B := by rw [← rc.n_eq]; exact hlt
  intro c3 hc3
  cases ccs with
  | none =>
    have rc3 := rot_left_rep (G := c) rc hlt' h1 h2 (fun hh => by cases hh) c3 hc3
    refine inv_intro rc3 (by simp) (fun k hk => ?_) hcc
    rcases List.mem_cons.mp hk with rfl | hk
    · exact hsep
    · exact hck k hk
  | some ccl =>
    cases lcs with
    | none => exact absurd hlc hcc.1
    | some lcl =>
      have hll := rl.children_some.choose_spec.2.2.2
      obtain ⟨g0, hg0⟩ := getElem?_some_of_lt (a := lcl) (i := lks.length) (by omega)
      have hg : lhs.child_at lhs.n = .ok (some g0) := by
        rw [rl.n_eq]; exact child_at_rep rl hg0
      have rc3 := rot_left_rep rc hlt' h1 h2 (fun _ => hg) c3 hc3
      refine inv_intro rc3 (by simp) (fun k hk => ?_) ⟨hcc.1, fun d hd => ?_⟩
      · rcases List.mem_cons.mp hk with rfl | hk
        · exact hsep
        · exact hck k hk
      · rcases List.mem_cons.mp hd with rfl | hd
        · exact inv_shift _ (hlc.2 g0 (List.getElem?_mem hg0))
        · exact hcc.2 d hd

/-- Case 3.a of `remove` with the right sibling keeps the invariant of the child on the way. -/
theorem rot_right_inv {B h : Nat} {c c1 rhs rhs1 : B_tree_node S} {sep : key_t S}
    (hc : c.shape B 1 1 (h + 1) = true)
    (hcf : ∀ e ∈ c.flat (h + 1), e.satellites.isSome = true)
    (hr : rhs.shape B 1 1 (h + 1) = true)
    (hrf : ∀ e ∈ rhs.flat (h + 1), e.satellites.isSome = true)
    (hlt : c.n < B) (hsep : sep.satellites.isSome = true)
    (h1 : c.set_key_at c.n { sep with value := sep.value - c._shift } = .ok c1)
    (h3 : rhs.set_key_at 0 key_t.empty = .ok rhs1) :
    ∀ c3, (if B_tree_node.is_leaf { c1 with n := c1.n + 1 } then
        pure { c1 with n := c1.n + 1 } else do
        let g ← rhs1.child_at 0
        let c ← B_tree_node.set_child_at { c1 with n := c1.n + 1 } (c1.n + 1) g
        let g ← rebase_child (← c.child_at c.n) rhs1._shift c._shift
        c.set_child_at c.n g : Except Fault (B_tree_node S)) = .ok c3 →
      c3.shape B 1 1 (h + 1) = true ∧ ∀ e ∈ c3.flat (h + 1), e.satellites.isSome = true := by
  obtain ⟨cks, ccs, rc, -, hck, hcc⟩ := inv_elim hc hcf
  obtain ⟨rks, rcs, rr, -, -, hrc⟩ := inv_elim hr hrf
  obtain ⟨-, rfl⟩ := set_key_at_inv h3
  have hlt' : cks.length < B := by rw [← rc.n_eq]; exact hlt
  intro c3 hc3
  cases ccs with
  | none =>
    have rc3 := rot_right_rep (G := c) rc hlt' h1 (fun hh => by cases hh) c3 hc3
    refine inv_intro rc3 (by simp) (fun k hk => ?_) hcc
    rcases List.mem_append.mp hk with hk | hk
    · exact hck k hk
    · rw [List.mem_singleton] at hk
      rw [hk]
      exact hsep
  | some ccl =>
    cases rcs with
    | none => exact absurd hrc hcc.1
    | some rcl =>
      have hll := rr.children_some.choose_spec.2.2.2
      obtain ⟨g0, hg0⟩ := getElem?_some_of_lt (a := rcl) (i := 0) (by omega)
      have hg : rhs.child_at 0 = .ok (some g0) := child_at_rep rr hg0
      have rc3 := rot_right_rep rc hlt' h1 (fun _ => hg) c3 hc3
      refine inv_intro rc3 (by simp) (fun k hk => ?_) ⟨hcc.1, fun d hd => ?_⟩
      · rcases List.mem_append.mp hk with hk | hk
        · exact hck k hk
        · rw [List.mem_singleton] at hk
          rw [hk]
          exact hsep
      · rcases List.mem_append.mp hd with hd | hd
        · exact hcc.2 d hd
        · rw [List.mem_singleton] at hd
          rw [hd]
          exact inv_shift _ (hrc.2 g0 (List.getElem?_mem hg0))

end rotation_invariant_lemmas

/-! ## The assertions on the way of remove -/

section remove_assertion_lemmas

variable {S : Type}

theorem c_assert_naf {b : Bool} (h : b = true) : c_assert b ≠ .error .assert_fail := by
  rw [h]
  intro hc
  cases hc

/-- A live child pointer read from a node is the live child. -/
theorem child_at_eq {B : Nat} {x c : B_tree_node S} {ks cl s} {i : Nat}
    {p : Option (B_tree_node S)} (r : B_tree_node.Rep B x ks (some cl) s)
    (hc : cl[i]? = some c) (hp : x.child_at i = .ok p) : p = some c := by
  rw [child_at_rep r hc] at hp
  cases hp
  rfl

/-- `remove` on a subtree whose nodes hold between 1 and `B` keys with non-null satellite
pointers, for `B ≥ 2T - 1`: no assertion fails, neither those of `merge_children` nor the one of
the leaf case. -/
theorem remove_naf (B T : Nat) (hBT : 2 * T ≤ B + 1) :
    ∀ (fuel h : Nat) (x : B_tree_node S) (v : Int), x.shape B 1 1 h = true →
      (∀ e ∈ x.flat h, e.satellites.isSome = true) →
      B_tree_node.remove B T fuel x v ≠ .error .assert_fail := by
  intro fuel
  induction fuel with
  | zero => intro h x v _ _ hc; cases hc
  | succ f ih =>
    intro h x v hs hf
    cases h with
    | zero => rw [shape_zero] at hs; cases hs
    | succ h =>
      obtain ⟨ks, cs, r, hpos, hks, hcs⟩ := inv_elim hs hf
      have hn := r.n_eq
      rw [B_tree_node.remove]
      dsimp only
      refine bind_naf (bsearch_naf _ _ _ _ _) fun p hp => ?_
      obtain ⟨l, l2⟩ := p
      obtain ⟨l', hb', -, hl', -⟩ := bsearch_spec x.keys (v - x._shift) x.n
        (by rw [r.keys_len, hn]; exact r.n_le) x.n 0 x.n (by omega) (le_refl _) (by omega)
      have hl : l = l' := by rw [hb'] at hp; cases hp; rfl
      subst hl
      dsimp only
      refine bind_naf (rd_naf _ _) fun kl hkl => ?_
      have hkl' : ks[l]? = some kl := by
        rw [← r.key_get (by omega)]; exact rd_eq_ok_iff.mp hkl
      have hsat : kl.satellites.isSome = true := hks kl (List.getElem?_mem hkl')
      cases cs with
      | none =>
        rw [r.is_leaf_none, if_pos rfl]
        split
        · exact bind_naf (usub_naf _ _) fun _ _ => bind_naf (remove_leaf_loop_naf _ _ _) fun _ _ =>
            bind_naf (wr_naf _ _ _) fun _ _ => bind_naf (c_assert_naf hsat) fun _ _ => pure_naf _
        · exact pure_naf _
      | some cl =>
        obtain ⟨h0, rfl⟩ : ∃ h0, h = h0 + 1 := ⟨h - 1, by have := hcs.1; omega⟩
        have hcl := r.children_some.choose_spec.2.2.2
        rw [r.is_leaf_some, if_neg (by simp)]
        split
        · -- Case 2
          obtain ⟨y0, hy0⟩ := getElem?_some_of_lt (a := cl) (i := l) (by omega)
          obtain ⟨z0, hz0⟩ := getElem?_some_of_lt (a := cl) (i := l + 1) (by omega)
          refine bind_naf (child_at_naf _ _) fun yp hyp => bind_naf (deref_naf _) fun y hy =>
            bind_naf (child_at_naf _ _) fun zp hzp => ?_
          have e1 := child_at_eq r hy0 hyp
          subst e1
          have e2 : y0 = y := by cases hy; rfl
          subst e2
          have e3 := child_at_eq r hz0 hzp
          subst e3
          have hY := hcs.2 y0 (List.getElem?_mem hy0)
          have hZ := hcs.2 z0 (List.getElem?_mem hz0)
          split
          · refine bind_naf (predecessor_naf _ _ _) fun _ _ => bind_naf (shift_key_naf _) fun k _ =>
              bind_naf (set_key_at_naf _ _ _) fun _ _ =>
              bind_naf (ih (h0 + 1) y0 k.value hY.1 hY.2) fun q _ => ?_
            obtain ⟨y1, res⟩ := q
            exact bind_naf (set_child_at_naf _ _ _) fun _ _ => pure_naf _
          · refine bind_naf (deref_naf _) fun z hz => ?_
            have e4 : z0 = z := by cases hz; rfl
            subst e4
            split
            · refine bind_naf (successor_naf _ _ _) fun _ _ =>
                bind_naf (shift_key_naf _) fun k _ => bind_naf (set_key_at_naf _ _ _) fun _ _ =>
                bind_naf (ih (h0 + 1) z0 k.value hZ.1 hZ.2) fun q _ => ?_
              obtain ⟨z1, res⟩ := q
              exact bind_naf (set_child_at_naf _ _ _) fun _ _ => pure_naf _
            · rename_i hyT hzT
              obtain ⟨x', o', h', hm, hs', hf'⟩ := merge_inv (h := h0) hs hf
                (show l < x.n by omega) hyp hzp (by omega) none
              refine bind_naf (by rw [hm]; exact ok_naf _) fun q hq => ?_
              rw [hm] at hq
              cases hq
              dsimp only
              refine bind_naf (ih (h' + 1) x' _ hs' hf') fun q2 _ => ?_
              obtain ⟨x2, res⟩ := q2
              exact pure_naf _
        · -- Case 3
          generalize hi : (if kl.value < v - x._shift then l + 1 else l) = lc
          have hlc : lc ≤ x.n := by
            rw [← hi]; split <;> omega
          obtain ⟨c0, hc0⟩ := getElem?_some_of_lt (a := cl) (i := lc) (by omega)
          refine bind_naf (child_at_naf _ _) fun cp hcp => bind_naf ?_ fun lhsp hlhsp =>
            bind_naf ?_ fun rhsp hrhsp => bind_naf (deref_naf _) fun c hc => ?_
          · split
            · exact child_at_naf _ _
            · exact pure_naf _
          · split
            · exact child_at_naf _ _
            · exact pure_naf _
          have e1 := child_at_eq r hc0 hcp
          subst e1
          have e2 : c0 = c := by cases hc; rfl
          subst e2
          have hC := hcs.2 c0 (List.getElem?_mem hc0)
          split
          · rename_i hcT
            have hcB : c0.n < B := by omega
            -- the siblings
            have hL : 0 < lc → ∃ L, cl[lc - 1]? = some L ∧ lhsp = some L := by
              intro hpos'
              obtain ⟨L, hL⟩ := getElem?_some_of_lt (a := cl) (i := lc - 1) (by omega)
              rw [if_pos hpos'] at hlhsp
              exact ⟨L, hL, child_at_eq r hL hlhsp⟩
            have hL0 : ¬ 0 < lc → lhsp = none := by
              intro hpos'
              rw [if_neg hpos'] at hlhsp
              cases hlhsp
              rfl
            have hR : lc < x.n → ∃ R, cl[lc + 1]? = some R ∧ rhsp = some R := by
              intro hpos'
              obtain ⟨R, hR⟩ := getElem?_some_of_lt (a := cl) (i := lc + 1) (by omega)
              rw [if_pos hpos'] at hrhsp
              exact ⟨R, hR, child_at_eq r hR hrhsp⟩
            have hR0 : ¬ lc < x.n → rhsp = none := by
              intro hpos'
              rw [if_neg hpos'] at hrhsp
              cases hrhsp
              rfl
            clear hlhsp hrhsp
            split
            · -- Case 3.a, left sibling
              rename_i hlok
              have hpos' : 0 < lc := by
                by_contra hc'
                rw [hL0 hc'] at hlok
                cases hlok
              obtain ⟨L, hLc, rfl⟩ := hL hpos'
              have hLI := hcs.2 L (List.getElem?_mem hLc)
              refine bind_naf (deref_naf _) fun lhs hlhs => ?_
              have e5 : L = lhs := by cases hlhs; rfl
              subst e5
              refine bind_naf (shift_right_naf _ _ _) fun c1 hc1 => bind_naf (rd_naf _ _)
                fun sep hsep => bind_naf (set_key_at_naf _ _ _) fun c2 hc2 =>
                bind_naf (usub_naf _ _) fun m _ => bind_naf (rd_naf _ _) fun up _ =>
                bind_naf (set_key_at_naf _ _ _) fun x1 _ =>
                bind_naf (set_key_at_naf _ _ _) fun lhs1 hlhs1 => bind_naf ?_ fun c3 hc3 =>
                bind_naf ?_ fun lhs2 _ => ?_
              · split
                · exact pure_naf _
                · exact bind_naf (child_at_naf _ _) fun _ _ =>
                    bind_naf (set_child_at_naf _ _ _) fun _ _ =>
                    bind_naf (child_at_naf _ _) fun _ _ =>
                    bind_naf (rebase_child_naf _ _ _) fun _ _ => set_child_at_naf _ _ _
              · split
                · exact pure_naf _
                · exact set_child_at_naf _ _ _
              have hsep' : sep.satellites.isSome = true := by
                have : ks[lc - 1]? = some sep := by
                  rw [← r.key_get (by omega)]; exact rd_eq_ok_iff.mp hsep
                exact hks sep (List.getElem?_mem this)
              have hI3 := rot_left_inv hC.1 hC.2 hLI.1 hLI.2 hcB hsep' hc1 hc2 hlhs1 c3 hc3
              refine bind_naf (ih (h0 + 1) c3 _ hI3.1 hI3.2) fun q _ => ?_
              obtain ⟨c4, res⟩ := q
              exact bind_naf (set_child_at_naf _ _ _) fun _ _ =>
                bind_naf (set_child_at_naf _ _ _) fun _ _ => pure_naf _
            · split
              · -- Case 3.a, right sibling
                rename_i hlok hrok
                have hpos' : lc < x.n := by
                  by_contra hc'
                  rw [hR0 hc'] at hrok
                  cases hrok
                obtain ⟨R, hRc, rfl⟩ := hR hpos'
                have hRI := hcs.2 R (List.getElem?_mem hRc)
                refine bind_naf (deref_naf _) fun rhs hrhs => ?_
                have e5 : R = rhs := by cases hrhs; rfl
                subst e5
                refine bind_naf (rd_naf _ _) fun sep hsep =>
                  bind_naf (set_key_at_naf _ _ _) fun c1 hc1 => ?_
                dsimp only
                refine bind_naf (rd_naf _ _) fun up _ =>
                  bind_naf (set_key_at_naf _ _ _) fun x1 _ =>
                  bind_naf (set_key_at_naf _ _ _) fun rhs1 hrhs1 => bind_naf ?_ fun c3 hc3 =>
                  bind_naf (shift_left_naf _ _) fun rhs2 _ => ?_
                · split
                  · exact pure_naf _
                  · exact bind_naf (child_at_naf _ _) fun _ _ =>
                      bind_naf (set_child_at_naf _ _ _) fun _ _ =>
                      bind_naf (child_at_naf _ _) fun _ _ =>
                      bind_naf (rebase_child_naf _ _ _) fun _ _ => set_child_at_naf _ _ _
                have hsep' : sep.satellites.isSome = true := by
                  have : ks[lc]? = some sep := by
                    rw [← r.key_get (by omega)]; exact rd_eq_ok_iff.mp hsep
                  exact hks sep (List.getElem?_mem this)
                have hI3 := rot_right_inv hC.1 hC.2 hRI.1 hRI.2 hcB hsep' hc1 hrhs1 c3 hc3
                refine bind_naf (ih (h0 + 1) c3 _ hI3.1 hI3.2) fun q _ => ?_
                obtain ⟨c4, res⟩ := q
                exact bind_naf (set_child_at_naf _ _ _) fun _ _ =>
                  bind_naf (set_child_at_naf _ _ _) fun _ _ => pure_naf _
              · -- Case 3.b
                rename_i hlok hrok
                have hmerge : ∃ x' o' h', (if lc > 0 then x.merge_children B (lc - 1) none
                    else x.merge_children B lc none) = .ok (x', o') ∧
                    x'.shape B 1 1 (h' + 1) = true ∧
                    ∀ e ∈ x'.flat (h' + 1), e.satellites.isSome = true := by
                  by_cases hpos' : 0 < lc
                  · obtain ⟨L, hLc, rfl⟩ := hL hpos'
                    have hLn : L.n < T := by
                      simpa using hlok
                    rw [if_pos hpos']
                    have hcp' : x.child_at (lc - 1 + 1) = .ok (some c0) := by
                      rw [Nat.sub_add_cancel hpos']; exact hcp
                    exact merge_inv (h := h0) hs hf (show lc - 1 < x.n by omega)
                      (child_at_rep r hLc) hcp' (by omega) none
                  · have hlt : lc < x.n := by omega
                    obtain ⟨R, hRc, rfl⟩ := hR hlt
                    have hRn : R.n < T := by
                      simpa using hrok
                    rw [if_neg hpos']
                    exact merge_inv (h := h0) hs hf hlt hcp (child_at_rep r hRc) (by omega) none
                obtain ⟨x', o', h', hm, hs', hf'⟩ := hmerge
                refine bind_naf (by rw [hm]; exact ok_naf _) fun q hq => ?_
                rw [hm] at hq
                cases hq
                dsimp only
                refine bind_naf (ih (h' + 1) x' _ hs' hf') fun q2 _ => ?_
                obtain ⟨x2, res⟩ := q2
                exact pure_naf _
          · refine bind_naf (ih (h0 + 1) c0 _ hC.1 hC.2) fun q _ => ?_
            obtain ⟨c1, res⟩ := q
            exact bind_naf (set_child_at_naf _ _ _) fun _ _ => pure_naf _

end remove_assertion_lemmas

/-! ## The assertions of merge_children during remove -/

section remove_assertion_contract

variable {S : Type}

/-- C40: for `T ≥ 2`, `B ≥ 2T - 1` and every valid tree, `remove` does not stop at an assertion,
at the tree level and at the root node, whatever the value and the fuel.  A call of
`merge_children(i)` on two non-null children that violates `i < n` or
`(B_t)(children[i].n + children[i+1].n + 1) ≤ B`, the condition that the code asserts, stops at
the assertion of `merge_children`, and the failure is passed on by `remove`; when the sum is a
value of `B_t` this is the precondition `children[i].n + children[i+1].n + 1 ≤ B` itself, so
every such call of `merge_children` made during `remove` (cases 2.c and 3.b) satisfies the
precondition. -/
theorem remove_passes_the_assertions_of_merge_children (B T h fuel : Nat) (hT : 2 ≤ T)
    (hB : 2 * T - 1 ≤ B) (t : B_tree S) (v : Int) (hv : t.valid B T h = true) :
    t.remove B T fuel v ≠ .error .assert_fail ∧
    (∀ x, t._head = some x → x.remove B T fuel v ≠ .error .assert_fail) ∧
    (∀ (x L R : B_tree_node S) (i : Nat) (ho : Option Int),
      x.child_at i = .ok (some L) → x.child_at (i + 1) = .ok (some R) →
      ¬ (i < x.n ∧ B_t B (L.n + R.n + 1) ≤ B) →
      x.merge_children B i ho = .error .assert_fail) ∧
    ∀ (x L R : B_tree_node S) (i : Nat) (ho : Option Int),
      x.child_at i = .ok (some L) → x.child_at (i + 1) = .ok (some R) →
      L.n + R.n + 1 < 2 ^ B_t_bits B →
      ¬ (i < x.n ∧ L.n + R.n + 1 ≤ B) → x.merge_children B i ho = .error .assert_fail := by
  have hnode : ∀ x, t._head = some x → x.remove B T fuel v ≠ .error .assert_fail := by
    intro x hx
    have hvx : x.valid B T h = true := by
      simpa [B_tree.valid, hx] using hv
    obtain ⟨hs, hk⟩ := valid_shape_one hT hvx
    refine remove_naf B T (by omega) fuel h x v hs fun e he => ?_
    have := (keys_ok_iff _).mp hk
    exact this.2 e he
  have hcut : ∀ (x L R : B_tree_node S) (i : Nat) (ho : Option Int),
      x.child_at i = .ok (some L) → x.child_at (i + 1) = .ok (some R) →
      ¬ (i < x.n ∧ B_t B (L.n + R.n + 1) ≤ B) →
      x.merge_children B i ho = .error .assert_fail := by
    intro x L R i ho hL hR hpre
    rw [B_tree_node.merge_children]
    by_cases hi : i < x.n
    · have hsum : ¬ B_t B (L.n + R.n + 1) ≤ B := fun hc => hpre ⟨hi, hc⟩
      simp [c_assert, hi, hL, hR, deref, hsum, bind, Except.bind]
    · simp [c_assert, hi, bind, Except.bind]
  refine ⟨?_, hnode, hcut, ?_⟩
  · rw [B_tree.remove]
    refine bind_naf (deref_naf _) fun head hh => bind_naf ?_ fun q _ => ?_
    · cases hx : t._head with
      | none => rw [hx] at hh; cases hh
      | some x =>
        rw [hx] at hh
        cases hh
        exact hnode _ hx
    · obtain ⟨head', res⟩ := q
      dsimp only
      split
      · exact pure_naf _
      · exact pure_naf _
  · intro x L R i ho hL hR hfit hpre
    refine hcut x L R i ho hL hR ?_
    rw [B_t_eq hfit]
    exact hpre

/-- The C40 theorem applied with B = 7, T = 3 to the tree holding 2..6 (root key 4 between two
leaves of two keys) and to `remove(4)`, which takes case 2.c and calls `merge_children(0)`. -/
theorem remove_passes_the_assertions_of_merge_children_witness :
    (⟨some (B_tree_node.of_lists 7 [⟨4, some [4]⟩]
        (some [B_tree_node.of_lists 7 [⟨2, some [2]⟩, ⟨3, some [3]⟩] none 0,
          B_tree_node.of_lists 7 [⟨5, some [5]⟩, ⟨6, some [6]⟩] none 0]) 0)⟩ :
      B_tree Int).remove 7 3 3 4 ≠ .error .assert_fail ∧
    (∀ x, (⟨some (B_tree_node.of_lists 7 [⟨4, some [4]⟩]
        (some [B_tree_node.of_lists 7 [⟨2, some [2]⟩, ⟨3, some [3]⟩] none 0,
          B_tree_node.of_lists 7 [⟨5, some [5]⟩, ⟨6, some [6]⟩] none 0]) 0)⟩ :
      B_tree Int)._head = some x → x.remove 7 3 3 4 ≠ .error .assert_fail) ∧
    (∀ (x L R : B_tree_node Int) (i : Nat) (ho : Option Int),
      x.child_at i = .ok (some L) → x.child_at (i + 1) = .ok (some R) →
      ¬ (i < x.n ∧ B_t 7 (L.n + R.n + 1) ≤ 7) →
      x.merge_children 7 i ho = .error .assert_fail) ∧
    ∀ (x L R : B_tree_node Int) (i : Nat) (ho : Option Int),
      x.child_at i = .ok (some L) → x.child_at (i + 1) = .ok (some R) →
      L.n + R.n + 1 < 2 ^ B_t_bits 7 →
      ¬ (i < x.n ∧ L.n + R.n + 1 ≤ 7) → x.merge_children 7 i ho = .error .assert_fail :=
  remove_passes_the_assertions_of_merge_children 7 3 2 3 (by decide) (by decide) _ 4 rfl

end remove_assertion_contract

/-! ## The opening loop of fuse_children -/

section fuse_open_lemmas

variable {S : Type}

/-- The opening loop of `fuse_children` on a leaf: the keys move `off` slots to the right. -/
theorem fuse_open_leaf {B : Nat} {x : B_tree_node S} {ks s} (off : Nat)
    (r : B_tree_node.Rep B x ks none s) (hfit : ks.length + off ≤ B) :
    ∃ x1, fuse_open off x = .ok x1 ∧ x1.keys.length = B ∧ x1.n = ks.length ∧
      x1._shift = s ∧ x1.children = none ∧
      ∀ p, off ≤ p → p < ks.length + off → x1.keys[p]? = ks[p - off]? := by
  have hn := r.n_eq
  obtain ⟨x1, e, e1, e2, e3, e4, e5⟩ := shift_right_loop_leaf B off x.n 0 x
    (by omega) (by omega) r.keys_len r.children_none
  refine ⟨x1, ?_, e3, by rw [e1, hn], by rw [e2, r.shift_eq], e4, ?_⟩
  · simp only [fuse_open, r.is_leaf_none, if_true, pure, Except.pure, bind, Except.bind, e]
  · intro p h1 h2
    rw [e5 p, if_pos (by omega), r.key_get (by omega)]

/-- The opening loop of `fuse_children` on an internal node: the keys and the children move
`off` slots to the right. -/
theorem fuse_open_inner {B : Nat} {x : B_tree_node S} {ks cl s} (off : Nat)
    (r : B_tree_node.Rep B x ks (some cl) s) (hfit : ks.length + off ≤ B) :
    ∃ x1 ch1, fuse_open off x = .ok x1 ∧ x1.keys.length = B ∧ x1.n = ks.length ∧
      x1._shift = s ∧ x1.children = some ch1 ∧ ch1.length = B + 1 ∧
      (∀ p, off ≤ p → p < ks.length + off → x1.keys[p]? = ks[p - off]?) ∧
      ∀ p, off ≤ p → p < cl.length + off → ch1[p]? = (cl.map some)[p - off]? := by
  have hn := r.n_eq
  obtain ⟨ch, hch, hchl, -, hcll⟩ := r.children_some
  obtain ⟨c, hc⟩ := getElem?_some_of_lt (a := ch) (i := x.n) (by omega)
  have s1 := child_at_ok hch hc
  have s2 := set_child_at_ok (x := x) c hch (show x.n + off < ch.length by omega)
  obtain ⟨x1, ch1, e, e1, e2, e3, e4, e5, e6, e7⟩ := shift_right_loop_inner B off x.n 0
    { x with children := some (ch.set (x.n + off) c) } (ch.set (x.n + off) c)
    (by simp) (by simp; omega) r.keys_len rfl (by simp [hchl])
  simp only at e e1 e2 e6 e7
  refine ⟨x1, ch1, ?_, e3, by rw [e1, hn], by rw [e2, r.shift_eq], e4, e5, ?_, ?_⟩
  · simp only [fuse_open, r.is_leaf_some, Bool.false_eq_true, if_false, pure, Except.pure,
      bind, Except.bind, s1, s2, e]
  · intro p h1 h2
    rw [e6 p, if_pos (by omega), r.key_get (by omega)]
  · intro p h1 h2
    rw [e7 p]
    by_cases hp : p < x.n + off
    · rw [if_pos (by omega), getElem?_set_if _ _ _ _ (by omega), if_neg (by omega),
        r.ch_get hch (by omega)]
    · have hpe : p = x.n + off := by omega
      rw [if_neg (by omega), getElem?_set_if _ _ _ _ (by omega), if_pos hpe, hpe,
        Nat.add_sub_cancel, ← r.ch_get hch (by omega), hc]

end fuse_open_lemmas

/-! ## fuse_children with the median in the left leaf -/

section fuse_left_leaf_lemmas

variable {S : Type}

/-- The last statements of `fuse_children` on the parent: the new separator and the two
children are stored. -/
theorem fuse_finish {B : Nat} {x : B_tree_node S} {ks cl s} {i : Nat}
    (r : B_tree_node.Rep B x ks (some cl) s) (hi : i < ks.length) (k : key_t S)
    (L' R' : B_tree_node S) :
    ∃ x1 x2 x3, x.set_key_at i k = .ok x1 ∧ x1.set_child_at i (some L') = .ok x2 ∧
      x2.set_child_at (i + 1) (some R') = .ok x3 ∧
      B_tree_node.Rep B x3 (ks.set i k) (some ((cl.set i L').set (i + 1) R')) s := by
  obtain ⟨ch, hch, hchl, -, hcll⟩ := r.children_some
  have hle := r.n_le
  have r1 := rep_set_key r hi k
  have r2 := rep_set_child r1 hch (show i < cl.length by omega) L'
  have r3 := rep_set_child r2 (show _ = some (ch.set i (some L')) from rfl)
    (show i + 1 < (cl.set i L').length by simp; omega) R'
  exact ⟨_, _, _, set_key_at_ok k (by rw [r.keys_len]; omega),
    set_child_at_ok (x := { x with keys := x.keys.set i k }) (some L') hch (by omega),
    set_child_at_ok (x := { x with keys := x.keys.set i k, children := some (ch.set i (some L')) })
      (some R') rfl (by simp; omega), r3⟩

/-- The keys of the right child after the keys behind the median of the left child and the
separator have moved to its front. -/
theorem fuse_left_keys (lks rks KL K1 K3 : List (key_t S)) (sep' : key_t S) (a b : Int)
    (m off : Nat) (hoff : m + off = lks.length) (hoff1 : 1 ≤ off)
    (hl : ∀ p, p < lks.length → KL[p]? = lks[p]?)
    (hlen : rks.length + off ≤ K1.length)
    (h1 : ∀ p, off ≤ p → p < rks.length + off → K1[p]? = rks[p - off]?)
    (h3 : ∀ p, K3[p]? = if 0 ≤ p ∧ p < 0 + (off - 1) then
        (KL[m + 1 + (p - 0)]?).map (fun k => { k with value := k.value + a - b })
      else (K1.set (off - 1) sep')[p]?) :
    ∀ p, p < ((lks.drop (m + 1)).map (key_t.add (a - b)) ++ sep' :: rks).length →
      K3[p]? = ((lks.drop (m + 1)).map (key_t.add (a - b)) ++ sep' :: rks)[p]? := by
  intro p hp
  have hA : ((lks.drop (m + 1)).map (key_t.add (a - b))).length = off - 1 := by
    rw [List.length_map, List.length_drop]; omega
  rw [List.length_append, List.length_cons, hA] at hp
  rw [h3 p]
  by_cases c1 : p < off - 1
  · rw [if_pos ⟨Nat.zero_le _, by omega⟩, List.getElem?_append_left (by rw [hA]; exact c1),
      List.getElem?_map, List.getElem?_drop, Nat.sub_zero, hl _ (by omega)]
    cases lks[m + 1 + p]? with
    | none => rfl
    | some k => simp only [Option.map_some', key_rebase_eq]
  · rw [if_neg (by omega), getElem?_set_if _ _ _ _ (by omega),
      List.getElem?_append_right (by rw [hA]; omega), hA]
    by_cases c2 : p = off - 1
    · rw [if_pos c2, c2, Nat.sub_self, List.getElem?_cons_zero]
    · obtain ⟨q, hq⟩ : ∃ q, p - (off - 1) = q + 1 := ⟨p - off, by omega⟩
      rw [if_neg c2, hq, List.getElem?_cons_succ, h1 p (by omega) (by omega)]
      congr 1
      omega

/-- The first part of `fuse_children` when the median is in the left child, on leaves: what
the two children hold before their key counts are set. -/
theorem fuse_left_move_leaf {B : Nat} {L R : B_tree_node S} {lks rks ls rs} (sep : key_t S)
    (rl : B_tree_node.Rep B L lks none ls) (rr : B_tree_node.Rep B R rks none rs)
    {m off : Nat} (hoff : m + off = lks.length) (hoff1 : 1 ≤ off)
    (hfit : rks.length + off ≤ B) :
    ∃ R1 R2 L1 R3, fuse_open off R = .ok R1 ∧
      R1.set_key_at (off - 1) { sep with value := sep.value - R1._shift } = .ok R2 ∧
      R2.is_leaf = true ∧
      fuse_copy true true L._shift R2._shift (off - 1) (m + 1) 0 L R2 = .ok (L1, R3) ∧
      R3.is_leaf = true ∧
      (L1.keys.length = B ∧ L1.n = lks.length ∧ L1._shift = ls ∧ L1.children = none ∧
        ∀ p, p < m + 1 → L1.keys[p]? = lks[p]?) ∧
      R3.keys.length = B ∧ R3.n = rks.length ∧ R3._shift = rs ∧ R3.children = none ∧
      ∀ p, p < ((lks.drop (m + 1)).map (key_t.add (ls - rs)) ++ sep.add (-rs) :: rks).length →
        R3.keys[p]? = ((lks.drop (m + 1)).map (key_t.add (ls - rs)) ++ sep.add (-rs) :: rks)[p]? := by
  obtain ⟨R1, eA, a1, a2, a3, a4, a5⟩ := fuse_open_leaf off rr hfit
  have hlle := rl.n_le
  have eB := set_key_at_ok (x := R1) { sep with value := sep.value - R1._shift }
    (show off - 1 < R1.keys.length by omega)
  obtain ⟨L1, R3, eC, c1, c2, c3, c4, c5, c6, c7, c8, c9, c10, -⟩ :=
    fuse_copy_leaf B true L._shift R1._shift (off - 1) (m + 1) 0 L
      { R1 with keys := R1.keys.set (off - 1) { sep with value := sep.value - R1._shift } }
      (by omega) (by omega) rl.keys_len (by simp [a1])
  simp only at c3 c4 c6 c9
  refine ⟨R1, _, L1, R3, eA, eB, by simp [B_tree_node.is_leaf, a4], eC,
    by simp [B_tree_node.is_leaf, c6, a4],
    ⟨c7, by rw [c1, rl.n_eq], by rw [c2, rl.shift_eq], by rw [c5, rl.children_none],
      fun p hp => by rw [c10 p (Or.inl hp), rl.key_get (by omega)]⟩,
    c8, by rw [c3, a2], by rw [c4, a3], by rw [c6, a4], ?_⟩
  have hs : ({ sep with value := sep.value - R1._shift } : key_t S) = sep.add (-rs) := by
    rw [a3, key_sub_eq]
  rw [hs, rl.shift_eq, a3] at c9
  exact fuse_left_keys lks rks L.keys R1.keys R3.keys (sep.add (-rs)) ls rs m off hoff hoff1
    (fun p hp => rl.key_get hp) (by omega) a5 c9

/-- The effect of `fuse_children` when the median key is in the left child (leaves): the keys
behind the median and the old separator move to the front of the right child, and the median
becomes the separator. -/
theorem fuse_left_leaf {B : Nat} {x L R : B_tree_node S} {ks cl s lks ls rks rs}
    (r : B_tree_node.Rep B x ks (some cl) s) {i : Nat} {sep : key_t S}
    (hk : ks[i]? = some sep) (hL : cl[i]? = some L) (hR : cl[i + 1]? = some R)
    (rl : B_tree_node.Rep B L lks none ls) (rr : B_tree_node.Rep B R rks none rs)
    (hsum : B < lks.length + rks.length + 1)
    (hwrap : lks.length + rks.length + 1 < 2 ^ B_t_bits B) {m : Nat}
    (hm : (lks.length + rks.length + 1) / 2 = m) (hml : m < lks.length)
    {med : key_t S} (hmed : lks[m]? = some med) (ho : Option Int) :
    ∃ L' R' x', x.fuse_children B i ho = .ok (x', ho) ∧
      B_tree_node.Rep B x' (ks.set i (med.add ls)) (some ((cl.set i L').set (i + 1) R')) s ∧
      B_tree_node.Rep B L' (lks.take m) none ls ∧
      B_tree_node.Rep B R' ((lks.drop (m + 1)).map (key_t.add (ls - rs)) ++ sep.add (-rs) :: rks)
        none rs := by
  have hi : i < ks.length := lt_of_getElem?_some hk
  have hLn := rl.n_eq
  have hRn := rr.n_eq
  have hlle := rl.n_le
  have hoffm : m + (lks.length - m) = lks.length := by omega
  obtain ⟨R1, R2, L1, R3, eA, eB, lf2, eC, lf3, ⟨l1, l2, l3, l4, l5⟩, q1, q2, q3, q4, q5⟩ :=
    fuse_left_move_leaf sep rl rr hoffm (by omega) (by omega)
  have hmedL : L1.keys[m]? = some med := by rw [l5 m (by omega), hmed]
  have eM := set_key_at_ok (x := L1) key_t.empty (show m < L1.keys.length by omega)
  obtain ⟨x1, x2, x3, eX1, eX2, eX3, rx⟩ := fuse_finish r hi (med.add ls)
    { keys := L1.keys.set m key_t.empty, children := L1.children, n := m, _shift := L1._shift }
    { R3 with n := R3.n + (lks.length - m) }
  have hmedv : ({ med with value := med.value + L1._shift } : key_t S) = med.add ls := by
    rw [l3]; rfl
  refine ⟨_, _, x3, ?_, rx, ?_, ?_⟩
  · have s0 := child_at_rep r hL
    have s0' := child_at_rep r hR
    simp only [B_tree_node.fuse_children,
      c_assert_ok (show decide (i < x.n) = true by rw [r.n_eq]; simpa using hi),
      s0, s0', deref, bind, Except.bind, pure, Except.pure,
      if_neg (show ¬ (B_t B (lks.length + rks.length + 1) ≤ B) by rw [B_t_eq hwrap]; omega), hLn, hRn, hm,
      if_neg (show ¬ (m = lks.length ∨ m = rks.length) by omega), if_pos hml]
    simp only [eA, rd_ok (show x.keys[i]? = some sep by rw [r.key_get hi, hk]), eB, lf2, eC, lf3,
      if_true, rd_ok hmedL, hmedv, eX1, eM, eX2, eX3, bind, Except.bind, pure, Except.pure]
  · refine rep_of_leaf (by simp [l1]) (by simp; omega) (by simp; omega) ?_ l3 l4
    intro p hp
    simp only [List.length_take] at hp
    show (L1.keys.set m key_t.empty)[p]? = _
    rw [getElem?_set_if _ _ _ _ (by omega), if_neg (by omega), l5 p (by omega),
      List.getElem?_take, if_pos (by omega)]
  · refine rep_of_leaf q1 ?_ ?_ q5 q3 q4
    · simp only [List.length_append, List.length_map, List.length_drop, List.length_cons]
      show R3.n + (lks.length - m) = _
      omega
    · simp only [List.length_append, List.length_map, List.length_drop, List.length_cons]
      omega

end fuse_left_leaf_lemmas

/-! ## The moves of fuse_children with the median in the left internal child -/

section fuse_left_inner_lemmas

variable {S : Type}

/-- The children of the right child after the children behind the median of the left child have
moved to its front. -/
theorem fuse_left_children (lcl rcl : List (B_tree_node S))
    (CL C1 C3 : List (Option (B_tree_node S))) (a b : Int) (cL : B_tree_node S)
    (m off nL : Nat) (hoff : m + off = nL) (hoff1 : 1 ≤ off) (hlcl : lcl.length = nL + 1)
    (hl : ∀ p, p < lcl.length → CL[p]? = (lcl.map some)[p]?)
    (hlen : rcl.length + off ≤ C3.length) (hcL : lcl[nL]? = some cL)
    (h1 : ∀ p, off ≤ p → p < rcl.length + off → C1[p]? = (rcl.map some)[p - off]?)
    (h3 : ∀ p, C3[p]? = if 0 ≤ p ∧ p < 0 + (off - 1) then
        (CL[m + 1 + (p - 0)]?).map (Option.map fun c => { c with _shift := c._shift + a - b })
      else C1[p]?) :
    ∀ p, p < ((lcl.drop (m + 1)).map (fun c => c.shift (a - b)) ++ rcl).length →
      (C3.set (off - 1) (some (cL.shift (a - b))))[p]? =
        (((lcl.drop (m + 1)).map (fun c => c.shift (a - b)) ++ rcl).map some)[p]? := by
  intro p hp
  have hA : ((lcl.drop (m + 1)).map (fun c : B_tree_node S => c.shift (a - b))).length = off := by
    rw [List.length_map, List.length_drop]; omega
  rw [List.length_append, hA] at hp
  rw [getElem?_set_if _ _ _ _ (by omega), List.map_append, List.getElem?_append, List.length_map,
    hA]
  by_cases c2 : p = off - 1
  · rw [if_pos c2, if_pos (by omega), List.getElem?_map, List.getElem?_map, List.getElem?_drop,
      show m + 1 + p = nL by omega, hcL]
    rfl
  · rw [if_neg c2, h3 p]
    by_cases c1 : p < off - 1
    · rw [if_pos ⟨Nat.zero_le _, by omega⟩, if_pos (by omega), Nat.sub_zero, hl _ (by omega),
        List.getElem?_map, List.getElem?_map, List.getElem?_map, List.getElem?_drop]
      cases lcl[m + 1 + p]? with
      | none => rfl
      | some c => simp only [Option.map_some', node_rebase_eq]
    · rw [if_neg (by omega), if_neg (by omega), h1 p (by omega) (by omega)]

/-- An internal node after one of its keys was overwritten. -/
theorem set_key_at_node {x : B_tree_node S} (i : Nat) (k : key_t S) (hi : i < x.keys.length) :
    ∃ x', x.set_key_at i k = .ok x' ∧ x'.keys = x.keys.set i k ∧ x'.children = x.children ∧
      x'.n = x.n ∧ x'._shift = x._shift :=
  ⟨_, set_key_at_ok k hi, rfl, rfl, rfl, rfl⟩

/-- An internal node after one of its child pointers was overwritten. -/
theorem set_child_at_node {x : B_tree_node S} {ch : List (Option (B_tree_node S))} (i : Nat)
    (c : Option (B_tree_node S)) (hch : x.children = some ch) (hi : i < ch.length) :
    ∃ x', x.set_child_at i c = .ok x' ∧ x'.keys = x.keys ∧ x'.children = some (ch.set i c) ∧
      x'.n = x.n ∧ x'._shift = x._shift :=
  ⟨_, set_child_at_ok c hch hi, rfl, rfl, rfl, rfl⟩

/-- The opening and the copy loop of `fuse_children` when the median is in the left child, on
internal nodes. -/
theorem fuse_left_copy_inner {B : Nat} {L R : B_tree_node S} {lks rks lcl rcl ls rs}
    (sep : key_t S)
    (rl : B_tree_node.Rep B L lks (some lcl) ls) (rr : B_tree_node.Rep B R rks (some rcl) rs)
    {m off : Nat} (hoff : m + off = lks.length) (hoff1 : 1 ≤ off)
    (hfit : rks.length + off ≤ B) :
    ∃ R1 R2 L1 R3 chL1 ch3, fuse_open off R = .ok R1 ∧
      R1.set_key_at (off - 1) { sep with value := sep.value - R1._shift } = .ok R2 ∧
      R2.is_leaf = false ∧
      fuse_copy false true L._shift R2._shift (off - 1) (m + 1) 0 L R2 = .ok (L1, R3) ∧
      (L1.keys.length = B ∧ L1.n = lks.length ∧ L1._shift = ls ∧ L1.children = some chL1 ∧
        chL1.length = B + 1 ∧ (∀ p, p < m + 1 → L1.keys[p]? = lks[p]?) ∧
        ∀ p, p < m + 1 ∨ p = lks.length → chL1[p]? = (lcl.map some)[p]?) ∧
      R3.keys.length = B ∧ R3.n = rks.length ∧ R3._shift = rs ∧ R3.children = some ch3 ∧
      ch3.length = B + 1 ∧
      (∀ p, p < ((lks.drop (m + 1)).map (key_t.add (ls - rs)) ++ sep.add (-rs) :: rks).length →
        R3.keys[p]? =
          ((lks.drop (m + 1)).map (key_t.add (ls - rs)) ++ sep.add (-rs) :: rks)[p]?) ∧
      ∀ cL, lcl[lks.length]? = some cL →
        ∀ p, p < ((lcl.drop (m + 1)).map (fun c => c.shift (ls - rs)) ++ rcl).length →
        (ch3.set (off - 1) (some (cL.shift (ls - rs))))[p]? =
          (((lcl.drop (m + 1)).map (fun c => c.shift (ls - rs)) ++ rcl).map some)[p]? := by
  obtain ⟨R1, ch1, eA, a1, a2, a3, a4, a5, a6, a7⟩ := fuse_open_inner off rr hfit
  obtain ⟨chL, hchL, hchLl, -, hlcll⟩ := rl.children_some
  have hrcll := rr.children_some.choose_spec.2.2.2
  have hlle := rl.n_le
  have hs : ({ sep with value := sep.value - R1._shift } : key_t S) = sep.add (-rs) := by
    rw [a3, key_sub_eq]
  obtain ⟨R2, eB, b1, b2, b3, b4⟩ := set_key_at_node (x := R1) (off - 1)
    { sep with value := sep.value - R1._shift } (by omega)
  rw [hs] at b1
  rw [a4] at b2
  have hsrc : ∀ q, m + 1 ≤ q → q < m + 1 + (off - 1) → ∃ c, chL[q]? = some (some c) := by
    intro q hq hq'
    obtain ⟨c, hc⟩ := getElem?_some_of_lt (a := lcl) (i := q) (by omega)
    exact ⟨c, rl.child_get hchL hc⟩
  obtain ⟨L1, R3, chL1, ch3, eC, c1, c2, c3, c4, c5, c6, c7, c8, c9, c10, c11, c12, c13, c14, -⟩ :=
    fuse_copy_inner B true L._shift R2._shift (off - 1) (m + 1) 0 L R2 chL ch1
      (by omega) (by omega) rl.keys_len (by rw [b1, List.length_set, a1]) hchL b2 hchLl a5 hsrc
  rw [b4, a3, rl.shift_eq] at c11 c12
  refine ⟨R1, R2, L1, R3, chL1, ch3, eA, eB, by simp [B_tree_node.is_leaf, b2], eC,
    ⟨c9, by rw [c1, rl.n_eq], by rw [c2, rl.shift_eq], c5, c7,
      fun p hp => by rw [c13 p (Or.inl hp), rl.key_get (by omega)],
      fun p hp => by rw [c14 p (by omega), rl.ch_get hchL (by omega)]⟩,
    c10, by rw [c3, b3, a2], by rw [c4, b4, a3], c6, c8, ?_, ?_⟩
  · exact fuse_left_keys lks rks L.keys R1.keys R3.keys (sep.add (-rs)) ls rs m off hoff hoff1
      (fun p hp => rl.key_get hp) (by omega) a6 (fun p => by rw [c11 p, b1])
  · intro cL hcL
    exact fuse_left_children lcl rcl chL ch1 ch3 ls rs cL m off lks.length hoff hoff1 hlcll
      (fun p hp => rl.ch_get hchL hp) (by omega) hcL a7 c12

/-- The statements of `fuse_children` that move the last child of the left child to the right
child, when the median is in the left child. -/
theorem fuse_left_last {B : Nat} {L1 R3 cL : B_tree_node S} {chL1 ch3} {o : Nat}
    (h1 : L1.children = some chL1) (h2 : chL1.length = B + 1) (h3 : L1.n ≤ B)
    (h4 : chL1[L1.n]? = some (some cL)) (h5 : R3.children = some ch3) (h6 : ch3.length = B + 1)
    (h7 : o ≤ B + 1) :
    ∃ L4 R4, (do
        let c ← L1.child_at L1.n
        let rhs ← R3.set_child_at (o - 1) c
        let c ← rebase_child (← rhs.child_at (o - 1)) L1._shift rhs._shift
        let rhs ← rhs.set_child_at (o - 1) c
        let lhs ← L1.set_child_at L1.n none
        pure (lhs, rhs) : Except Fault (B_tree_node S × B_tree_node S)) = .ok (L4, R4) ∧
      (L4.keys = L1.keys ∧ L4.children = some (chL1.set L1.n none) ∧ L4.n = L1.n ∧
        L4._shift = L1._shift) ∧
      R4.keys = R3.keys ∧
      R4.children = some (ch3.set (o - 1) (some (cL.shift (L1._shift - R3._shift)))) ∧
      R4.n = R3.n ∧ R4._shift = R3._shift := by
  have d1 := child_at_ok h1 h4
  have d2 := set_child_at_ok (x := R3) (some cL) h5 (show o - 1 < ch3.length by omega)
  have d3 := child_at_ok (x := { R3 with children := some (ch3.set (o - 1) (some cL)) })
    (c := some cL) rfl (by rw [getElem?_set_if _ _ _ _ (by omega), if_pos rfl])
  have d4 := set_child_at_ok (x := { R3 with children := some (ch3.set (o - 1) (some cL)) })
    (some (cL.shift (L1._shift - R3._shift))) rfl
    (show o - 1 < (ch3.set (o - 1) (some cL)).length by simp; omega)
  have d5 := set_child_at_ok (x := L1) none h1 (show L1.n < chL1.length by omega)
  refine ⟨{ L1 with children := some (chL1.set L1.n none) },
    { R3 with children := some ((ch3.set (o - 1) (some cL)).set (o - 1)
      (some (cL.shift (L1._shift - R3._shift)))) }, ?_, ⟨rfl, rfl, rfl, rfl⟩, rfl, ?_, rfl, rfl⟩
  · simp only [d1, d2, d3, d4, d5, rebase_child, deref, node_rebase_eq, bind, Except.bind, pure,
      Except.pure]
  · simp only [List.set_set]

end fuse_left_inner_lemmas

/-! ## fuse_children with the median in the left internal child -/

section fuse_left_lemmas

variable {S : Type}

/-- The left child after `fuse_children` moved the keys behind position `m` away. -/
theorem fuse_left_rep_L {B : Nat} {Y : B_tree_node S} {lks : List (key_t S)}
    {lcl : List (B_tree_node S)} {ls : Int} {K : List (key_t S)}
    {C : List (Option (B_tree_node S))} {m nL : Nat}
    (hk : Y.keys = K.set m key_t.empty) (hc : Y.children = some (C.set nL none))
    (hn : Y.n = m) (hs : Y._shift = ls) (hK : K.length = B) (hC : C.length = B + 1)
    (hm : m < lks.length) (hle : lks.length ≤ B) (hnL : nL = lks.length)
    (hcl : lcl.length = lks.length + 1)
    (h6 : ∀ p, p < m + 1 → K[p]? = lks[p]?)
    (h7 : ∀ p, p < m + 1 ∨ p = lks.length → C[p]? = (lcl.map some)[p]?) :
    B_tree_node.Rep B Y (lks.take m) (some (lcl.take (m + 1))) ls := by
  refine rep_of_inner (C := C.set nL none) (by rw [hk, List.length_set, hK])
    (by rw [hn, List.length_take]; omega) (by rw [List.length_take]; omega) ?_ hs hc
    (by rw [List.length_set, hC]) (by rw [List.length_take, List.length_take]; omega) ?_
  · intro p hp
    rw [List.length_take] at hp
    rw [hk, getElem?_set_if _ _ _ _ (by omega), if_neg (by omega), h6 p (by omega),
      List.getElem?_take, if_pos (by omega)]
  · intro p hp
    rw [List.length_take] at hp
    rw [getElem?_set_if _ _ _ _ (by omega), if_neg (by omega), h7 p (Or.inl (by omega)),
      List.map_take, List.getElem?_take, if_pos (by omega)]

/-- The right child after `fuse_children` moved keys of the left child to its front. -/
theorem fuse_left_rep_R {B : Nat} {Y : B_tree_node S} {tk : List (key_t S)}
    {tc : List (B_tree_node S)} {rs : Int} {K : List (key_t S)}
    {C : List (Option (B_tree_node S))}
    (hk : Y.keys = K) (hc : Y.children = some C) (hn : Y.n = tk.length) (hs : Y._shift = rs)
    (hK : K.length = B) (hC : C.length = B + 1) (hle : tk.length ≤ B)
    (hcl : tc.length = tk.length + 1)
    (h6 : ∀ p, p < tk.length → K[p]? = tk[p]?)
    (h7 : ∀ p, p < tc.length → C[p]? = (tc.map some)[p]?) :
    B_tree_node.Rep B Y tk (some tc) rs :=
  rep_of_inner (by rw [hk, hK]) hn hle (fun p hp => by rw [hk]; exact h6 p hp) hs hc hC hcl h7

/-- The effect of `fuse_children` when the median key is in the left child (internal
children): the keys and children behind the median and the old separator move to the front of
the right child, and the median becomes the separator. -/
theorem fuse_left_inner {B : Nat} {x L R : B_tree_node S} {ks cl s lks lcl ls rks rcl rs}
    (r : B_tree_node.Rep B x ks (some cl) s) {i : Nat} {sep : key_t S}
    (hk : ks[i]? = some sep) (hL : cl[i]? = some L) (hR : cl[i + 1]? = some R)
    (rl : B_tree_node.Rep B L lks (some lcl) ls) (rr : B_tree_node.Rep B R rks (some rcl) rs)
    (hsum : B < lks.length + rks.length + 1)
    (hwrap : lks.length + rks.length + 1 < 2 ^ B_t_bits B) {m : Nat}
    (hm : (lks.length + rks.length + 1) / 2 = m) (hml : m < lks.length)
    {med : key_t S} (hmed : lks[m]? = some med) (ho : Option Int) :
    ∃ L' R' x', x.fuse_children B i ho = .ok (x', ho) ∧
      B_tree_node.Rep B x' (ks.set i (med.add ls)) (some ((cl.set i L').set (i + 1) R')) s ∧
      B_tree_node.Rep B L' (lks.take m) (some (lcl.take (m + 1))) ls ∧
      B_tree_node.Rep B R' ((lks.drop (m + 1)).map (key_t.add (ls - rs)) ++ sep.add (-rs) :: rks)
        (some ((lcl.drop (m + 1)).map (fun c => c.shift (ls - rs)) ++ rcl)) rs := by
  have hi : i < ks.length := lt_of_getElem?_some hk
  have hLn := rl.n_eq
  have hRn := rr.n_eq
  have hlle := rl.n_le
  have hlcll := rl.children_some.choose_spec.2.2.2
  have hrcll := rr.children_some.choose_spec.2.2.2
  have hoffm : m + (lks.length - m) = lks.length := by omega
  obtain ⟨R1, R2, L1, R3, chL1, ch3, eA, eB, lf2, eC, ⟨l1, l2, l3, l4, l5, l6, l7⟩,
      q1, q2, q3, q4, q5, q6, q7⟩ :=
    fuse_left_copy_inner sep rl rr hoffm (by omega) (by omega)
  obtain ⟨cL, hcL⟩ := getElem?_some_of_lt (a := lcl) (i := lks.length) (by omega)
  have hcL' : chL1[L1.n]? = some (some cL) := by
    rw [l2, l7 _ (Or.inr rfl), List.getElem?_map, hcL]
    rfl
  obtain ⟨L4, R4, eD, ⟨u1, u2, u3, u4⟩, v1, v2, v3, v4⟩ :=
    fuse_left_last (o := lks.length - m) l4 l5 (by omega) hcL' q4 q5 (by omega)
  have lf3 : R3.is_leaf = false := by simp [B_tree_node.is_leaf, q4]
  simp only [bind, Except.bind, pure, Except.pure] at eD
  have hmedL : L4.keys[m]? = some med := by rw [u1, l6 m (by omega), hmed]
  obtain ⟨L5, eM, w1, w2, w3, w4⟩ := set_key_at_node (x := L4) m key_t.empty
    (by rw [u1, l1]; omega)
  obtain ⟨x1, x2, x3, eX1, eX2, eX3, rx⟩ := fuse_finish r hi (med.add ls)
    { L5 with n := m } { R4 with n := R4.n + (lks.length - m) }
  have hmedv : ({ med with value := med.value + L4._shift } : key_t S) = med.add ls := by
    rw [u4, l3]; rfl
  refine ⟨_, _, x3, ?_, rx, ?_, ?_⟩
  · have s0 := child_at_rep r hL
    have s0' := child_at_rep r hR
    simp only [B_tree_node.fuse_children,
      c_assert_ok (show decide (i < x.n) = true by rw [r.n_eq]; simpa using hi),
      s0, s0', deref, bind, Except.bind, pure, Except.pure,
      if_neg (show ¬ (B_t B (lks.length + rks.length + 1) ≤ B) by rw [B_t_eq hwrap]; omega), hLn, hRn, hm,
      if_neg (show ¬ (m = lks.length ∨ m = rks.length) by omega), if_pos hml]
    simp only [eA, rd_ok (show x.keys[i]? = some sep by rw [r.key_get hi, hk]), eB, lf2, eC, lf3,
      Bool.false_eq_true, if_false, eD, rd_ok hmedL, hmedv, eX1, eM, eX2, eX3, bind,
      Except.bind, pure, Except.pure]
  · exact fuse_left_rep_L (Y := { L5 with n := m }) (by rw [← u1]; exact w1)
      (by rw [← u2]; exact w2) rfl (by rw [← l3, ← u4]; exact w4) l1 l5 hml hlle l2 hlcll l6 l7
  · have hsh : L1._shift - R3._shift = ls - rs := by rw [l3, q3]
    rw [hsh] at v2
    have hlen : ((lks.drop (m + 1)).map (key_t.add (ls - rs)) ++ sep.add (-rs) :: rks).length
        = rks.length + (lks.length - m) := by
      simp only [List.length_append, List.length_map, List.length_drop, List.length_cons]
      omega
    have hlenc : ((lcl.drop (m + 1)).map (fun c => c.shift (ls - rs)) ++ rcl).length
        = rks.length + (lks.length - m) + 1 := by
      simp only [List.length_append, List.length_map, List.length_drop]
      omega
    exact fuse_left_rep_R (Y := { R4 with n := R4.n + (lks.length - m) }) v1 v2
      (by rw [hlen, ← q2, ← v3]) (by rw [← q3]; exact v4) q1 (by rw [List.length_set, q5])
      (by rw [hlen]; omega) (by rw [hlen, hlenc]) q6 (q7 cL hcL)

end fuse_left_lemmas

/-! ## The moves of fuse_children with the median in the right child -/

section fuse_right_move_lemmas

variable {S : Type}

/-- The keys of the left child after the separator and the first keys of the right child were
appended. -/
theorem fuse_right_keys (lks rks KL KR K2 : List (key_t S)) (sep' : key_t S) (a b : Int)
    (off : Nat) (hoff : off ≤ rks.length) (hlen : lks.length < KL.length)
    (hl : ∀ p, p < lks.length → KL[p]? = lks[p]?)
    (hr : ∀ p, p < rks.length → KR[p]? = rks[p]?)
    (h2 : ∀ p, K2[p]? = if lks.length + 1 ≤ p ∧ p < lks.length + 1 + off then
        (KR[0 + (p - (lks.length + 1))]?).map (fun k => { k with value := k.value + a - b })
      else (KL.set lks.length sep')[p]?) :
    ∀ p, p < (lks ++ sep' :: (rks.take off).map (key_t.add (a - b))).length →
      K2[p]? = (lks ++ sep' :: (rks.take off).map (key_t.add (a - b)))[p]? := by
  intro p hp
  rw [List.length_append, List.length_cons, List.length_map, List.length_take,
    Nat.min_eq_left hoff] at hp
  rw [h2 p]
  by_cases c1 : p < lks.length
  · rw [if_neg (by omega), getElem?_set_if _ _ _ _ hlen, if_neg (by omega),
      List.getElem?_append_left c1, hl p c1]
  · rw [List.getElem?_append_right (by omega)]
    by_cases c2 : p = lks.length
    · rw [if_neg (by omega), getElem?_set_if _ _ _ _ hlen, if_pos c2, c2, Nat.sub_self,
        List.getElem?_cons_zero]
    · obtain ⟨q, hq⟩ : ∃ q, p - lks.length = q + 1 := ⟨p - lks.length - 1, by omega⟩
      rw [if_pos (by omega), hq, List.getElem?_cons_succ, List.getElem?_map, List.getElem?_take,
        if_pos (by omega), Nat.zero_add, show p - (lks.length + 1) = q by omega, hr q (by omega)]
      cases rks[q]? with
      | none => rfl
      | some k => simp only [Option.map_some', key_rebase_eq]

/-- The children of the left child after the first children of the right child were
appended. -/
theorem fuse_right_children (lcl rcl : List (B_tree_node S))
    (CL CR C2 : List (Option (B_tree_node S))) (a b : Int) (cR : B_tree_node S)
    (off nL : Nat) (hoff : off < rcl.length) (hlcl : lcl.length = nL + 1)
    (hl : ∀ p, p < lcl.length → CL[p]? = (lcl.map some)[p]?)
    (hr : ∀ p, p < rcl.length → CR[p]? = (rcl.map some)[p]?)
    (hlen : nL + 1 + off < C2.length) (hcR : rcl[off]? = some cR)
    (h2 : ∀ p, C2[p]? = if nL + 1 ≤ p ∧ p < nL + 1 + off then
        (CR[0 + (p - (nL + 1))]?).map (Option.map fun c => { c with _shift := c._shift + a - b })
      else CL[p]?) :
    ∀ p, p < (lcl ++ (rcl.take (off + 1)).map (fun c => c.shift (a - b))).length →
      (C2.set (nL + 1 + off) (some (cR.shift (a - b))))[p]? =
        ((lcl ++ (rcl.take (off + 1)).map (fun c => c.shift (a - b))).map some)[p]? := by
  intro p hp
  rw [List.length_append, List.length_map, List.length_take, Nat.min_eq_left (by omega),
    hlcl] at hp
  rw [getElem?_set_if _ _ _ _ hlen, List.map_append, List.getElem?_append, List.length_map,
    hlcl]
  by_cases c2 : p = nL + 1 + off
  · rw [if_pos c2, if_neg (by omega), List.getElem?_map, List.getElem?_map, List.getElem?_take,
      if_pos (by omega), show p - (nL + 1) = off by omega, hcR]
    rfl
  · rw [if_neg c2, h2 p]
    by_cases c1 : p < nL + 1
    · rw [if_neg (by omega), if_pos c1, hl p (by omega)]
    · rw [if_pos (by omega), if_neg c1, Nat.zero_add, hr _ (by omega), List.getElem?_map,
        List.getElem?_map, List.getElem?_map, List.getElem?_take, if_pos (by omega)]
      cases rcl[p - (nL + 1)]? with
      | none => rfl
      | some c => simp only [Option.map_some', node_rebase_eq]

/-- The first part of `fuse_children` when the median is in the right child, on leaves: what
the left child holds before its key count is set. -/
theorem fuse_right_move_leaf {B : Nat} {L R : B_tree_node S} {lks rks ls rs} (sep : key_t S)
    (rl : B_tree_node.Rep B L lks none ls) (rr : B_tree_node.Rep B R rks none rs)
    {off : Nat} (hoff : off ≤ rks.length) (hfit : lks.length + 1 + off ≤ B) :
    ∃ L1 L2, L.set_key_at lks.length { sep with value := sep.value - L._shift } = .ok L1 ∧
      fuse_copy true false R._shift L1._shift off 0 (L1.n + 1) R L1 = .ok (R, L2) ∧
      L2.keys.length = B ∧ L2.n = lks.length ∧ L2._shift = ls ∧ L2.children = none ∧
      ∀ p, p < (lks ++ sep.add (-ls) :: (rks.take off).map (key_t.add (rs - ls))).length →
        L2.keys[p]? = (lks ++ sep.add (-ls) :: (rks.take off).map (key_t.add (rs - ls)))[p]? := by
  have hrle := rr.n_le
  have hs : ({ sep with value := sep.value - L._shift } : key_t S) = sep.add (-ls) := by
    rw [rl.shift_eq, key_sub_eq]
  obtain ⟨L1, eB, b1, b2, b3, b4⟩ := set_key_at_node (x := L) lks.length
    { sep with value := sep.value - L._shift } (by rw [rl.keys_len]; omega)
  rw [hs] at b1
  rw [rl.n_eq] at b3
  obtain ⟨R', L2, eC, -, -, c3, c4, -, c6, -, c8, c9, -, c11⟩ :=
    fuse_copy_leaf B false R._shift L1._shift off 0 (L1.n + 1) R L1
      (by omega) (by omega) rr.keys_len (by rw [b1, List.length_set, rl.keys_len])
  rw [c11 rfl] at eC
  rw [b3, b4, rl.shift_eq, rr.shift_eq, b1] at c9
  exact ⟨L1, L2, eB, eC, c8, by rw [c3, b3], by rw [c4, b4, rl.shift_eq],
    by rw [c6, b2, rl.children_none],
    fuse_right_keys lks rks L.keys R.keys L2.keys (sep.add (-ls)) rs ls off hoff
      (by rw [rl.keys_len]; omega) (fun p hp => rl.key_get hp) (fun p hp => rr.key_get hp) c9⟩

/-- The copy loop of `fuse_children` when the median is in the right child, on internal
nodes. -/
theorem fuse_right_copy_inner {B : Nat} {L R : B_tree_node S} {lks rks lcl rcl ls rs}
    (sep : key_t S)
    (rl : B_tree_node.Rep B L lks (some lcl) ls) (rr : B_tree_node.Rep B R rks (some rcl) rs)
    {off : Nat} (hoff : off ≤ rks.length) (hfit : lks.length + 1 + off ≤ B) :
    ∃ L1 L2 ch2, L.set_key_at lks.length { sep with value := sep.value - L._shift } = .ok L1 ∧
      fuse_copy false false R._shift L1._shift off 0 (L1.n + 1) R L1 = .ok (R, L2) ∧
      L2.keys.length = B ∧ L2.n = lks.length ∧ L2._shift = ls ∧ L2.children = some ch2 ∧
      ch2.length = B + 1 ∧
      (∀ p, p < (lks ++ sep.add (-ls) :: (rks.take off).map (key_t.add (rs - ls))).length →
        L2.keys[p]? =
          (lks ++ sep.add (-ls) :: (rks.take off).map (key_t.add (rs - ls)))[p]?) ∧
      ∀ cR, rcl[off]? = some cR →
        ∀ p, p < (lcl ++ (rcl.take (off + 1)).map (fun c => c.shift (rs - ls))).length →
        (ch2.set (lks.length + 1 + off) (some (cR.shift (rs - ls))))[p]? =
          ((lcl ++ (rcl.take (off + 1)).map (fun c => c.shift (rs - ls))).map some)[p]? := by
  have hrle := rr.n_le
  obtain ⟨chL, hchL, hchLl, -, hlcll⟩ := rl.children_some
  obtain ⟨chR, hchR, hchRl, -, hrcll⟩ := rr.children_some
  have hs : ({ sep with value := sep.value - L._shift } : key_t S) = sep.add (-ls) := by
    rw [rl.shift_eq, key_sub_eq]
  obtain ⟨L1, eB, b1, b2, b3, b4⟩ := set_key_at_node (x := L) lks.length
    { sep with value := sep.value - L._shift } (by rw [rl.keys_len]; omega)
  rw [hs] at b1
  rw [rl.n_eq] at b3
  rw [hchL] at b2
  have hsrc : ∀ q, 0 ≤ q → q < 0 + off → ∃ c, chR[q]? = some (some c) := by
    intro q _ hq'
    obtain ⟨c, hc⟩ := getElem?_some_of_lt (a := rcl) (i := q) (by omega)
    exact ⟨c, rr.child_get hchR hc⟩
  obtain ⟨R', L2, chR', ch2, eC, -, -, c3, c4, -, c6, -, c8, -, c10, c11, c12, -, -, c15⟩ :=
    fuse_copy_inner B false R._shift L1._shift off 0 (L1.n + 1) R L1 chR chL
      (by omega) (by omega) rr.keys_len (by rw [b1, List.length_set, rl.keys_len]) hchR b2
      hchRl hchLl hsrc
  rw [c15 rfl] at eC
  rw [b3, b4, rl.shift_eq, rr.shift_eq] at c11 c12
  rw [b1] at c11
  refine ⟨L1, L2, ch2, eB, eC, c10, by rw [c3, b3], by rw [c4, b4, rl.shift_eq], c6, c8,
    fuse_right_keys lks rks L.keys R.keys L2.keys (sep.add (-ls)) rs ls off hoff
      (by rw [rl.keys_len]; omega) (fun p hp => rl.key_get hp) (fun p hp => rr.key_get hp) c11,
    ?_⟩
  intro cR hcR
  exact fuse_right_children lcl rcl chL chR ch2 rs ls cR off lks.length
    (lt_of_getElem?_some hcR) hlcll (fun p hp => rl.ch_get hchL hp)
    (fun p hp => rr.ch_get hchR hp) (by omega) hcR c12

/-- The statements of `fuse_children` that move child `off` of the right child behind the
children of the left child, when the median is in the right child. -/
theorem fuse_right_last {B : Nat} {L2 R cR : B_tree_node S} {ch2 chR} {o : Nat}
    (h1 : L2.children = some ch2) (h2 : ch2.length = B + 1) (h3 : L2.n + 1 + o ≤ B)
    (h4 : R.children = some chR) (h5 : chR[o]? = some (some cR)) :
    ∃ L3, (do
        let c ← R.child_at o
        let lhs ← L2.set_child_at (L2.n + 1 + o) c
        let c ← rebase_child (← lhs.child_at (lhs.n + 1 + o)) R._shift lhs._shift
        lhs.set_child_at (lhs.n + 1 + o) c : Except Fault (B_tree_node S)) = .ok L3 ∧
      L3.keys = L2.keys ∧
      L3.children = some (ch2.set (L2.n + 1 + o) (some (cR.shift (R._shift - L2._shift)))) ∧
      L3.n = L2.n ∧ L3._shift = L2._shift := by
  have d1 := child_at_ok h4 h5
  have d2 := set_child_at_ok (x := L2) (some cR) h1 (show L2.n + 1 + o < ch2.length by omega)
  have d3 := child_at_ok (x := { L2 with children := some (ch2.set (L2.n + 1 + o) (some cR)) })
    (c := some cR) rfl (by rw [getElem?_set_if _ _ _ _ (by omega), if_pos rfl])
  have d4 := set_child_at_ok
    (x := { L2 with children := some (ch2.set (L2.n + 1 + o) (some cR)) })
    (some (cR.shift (R._shift - L2._shift))) rfl
    (show L2.n + 1 + o < (ch2.set (L2.n + 1 + o) (some cR)).length by simp; omega)
  refine ⟨{ L2 with children := some ((ch2.set (L2.n + 1 + o) (some cR)).set (L2.n + 1 + o)
      (some (cR.shift (R._shift - L2._shift)))) }, ?_, rfl, ?_, rfl, rfl⟩
  · simp only [d1, d2, d3, d4, rebase_child, deref, node_rebase_eq, bind, Except.bind, pure,
      Except.pure]
  · simp only [List.set_set]

end fuse_right_move_lemmas

/-! ## fuse_children with the median in the right leaf -/

section fuse_right_leaf_lemmas

variable {S : Type}

/-- The closing loop of `fuse_children` when the median is in the right child, on a leaf: the
keys behind the median move to the front of the right child. -/
theorem fuse_right_close_leaf {B : Nat} {R : B_tree_node S} {rks rs}
    (rr : B_tree_node.Rep B R rks none rs) {off : Nat} (hoff : off < rks.length) :
    ∃ Ra Rb, R.set_key_at off key_t.empty = .ok Ra ∧
      fuse_close (off + 1) (Ra.n - off - 1) 0 Ra = .ok Rb ∧ Rb.is_leaf = true ∧
      usub Rb.n (off + 1) = .ok (rks.length - (off + 1)) ∧
      Rb.keys.length = B ∧ Rb._shift = rs ∧ Rb.children = none ∧
      ∀ p, p < (rks.drop (off + 1)).length → Rb.keys[p]? = (rks.drop (off + 1))[p]? := by
  have hrle := rr.n_le
  have hlen := rr.keys_len
  obtain ⟨Ra, eA, b1, b2, b3, b4⟩ := set_key_at_node (x := R) off key_t.empty (by omega)
  rw [rr.n_eq] at b3
  rw [rr.children_none] at b2
  obtain ⟨Rb, eB, e1, e2, e3, e4, e5⟩ := fuse_close_leaf B (off + 1) (by omega)
    (Ra.n - off - 1) 0 Ra (by omega) (by rw [b1, List.length_set, hlen]) b2
  refine ⟨Ra, Rb, eA, eB, by simp [B_tree_node.is_leaf, e4], ?_, e3,
    by rw [e2, b4, rr.shift_eq], e4, ?_⟩
  · rw [e1, b3]
    exact usub_ok (by omega)
  · intro p hp
    rw [List.length_drop] at hp
    rw [e5 p, if_pos ⟨Nat.zero_le _, by omega⟩, b1, getElem?_set_if _ _ _ _ (by omega),
      if_neg (by omega), rr.key_get (by omega), List.getElem?_drop]
    congr 1
    omega

/-- The closing loop of `fuse_children` when the median is in the right child, on an internal
node: the keys and children behind the median move to the front of the right child. -/
theorem fuse_right_close_inner {B : Nat} {R : B_tree_node S} {rks rcl rs}
    (rr : B_tree_node.Rep B R rks (some rcl) rs) {off : Nat} (hoff : off < rks.length) :
    ∃ Ra Rb Rc chc, R.set_key_at off key_t.empty = .ok Ra ∧
      fuse_close (off + 1) (Ra.n - off - 1) 0 Ra = .ok Rb ∧ Rb.is_leaf = false ∧
      (do
        let d ← usub Rb.n (off + 1)
        let c ← Rb.child_at Rb.n
        let rhs ← Rb.set_child_at d c
        rhs.set_child_at rhs.n none : Except Fault (B_tree_node S)) = .ok Rc ∧
      usub Rc.n (off + 1) = .ok (rks.length - (off + 1)) ∧
      Rc.keys.length = B ∧ Rc._shift = rs ∧ Rc.children = some chc ∧ chc.length = B + 1 ∧
      (∀ p, p < (rks.drop (off + 1)).length → Rc.keys[p]? = (rks.drop (off + 1))[p]?) ∧
      ∀ p, p < (rcl.drop (off + 1)).length → chc[p]? = ((rcl.drop (off + 1)).map some)[p]? := by
  have hrle := rr.n_le
  have hlen := rr.keys_len
  obtain ⟨chR, hchR, hchRl, -, hrcll⟩ := rr.children_some
  obtain ⟨Ra, eA, b1, b2, b3, b4⟩ := set_key_at_node (x := R) off key_t.empty (by omega)
  rw [rr.n_eq] at b3
  rw [hchR] at b2
  obtain ⟨Rb, chb, eB, e1, e2, e3, e4, e5, e6, e7⟩ := fuse_close_inner B (off + 1) (by omega)
    (Ra.n - off - 1) 0 Ra chR (by omega) (by rw [b1, List.length_set, hlen]) b2 hchRl
  rw [b3] at e1 e6 e7
  obtain ⟨cR, hcR⟩ := getElem?_some_of_lt (a := rcl) (i := rks.length) (by omega)
  have hlast : chb[Rb.n]? = some (some cR) := by
    rw [e1, e7 rks.length, if_neg (by omega), if_neg (by omega), rr.child_get hchR hcR]
  have d0 : usub Rb.n (off + 1) = .ok (rks.length - (off + 1)) := by
    rw [e1]
    exact usub_ok (by omega)
  have d1 := child_at_ok e4 hlast
  have d2 := set_child_at_ok (x := Rb) (some cR) e4
    (show rks.length - (off + 1) < chb.length by omega)
  have d3 := set_child_at_ok
    (x := { Rb with children := some (chb.set (rks.length - (off + 1)) (some cR)) }) none rfl
    (show Rb.n < (chb.set (rks.length - (off + 1)) (some cR)).length by simp; omega)
  refine ⟨Ra, Rb,
    { Rb with children := some ((chb.set (rks.length - (off + 1)) (some cR)).set Rb.n none) },
    (chb.set (rks.length - (off + 1)) (some cR)).set Rb.n none, eA, eB,
    by simp [B_tree_node.is_leaf, e4], ?_, d0, e3, by rw [e2, b4, rr.shift_eq], rfl,
    by simp [e5], ?_, ?_⟩
  · simp only [d0, d1, d2, d3, bind, Except.bind, pure, Except.pure]
  · intro p hp
    rw [List.length_drop] at hp
    show Rb.keys[p]? = _
    rw [e6 p, if_pos ⟨Nat.zero_le _, by omega⟩, b1, getElem?_set_if _ _ _ _ (by omega),
      if_neg (by omega), rr.key_get (by omega), List.getElem?_drop]
    congr 1
    omega
  · intro p hp
    rw [List.length_drop] at hp
    rw [getElem?_set_if _ _ _ _ (by simp; omega), if_neg (by omega),
      getElem?_set_if _ _ _ _ (by omega), List.getElem?_map, List.getElem?_drop]
    by_cases c : p = rks.length - (off + 1)
    · rw [if_pos c, show off + 1 + p = rks.length by omega, hcR]
      rfl
    · rw [if_neg c, e7 p, if_pos ⟨Nat.zero_le _, by omega⟩, rr.ch_get hchR (by omega),
        List.getElem?_map]
      congr 2
      omega

/-- The effect of `fuse_children` when the median key is in the right child (leaves): the old
separator and the keys before the median move to the end of the left child, and the median
becomes the separator. -/
theorem fuse_right_leaf {B : Nat} {x L R : B_tree_node S} {ks cl s lks ls rks rs}
    (r : B_tree_node.Rep B x ks (some cl) s) {i : Nat} {sep : key_t S}
    (hk : ks[i]? = some sep) (hL : cl[i]? = some L) (hR : cl[i + 1]? = some R)
    (rl : B_tree_node.Rep B L lks none ls) (rr : B_tree_node.Rep B R rks none rs)
    (hsum : B < lks.length + rks.length + 1)
    (hwrap : lks.length + rks.length + 1 < 2 ^ B_t_bits B) {m : Nat}
    (hm : (lks.length + rks.length + 1) / 2 = m) (hml : lks.length < m)
    (hmr : m ≠ rks.length)
    {med : key_t S} (hmed : rks[m - (lks.length + 1)]? = some med) (ho : Option Int) :
    ∃ L' R' x', x.fuse_children B i ho = .ok (x', ho) ∧
      B_tree_node.Rep B x' (ks.set i (med.add rs)) (some ((cl.set i L').set (i + 1) R')) s ∧
      B_tree_node.Rep B L' (lks ++ sep.add (-ls) ::
        (rks.take (m - (lks.length + 1))).map (key_t.add (rs - ls))) none ls ∧
      B_tree_node.Rep B R' (rks.drop (m - (lks.length + 1) + 1)) none rs := by
  have hi : i < ks.length := lt_of_getElem?_some hk
  have hLn := rl.n_eq
  have hRn := rr.n_eq
  have hlle := rl.n_le
  have hrle := rr.n_le
  have hoff : m - (lks.length + 1) < rks.length := by omega
  obtain ⟨L1, L2, eB, eC, l1, l2, l3, l4, l5⟩ :=
    fuse_right_move_leaf sep rl rr (Nat.le_of_lt hoff) (by omega)
  obtain ⟨Ra, Rb, eE, eF, lfb, eG, q1, q2, q3, q4⟩ := fuse_right_close_leaf rr hoff
  have hmedR : R.keys[m - (lks.length + 1)]? = some med := by rw [rr.key_get hoff, hmed]
  obtain ⟨x1, x2, x3, eX1, eX2, eX3, rx⟩ := fuse_finish r hi (med.add rs)
    { L2 with n := L2.n + (m - (lks.length + 1)) + 1 }
    { Rb with n := rks.length - (m - (lks.length + 1) + 1) }
  have hmedv : ({ med with value := med.value + R._shift } : key_t S) = med.add rs := by
    rw [rr.shift_eq]; rfl
  have hlen : (lks ++ sep.add (-ls) ::
      (rks.take (m - (lks.length + 1))).map (key_t.add (rs - ls))).length
        = lks.length + (m - (lks.length + 1)) + 1 := by
    simp only [List.length_append, List.length_map, List.length_take, List.length_cons]
    omega
  refine ⟨_, _, x3, ?_, rx, ?_, ?_⟩
  · have s0 := child_at_rep r hL
    have s0' := child_at_rep r hR
    simp only [B_tree_node.fuse_children,
      c_assert_ok (show decide (i < x.n) = true by rw [r.n_eq]; simpa using hi),
      s0, s0', deref, bind, Except.bind, pure, Except.pure,
      if_neg (show ¬ (B_t B (lks.length + rks.length + 1) ≤ B) by rw [B_t_eq hwrap]; omega), hLn, hRn, hm,
      if_neg (show ¬ (m = lks.length ∨ m = rks.length) by omega),
      if_neg (show ¬ (m < lks.length) by omega),
      usub_ok (show lks.length + 1 ≤ m by omega)]
    simp only [rd_ok (show x.keys[i]? = some sep by rw [r.key_get hi, hk]), eB,
      rr.is_leaf_none, eC, if_true, rd_ok hmedR, hmedv, eX1, eE, eF, lfb, eG, eX2, eX3, bind,
      Except.bind, pure, Except.pure]
  · exact rep_of_leaf l1 (by rw [hlen]; show L2.n + _ + 1 = _; rw [l2]) (by rw [hlen]; omega)
      l5 l3 l4
  · exact rep_of_leaf q1 (by rw [List.length_drop]) (by rw [List.length_drop]; omega) q4 q2 q3

end fuse_right_leaf_lemmas

/-! ## fuse_children with the median in the right internal child -/

section fuse_right_lemmas

variable {S : Type}

/-- The effect of `fuse_children` when the median key is in the right child (internal
children): the old separator and the keys and children before the median move to the end of
the left child, and the median becomes the separator. -/
theorem fuse_right_inner {B : Nat} {x L R : B_tree_node S} {ks cl s lks lcl ls rks rcl rs}
    (r : B_tree_node.Rep B x ks (some cl) s) {i : Nat} {sep : key_t S}
    (hk : ks[i]? = some sep) (hL : cl[i]? = some L) (hR : cl[i + 1]? = some R)
    (rl : B_tree_node.Rep B L lks (some lcl) ls) (rr : B_tree_node.Rep B R rks (some rcl) rs)
    (hsum : B < lks.length + rks.length + 1)
    (hwrap : lks.length + rks.length + 1 < 2 ^ B_t_bits B) {m : Nat}
    (hm : (lks.length + rks.length + 1) / 2 = m) (hml : lks.length < m)
    (hmr : m ≠ rks.length)
    {med : key_t S} (hmed : rks[m - (lks.length + 1)]? = some med) (ho : Option Int) :
    ∃ L' R' x', x.fuse_children B i ho = .ok (x', ho) ∧
      B_tree_node.Rep B x' (ks.set i (med.add rs)) (some ((cl.set i L').set (i + 1) R')) s ∧
      B_tree_node.Rep B L' (lks ++ sep.add (-ls) ::
          (rks.take (m - (lks.length + 1))).map (key_t.add (rs - ls)))
        (some (lcl ++ (rcl.take (m - (lks.length + 1) + 1)).map (fun c => c.shift (rs - ls))))
        ls ∧
      B_tree_node.Rep B R' (rks.drop (m - (lks.length + 1) + 1))
        (some (rcl.drop (m - (lks.length + 1) + 1))) rs := by
  have hi : i < ks.length := lt_of_getElem?_some hk
  have hLn := rl.n_eq
  have hRn := rr.n_eq
  have hlle := rl.n_le
  have hrle := rr.n_le
  have hlcll := rl.children_some.choose_spec.2.2.2
  obtain ⟨chR, hchR, hchRl, -, hrcll⟩ := rr.children_some
  have hoff : m - (lks.length + 1) < rks.length := by omega
  obtain ⟨L1, L2, ch2, eB, eC, l1, l2, l3, l4, l5, l6, l7⟩ :=
    fuse_right_copy_inner sep rl rr (Nat.le_of_lt hoff) (by omega)
  obtain ⟨cR, hcR⟩ := getElem?_some_of_lt (a := rcl) (i := m - (lks.length + 1)) (by omega)
  obtain ⟨L3, eD, u1, u2, u3, u4⟩ := fuse_right_last (o := m - (lks.length + 1)) l4 l5
    (by omega) hchR (rr.child_get hchR hcR)
  simp only [bind, Except.bind, pure, Except.pure] at eD
  obtain ⟨Ra, Rb, Rc, chc, eE, eF, lfb, eG, eH, q1, q2, q3, q4, q5, q6⟩ :=
    fuse_right_close_inner rr hoff
  simp only [bind, Except.bind, pure, Except.pure] at eG
  have hmedR : R.keys[m - (lks.length + 1)]? = some med := by rw [rr.key_get hoff, hmed]
  obtain ⟨x1, x2, x3, eX1, eX2, eX3, rx⟩ := fuse_finish r hi (med.add rs)
    { L3 with n := L3.n + (m - (lks.length + 1)) + 1 }
    { Rc with n := rks.length - (m - (lks.length + 1) + 1) }
  have hmedv : ({ med with value := med.value + R._shift } : key_t S) = med.add rs := by
    rw [rr.shift_eq]; rfl
  have hlen : (lks ++ sep.add (-ls) ::
      (rks.take (m - (lks.length + 1))).map (key_t.add (rs - ls))).length
        = lks.length + (m - (lks.length + 1)) + 1 := by
    simp only [List.length_append, List.length_map, List.length_take, List.length_cons]
    omega
  have hlenc : (lcl ++ (rcl.take (m - (lks.length + 1) + 1)).map
      (fun c => c.shift (rs - ls))).length = lks.length + (m - (lks.length + 1)) + 1 + 1 := by
    simp only [List.length_append, List.length_map, List.length_take]
    omega
  refine ⟨_, _, x3, ?_, rx, ?_, ?_⟩
  · have s0 := child_at_rep r hL
    have s0' := child_at_rep r hR
    simp only [B_tree_node.fuse_children,
      c_assert_ok (show decide (i < x.n) = true by rw [r.n_eq]; simpa using hi),
      s0, s0', deref, bind, Except.bind, pure, Except.pure,
      if_neg (show ¬ (B_t B (lks.length + rks.length + 1) ≤ B) by rw [B_t_eq hwrap]; omega), hLn, hRn, hm,
      if_neg (show ¬ (m = lks.length ∨ m = rks.length) by omega),
      if_neg (show ¬ (m < lks.length) by omega),
      usub_ok (show lks.length + 1 ≤ m by omega)]
    simp only [rd_ok (show x.keys[i]? = some sep by rw [r.key_get hi, hk]), eB,
      rr.is_leaf_some, eC, Bool.false_eq_true, if_false, eD, rd_ok hmedR, hmedv, eX1, eE, eF,
      lfb, eG, eH, eX2, eX3, bind, Except.bind, pure, Except.pure]
  · have hsh : R._shift - L2._shift = rs - ls := by rw [l3, rr.shift_eq]
    rw [hsh, l2] at u2
    exact fuse_left_rep_R (Y := { L3 with n := L3.n + (m - (lks.length + 1)) + 1 }) u1 u2
      (by rw [hlen]; show L3.n + _ + 1 = _; rw [u3, l2]) (by rw [← l3]; exact u4) l1
      (by rw [List.length_set, l5]) (by rw [hlen]; omega) (by rw [hlen, hlenc]) l6 (l7 cR hcR)
  · exact fuse_left_rep_R (Y := { Rc with n := rks.length - (m - (lks.length + 1) + 1) }) rfl
      q3 (by rw [List.length_drop]) q2 q1 q4 (by rw [List.length_drop]; omega)
      (by rw [List.length_drop, List.length_drop]; omega) q5 q6

end fuse_right_lemmas

/-! ## The in-order list through fuse_children -/

section fuse_flat_lemmas

variable {S : Type}

/-- The in-order walk over children that were all shifted by `d`, with keys rebased by `d`. -/
theorem inorder_shifted (f : Nat) (d : Int) (cl : List (B_tree_node S)) (ks : List (key_t S)) :
    inorder (B_tree_node.flat f) ((cl.map fun c => c.shift d).map some) (ks.map (key_t.add d)) =
      (inorder (B_tree_node.flat f) (cl.map some) ks).map (key_t.add d) := by
  have := inorder_map_sub (B_tree_node.flat f) (B_tree_node.flat f)
    (fun c => c.shift d) (key_t.add d) (cl.map some) ks (fun c _ => flat_shift c d f)
  rw [List.map_map] at this
  have e : (Option.map (fun c : B_tree_node S => c.shift d) ∘ some) =
      (some ∘ fun c => c.shift d) := by
    funext c; rfl
  rw [e] at this
  rw [List.map_map]
  exact this

/-- Replacing two neighbouring children and their separator by two children and a separator
that list the same keys does not change the in-order walk. -/
theorem inorder_replace (sub : B_tree_node S → List (key_t S)) (L R L' R' : B_tree_node S)
    (sep sep' : key_t S) (C : List (B_tree_node S)) (KC : List (key_t S))
    (hM : sub L' ++ sep' :: sub R' = sub L ++ sep :: sub R) :
    ∀ (A : List (B_tree_node S)) (KA : List (key_t S)), A.length = KA.length →
      inorder sub ((A ++ L' :: R' :: C).map some) (KA ++ sep' :: KC) =
        inorder sub ((A ++ L :: R :: C).map some) (KA ++ sep :: KC) := by
  intro A
  induction A with
  | nil =>
    intro KA h
    have : KA = [] := List.length_eq_zero.mp h.symm
    subst this
    simp only [List.nil_append, List.map_cons]
    rw [inorder, inorder, inorder_cons_none sub (some R'), inorder_cons_none sub (some R)]
    simp only [Option.map_some', Option.getD_some]
    have e := congrArg (fun l => l ++ inorder sub (none :: C.map some) KC) hM
    simpa only [List.append_assoc, List.cons_append] using e
  | cons a A ih =>
    intro KA h
    cases KA with
    | nil => simp at h
    | cons k KA =>
      have e := ih KA (by simpa using h)
      show ((some a).map sub).getD [] ++ k ::
          inorder sub ((A ++ L' :: R' :: C).map some) (KA ++ sep' :: KC) =
        ((some a).map sub).getD [] ++ k ::
          inorder sub ((A ++ L :: R :: C).map some) (KA ++ sep :: KC)
      rw [e]

theorem list_set_two {α : Type} (cl : List α) (i : Nat) (a b : α) (h : i + 1 < cl.length) :
    (cl.set i a).set (i + 1) b = cl.take i ++ a :: b :: cl.drop (i + 2) := by
  apply List.ext_getElem?
  intro p
  rw [getElem?_set_if _ _ _ _ (by simp; omega), getElem?_set_if _ _ _ _ (by omega),
    getElem?_append_cons, List.getElem?_take, List.length_take, Nat.min_eq_left (by omega)]
  by_cases c1 : p < i
  · rw [if_neg (by omega), if_neg (by omega), if_pos c1, if_pos c1]
  · by_cases c2 : p = i
    · rw [if_neg (by omega), if_pos c2, if_neg c1, if_pos c2]
    · by_cases c3 : p = i + 1
      · rw [if_pos c3, if_neg c1, if_neg c2, show p - i - 1 = 0 by omega,
          List.getElem?_cons_zero]
      · obtain ⟨q, hq⟩ : ∃ q, p - i - 1 = q + 1 := ⟨p - i - 2, by omega⟩
        rw [if_neg c3, if_neg c2, if_neg c1, if_neg c2, hq, List.getElem?_cons_succ,
          List.getElem?_drop]
        congr 1
        omega

theorem list_set_one {α : Type} (ks : List α) (i : Nat) (a : α) (h : i < ks.length) :
    ks.set i a = ks.take i ++ a :: ks.drop (i + 1) := by
  apply List.ext_getElem?
  intro p
  rw [getElem?_set_if _ _ _ _ h, getElem?_append_cons, List.getElem?_take, List.length_take,
    Nat.min_eq_left (by omega)]
  by_cases c1 : p < i
  · rw [if_neg (by omega), if_pos c1, if_pos c1]
  · by_cases c2 : p = i
    · rw [if_pos c2, if_neg c1, if_pos c2]
    · rw [if_neg c2, if_neg c1, if_neg c2, List.getElem?_drop]
      congr 1
      omega

/-- A parent whose children `i` and `i + 1` and key `i` were replaced by two children and a key
that list the same keys has the same in-order list. -/
theorem flat_fuse_parent {B : Nat} {x x' L R L' R' : B_tree_node S} {ks cl s} {i : Nat}
    {sep sep' : key_t S} (r : B_tree_node.Rep B x ks (some cl) s)
    (hk : ks[i]? = some sep) (hL : cl[i]? = some L) (hR : cl[i + 1]? = some R)
    (r' : B_tree_node.Rep B x' (ks.set i sep') (some ((cl.set i L').set (i + 1) R')) s)
    (f : Nat)
    (hM : L'.flat (f + 1) ++ sep' :: R'.flat (f + 1) = L.flat (f + 1) ++ sep :: R.flat (f + 1)) :
    x'.flat (f + 2) = x.flat (f + 2) := by
  have h2 := lt_of_getElem?_some hR
  have hi := lt_of_getElem?_some hk
  rw [flat_inner r', flat_inner r]
  congr 1
  rw [list_set_two cl i L' R' h2, list_set_one ks i sep' hi]
  conv_rhs => rw [list_split_two cl i L R hL hR, list_split_one ks i sep hk]
  exact inorder_replace _ L R L' R' sep sep' _ _ hM _ _ (by
    rw [List.length_take, List.length_take]
    omega)

/-- The in-order lists of the two children after `fuse_children` moved keys from the left to
the right child. -/
theorem flat_fuse_left {B : Nat} {L R L' R' : B_tree_node S} {lks rks : List (key_t S)}
    {lcs rcs : Option (List (B_tree_node S))} {ls rs : Int} {sep med : key_t S} {m : Nat}
    (rl : B_tree_node.Rep B L lks lcs ls) (rr : B_tree_node.Rep B R rks rcs rs)
    (hmed : lks[m]? = some med)
    (rl' : B_tree_node.Rep B L' (lks.take m) (lcs.map (List.take (m + 1))) ls)
    (rr' : B_tree_node.Rep B R'
      ((lks.drop (m + 1)).map (key_t.add (ls - rs)) ++ sep.add (-rs) :: rks)
      (lcs.bind fun lcl => rcs.map fun rcl =>
        (lcl.drop (m + 1)).map (fun c => c.shift (ls - rs)) ++ rcl) rs)
    (hsame : lcs.isSome = rcs.isSome) (f : Nat) :
    L'.flat (f + 1) ++ med.add ls :: R'.flat (f + 1) =
      L.flat (f + 1) ++ sep :: R.flat (f + 1) := by
  have hm : m < lks.length := lt_of_getElem?_some hmed
  have hsep : (sep.add (-rs)).add rs = sep := by
    rw [key_t.add_add]
    simp
  have hd : ls - rs + rs = ls := by omega
  cases lcs with
  | none =>
    cases rcs with
    | some rcl => simp at hsame
    | none =>
      rw [flat_leaf rl, flat_leaf rr, flat_leaf rl', flat_leaf rr', List.map_append,
        List.map_cons, hsep, map_add_add, hd]
      conv_rhs => rw [list_split_one lks m med hmed]
      simp only [List.map_append, List.map_cons, List.append_assoc, List.cons_append]
  | some lcl =>
    cases rcs with
    | none => simp at hsame
    | some rcl =>
      have hll := rl.children_some.choose_spec.2.2.2
      have rr2 : B_tree_node.Rep B R'
          ((lks.drop (m + 1)).map (key_t.add (ls - rs)) ++ sep.add (-rs) :: rks)
          (some ((lcl.drop (m + 1)).map (fun c => c.shift (ls - rs)) ++ rcl)) rs := rr'
      have rl2 : B_tree_node.Rep B L' (lks.take m) (some (lcl.take (m + 1))) ls := rl'
      rw [flat_at_key rl f hmed, flat_inner rr, flat_inner rl2, flat_inner rr2, List.map_append,
        inorder_join _ _ _ _ _ _ (by simp; omega), List.map_append, List.map_cons, hsep,
        inorder_shifted, map_add_add, hd, List.map_append, List.map_cons, List.append_assoc,
        List.cons_append]

/-- The in-order lists of the two children after `fuse_children` moved keys from the right to
the left child. -/
theorem flat_fuse_right {B : Nat} {L R L' R' : B_tree_node S} {lks rks : List (key_t S)}
    {lcs rcs : Option (List (B_tree_node S))} {ls rs : Int} {sep med : key_t S} {o : Nat}
    (rl : B_tree_node.Rep B L lks lcs ls) (rr : B_tree_node.Rep B R rks rcs rs)
    (hmed : rks[o]? = some med)
    (rl' : B_tree_node.Rep B L'
      (lks ++ sep.add (-ls) :: (rks.take o).map (key_t.add (rs - ls)))
      (lcs.bind fun lcl => rcs.map fun rcl =>
        lcl ++ (rcl.take (o + 1)).map (fun c => c.shift (rs - ls))) ls)
    (rr' : B_tree_node.Rep B R' (rks.drop (o + 1)) (rcs.map (List.drop (o + 1))) rs)
    (hsame : lcs.isSome = rcs.isSome) (f : Nat) :
    L'.flat (f + 1) ++ med.add rs :: R'.flat (f + 1) =
      L.flat (f + 1) ++ sep :: R.flat (f + 1) := by
  have hm : o < rks.length := lt_of_getElem?_some hmed
  have hsep : (sep.add (-ls)).add ls = sep := by
    rw [key_t.add_add]
    simp
  have hd : rs - ls + ls = rs := by omega
  cases lcs with
  | none =>
    cases rcs with
    | some rcl => simp at hsame
    | none =>
      rw [flat_leaf rl, flat_leaf rr, flat_leaf rl', flat_leaf rr', List.map_append,
        List.map_cons, hsep, map_add_add, hd]
      conv_rhs => rw [list_split_one rks o med hmed]
      simp only [List.map_append, List.map_cons, List.append_assoc, List.cons_append]
  | some lcl =>
    cases rcs with
    | none => simp at hsame
    | some rcl =>
      have hll := rl.children_some.choose_spec.2.2.2
      have rl2 : B_tree_node.Rep B L'
          (lks ++ sep.add (-ls) :: (rks.take o).map (key_t.add (rs - ls)))
          (some (lcl ++ (rcl.take (o + 1)).map (fun c => c.shift (rs - ls)))) ls := rl'
      have rr2 : B_tree_node.Rep B R' (rks.drop (o + 1)) (some (rcl.drop (o + 1))) rs := rr'
      rw [flat_inner rl, flat_at_key rr f hmed, flat_inner rl2, flat_inner rr2, List.map_append,
        inorder_join _ _ _ _ _ _ (by simp; omega), List.map_append, List.map_cons, hsep,
        inorder_shifted, map_add_add, hd, List.map_append, List.map_cons, List.append_assoc,
        List.cons_append]

end fuse_flat_lemmas

/-! ## The cases of fuse_children -/

section fuse_cases_lemmas

variable {S : Type}

/-- The keys of the two children and the separator after `fuse_children` moved keys from the
left to the right child list the same effective keys as before. -/
theorem keys_fuse_left {lks rks : List (key_t S)} {ls rs : Int} {sep med : key_t S} {m : Nat}
    (hmed : lks[m]? = some med) :
    (lks.take m).map (key_t.add ls) ++ med.add ls ::
        ((lks.drop (m + 1)).map (key_t.add (ls - rs)) ++ sep.add (-rs) :: rks).map
          (key_t.add rs) =
      lks.map (key_t.add ls) ++ sep :: rks.map (key_t.add rs) := by
  have hsep : (sep.add (-rs)).add rs = sep := by
    rw [key_t.add_add]
    simp
  have hd : ls - rs + rs = ls := by omega
  rw [List.map_append, List.map_cons, hsep, map_add_add, hd]
  conv_rhs => rw [list_split_one lks m med hmed]
  simp only [List.map_append, List.map_cons, List.append_assoc, List.cons_append]

/-- The keys of the two children and the separator after `fuse_children` moved keys from the
right to the left child list the same effective keys as before. -/
theorem keys_fuse_right {lks rks : List (key_t S)} {ls rs : Int} {sep med : key_t S} {o : Nat}
    (hmed : rks[o]? = some med) :
    (lks ++ sep.add (-ls) :: (rks.take o).map (key_t.add (rs - ls))).map (key_t.add ls) ++
        med.add rs :: (rks.drop (o + 1)).map (key_t.add rs) =
      lks.map (key_t.add ls) ++ sep :: rks.map (key_t.add rs) := by
  have hsep : (sep.add (-ls)).add ls = sep := by
    rw [key_t.add_add]
    simp
  have hd : rs - ls + ls = rs := by omega
  rw [List.map_append, List.map_cons, hsep, map_add_add, hd]
  conv_rhs => rw [list_split_one rks o med hmed]
  simp only [List.map_append, List.map_cons, List.append_assoc, List.cons_append]

/-- The effect of `fuse_children` when the median key is in the left child. -/
theorem fuse_left_spec {B : Nat} {x L R : B_tree_node S} {ks cl s lks lcs ls rks rcs rs}
    (r : B_tree_node.Rep B x ks (some cl) s) {i : Nat} {sep : key_t S}
    (hk : ks[i]? = some sep) (hL : cl[i]? = some L) (hR : cl[i + 1]? = some R)
    (rl : B_tree_node.Rep B L lks lcs ls) (rr : B_tree_node.Rep B R rks rcs rs)
    (hsame : lcs.isSome = rcs.isSome)
    (hsum : B < lks.length + rks.length + 1)
    (hwrap : lks.length + rks.length + 1 < 2 ^ B_t_bits B) {m : Nat}
    (hm : (lks.length + rks.length + 1) / 2 = m) (hml : m < lks.length)
    {med : key_t S} (hmed : lks[m]? = some med) (ho : Option Int) :
    ∃ L' R' x', x.fuse_children B i ho = .ok (x', ho) ∧
      B_tree_node.Rep B x' (ks.set i (med.add ls)) (some ((cl.set i L').set (i + 1) R')) s ∧
      B_tree_node.Rep B L' (lks.take m) (lcs.map (List.take (m + 1))) ls ∧
      B_tree_node.Rep B R' ((lks.drop (m + 1)).map (key_t.add (ls - rs)) ++ sep.add (-rs) :: rks)
        (lcs.bind fun lcl => rcs.map fun rcl =>
          (lcl.drop (m + 1)).map (fun c => c.shift (ls - rs)) ++ rcl) rs := by
  cases lcs with
  | none =>
    cases rcs with
    | some rcl => simp at hsame
    | none => exact fuse_left_leaf r hk hL hR rl rr hsum hwrap hm hml hmed ho
  | some lcl =>
    cases rcs with
    | none => simp at hsame
    | some rcl => exact fuse_left_inner r hk hL hR rl rr hsum hwrap hm hml hmed ho

/-- The effect of `fuse_children` when the median key is in the right child. -/
theorem fuse_right_spec {B : Nat} {x L R : B_tree_node S} {ks cl s lks lcs ls rks rcs rs}
    (r : B_tree_node.Rep B x ks (some cl) s) {i : Nat} {sep : key_t S}
    (hk : ks[i]? = some sep) (hL : cl[i]? = some L) (hR : cl[i + 1]? = some R)
    (rl : B_tree_node.Rep B L lks lcs ls) (rr : B_tree_node.Rep B R rks rcs rs)
    (hsame : lcs.isSome = rcs.isSome)
    (hsum : B < lks.length + rks.length + 1)
    (hwrap : lks.length + rks.length + 1 < 2 ^ B_t_bits B) {m : Nat}
    (hm : (lks.length + rks.length + 1) / 2 = m) (hml : lks.length < m)
    (hmr : m ≠ rks.length)
    {med : key_t S} (hmed : rks[m - (lks.length + 1)]? = some med) (ho : Option Int) :
    ∃ L' R' x', x.fuse_children B i ho = .ok (x', ho) ∧
      B_tree_node.Rep B x' (ks.set i (med.add rs)) (some ((cl.set i L').set (i + 1) R')) s ∧
      B_tree_node.Rep B L' (lks ++ sep.add (-ls) ::
          (rks.take (m - (lks.length + 1))).map (key_t.add (rs - ls)))
        (lcs.bind fun lcl => rcs.map fun rcl =>
          lcl ++ (rcl.take (m - (lks.length + 1) + 1)).map (fun c => c.shift (rs - ls))) ls ∧
      B_tree_node.Rep B R' (rks.drop (m - (lks.length + 1) + 1))
        (rcs.map (List.drop (m - (lks.length + 1) + 1))) rs := by
  cases lcs with
  | none =>
    cases rcs with
    | some rcl => simp at hsame
    | none => exact fuse_right_leaf r hk hL hR rl rr hsum hwrap hm hml hmr hmed ho
  | some lcl =>
    cases rcs with
    | none => simp at hsame
    | some rcl => exact fuse_right_inner r hk hL hR rl rr hsum hwrap hm hml hmr hmed ho

/-- `fuse_children` returns without a change when the median position is the key count of one
of the two children. -/
theorem fuse_balanced {B : Nat} {x L R : B_tree_node S} {ks cl s lks lcs ls rks rcs rs}
    (r : B_tree_node.Rep B x ks (some cl) s) {i : Nat} (hi : i < ks.length)
    (hL : cl[i]? = some L) (hR : cl[i + 1]? = some R)
    (rl : B_tree_node.Rep B L lks lcs ls) (rr : B_tree_node.Rep B R rks rcs rs)
    (hsum : B < lks.length + rks.length + 1)
    (hwrap : lks.length + rks.length + 1 < 2 ^ B_t_bits B)
    (hm : (lks.length + rks.length + 1) / 2 = lks.length ∨
      (lks.length + rks.length + 1) / 2 = rks.length) (ho : Option Int) :
    x.fuse_children B i ho = .ok (x, ho) := by
  have s0 := child_at_rep r hL
  have s0' := child_at_rep r hR
  simp only [B_tree_node.fuse_children,
    c_assert_ok (show decide (i < x.n) = true by rw [r.n_eq]; simpa using hi),
    s0, s0', deref, bind, Except.bind, pure, Except.pure, rl.n_eq, rr.n_eq,
    if_neg (show ¬ (B_t B (lks.length + rks.length + 1) ≤ B) by rw [B_t_eq hwrap]; omega), if_pos hm]

theorem list_set_same {α : Type} (l : List α) (i : Nat) (a : α) (h : l[i]? = some a) :
    l.set i a = l := by
  apply List.ext_getElem?
  intro p
  rw [getElem?_set_if _ _ _ _ (lt_of_getElem?_some h)]
  by_cases c : p = i
  · rw [if_pos c, c, h]
  · rw [if_neg c]

end fuse_cases_lemmas

/-! ## Contract of fuse_children -/

section fuse_children_contract

variable {S : Type}

/-- C33 (amended): a parent `P` (live keys `ks`, live children `cl`, shift `s`) and an index
`i < P.n` whose children `L` and `R` at `i` and `i + 1` (both leaves or both internal, each
with at most `B` keys) have `L.n + R.n + 1 > B`, where `L.n + R.n + 1` is a value of `B_t` (the
code truncates the sum to `B_t` before it compares it with `B`).  `fuse_children(i)` returns and
leaves the height argument as it is; afterwards both children have at least `B / 2` (rounded down) and at
most `B` keys, hence at least `T` keys when `B >= 2 * T`; their key counts add up to
`L.n + R.n` and differ by at most one; the effective keys of the new left child, the new key
`i` of `P` and the effective keys of the new right child are, in this order, the effective keys
of `L`, the old separator and the effective keys of `R`, so the new separator is the median
of that list; the two children keep their shifts `ls` and `rs`; `P` keeps its key count, and the
in-order list of effective keys with their satellite lists below `P` is unchanged. -/
theorem fuse_children_redistributes (B T f i : Nat) (x L R : B_tree_node S)
    (ks lks rks : List (key_t S)) (cl : List (B_tree_node S))
    (lcs rcs : Option (List (B_tree_node S))) (s ls rs : Int) (ho : Option Int)
    (r : B_tree_node.Rep B x ks (some cl) s) (hi : i < x.n)
    (hL : cl[i]? = some L) (hR : cl[i + 1]? = some R)
    (rl : B_tree_node.Rep B L lks lcs ls) (rr : B_tree_node.Rep B R rks rcs rs)
    (hsame : lcs.isSome = rcs.isSome) (hsum : B < L.n + R.n + 1)
    (hwrap : L.n + R.n + 1 < 2 ^ B_t_bits B) :
    ∃ sep sep' x' L' R' lks' rks' lcs' rcs', ks[i]? = some sep ∧
      x.fuse_children B i ho = .ok (x', ho) ∧
      B_tree_node.Rep B x' (ks.set i sep') (some ((cl.set i L').set (i + 1) R')) s ∧
      B_tree_node.Rep B L' lks' lcs' ls ∧ B_tree_node.Rep B R' rks' rcs' rs ∧
      lks'.map (key_t.add ls) ++ sep' :: rks'.map (key_t.add rs) =
        lks.map (key_t.add ls) ++ sep :: rks.map (key_t.add rs) ∧
      L'.n + R'.n = L.n + R.n ∧ L'.n ≤ R'.n + 1 ∧ R'.n ≤ L'.n + 1 ∧
      B / 2 ≤ L'.n ∧ B / 2 ≤ R'.n ∧ L'.n ≤ B ∧ R'.n ≤ B ∧
      (2 * T ≤ B → T ≤ L'.n ∧ T ≤ R'.n) ∧
      x'.n = x.n ∧ x'.flat (f + 2) = x.flat (f + 2) := by
  have hik : i < ks.length := by rw [← r.n_eq]; exact hi
  obtain ⟨sep, hk⟩ := getElem?_some_of_lt (a := ks) (i := i) hik
  have hLn := rl.n_eq
  have hRn := rr.n_eq
  have hlle := rl.n_le
  have hrle := rr.n_le
  rw [hLn, hRn] at hsum hwrap
  by_cases hb : (lks.length + rks.length + 1) / 2 = lks.length ∨
      (lks.length + rks.length + 1) / 2 = rks.length
  · have rx : B_tree_node.Rep B x (ks.set i sep) (some ((cl.set i L).set (i + 1) R)) s := by
      rw [list_set_same ks i sep hk, list_set_same cl i L hL, list_set_same cl (i + 1) R hR]
      exact r
    exact ⟨sep, sep, x, L, R, lks, rks, lcs, rcs, hk,
      fuse_balanced r hik hL hR rl rr hsum hwrap hb ho, rx, rl, rr, rfl, rfl, by omega, by omega,
      by omega, by omega, by omega, by omega, fun _ => ⟨by omega, by omega⟩, rfl, rfl⟩
  · by_cases hml : (lks.length + rks.length + 1) / 2 < lks.length
    · obtain ⟨med, hmed⟩ := getElem?_some_of_lt (a := lks)
        (i := (lks.length + rks.length + 1) / 2) hml
      obtain ⟨L', R', x', e, rx, rl', rr'⟩ :=
        fuse_left_spec r hk hL hR rl rr hsame hsum hwrap rfl hml hmed ho
      have nL := rl'.n_eq
      have nR := rr'.n_eq
      simp only [List.length_append, List.length_map, List.length_drop, List.length_cons,
        List.length_take] at nL nR
      exact ⟨sep, med.add ls, x', L', R', _, _, _, _, hk, e, rx, rl', rr', keys_fuse_left hmed,
        by omega, by omega, by omega, by omega, by omega, by omega, by omega,
        fun _ => ⟨by omega, by omega⟩, by rw [rx.n_eq, r.n_eq, List.length_set],
        flat_fuse_parent r hk hL hR rx f (flat_fuse_left rl rr hmed rl' rr' hsame f)⟩
    · obtain ⟨med, hmed⟩ := getElem?_some_of_lt (a := rks)
        (i := (lks.length + rks.length + 1) / 2 - (lks.length + 1)) (by omega)
      obtain ⟨L', R', x', e, rx, rl', rr'⟩ :=
        fuse_right_spec r hk hL hR rl rr hsame hsum hwrap rfl (by omega) (by omega) hmed ho
      have nL := rl'.n_eq
      have nR := rr'.n_eq
      simp only [List.length_append, List.length_map, List.length_drop, List.length_cons,
        List.length_take] at nL nR
      exact ⟨sep, med.add rs, x', L', R', _, _, _, _, hk, e, rx, rl', rr',
        keys_fuse_right hmed,
        by omega, by omega, by omega, by omega, by omega, by omega, by omega,
        fun _ => ⟨by omega, by omega⟩, by rw [rx.n_eq, r.n_eq, List.length_set],
        flat_fuse_parent r hk hL hR rx f (flat_fuse_right rl rr hmed rl' rr' hsame f)⟩

/-- The C33 theorem applied with B = 3, T = 2 to the parent with shift 100 and the stored key 40
over the leaves {6, 16, 26} (shift 4) and {55} (shift -5): `fuse_children(0)` moves keys from
the left leaf to the right leaf. -/
theorem fuse_children_redistributes_witness :
    ∃ sep sep' x' L' R' lks' rks' lcs' rcs', [(⟨40, some [40]⟩ : key_t Int)][0]? = some sep ∧
      (B_tree_node.of_lists 3 [(⟨40, some [40]⟩ : key_t Int)]
        (some [(B_tree_node.of_lists 3 [⟨6, some [10]⟩, ⟨16, some [20]⟩, ⟨26, some [30]⟩] none 4 : B_tree_node Int),
          (B_tree_node.of_lists 3 [⟨55, some [50]⟩] none (-5) : B_tree_node Int)]) 100).fuse_children 3 0 (some 2) = .ok (x', some 2) ∧
      B_tree_node.Rep 3 x' ([(⟨40, some [40]⟩ : key_t Int)].set 0 sep')
        (some (([(B_tree_node.of_lists 3 [⟨6, some [10]⟩, ⟨16, some [20]⟩, ⟨26, some [30]⟩] none 4 : B_tree_node Int),
          (B_tree_node.of_lists 3 [⟨55, some [50]⟩] none (-5) : B_tree_node Int)].set 0 L').set (0 + 1) R')) 100 ∧
      B_tree_node.Rep 3 L' lks' lcs' 4 ∧ B_tree_node.Rep 3 R' rks' rcs' (-5) ∧
      lks'.map (key_t.add 4) ++ sep' :: rks'.map (key_t.add (-5)) =
        [(⟨6, some [10]⟩ : key_t Int), ⟨16, some [20]⟩, ⟨26, some [30]⟩].map (key_t.add 4) ++
          sep :: [(⟨55, some [50]⟩ : key_t Int)].map (key_t.add (-5)) ∧
      L'.n + R'.n = (B_tree_node.of_lists 3 [⟨6, some [10]⟩, ⟨16, some [20]⟩, ⟨26, some [30]⟩] none 4 : B_tree_node Int).n +
        (B_tree_node.of_lists 3 [⟨55, some [50]⟩] none (-5) : B_tree_node Int).n ∧
      L'.n ≤ R'.n + 1 ∧ R'.n ≤ L'.n + 1 ∧
      3 / 2 ≤ L'.n ∧ 3 / 2 ≤ R'.n ∧ L'.n ≤ 3 ∧ R'.n ≤ 3 ∧
      (2 * 2 ≤ 3 → 2 ≤ L'.n ∧ 2 ≤ R'.n) ∧
      x'.n = (B_tree_node.of_lists 3 [(⟨40, some [40]⟩ : key_t Int)]
        (some [(B_tree_node.of_lists 3 [⟨6, some [10]⟩, ⟨16, some [20]⟩, ⟨26, some [30]⟩] none 4 : B_tree_node Int),
          (B_tree_node.of_lists 3 [⟨55, some [50]⟩] none (-5) : B_tree_node Int)]) 100).n ∧
      x'.flat (0 + 2) = (B_tree_node.of_lists 3 [(⟨40, some [40]⟩ : key_t Int)]
        (some [(B_tree_node.of_lists 3 [⟨6, some [10]⟩, ⟨16, some [20]⟩, ⟨26, some [30]⟩] none 4 : B_tree_node Int),
          (B_tree_node.of_lists 3 [⟨55, some [50]⟩] none (-5) : B_tree_node Int)]) 100).flat (0 + 2) :=
  fuse_children_redistributes 3 2 0 0 _ _ _ _ _ _ _ none none 100 4 (-5) (some 2)
    ⟨rfl, rfl, by decide, rfl, rfl, ⟨_, rfl, rfl, rfl, rfl⟩⟩ (by decide) rfl rfl
    ⟨rfl, rfl, by decide, rfl, rfl, rfl⟩ ⟨rfl, rfl, by decide, rfl, rfl, rfl⟩ rfl (by decide)
    (by decide)

end fuse_children_contract

end md
